import Mathlib

/-! gr1c: the cube odometer, the realizability check and the level-set ladder

A shallow embedding of `src/solve.c` (GR(1) synthesis on top of the CUDD BDD
library).

* C arrays are lists read with `List.getD` and written with `List.set`.
* `bool` is `typedef unsigned char bool;` (`src/main.c`), so the entries of a
  `bool *` array are naturals reduced modulo 256 after every arithmetic update.
* `int` entries (cube arrays produced by CUDD) are integers.
* A BDD handle (`DdNode *`) is modelled by the Boolean function it denotes, a
  function from assignments of the BDD variables to `Bool`; BDDs are canonical,
  so equality of handles is equality of functions.
* Unbounded loops (`do ... while`, `while (True)`) carry a fuel argument and
  return `none` when the fuel runs out.
* Allocation failures (`malloc`, `realloc` or a CUDD call returning `NULL`) are
  not modelled.
-/

namespace Gr1c

/-! ## Cube arrays (`initialize_cube`, `increment_cube`, `saturated_cube`) -/

/-- Conversion of an `int` to `unsigned char`, as done by the assignment
`*(cube+i) = *(gcube+i)`. -/
def to_uchar (z : Int) : Nat := (z % 256).toNat

/-- The function `initialize_cube` (solve.c, lines 888-898): every position is
overwritten, with 0 where `gcube` holds 2 and with the value of `gcube`
elsewhere. -/
def initialize_cube (cube : List Nat) (gcube : List Int) (len : Nat) : List Nat :=
  (List.range len).foldl
    (fun c i => if gcube.getD i 0 = 2 then c.set i 0 else c.set i (to_uchar (gcube.getD i 0)))
    cube

/-- The loop of `increment_cube` (solve.c, lines 904-914). The first argument
is `i + 1` for the loop counter `i`, which runs from `len - 1` down to 0; the
`return` in the `else` branch leaves the loop early. -/
def increment_cube_loop (gcube : List Int) : Nat → List Nat → Nat → List Nat
  | 0, cube, _ => cube
  | i + 1, cube, carry =>
    if gcube.getD i 0 = 2 then
      let cube1 := cube.set i ((cube.getD i 0 + (1 + carry)) % 256)
      if cube1.getD i 0 > 1 then
        increment_cube_loop gcube i (cube1.set i ((cube1.getD i 0 + 255) % 256)) 1
      else
        cube1
    else
      increment_cube_loop gcube i cube carry

/-- The function `increment_cube` (solve.c, lines 900-915); `carry` starts at 0. -/
def increment_cube (cube : List Nat) (gcube : List Int) (len : Nat) : List Nat :=
  increment_cube_loop gcube len cube 0

/-- The function `saturated_cube` (solve.c, lines 917-925): `False` as soon as a
position with `gcube` equal to 2 holds 0. -/
def saturated_cube (cube : List Nat) (gcube : List Int) (len : Nat) : Bool :=
  (List.range len).all (fun i => !(decide (gcube.getD i 0 = 2) && decide (cube.getD i 0 = 0)))

/-- The enumeration loop of `synthesize` (solve.c, lines 327-335) and of
`get_env_moves` (lines 848-879): while the cube is not saturated, emit the
vector and increment; then emit the vector once more. The emitted vectors are
collected in `out`, in the order of emission. -/
def enumerate_loop (gcube : List Int) (len : Nat) :
    Nat → List Nat → List (List Nat) → Option (List (List Nat))
  | 0, _, _ => none
  | fuel + 1, state, out =>
    if !saturated_cube state gcube len then
      enumerate_loop gcube len fuel (increment_cube state gcube len) (out ++ [state])
    else
      some (out ++ [state])

/-- The enumeration of one cube returned by `Cudd_ForeachCube` (solve.c, lines
326-339): `initialize_cube`, then the loop above. `state` is the buffer
content before the call. -/
def enumerate_cube (fuel : Nat) (state : List Nat) (gcube : List Int) (len : Nat) :
    Option (List (List Nat)) :=
  enumerate_loop gcube len fuel (initialize_cube state gcube len) []

/-! ## The BDD layer (CUDD), by denotation -/

/-- A BDD over `n` variables, as the Boolean function it denotes. An
assignment gives a truth value to each of the `n` variable indices. -/
abbrev Pred (n : Nat) := (Fin n → Bool) → Bool

/-- The constant-one BDD, `Cudd_ReadOne`. -/
def Cudd_ReadOne (n : Nat) : Pred n := fun _ => true

/-- Complement, `Cudd_Not`. -/
def Cudd_Not {n : Nat} (f : Pred n) : Pred n := fun a => !f a

/-- Conjunction, `Cudd_bddAnd`. -/
def Cudd_bddAnd {n : Nat} (f g : Pred n) : Pred n := fun a => f a && g a

/-- Disjunction, `Cudd_bddOr`. -/
def Cudd_bddOr {n : Nat} (f g : Pred n) : Pred n := fun a => f a || g a

/-- Implication test, `Cudd_bddLeq`: does `f` imply `g` on every assignment. -/
def Cudd_bddLeq {n : Nat} (f g : Pred n) : Bool := decide (∀ a, f a = true → g a = true)

/-- The cube BDD of a cube array, `Cudd_CubeArrayToBdd`: the conjunction of the
literals, positive where the array holds 1, negative where it holds 0, absent
where it holds 2 (or anything else). -/
def Cudd_CubeArrayToBdd {n : Nat} (cube : List Int) : Pred n :=
  fun a => decide (∀ i : Fin n,
    (cube.getD i.val 2 = 1 → a i = true) ∧ (cube.getD i.val 2 = 0 → a i = false))

/-- Does the function `g` depend on variable `i` (is `i` in the support of the
BDD): flipping `i` changes the value on some assignment. -/
def in_support {n : Nat} (g : Pred n) (i : Fin n) : Bool :=
  decide (∃ a : Fin n → Bool, g a ≠ g (Function.update a i (!a i)))

/-- Existential abstraction, `Cudd_bddExistAbstract`: the variables in the
support of `cube` are quantified existentially in `f`. -/
def Cudd_bddExistAbstract {n : Nat} (f cube : Pred n) : Pred n :=
  fun a => decide (∃ b : Fin n → Bool,
    (∀ i : Fin n, in_support cube i = false → b i = a i) ∧ f b = true)

/-- Universal abstraction, `Cudd_bddUnivAbstract`: the variables in the support
of `cube` are quantified universally in `f`. -/
def Cudd_bddUnivAbstract {n : Nat} (f cube : Pred n) : Pred n :=
  fun a => decide (∀ b : Fin n → Bool,
    (∀ i : Fin n, in_support cube i = false → b i = a i) → f b = true)

/-- Modelled from the spec: `cube_env` is declared `extern` in solve.c and its
body is not part of the sources at hand. The spec gives the index layout
(`[0..|env|)` environment, `[|env|..N)` system, then the primed copies) and
says a quantification mask is a cube selecting the indices to quantify: the
mask of the environment variables holds 1 on `[0, num_env)` and 2 elsewhere. -/
def cube_env (num_env num_sys : Nat) : List Int :=
  (List.range (2 * (num_env + num_sys))).map (fun i => if i < num_env then 1 else 2)

/-- Modelled from the spec: `cube_sys` is declared `extern` in solve.c and its
body is not part of the sources at hand. By the index layout of the spec the
mask of the system variables holds 1 on `[num_env, num_env + num_sys)` and 2
elsewhere. -/
def cube_sys (num_env num_sys : Nat) : List Int :=
  (List.range (2 * (num_env + num_sys))).map
    (fun i => if num_env ≤ i ∧ i < num_env + num_sys then 1 else 2)

/-! ## `check_realizable_internal` -/

/-- The value of the local variable `realizable` of `check_realizable_internal`
when the initial-state test is over (solve.c, lines 707-764).
`ALL_SYS_INIT` is the flag constant of the missing header `solve.h`; `einit`
and `sinit` are the BDDs that `ptree_BDD` builds from `env_init` and
`sys_init`. -/
def realizable_flag {n : Nat} (ALL_SYS_INIT : Nat) (num_env num_sys : Nat)
    (einit sinit : Pred n) (W : Pred n) (init_flags : Nat) : Bool :=
  if init_flags = ALL_SYS_INIT then
    let tmp := Cudd_bddAnd einit sinit
    let tmp2 := Cudd_bddAnd tmp W
    if !(Cudd_bddLeq tmp tmp2 && Cudd_bddLeq tmp2 tmp) then false else true
  else
    let tmp := Cudd_bddAnd sinit W
    let ddcube : Pred n := Cudd_CubeArrayToBdd (cube_sys num_env num_sys)
    let tmp2 := Cudd_bddExistAbstract tmp ddcube
    let tmp := Cudd_bddOr (Cudd_Not einit) tmp2
    let ddcube : Pred n := Cudd_CubeArrayToBdd (cube_env num_env num_sys)
    let tmp2 := Cudd_bddUnivAbstract tmp ddcube
    if !(Cudd_bddLeq tmp2 (Cudd_ReadOne n) && Cudd_bddLeq (Cudd_ReadOne n) tmp2) then false
    else true

/-- The function `check_realizable_internal` (solve.c, lines 658-776): the
initial-state test, then `W` is returned if `realizable` is set and `NULL`
otherwise. The result is `some W` for the returned handle `W` and `none` for
`NULL`. -/
def check_realizable_internal {n : Nat} (ALL_SYS_INIT : Nat) (num_env num_sys : Nat)
    (einit sinit : Pred n) (W : Pred n) (init_flags : Nat) : Option (Pred n) :=
  if realizable_flag ALL_SYS_INIT num_env num_sys einit sinit W init_flags then some W
  else none

/-- The assignment of the BDD variables that gives the environment variables
the values `e`, the system variables the values `s` and every other (primed)
variable the value `false`. -/
def state_assignment {n : Nat} (num_env num_sys : Nat) (e : Fin num_env → Bool)
    (s : Fin num_sys → Bool) : Fin n → Bool :=
  fun i =>
    if h : i.val < num_env then e ⟨i.val, h⟩
    else if h2 : i.val - num_env < num_sys then s ⟨i.val - num_env, h2⟩
    else false

/-! ## The level-set ladder of `synthesize` (solve.c, lines 190-207 and 224-314)

`compute_existsmodal` is declared `extern` in solve.c; the ladder code reaches
it only through calls with the fixed arguments `etrans`, `strans`, `num_env`,
`num_sys` and `cube`, so it enters the model as a parameter
`CPre : Pred n → Pred n`. `W` is the result of `compute_winning_set`, also a
parameter. -/

/-- One pass through the body of the `do ... while` loop (solve.c, lines
250-279), from `X_prev` to the new value of `X`. -/
def X_update {n : Nat} (CPre : Pred n → Pred n) (sgoal_i W Y_exmod egoal_j : Pred n)
    (X_prev : Pred n) : Pred n :=
  let X := CPre X_prev
  let tmp := Cudd_bddAnd sgoal_i W
  let tmp2 := Cudd_bddOr tmp Y_exmod
  let tmp := Cudd_bddOr tmp2 (Cudd_Not egoal_j)
  let X := Cudd_bddAnd tmp X
  Cudd_bddAnd X X_prev

/-- The `do ... while` loop for `X` (solve.c, lines 249-281): repeat the body
until `X` and `X_prev` are the same BDD. -/
def X_loop {n : Nat} (CPre : Pred n → Pred n) (sgoal_i W Y_exmod egoal_j : Pred n) :
    Nat → Pred n → Option (Pred n)
  | 0, _ => none
  | fuel + 1, X =>
    let X_prev := X
    let X := X_update CPre sgoal_i W Y_exmod egoal_j X_prev
    if !(Cudd_bddLeq X X_prev && Cudd_bddLeq X_prev X) then
      X_loop CPre sgoal_i W Y_exmod egoal_j fuel X
    else
      some X

/-- The loop over the environment goals (solve.c, lines 240-292). `Y_i` is the
array `*(Y+i)`, its length is `*(num_level_sets+i)`; for each goal `X` restarts
from `Cudd_ReadOne` and the fixpoint is or-ed into the last slot. -/
def egoal_loop {n : Nat} (fuel : Nat) (CPre : Pred n → Pred n) (sgoal_i W Y_exmod : Pred n) :
    List (Pred n) → List (Pred n) → Option (List (Pred n))
  | [], Y_i => some Y_i
  | egoal_j :: rest, Y_i =>
    match X_loop CPre sgoal_i W Y_exmod egoal_j fuel (Cudd_ReadOne n) with
    | none => none
    | some X =>
      egoal_loop fuel CPre sgoal_i W Y_exmod rest
        (Y_i.set (Y_i.length - 1)
          (Cudd_bddOr (Y_i.getD (Y_i.length - 1) (Cudd_ReadOne n)) X))

/-- One pass through the body of the `while (True)` loop (solve.c, lines
227-311). The array grows by one slot, which is set to the zero BDD, receives
the fixpoints of all environment goals and then the previous level; if the new
level equals the previous one the slot is given back and the loop is left
(`true` in the result), otherwise the loop goes on (`false`). -/
def level_step {n : Nat} (fuel : Nat) (CPre : Pred n → Pred n) (W : Pred n)
    (egoals : List (Pred n)) (sgoal_i : Pred n) (Y_i : List (Pred n)) :
    Option (List (Pred n) × Bool) :=
  let num_level_sets := Y_i.length + 1
  let Y_i := Y_i ++ [Cudd_ReadOne n]
  let Y_exmod := CPre (Y_i.getD (num_level_sets - 2) (Cudd_ReadOne n))
  let Y_i := Y_i.set (num_level_sets - 1) (Cudd_Not (Cudd_ReadOne n))
  match egoal_loop fuel CPre sgoal_i W Y_exmod egoals Y_i with
  | none => none
  | some Y_i =>
    let Y_i :=
      if num_level_sets > 1 then
        Y_i.set (num_level_sets - 1)
          (Cudd_bddOr (Y_i.getD (num_level_sets - 1) (Cudd_ReadOne n))
            (Y_i.getD (num_level_sets - 2) (Cudd_ReadOne n)))
      else Y_i
    if num_level_sets > 1
        && (Cudd_bddLeq (Y_i.getD (num_level_sets - 1) (Cudd_ReadOne n))
              (Y_i.getD (num_level_sets - 2) (Cudd_ReadOne n))
            && Cudd_bddLeq (Y_i.getD (num_level_sets - 2) (Cudd_ReadOne n))
              (Y_i.getD (num_level_sets - 1) (Cudd_ReadOne n))) then
      some (Y_i.take (num_level_sets - 1), true)
    else
      some (Y_i, false)

/-- The `while (True)` loop (solve.c, lines 226-312) for one system goal. The
inner `do ... while` loops get the fuel `xfuel`. -/
def ladder_loop {n : Nat} (xfuel : Nat) (CPre : Pred n → Pred n) (W : Pred n)
    (egoals : List (Pred n)) (sgoal_i : Pred n) : Nat → List (Pred n) → Option (List (Pred n))
  | 0, _ => none
  | fuel + 1, Y_i =>
    match level_step xfuel CPre W egoals sgoal_i Y_i with
    | none => none
    | some (Y_i, true) => some Y_i
    | some (Y_i, false) => ladder_loop xfuel CPre W egoals sgoal_i fuel Y_i

/-- The ladder of one system goal: the first level `sgoal_i ∧ W` (solve.c,
lines 196-203), then the `while (True)` loop. -/
def build_ladder {n : Nat} (fuel : Nat) (CPre : Pred n → Pred n) (W : Pred n)
    (egoals : List (Pred n)) (sgoal_i : Pred n) : Option (List (Pred n)) :=
  ladder_loop fuel CPre W egoals sgoal_i fuel [Cudd_bddAnd sgoal_i W]

/-- The loops over the system goals. The initialisation loop (solve.c, lines
194-204) and the construction loop (lines 225-314) both run over `i` and
touch `*(Y+i)` only, so here each goal gets its first level and its ladder in
one go. -/
def ladders_loop {n : Nat} (fuel : Nat) (CPre : Pred n → Pred n) (W : Pred n)
    (egoals : List (Pred n)) : List (Pred n) → Option (List (List (Pred n)))
  | [] => some []
  | sgoal_i :: rest =>
    match build_ladder fuel CPre W egoals sgoal_i with
    | none => none
    | some Y_i =>
      match ladders_loop fuel CPre W egoals rest with
      | none => none
      | some Y => some (Y_i :: Y)

/-- The environment goals that `synthesize` works with (solve.c, lines
124-129): the constant true goal when none was given. -/
def effective_egoals {n : Nat} (egoals : List (Pred n)) : List (Pred n) :=
  if egoals.length = 0 then [Cudd_ReadOne n] else egoals

/-- The part of `synthesize` that builds the list `Y` of level-set ladders
(solve.c, lines 124-129, 190-207 and 224-314). `egoals` and `sgoals` are the
BDDs of the environment and system goals. -/
def synthesize_ladders {n : Nat} (fuel : Nat) (CPre : Pred n → Pred n) (W : Pred n)
    (egoals sgoals : List (Pred n)) : Option (List (List (Pred n))) :=
  ladders_loop fuel CPre W (effective_egoals egoals) sgoals

/-! ## Notions used to state the properties of the ladder -/

/-- Containment of predicates: every assignment satisfying `P` satisfies `Q`. -/
def PredLe {n : Nat} (P Q : Pred n) : Prop := ∀ a, P a = true → Q a = true

/-- Monotonicity of an operator on predicates. -/
def MonotoneOp {n : Nat} (CPre : Pred n → Pred n) : Prop :=
  ∀ P Q : Pred n, PredLe P Q → PredLe (CPre P) (CPre Q)

/-- The predicate `X` is the greatest fixpoint of `F`: a fixpoint that contains
every fixpoint. -/
def IsGreatestFixpoint {n : Nat} (F : Pred n → Pred n) (X : Pred n) : Prop :=
  F X = X ∧ ∀ Z, F Z = Z → PredLe Z X

/-- The map of the specification (§4.3, level-set construction), in the words
of the spec: `X ↦ (sys_goal_i ∧ W) ∨ CPre(Y) ∨ (¬env_goal_j ∧ CPre(X))`. -/
def spec_X_map {n : Nat} (CPre : Pred n → Pred n) (sgoal_i W Y egoal_j : Pred n) :
    Pred n → Pred n :=
  fun X => Cudd_bddOr (Cudd_bddOr (Cudd_bddAnd sgoal_i W) (CPre Y))
    (Cudd_bddAnd (Cudd_Not egoal_j) (CPre X))

/-- The map that the `do ... while` loop of the code iterates, without the
final intersection with `X_prev`:
`X ↦ ((sys_goal_i ∧ W) ∨ CPre(Y) ∨ ¬env_goal_j) ∧ CPre(X)`. -/
def code_X_map {n : Nat} (CPre : Pred n → Pred n) (sgoal_i W Y egoal_j : Pred n) :
    Pred n → Pred n :=
  fun X => Cudd_bddAnd
    (Cudd_bddOr (Cudd_bddOr (Cudd_bddAnd sgoal_i W) (CPre Y)) (Cudd_Not egoal_j)) (CPre X)

/-- The number of assignments that satisfy a predicate. -/
def sat_count {n : Nat} (P : Pred n) : Nat :=
  (Finset.univ.filter (fun a : Fin n → Bool => P a = true)).card

/-- The value that the loop over the environment goals leaves in the last slot
of the array, as a function of the value `acc` found there: the fixpoints of
the goals are or-ed in one after the other. -/
def accumulate_X {n : Nat} (fuel : Nat) (CPre : Pred n → Pred n) (sgoal_i W Y_exmod : Pred n) :
    List (Pred n) → Pred n → Option (Pred n)
  | [], acc => some acc
  | egoal_j :: rest, acc =>
    match X_loop CPre sgoal_i W Y_exmod egoal_j fuel (Cudd_ReadOne n) with
    | none => none
    | some X => accumulate_X fuel CPre sgoal_i W Y_exmod rest (Cudd_bddOr acc X)

/-- The level that one pass of the `while (True)` body computes from the
previous level `P`, before the comparison with `P`. -/
def next_level {n : Nat} (fuel : Nat) (CPre : Pred n → Pred n) (W : Pred n)
    (egoals : List (Pred n)) (sgoal_i : Pred n) (P : Pred n) : Option (Pred n) :=
  match accumulate_X fuel CPre sgoal_i W (CPre P) egoals (Cudd_Not (Cudd_ReadOne n)) with
  | none => none
  | some acc => some (Cudd_bddOr acc P)

/-- The ladder `Ys` of goal `sgoal_i` is well formed: it is not empty, starts
with `sgoal_i ∧ W`, and each further level is the level computed by one pass of
the loop body from the level before it, and differs from it. -/
def LadderChain {n : Nat} (fuel : Nat) (CPre : Pred n → Pred n) (W : Pred n)
    (egoals : List (Pred n)) (sgoal_i : Pred n) (Ys : List (Pred n)) : Prop :=
  0 < Ys.length ∧ Ys.getD 0 (Cudd_ReadOne n) = Cudd_bddAnd sgoal_i W ∧
    ∀ k, k + 1 < Ys.length →
      next_level fuel CPre W egoals sgoal_i (Ys.getD k (Cudd_ReadOne n))
          = some (Ys.getD (k + 1) (Cudd_ReadOne n))
        ∧ Ys.getD k (Cudd_ReadOne n) ≠ Ys.getD (k + 1) (Cudd_ReadOne n)

/-! ## The winning-set formula of the specification (§4.3)

`compute_winning_set` is not part of the sources at hand. What the ladder
theorems need to know about its result `W` is stated with the following
notions, which follow the formula of the spec,
`W = νZ. ⋀_i μY. ⋁_j νX. (sys_goal_i ∧ CPre(Z)) ∨ CPre(Y) ∨ (¬env_goal_j ∧ CPre(X))`. -/

/-- Modelled from the spec: the body of the innermost fixpoint of the formula
of §4.3 (the code of `compute_winning_set` is missing), as a function of `X`:
`(sys_goal_i ∧ CPre(Z)) ∨ CPre(Y) ∨ (¬env_goal_j ∧ CPre(X))`. -/
def gr1_body {n : Nat} (CPre : Pred n → Pred n) (sgoal_i egoal_j Z Y : Pred n) :
    Pred n → Pred n :=
  fun X => Cudd_bddOr (Cudd_bddOr (Cudd_bddAnd sgoal_i (CPre Z)) (CPre Y))
    (Cudd_bddAnd (Cudd_Not egoal_j) (CPre X))

/-- Modelled from the spec: `R` is `⋁_j νX. gr1_body`, the disjunction over the
environment goals of the greatest fixpoints in `X` (formula of §4.3, the code
of `compute_winning_set` is missing). -/
def IsInnerJoin {n : Nat} (CPre : Pred n → Pred n) (egoals : List (Pred n))
    (sgoal_i Z Y R : Pred n) : Prop :=
  ∃ Xs : List (Pred n), Xs.length = egoals.length
    ∧ (∀ j, j < egoals.length →
        IsGreatestFixpoint (gr1_body CPre sgoal_i (egoals.getD j (Cudd_ReadOne n)) Z Y)
          (Xs.getD j (Cudd_ReadOne n)))
    ∧ ∀ a, R a = Xs.any (fun X => X a)

/-- Modelled from the spec: `M` is `μY. ⋁_j νX. gr1_body`, the least fixpoint
in `Y` of the middle part of the formula of §4.3 (the code of
`compute_winning_set` is missing). -/
def IsMiddleFixpoint {n : Nat} (CPre : Pred n → Pred n) (egoals : List (Pred n))
    (sgoal_i Z M : Pred n) : Prop :=
  IsInnerJoin CPre egoals sgoal_i Z M M
    ∧ ∀ Y, IsInnerJoin CPre egoals sgoal_i Z Y Y → PredLe M Y

/-- Modelled from the spec: `W` is a fixpoint of the formula of §4.3, that is
`W = ⋀_i μY. ⋁_j νX. (sys_goal_i ∧ CPre(W)) ∨ CPre(Y) ∨ (¬env_goal_j ∧ CPre(X))`
(the code of `compute_winning_set`, which computes the greatest such `W`, is
missing). -/
def IsGR1Fixpoint {n : Nat} (CPre : Pred n → Pred n) (egoals sgoals : List (Pred n))
    (W : Pred n) : Prop :=
  ∃ Ms : List (Pred n), Ms.length = sgoals.length
    ∧ (∀ i, i < sgoals.length →
        IsMiddleFixpoint CPre egoals (sgoals.getD i (Cudd_ReadOne n)) W
          (Ms.getD i (Cudd_ReadOne n)))
    ∧ ∀ a, W a = Ms.all (fun M => M a)

/-! ## Concrete instances used by the worked examples below -/

/-- An initial condition of the environment over one environment variable
(index 0), one system variable (index 1) and their primed copies: the
environment variable is set. -/
def ex_einit : Pred 4 := fun a => a 0

/-- An initial condition of the system: the system variable is set. -/
def ex_sinit : Pred 4 := fun a => a 1

/-- A winning set: the states whose system variable is set. -/
def ex_W : Pred 4 := fun a => a 1

/-- A system with two Boolean variables and no environment: the successor of a
state. Writing a state as `(a 0, a 1)`, the moves are
`(0,0) → (1,0) → (0,1) → (0,0)` and `(1,1) → (1,1)`. -/
def ex_succ (a : Fin 2 → Bool) : Fin 2 → Bool :=
  fun i => if i.val = 0 then (a 0 == a 1) else a 0

/-- The controllable-predecessor operator of that system: the states whose
successor lies in `X`. -/
def ex_CPre : Pred 2 → Pred 2 := fun X a => X (ex_succ a)

/-- The system goal of the example: the state `(0,0)`. -/
def ex_sgoal : Pred 2 := fun a => !a 0 && !a 1

/-- The environment goal of the example: every state but `(1,1)`. -/
def ex_egoal : Pred 2 := fun a => !(a 0 && a 1)

/-! ## More of the BDD layer: evaluation, variable swap, cofactor, cube generation -/

/-- Point evaluation, `Cudd_Eval`: the BDD is followed from the root, taking
the else branch where the input array holds 0 and the then branch where it
holds anything else. The result stands for the test `ddval->type.value < .1`
of the code being false (terminal one) or true (terminal zero). -/
def Cudd_Eval {n : Nat} (f : Pred n) (inputs : List Int) : Bool :=
  f (fun i => decide (inputs.getD i.val 0 ≠ 0))

/-- Modelled from the spec: the variable map that `compute_winning_set` (not
in the sources at hand) installs in the manager pairs each unprimed index with
its primed counterpart, `num_vars` positions further. This is the index swap. -/
def swap_primed {n : Nat} (num_vars : Nat) (i : Fin n) : Fin n :=
  if h : i.val < num_vars ∧ i.val + num_vars < n then ⟨i.val + num_vars, h.2⟩
  else if h2 : num_vars ≤ i.val ∧ i.val < 2 * num_vars then ⟨i.val - num_vars, by omega⟩
  else i

/-- Variable substitution, `Cudd_bddVarMap`: every variable is replaced by its
partner under the variable map of the manager. -/
def Cudd_bddVarMap {n : Nat} (num_vars : Nat) (f : Pred n) : Pred n :=
  fun a => f (fun i => a (swap_primed num_vars i))

/-- The value that the cube `cube` forces on variable `i`: true when the cube
has a satisfying assignment with `i` set. -/
def cube_value {n : Nat} (cube : Pred n) (i : Fin n) : Bool :=
  decide (∃ b : Fin n → Bool, cube b = true ∧ b i = true)

/-- Cofactor with respect to a cube, `Cudd_Cofactor`: the variables in the
support of `cube` are fixed to the values that the cube forces. -/
def Cudd_Cofactor {n : Nat} (f cube : Pred n) : Pred n :=
  fun a => f (fun i => if in_support cube i then cube_value cube i else a i)

/-- Modelled from the spec: `cube_prime_sys` is declared `extern` in solve.c
and its body is not part of the sources at hand. By the index layout of the
spec the mask of the primed system variables holds 1 on
`[N + num_env, 2 * N)` with `N = num_env + num_sys`, and 2 elsewhere. -/
def cube_prime_sys (num_env num_sys : Nat) : List Int :=
  (List.range (2 * (num_env + num_sys))).map
    (fun i => if num_env + num_sys + num_env ≤ i then 1 else 2)

/-- The function `state2cube` (solve.c, lines 927-934) on a cube buffer of
length `2 * len`: the first half receives the state, the second half 2. -/
def state2cube (state : List Nat) (len : Nat) : List Int :=
  (List.range (2 * len)).map (fun i => if i < len then Int.ofNat (state.getD i 0) else 2)

/-- The cube array that `state2cof` fills in (solve.c, lines 786-789): 2
everywhere, except for `state` written from position `offset` on. -/
def state2cof_cube (cube_len : Nat) (state : List Nat) (offset len : Nat) : List Int :=
  (List.range cube_len).map
    (fun i => if offset ≤ i ∧ i < offset + len then Int.ofNat (state.getD (i - offset) 0) else 2)

/-- The function `state2cof` (solve.c, lines 779-806): the cofactor of `trans`
by the cube that fixes `len` variables from index `offset` on to `state`. -/
def state2cof {n : Nat} (cube_len : Nat) (state : List Nat) (trans : Pred n)
    (offset len : Nat) : Pred n :=
  Cudd_Cofactor trans (Cudd_CubeArrayToBdd (state2cof_cube cube_len state offset len))

/-! ## The automaton store

The file `automaton.c` is not part of the sources at hand; solve.c reaches it
through `insert_anode`, `find_anode`, `pop_anode`, `delete_anode`,
`replace_anode_trans` and `append_anode_trans`. -/

/-- A node of an automaton list (`anode_t`): the address of the node object,
its mode, its state vector and its outgoing transitions, which are the
addresses of the successor nodes (`trans`, of length `trans_len`). -/
structure ANode where
  addr : Nat
  mode : Nat
  state : List Nat
  trans : List Nat
deriving DecidableEq, Repr

/-- Modelled from the spec: `insert_anode` (§4.6 `insert(mode, state)`; the
lists of solve.c are used as stacks, so the new node becomes the head). `addr`
is the address of the freshly allocated node; the state is copied and the node
has no transitions yet. -/
def insert_anode (addr : Nat) (head : List ANode) (mode : Nat) (state : List Nat) :
    List ANode :=
  { addr := addr, mode := mode, state := state, trans := [] } :: head

/-- Modelled from the spec: `find_anode` (§4.6 `find(mode, state)`), the first
node of the list with the given mode and state, `none` for `NULL`. -/
def find_anode (head : List ANode) (mode : Nat) (state : List Nat) : Option ANode :=
  head.find? (fun nd => decide (nd.mode = mode) && decide (nd.state = state))

/-- Modelled from the spec: `pop_anode`, which removes the head of the list
(§4.5, the work stack). -/
def pop_anode (head : List ANode) : List ANode := head.tail

/-- Modelled from the spec: `delete_anode` (§4.6 `delete(node)`), which removes
the node object `target` from the list. -/
def delete_anode (head : List ANode) (target : ANode) : List ANode :=
  head.filter (fun nd => decide (nd.addr ≠ target.addr))

/-- Modelled from the spec: `replace_anode_trans` (§4.5, strategy commit:
"rewrite all in-edges that pointed to the old node to point to the new one"). -/
def replace_anode_trans (head : List ANode) (old new : ANode) : List ANode :=
  head.map (fun nd =>
    { nd with trans := nd.trans.map (fun t => if t = old.addr then new.addr else t) })

/-- Modelled from the spec: `append_anode_trans` (§4.6 `append_edge(from, to)`),
called with the keys of both ends: the node `(next_mode, next_state)` is
appended to the transitions of the node `(mode, state)`; `none` (`NULL`) when
one of the two nodes is not in the list. -/
def append_anode_trans (head : List ANode) (mode : Nat) (state : List Nat)
    (next_mode : Nat) (next_state : List Nat) : Option (List ANode) :=
  match find_anode head mode state, find_anode head next_mode next_state with
  | some base, some target =>
    some (head.map (fun nd =>
      if nd.addr = base.addr then { nd with trans := nd.trans ++ [target.addr] } else nd))
  | _, _ => none

/-! ## The strategy builder of `synthesize` (solve.c, lines 316-600) -/

/-- What stays fixed while `synthesize` builds the strategy: the numbers of
variables and of system goals, the BDDs `etrans`, `strans` and `W`, the ladders
`Y` (with `*(num_level_sets+i)` the length of `Y[i]`), and the cube generator
of the BDD layer. `cubes f` is the sequence of cubes that `Cudd_ForeachCube`
runs through for the BDD `f`; `Cudd_FirstCube` yields its first element, and
`Cudd_IsGenEmpty` holds when it is empty. -/
structure SynthCtx (n : Nat) where
  num_env : Nat
  num_sys : Nat
  num_sgoals : Nat
  etrans : Pred n
  strans : Pred n
  W : Pred n
  Y : List (List (Pred n))
  cubes : Pred n → List (List Int)

/-- The loop over the cubes in `get_env_moves` (solve.c, lines 846-880): each
cube is expanded over the primed environment positions (`gcube+num_env+num_sys`,
length `num_env`) and the vectors are appended to `env_moves`. -/
def env_moves_loop (fuel num_env num_vars : Nat) :
    List (List Int) → List (List Nat) → Option (List (List Nat))
  | [], env_moves => some env_moves
  | gcube :: rest, env_moves =>
    match enumerate_cube fuel (List.replicate num_env 0) (gcube.drop num_vars) num_env with
    | none => none
    | some out => env_moves_loop fuel num_env num_vars rest (env_moves ++ out)

/-- The function `get_env_moves` (solve.c, lines 809-885): the list of
environment moves from `state`; `*emoves_len` is the length of the result. -/
def get_env_moves {n : Nat} (fuel : Nat) (ctx : SynthCtx n) (state : List Nat) :
    Option (List (List Nat)) :=
  let tmp := state2cof (2 * (ctx.num_env + ctx.num_sys)) state ctx.etrans 0
    (ctx.num_env + ctx.num_sys)
  let ddcube : Pred n := Cudd_CubeArrayToBdd (cube_prime_sys ctx.num_env ctx.num_sys)
  let tmp2 := Cudd_bddExistAbstract tmp ddcube
  env_moves_loop fuel ctx.num_env (ctx.num_env + ctx.num_sys) (ctx.cubes tmp2) []

/-- Insertion of the vectors `states`, in this order, with mode 0 (the calls
of `insert_anode` in the initial-state loops, solve.c, lines 328 and 335);
`addr` is the address of the next node to be allocated. -/
def push_states : List (List Nat) → List ANode → Nat → List ANode × Nat
  | [], stack, addr => (stack, addr)
  | state :: rest, stack, addr => push_states rest (insert_anode addr stack 0 state) (addr + 1)

/-- The loop over the cubes of the initial predicate (solve.c, lines 325-340
and 350-365). -/
def initial_loop (fuel num_vars : Nat) :
    List (List Int) → List ANode → Nat → Option (List ANode × Nat)
  | [], stack, addr => some (stack, addr)
  | gcube :: rest, stack, addr =>
    match enumerate_cube fuel (List.replicate num_vars 0) gcube num_vars with
    | none => none
    | some out =>
      initial_loop fuel num_vars rest (push_states out stack addr).1 (push_states out stack addr).2

/-- The initial work stack of `synthesize` (solve.c, lines 321-368), with the
address of the next node to allocate. -/
def initial_stack {n : Nat} (fuel : Nat) (ctx : SynthCtx n) (ALL_SYS_INIT init_flags : Nat)
    (einit sinit : Pred n) : Option (List ANode × Nat) :=
  if init_flags = ALL_SYS_INIT then
    let tmp := Cudd_bddAnd einit sinit
    initial_loop fuel (ctx.num_env + ctx.num_sys) (ctx.cubes tmp) [] 0
  else
    let tmp := Cudd_bddAnd einit sinit
    let tmp2 := Cudd_bddAnd tmp ctx.W
    initial_loop fuel (ctx.num_env + ctx.num_sys) (ctx.cubes tmp2) [] 0

/-- The inner `while (j > 0)` loop of the mode advancement (solve.c, lines
378-385), started with the given `j`; the result is the value of `j` after the
loop. -/
def level_scan {n : Nat} (Y_mode : List (Pred n)) (cube : List Int) : Nat → Nat
  | 0 => 0
  | j + 1 =>
    if !Cudd_Eval (Y_mode.getD (j + 1) (Cudd_ReadOne n)) cube then j + 1 + 1
    else level_scan Y_mode cube j

/-- One pass through the body of the `do ... while` loop of the mode
advancement (solve.c, lines 377-400): the values of `j` and of
`this_node_stack->mode` after the pass, and whether the pass ended with
`break`. `j` is a natural number here, which follows the code for ladders
with at least one level (`*(num_level_sets+i)` starts at 1, line 196); the
pass with `j` an `int` and with the array bounds is `mode_pass_checked`. -/
def mode_pass {n : Nat} (ctx : SynthCtx n) (cube : List Int) (mode : Nat) : Nat × Nat × Bool :=
  let Y_mode := ctx.Y.getD mode []
  let j := level_scan Y_mode cube (Y_mode.length - 1)
  if j = 0 then
    if !Cudd_Eval (Y_mode.getD 0 (Cudd_ReadOne n)) cube then (j + 1, mode, true)
    else (j, if mode + 1 = ctx.num_sgoals then 0 else mode + 1, false)
  else (j, mode, true)

/-- The `do ... while (loop_mode != this_node_stack->mode)` loop (solve.c,
lines 376-401): the final values of `j` and of the mode. -/
def mode_loop {n : Nat} (ctx : SynthCtx n) (cube : List Int) (loop_mode : Nat) :
    Nat → Nat → Option (Nat × Nat)
  | 0, _ => none
  | fuel + 1, mode =>
    match mode_pass ctx cube mode with
    | (j, mode1, true) => some (j, mode1)
    | (j, mode1, false) =>
      if loop_mode ≠ mode1 then mode_loop ctx cube loop_mode fuel mode1 else some (j, mode1)

/-- The strategy commit (solve.c, lines 402-456) for the popped node, whose
mode was `loop_mode` and is now `mode`. The result is the strategy, the address
of the next node to allocate, and `false` when the code pops the node and
takes `continue`. -/
def commit_node (strategy : List ANode) (addr : Nat) (loop_mode mode : Nat)
    (state : List Nat) : List ANode × Nat × Bool :=
  if mode = loop_mode then
    match find_anode strategy loop_mode state with
    | none => (insert_anode addr strategy mode state, addr + 1, true)
    | some node => if node.trans.length > 0 then (strategy, addr, false) else (strategy, addr, true)
  else
    match find_anode strategy loop_mode state with
    | none =>
      match find_anode strategy mode state with
      | none => (insert_anode addr strategy mode state, addr + 1, true)
      | some new_node =>
        if new_node.trans.length > 0 then (strategy, addr, false) else (strategy, addr, true)
    | some node =>
      if node.trans.length > 0 then (strategy, addr, false)
      else
        let strategy := delete_anode strategy node
        match find_anode strategy mode state with
        | none =>
          let strategy := insert_anode addr strategy mode state
          let new_node := (find_anode strategy mode state).getD
            { addr := addr, mode := mode, state := state, trans := [] }
          (replace_anode_trans strategy node new_node, addr + 1, true)
        | some new_node =>
          if new_node.trans.length > 0 then (replace_anode_trans strategy node new_node, addr, false)
          else (replace_anode_trans strategy node new_node, addr, true)

/-- The successor state read off a cube (solve.c, lines 532-557): the cube is
copied, its primed half initialises the state buffer, and the environment part
is overwritten with the environment move. -/
def successor_state (num_env num_vars : Nat) (gcube : List Int) (env_move : List Nat) :
    List Nat :=
  let cube := gcube.take (2 * num_vars)
  let state := initialize_cube (List.replicate num_vars 0) (cube.drop num_vars) num_vars
  (List.range num_env).foldl (fun s i => s.set i (env_move.getD i 0)) state

/-- The BDD `strans_into_W` (solve.c, lines 214-222). -/
def strans_into_W {n : Nat} (ctx : SynthCtx n) : Pred n :=
  Cudd_bddAnd ctx.strans (Cudd_bddVarMap (ctx.num_env + ctx.num_sys) ctx.W)

/-- The BDD `Y_i_primed` (solve.c, lines 461-470). -/
def Y_i_primed {n : Nat} (ctx : SynthCtx n) (mode j : Nat) : Pred n :=
  if j = 0 then
    Cudd_bddVarMap (ctx.num_env + ctx.num_sys) ((ctx.Y.getD mode []).getD 0 (Cudd_ReadOne n))
  else
    Cudd_bddVarMap (ctx.num_env + ctx.num_sys)
      ((ctx.Y.getD mode []).getD (j - 1) (Cudd_ReadOne n))

/-- The cofactor of `trans` by the popped state and, when there are
environment variables, by the environment move (solve.c, lines 483-494 and
508-518). -/
def move_cofactor {n : Nat} (ctx : SynthCtx n) (trans : Pred n) (state env_move : List Nat) :
    Pred n :=
  let tmp2 := state2cof (2 * (ctx.num_env + ctx.num_sys)) state trans 0
    (ctx.num_sys + ctx.num_env)
  if ctx.num_env > 0 then
    state2cof (2 * (ctx.num_env + ctx.num_sys)) env_move tmp2 (ctx.num_sys + ctx.num_env)
      ctx.num_env
  else tmp2

/-- One pass through the body of the loop over the environment moves, up to
the successor (solve.c, lines 481-557): `next_mode` and the successor state,
or `none` for the abort "unexpected losing state". -/
def choose_successor {n : Nat} (ctx : SynthCtx n) (mode j : Nat) (state env_move : List Nat) :
    Option (Nat × List Nat) :=
  let tmp := move_cofactor ctx (Cudd_bddAnd (strans_into_W ctx) (Y_i_primed ctx mode j))
    state env_move
  match ctx.cubes tmp with
  | [] =>
    let tmp := move_cofactor ctx (strans_into_W ctx) state env_move
    let next_mode := mode
    match ctx.cubes tmp with
    | [] => none
    | gcube :: _ =>
      some (next_mode, successor_state ctx.num_env (ctx.num_env + ctx.num_sys) gcube env_move)
  | gcube :: _ =>
    let next_mode :=
      if j = 1 then (if mode + 1 = ctx.num_sgoals then 0 else mode + 1) else mode
    some (next_mode, successor_state ctx.num_env (ctx.num_env + ctx.num_sys) gcube env_move)

/-- The ways in which the strategy builder gives up: the two aborts of the
code that do not come from a failed allocation ("unexpected losing state",
solve.c line 529, and a failing `append_anode_trans`, line 582), and the fuel
of the model running out. -/
inductive BuildError where
  | losing_state
  | missing_node
  | out_of_fuel
deriving DecidableEq, Repr

/-- The outcome of a part of the strategy builder: a value, or an abort. -/
inductive BuildResult (α : Type) where
  | ok (value : α)
  | abort (e : BuildError)
deriving DecidableEq, Repr

/-- The insertion of the successor node (solve.c, lines 559-576): a node that
the strategy does not hold yet is inserted there and, unless the "next" stack
holds it already, in the "next" stack. The result is the strategy, the "next"
stack and the address of the next node to allocate. -/
def insert_successor (strategy next_node_stack : List ANode) (addr next_mode : Nat)
    (succ : List Nat) : List ANode × List ANode × Nat :=
  match find_anode strategy next_mode succ with
  | none =>
    match find_anode next_node_stack next_mode succ with
    | none =>
      (insert_anode addr strategy next_mode succ,
        insert_anode (addr + 1) next_node_stack next_mode succ, addr + 2)
    | some _ => (insert_anode addr strategy next_mode succ, next_node_stack, addr + 1)
  | some _ => (strategy, next_node_stack, addr)

/-- The loop over the environment moves (solve.c, lines 480-586), on the
strategy, the "next" stack and the address of the next node to allocate. -/
def transition_loop {n : Nat} (ctx : SynthCtx n) (mode j : Nat) (state : List Nat) :
    List (List Nat) → List ANode × List ANode × Nat →
      BuildResult (List ANode × List ANode × Nat)
  | [], acc => BuildResult.ok acc
  | env_move :: rest, (strategy, next_node_stack, addr) =>
    match choose_successor ctx mode j state env_move with
    | none => BuildResult.abort BuildError.losing_state
    | some (next_mode, succ) =>
      match append_anode_trans (insert_successor strategy next_node_stack addr next_mode succ).1
          mode state next_mode succ with
      | none => BuildResult.abort BuildError.missing_node
      | some strategy1 =>
        transition_loop ctx mode j state rest
          (strategy1, (insert_successor strategy next_node_stack addr next_mode succ).2.1,
            (insert_successor strategy next_node_stack addr next_mode succ).2.2)

/-- The variables of `synthesize` that change while the strategy is built. -/
structure Builder where
  strategy : List ANode
  this_node_stack : List ANode
  next_node_stack : List ANode
  next_addr : Nat
deriving DecidableEq, Repr

/-- One pass through the body of the `while (this_node_stack)` loop (solve.c,
lines 370-600). -/
def strategy_step {n : Nat} (fuel : Nat) (ctx : SynthCtx n) (b : Builder) :
    BuildResult Builder :=
  match b.this_node_stack with
  | [] => BuildResult.ok b
  | top :: _ =>
    let cube := state2cube top.state (ctx.num_env + ctx.num_sys)
    let loop_mode := top.mode
    match mode_loop ctx cube loop_mode fuel top.mode with
    | none => BuildResult.abort BuildError.out_of_fuel
    | some (j, mode) =>
      let committed := commit_node b.strategy b.next_addr loop_mode mode top.state
      if committed.2.2 = false then
        BuildResult.ok
          { strategy := committed.1, this_node_stack := pop_anode b.this_node_stack,
            next_node_stack := b.next_node_stack, next_addr := committed.2.1 }
      else
        match (if ctx.num_env > 0 then get_env_moves fuel ctx top.state else some [[]]) with
        | none => BuildResult.abort BuildError.out_of_fuel
        | some env_moves =>
          match transition_loop ctx mode j top.state env_moves
              (committed.1, b.next_node_stack, committed.2.1) with
          | BuildResult.abort e => BuildResult.abort e
          | BuildResult.ok (strategy, next_node_stack, addr) =>
            if pop_anode b.this_node_stack = [] then
              BuildResult.ok
                { strategy := strategy, this_node_stack := next_node_stack,
                  next_node_stack := [], next_addr := addr }
            else
              BuildResult.ok
                { strategy := strategy, this_node_stack := pop_anode b.this_node_stack,
                  next_node_stack := next_node_stack, next_addr := addr }

/-- The `while (this_node_stack)` loop (solve.c, lines 370-600), for at most
`k` passes. -/
def strategy_loop {n : Nat} (fuel : Nat) (ctx : SynthCtx n) : Nat → Builder →
    BuildResult Builder
  | 0, b =>
    match b.this_node_stack with
    | [] => BuildResult.ok b
    | _ :: _ => BuildResult.abort BuildError.out_of_fuel
  | k + 1, b =>
    match b.this_node_stack with
    | [] => BuildResult.ok b
    | _ :: _ =>
      match strategy_step fuel ctx b with
      | BuildResult.abort e => BuildResult.abort e
      | BuildResult.ok b1 => strategy_loop fuel ctx k b1

/-! ## Notions used to state the properties of the strategy builder -/

/-- The key of a strategy node: its mode and its state. -/
def anode_key (nd : ANode) : Nat × List Nat := (nd.mode, nd.state)

/-- No two nodes of the list have the same mode and state. -/
def UniqueKeys (strategy : List ANode) : Prop := (strategy.map anode_key).Nodup

/-- The strategy holds an edge from the node `(mode, state)` to the node
`(next_mode, next_state)`: both nodes are in the list, and the address of the
second is among the transitions of the first. -/
def HasEdge (strategy : List ANode) (mode : Nat) (state : List Nat) (next_mode : Nat)
    (next_state : List Nat) : Prop :=
  ∃ base target, find_anode strategy mode state = some base
    ∧ find_anode strategy next_mode next_state = some target ∧ target.addr ∈ base.trans

/-- What a later strategy keeps of an earlier one: every node that can be
looked up is still found, at the same address, with at least the transitions
it had. -/
def StrategyExtends (strategy later : List ANode) : Prop :=
  ∀ mode state nd, find_anode strategy mode state = some nd →
    ∃ nd1, find_anode later mode state = some nd1 ∧ nd1.addr = nd.addr
      ∧ ∀ t, t ∈ nd.trans → t ∈ nd1.trans

/-- The first `i` passes through the body of the `while (this_node_stack)`
loop, as long as none of them aborts. -/
def strategy_passes {n : Nat} (fuel : Nat) (ctx : SynthCtx n) : Nat → Builder →
    BuildResult Builder
  | 0, b => BuildResult.ok b
  | i + 1, b =>
    match strategy_step fuel ctx b with
    | BuildResult.abort e => BuildResult.abort e
    | BuildResult.ok b1 => strategy_passes fuel ctx i b1

/-- The next pass of the builder loop reaches an environment move for which
the fallback cofactor, of `strans_into_W` by the popped state and the move, is
empty: the work stack has a top node, the mode advancement gives `j` and
`mode`, the strategy commit does not skip the node, and one of the
environment moves of its state has no cube in the fallback cofactor. -/
def LosingMove {n : Nat} (fuel : Nat) (ctx : SynthCtx n) (b : Builder) : Prop :=
  ∃ top rest j mode moves mv,
    b.this_node_stack = top :: rest
    ∧ mode_loop ctx (state2cube top.state (ctx.num_env + ctx.num_sys)) top.mode fuel top.mode
        = some (j, mode)
    ∧ (commit_node b.strategy b.next_addr top.mode mode top.state).2.2 = true
    ∧ (if ctx.num_env > 0 then get_env_moves fuel ctx top.state else some [[]]) = some moves
    ∧ mv ∈ moves
    ∧ ctx.cubes (move_cofactor ctx (strans_into_W ctx) top.state mv) = []

/-- The vector `v` expands the cube `gcube` over its first `len` positions: it
has length `len`, holds 0 or 1 where the cube holds 2, and the value of the
cube elsewhere. -/
def ExpandsCube (gcube : List Int) (len : Nat) (v : List Nat) : Prop :=
  v.length = len ∧ ∀ i, i < len →
    (gcube.getD i 0 = 2 → v.getD i 0 ≤ 1)
    ∧ (gcube.getD i 0 ≠ 2 → v.getD i 0 = to_uchar (gcube.getD i 0))

/-- The list `v` is a state vector over `len` variables: `len` entries, each 0
or 1. -/
def IsStateVector (len : Nat) (v : List Nat) : Prop :=
  v.length = len ∧ ∀ i, i < len → v.getD i 0 ≤ 1

/-- The assignment of the BDD variables that gives the unprimed variables the
values of the state vector `s` and the primed variables those of `s'`
(`num_vars` is the number of unprimed variables). -/
def edge_assignment {n : Nat} (num_vars : Nat) (s s' : List Nat) : Fin n → Bool :=
  fun i =>
    if i.val < num_vars then decide (s.getD i.val 0 ≠ 0)
    else decide (s'.getD (i.val - num_vars) 0 ≠ 0)

/-- The BDD `f` depends on the unprimed variables only (the first `num_vars`
variables), as the level sets and the winning set do. -/
def UnprimedOnly {n : Nat} (num_vars : Nat) (f : Pred n) : Prop :=
  ∀ a b : Fin n → Bool, (∀ i : Fin n, i.val < num_vars → a i = b i) → f a = f b

/-- What the builder relies on from the cube generator of the BDD layer: the
cubes generated for a BDD have one entry in `{0, 1, 2}` per variable, each of
them implies the BDD, and together they cover it. -/
def CubeCover {n : Nat} (cubes : Pred n → List (List Int)) : Prop :=
  ∀ f : Pred n,
    (∀ c, c ∈ cubes f →
      c.length = n
      ∧ (∀ i, i < n → c.getD i 2 = 0 ∨ c.getD i 2 = 1 ∨ c.getD i 2 = 2)
      ∧ ∀ a, Cudd_CubeArrayToBdd c a = true → f a = true)
    ∧ (∀ a, f a = true → ∃ c, c ∈ cubes f ∧ Cudd_CubeArrayToBdd c a = true)

/-! ## Concrete instances for the strategy builder -/

/-- All input arrays of length `k` with entries 0 and 1, in lexicographic
order. -/
def all_inputs : Nat → List (List Int)
  | 0 => [[]]
  | k + 1 => (all_inputs k).map (fun c => 0 :: c) ++ (all_inputs k).map (fun c => 1 :: c)

/-- A cube generator that satisfies `CubeCover`: the cubes of a BDD are its
minterms, one cube without don't-care entries per satisfying assignment. -/
def minterm_cubes {n : Nat} (f : Pred n) : List (List Int) :=
  (all_inputs n).filter (fun c => Cudd_Eval f c)

/-- The cube array `c` with a don't-care entry on every variable that is not
in the support of `f`. -/
def mask_cube {n : Nat} (f : Pred n) (c : List Int) : List Int :=
  (List.range n).map
    (fun i => if h : i < n then (if in_support f ⟨i, h⟩ then c.getD i 0 else 2) else 2)

/-- A cube generator that satisfies `CubeCover` and leaves out the variables
on which the BDD does not depend, as the cubes of a BDD do: the cubes are the
minterms over the support of the BDD, with a don't-care entry elsewhere. -/
def support_cubes {n : Nat} (f : Pred n) : List (List Int) :=
  ((minterm_cubes f).map (mask_cube f)).dedup

/-- A cube generator that treats the constant true BDD as CUDD does, with the
single cube that has a don't-care entry for every variable, and gives the
minterms of any other BDD. -/
def ex_cubes {n : Nat} (f : Pred n) : List (List Int) :=
  if Cudd_bddLeq (Cudd_ReadOne n) f then [List.replicate n 2] else minterm_cubes f

/-- A builder context with one system variable `a` (index 0, primed copy at
index 1), no environment variable, free moves, `W` the constant true, and the
two system goals `a` and `¬a` with the ladders `[a, true]` and `[¬a, true]`. -/
def ex_two_goals : SynthCtx 2 :=
  { num_env := 0, num_sys := 1, num_sgoals := 2, etrans := Cudd_ReadOne 2,
    strans := Cudd_ReadOne 2, W := Cudd_ReadOne 2,
    Y := [[fun a => a 0, Cudd_ReadOne 2], [fun a => !a 0, Cudd_ReadOne 2]],
    cubes := minterm_cubes }


/-- A builder context with two system variables (indices 0, 1, primed copies
at 2, 3), no environment variable, free moves, `W` the constant true and one
system goal that holds everywhere; the cube generator is `ex_cubes`. -/
def ex_free : SynthCtx 4 :=
  { num_env := 0, num_sys := 2, num_sgoals := 1, etrans := Cudd_ReadOne 4,
    strans := Cudd_ReadOne 4, W := Cudd_ReadOne 4, Y := [[Cudd_ReadOne 4]],
    cubes := ex_cubes }

/-- A builder context with two environment variables (indices 0, 1, primed
copies at 3, 4) and one system variable (index 2, primed copy at 5), where
every move of the environment and of the system is allowed; the cube generator
is `ex_cubes`. -/
def ex_env_free : SynthCtx 6 :=
  { num_env := 2, num_sys := 1, num_sgoals := 1, etrans := Cudd_ReadOne 6,
    strans := Cudd_ReadOne 6, W := Cudd_ReadOne 6, Y := [[Cudd_ReadOne 6]],
    cubes := ex_cubes }

/-- A builder context with one environment variable `e` (index 0, primed copy
at index 2) and one system variable `s` (index 1, primed copy at index 3): the
environment toggles `e`, the system copies the new value of `e` into `s`, and
the system goal is `s`. Every state is winning, and the ladder of the goal is
`[s, s ∨ ¬e, true]`. -/
def ex_follow : SynthCtx 4 :=
  { num_env := 1, num_sys := 1, num_sgoals := 1,
    etrans := fun a => a 2 != a 0,
    strans := fun a => a 3 == a 2,
    W := Cudd_ReadOne 4,
    Y := [[fun a => a 1, fun a => a 1 || !a 0, Cudd_ReadOne 4]],
    cubes := support_cubes }

/-- A builder context with one system variable `a` (index 0, primed copy at
index 1) and no environment variable, where the environment transition
predicate is `¬a`: from the state `a = 1` the environment has no admissible
move. The system moves freely, `W` is the constant true and the goal holds
everywhere. -/
def ex_blocked : SynthCtx 2 :=
  { num_env := 0, num_sys := 1, num_sgoals := 1,
    etrans := fun a => !a 0,
    strans := Cudd_ReadOne 2,
    W := Cudd_ReadOne 2,
    Y := [[Cudd_ReadOne 2]],
    cubes := support_cubes }

/-- A builder context with one system variable `a` (index 0, primed copy at
index 1) and no environment variable, where the system has no move from the
state `a = 1` (the system transition predicate is `¬a`), while `W` is taken to
be the constant true. -/
def ex_stuck : SynthCtx 2 :=
  { num_env := 0, num_sys := 1, num_sgoals := 1,
    etrans := Cudd_ReadOne 2,
    strans := fun a => !a 0,
    W := Cudd_ReadOne 2,
    Y := [[Cudd_ReadOne 2]],
    cubes := support_cubes }

/-! ## More of the automaton store: size and indices

The unit test `src/tests/test_automaton.c` exercises `aut_size`,
`find_anode_index` and `anode_index` of `automaton.c`, which is not part of
the sources at hand. -/

/-- Modelled from the spec: `aut_size` (§4.6 `size()`), the number of nodes of
the automaton list. -/
def aut_size (head : List ANode) : Int := Int.ofNat head.length

/-- The position, counted from `i`, of the first node of the list that
satisfies `p`, and `-1` when there is none. -/
def anode_index_from (p : ANode → Bool) : List ANode → Nat → Int
  | [], _ => -1
  | nd :: rest, i => if p nd then Int.ofNat i else anode_index_from p rest (i + 1)

/-- Modelled from the spec: `find_anode_index`, the position in the list of
the node that `find_anode` (§4.6 `find(mode, state)`) yields, and `-1` when no
node has the given mode and state. -/
def find_anode_index (head : List ANode) (mode : Nat) (state : List Nat) : Int :=
  anode_index_from (fun nd => decide (nd.mode = mode) && decide (nd.state = state)) head 0

/-- Modelled from the spec: `anode_index`, the position in the list of the node
object `node` (nodes are told apart by their addresses), and `-1` when the node
is not in the list or the pointer is `NULL` (`none`). -/
def anode_index (head : List ANode) (node : Option ANode) : Int :=
  match node with
  | none => -1
  | some target => anode_index_from (fun nd => decide (nd.addr = target.addr)) head 0

/-- Modelled from the spec: `delete_anode` (§4.6 `delete(node)`) called with a
node pointer that may be `NULL`: `NULL` names no node, so nothing is removed. -/
def delete_anode_ptr (head : List ANode) (target : Option ANode) : List ANode :=
  match target with
  | none => head
  | some node => delete_anode head node

/-- The first loop of the fixture of the unit test (test_automaton.c, lines
77-88): the nodes with the given modes and states are inserted one after the
other; `addr` is the address of the next node to be allocated. -/
def populate_nodes : List (Nat × List Nat) → List ANode → Nat → List ANode
  | [], head, _ => head
  | key :: rest, head, addr =>
    populate_nodes rest (insert_anode addr head key.1 key.2) (addr + 1)

/-- The second loop of the fixture of the unit test (test_automaton.c, lines
89-102): one call of `append_anode_trans` per pair of keys; the test aborts
(`none`) when a call returns `NULL`. -/
def populate_trans : List ((Nat × List Nat) × (Nat × List Nat)) → List ANode →
    Option (List ANode)
  | [], head => some head
  | edge :: rest, head =>
    match append_anode_trans head edge.1.1 edge.1.2 edge.2.1 edge.2.2 with
    | none => none
    | some head1 => populate_trans rest head1

/-- Every outgoing edge of every node of the strategy leads to a node that is
in the strategy: each address among the transitions of a node is the address
of a node of the list. -/
def EdgeClosed (strategy : List ANode) : Prop :=
  ∀ nd, nd ∈ strategy → ∀ t, t ∈ nd.trans → ∃ target, target ∈ strategy ∧ target.addr = t

/-- The system transition predicate of the system `ex_chain`, over the
variables `a0, a1` (indices 0, 1) and their primed copies (indices 2, 3):
`a0' = a0 ∨ ¬a1` and `a1' = a0`, that is
`(0,1) → (0,0) → (1,0) → (1,1) → (1,1)`. -/
def ex_chain_strans : Pred 4 := fun a => (a 2 == (a 0 || !a 1)) && (a 3 == a 0)

/-- The system initial predicate of the system `ex_chain`: `¬a0`, the states
`(0,0)` and `(0,1)`. -/
def ex_chain_sinit : Pred 4 := fun a => !a 0

/-- The controllable-predecessor operator of the system `ex_chain`: the states
whose successor lies in `X`. -/
def ex_chain_CPre : Pred 4 → Pred 4 :=
  fun X a => X (fun i => if i.val = 0 then (a 0 || !a 1) else if i.val = 1 then a 0 else a i)

/-- The builder context of the system `ex_chain`: no environment variable, two
system variables, the system goal true, every state winning, and the ladder
`[true]` that the ladder construction yields for that goal. -/
def ex_chain : SynthCtx 4 :=
  { num_env := 0, num_sys := 2, num_sgoals := 1, etrans := Cudd_ReadOne 4,
    strans := ex_chain_strans, W := Cudd_ReadOne 4, Y := [[Cudd_ReadOne 4]],
    cubes := support_cubes }

/-! ## The chained variable lists (solve.c, lines 148-161, 608-613, 681-705) -/

/-- The global lists `evar_list` and `svar_list` (solve.c lines 17-18, defined
in main.c lines 29-30), each as the sequence of variable names that a
traversal along the `left` pointers visits; `NULL` is the empty sequence. -/
structure VarLists where
  evar_list : List String
  svar_list : List String
deriving DecidableEq, Repr

/-- The chaining of the two lists (solve.c, lines 150-161 and 683-694). With
no environment variable `evar_list` is made to point to the system variables
and `var_separator` is `NULL` (`none`); otherwise `var_separator` is the last
node of the environment list (given here by its position), and its `left`
pointer is set to `svar_list`. -/
def chain_var_lists (v : VarLists) : Option Nat × VarLists :=
  if v.evar_list = [] then (none, { evar_list := v.svar_list, svar_list := v.svar_list })
  else
    (some (v.evar_list.length - 1),
      { evar_list := v.evar_list ++ v.svar_list, svar_list := v.svar_list })

/-- The undoing of the chaining (solve.c, lines 609-613 and 701-705):
`evar_list = NULL` when `var_separator` is `NULL`, and otherwise
`var_separator->left = NULL`, which ends the environment list at the node
`var_separator`. -/
def unchain_var_lists (var_separator : Option Nat) (v : VarLists) : VarLists :=
  match var_separator with
  | none => { evar_list := [], svar_list := v.svar_list }
  | some k => { evar_list := v.evar_list.take (k + 1), svar_list := v.svar_list }

/-- The function `check_realizable_internal` (solve.c, lines 658-776) together
with its effect on the variable lists: the numbers of variables are the sizes
of the two lists (lines 671-672), the lists are chained for the two calls of
`ptree_BDD` that give `einit` and `sinit` (lines 683-697) and unchained right
after them (lines 699-705), before the test and every later return. -/
def check_realizable_internal_lists {n : Nat} (ALL_SYS_INIT : Nat) (einit sinit : Pred n)
    (W : Pred n) (init_flags : Nat) (v : VarLists) : Option (Pred n) × VarLists :=
  let num_env := v.evar_list.length
  let num_sys := v.svar_list.length
  let chained := chain_var_lists v
  let restored := unchain_var_lists chained.1 chained.2
  (check_realizable_internal ALL_SYS_INIT num_env num_sys einit sinit W init_flags, restored)

/-- The strategy construction of `synthesize` (solve.c, lines 148-161 and
316-646) together with its effect on the variable lists: the lists are chained
(lines 150-161), the initial work stack is built and the builder loop runs for
at most `k` passes, and only the return of the strategy passes through the
pre-exit clean-up that unchains the lists (lines 608-613 and 646); the returns
of `NULL` inside the loop (for instance line 530, "unexpected losing state")
leave the function at once. -/
def synthesize_lists {n : Nat} (fuel k : Nat) (ctx : SynthCtx n) (ALL_SYS_INIT init_flags : Nat)
    (einit sinit : Pred n) (v : VarLists) : BuildResult (List ANode) × VarLists :=
  let chained := chain_var_lists v
  match initial_stack fuel ctx ALL_SYS_INIT init_flags einit sinit with
  | none => (BuildResult.abort BuildError.out_of_fuel, chained.2)
  | some (stack, addr) =>
    match strategy_loop fuel ctx k ⟨[], stack, [], addr⟩ with
    | BuildResult.abort e => (BuildResult.abort e, chained.2)
    | BuildResult.ok b => (BuildResult.ok b.strategy, unchain_var_lists chained.1 chained.2)

/-! ## The ladder accesses of the builder, with the bounds of the arrays -/

/-- The outcome of a computation that reads arrays: a value, a read outside
the bounds of an array, or the fuel of the model running out. -/
inductive Checked (α : Type) where
  | ok (value : α)
  | out_of_bounds
  | out_of_fuel
deriving DecidableEq, Repr

/-- The inner `while (j > 0)` loop of the mode advancement (solve.c, lines
378-385) with every read `*(*(Y+mode)+j)` checked against the length of the
ladder: `none` when a read falls outside `Y[mode]`. -/
def level_scan_checked {n : Nat} (Y_mode : List (Pred n)) (cube : List Int) : Nat → Option Nat
  | 0 => some 0
  | j + 1 =>
    match Y_mode[j + 1]? with
    | none => none
    | some P =>
      if !Cudd_Eval P cube then some (j + 1 + 1)
      else level_scan_checked Y_mode cube j

/-- One pass through the body of the `do ... while` loop of the mode
advancement (solve.c, lines 377-400) with the reads of `num_level_sets`, `Y`
and `Y[mode]` checked: `none` when `mode` is not an index of `Y` or a level
index is not an index of `Y[mode]`. `j` is an `int`: for a ladder without
levels it starts at `-1`, the scan and the test `j == 0` are skipped, and the
pass ends the loop with `j = -1`. -/
def mode_pass_checked {n : Nat} (ctx : SynthCtx n) (cube : List Int) (mode : Nat) :
    Option (Int × Nat × Bool) :=
  match ctx.Y[mode]? with
  | none => none
  | some Y_mode =>
    match Y_mode.length with
    | 0 => some (-1, mode, true)
    | L + 1 =>
      match level_scan_checked Y_mode cube L with
      | none => none
      | some j =>
        if j = 0 then
          match Y_mode[0]? with
          | none => none
          | some P =>
            if !Cudd_Eval P cube then some (1, mode, true)
            else some (0, if mode + 1 = ctx.num_sgoals then 0 else mode + 1, false)
        else some (Int.ofNat j, mode, true)

/-- The `do ... while (loop_mode != this_node_stack->mode)` loop (solve.c,
lines 376-401) with checked reads. -/
def mode_loop_checked {n : Nat} (ctx : SynthCtx n) (cube : List Int) (loop_mode : Nat) :
    Nat → Nat → Checked (Int × Nat)
  | 0, _ => Checked.out_of_fuel
  | fuel + 1, mode =>
    match mode_pass_checked ctx cube mode with
    | none => Checked.out_of_bounds
    | some (j, mode1, true) => Checked.ok (j, mode1)
    | some (j, mode1, false) =>
      if loop_mode ≠ mode1 then mode_loop_checked ctx cube loop_mode fuel mode1
      else Checked.ok (j, mode1)

/-- The selection of the target level (solve.c, lines 461-465) with checked
reads: `Y[mode][0]` for `j = 0` and `Y[mode][j - 1]` otherwise; `none` when the
read falls outside the arrays. -/
def Y_i_primed_checked {n : Nat} (ctx : SynthCtx n) (mode : Nat) (j : Int) : Option (Pred n) :=
  match ctx.Y[mode]? with
  | none => none
  | some Y_mode =>
    if j = 0 then (Y_mode[0]?).map (Cudd_bddVarMap (ctx.num_env + ctx.num_sys))
    else if j - 1 < 0 then none
    else (Y_mode[(j - 1).toNat]?).map (Cudd_bddVarMap (ctx.num_env + ctx.num_sys))

/-- The mode of every node of the strategy and of the two work stacks is an
index of a system goal. -/
def ModesInRange (num_sgoals : Nat) (b : Builder) : Prop :=
  (∀ nd, nd ∈ b.strategy → nd.mode < num_sgoals)
    ∧ (∀ nd, nd ∈ b.this_node_stack → nd.mode < num_sgoals)
    ∧ (∀ nd, nd ∈ b.next_node_stack → nd.mode < num_sgoals)

/-! ## The number of increments of the enumeration loop -/

/-- The number `k` of don't-care positions of the cube `gcube` read with
length `len`: the positions below `len` that hold 2, the ones tested by
`increment_cube` and `saturated_cube` (solve.c, lines 905 and 921). -/
def dont_care_count (gcube : List Int) (len : Nat) : Nat :=
  ((List.range len).filter (fun i => decide (gcube.getD i 0 = 2))).length

/-- The loop `while (!saturated_cube(...)) { ...; increment_cube(...); }` of
`synthesize` (solve.c, lines 327-334) and of `get_env_moves` (lines 848-865),
reduced to the cube buffer: `count` is the number of calls of `increment_cube`
made so far (in `get_env_moves` the growth of `*emoves_len` inside the loop).
The result is that number and the buffer at the exit of the loop; `none` when
the loop has not ended within `fuel` tests of its condition. -/
def increment_until_saturated (gcube : List Int) (len : Nat) :
    Nat → List Nat → Nat → Option (Nat × List Nat)
  | 0, _, _ => none
  | fuel + 1, state, count =>
    if !saturated_cube state gcube len then
      increment_until_saturated gcube len fuel (increment_cube state gcube len) (count + 1)
    else
      some (count, state)

/-! ## A game whose ladder stops short of the winning set -/

/-- The system transition predicate of the system `ex_detour`, over the
variables `a0, a1` (indices 0, 1) and their primed copies (indices 2, 3):
`a1' = (a0 ∧ ¬a1)`, and `a0' = 0` unless `a0 = a1 = 0`. Writing a state as
`(a0, a1)`, the moves are `(0,0) → (0,0)`, `(0,0) → (1,0)`, `(1,0) → (0,1)`,
`(0,1) → (0,0)` and `(1,1) → (0,0)`. -/
def ex_detour_strans : Pred 4 :=
  fun a => (a 3 == (a 0 && !a 1)) && ((!a 0 && !a 1) || !a 2)

/-- The system initial predicate of the system `ex_detour`: the state `(0,0)`. -/
def ex_detour_sinit : Pred 4 := fun a => !a 0 && !a 1

/-- The system goal of the system `ex_detour`: the state `(0,1)`. -/
def ex_detour_sgoal : Pred 4 := fun a => !a 0 && a 1

/-- The assignment `a` with the state part replaced by the state `(x, y)`. -/
def ex_detour_move (a : Fin 4 → Bool) (x y : Bool) : Fin 4 → Bool :=
  fun i => if i.val = 0 then x else if i.val = 1 then y else a i

/-- The controllable-predecessor operator of the system `ex_detour`, which has
no environment variable: the states with a move into `X`. -/
def ex_detour_CPre : Pred 4 → Pred 4 :=
  fun X a =>
    if !a 0 && !a 1 then X (ex_detour_move a false false) || X (ex_detour_move a true false)
    else X (ex_detour_move a false (a 0 && !a 1))

/-- The builder context of the system `ex_detour`: no environment variable, two
system variables, one system goal (the state `(0,1)`), every state winning
(from every state the system reaches `(0,1)` again and again), and the ladder
that the ladder construction yields for that goal, with the single level
`sys_goal ∧ W`. -/
def ex_detour : SynthCtx 4 :=
  { num_env := 0, num_sys := 2, num_sgoals := 1, etrans := Cudd_ReadOne 4,
    strans := ex_detour_strans, W := Cudd_ReadOne 4,
    Y := [[Cudd_bddAnd ex_detour_sgoal (Cudd_ReadOne 4)]],
    cubes := support_cubes }

/-! ## A game with a losing state and a ladder of two levels -/

/-- A system with two Boolean variables and no environment: the successor of a
state. Writing a state as `(a 0, a 1)`, the moves are `(0,0) → (0,0)`,
`(0,1) → (0,0)`, `(1,0) → (1,0)` and `(1,1) → (1,1)`. -/
def ex_sink_succ (a : Fin 2 → Bool) : Fin 2 → Bool :=
  fun i => if i.val = 0 then a 0 else (a 0 && a 1)

/-- The controllable-predecessor operator of the system `ex_sink_succ`: the
states whose successor lies in `X`. -/
def ex_sink_CPre : Pred 2 → Pred 2 := fun X a => X (ex_sink_succ a)

/-- The environment goal of the system `ex_sink_succ`: every state but
`(1,0)`. The state `(1,0)` never leaves itself, so from it the environment
goal fails for ever. -/
def ex_sink_egoal : Pred 2 := fun a => !(a 0 && !a 1)

/-- The winning set of the system `ex_sink_succ` for the system goal
`ex_sgoal` (the state `(0,0)`) and the environment goal `ex_sink_egoal`: every
state but `(1,1)`, from which the environment goal holds for ever and the
system goal is never reached. -/
def ex_sink_W : Pred 2 := fun a => !(a 0 && a 1)

/-! ## Theorems: cube arrays -/

/-- C2: on the input of the documentation comment of `increment_cube`
(`len = 4`, `gcube = [0,2,0,2]`, `cube = [0,0,0,1]`) the code ends with
`cube = [0,1,0,1]`, not with the documented `[0,1,0,0]`: the position that
overflows keeps the value 1 and the carry adds 2 to the next one. -/
theorem increment_cube_doc_example :
    increment_cube [0, 0, 0, 1] [0, 2, 0, 2] 4 = [0, 1, 0, 1]
    ∧ increment_cube [0, 0, 0, 1] [0, 2, 0, 2] 4 ≠ [0, 1, 0, 0] := by decide

/-- C1: for two state variables and the cube `[2,2,2,2]` that CUDD returns for
the constant true predicate (`len = 2`, so the reference is `[2,2]`), the
enumeration emits the three vectors `[0,0]`, `[0,1]`, `[1,1]`; the vector
`[1,0]`, which agrees with the cube, is never emitted. -/
theorem enumerate_cube_two_dont_cares :
    enumerate_cube 3 [0, 0] [2, 2, 2, 2] 2 = some [[0, 0], [0, 1], [1, 1]]
    ∧ [1, 0] ∉ [[0, 0], [0, 1], [1, 1]] := by decide

/-! ## Theorems: realizability check -/

theorem bddLeq_iff {n : Nat} (f g : Pred n) :
    Cudd_bddLeq f g = true ↔ ∀ a, f a = true → g a = true := by
  simp [Cudd_bddLeq]

theorem bdd_same_iff {n : Nat} (f g : Pred n) :
    (Cudd_bddLeq f g && Cudd_bddLeq g f) = true ↔ f = g := by
  rw [Bool.and_eq_true, bddLeq_iff, bddLeq_iff]
  constructor
  · rintro ⟨h1, h2⟩
    funext a
    cases hf : f a <;> cases hg : g a <;> simp_all
  · rintro rfl
    exact ⟨fun _ h => h, fun _ h => h⟩

theorem and_same_iff {n : Nat} (P W : Pred n) :
    P = Cudd_bddAnd P W ↔ ∀ a, P a = true → W a = true := by
  constructor
  · intro h a ha
    have := congrFun h a
    simp only [Cudd_bddAnd, ha, Bool.true_and] at this
    exact this.symm
  · intro h
    funext a
    cases hp : P a
    · simp [Cudd_bddAnd, hp]
    · simp [Cudd_bddAnd, hp, h a hp]

theorem check_realizable_some_iff {n : Nat} (A num_env num_sys : Nat) (einit sinit W : Pred n)
    (f : Nat) :
    check_realizable_internal A num_env num_sys einit sinit W f = some W
      ↔ realizable_flag A num_env num_sys einit sinit W f = true := by
  unfold check_realizable_internal
  cases realizable_flag A num_env num_sys einit sinit W f <;> simp

theorem check_realizable_none_iff {n : Nat} (A num_env num_sys : Nat) (einit sinit W : Pred n)
    (f : Nat) :
    check_realizable_internal A num_env num_sys einit sinit W f = none
      ↔ realizable_flag A num_env num_sys einit sinit W f = false := by
  unfold check_realizable_internal
  cases realizable_flag A num_env num_sys einit sinit W f <;> simp

theorem realizable_flag_all {n : Nat} (A num_env num_sys : Nat) (einit sinit W : Pred n) :
    realizable_flag A num_env num_sys einit sinit W A = true
      ↔ ∀ a, einit a = true → sinit a = true → W a = true := by
  have key : (∀ a, Cudd_bddAnd einit sinit a = true → W a = true)
      ↔ ∀ a, einit a = true → sinit a = true → W a = true := by
    simp [Cudd_bddAnd]
  rw [← key, ← and_same_iff, ← bdd_same_iff]
  simp only [realizable_flag, if_true]
  cases h : (Cudd_bddLeq (Cudd_bddAnd einit sinit) (Cudd_bddAnd (Cudd_bddAnd einit sinit) W)
      && Cudd_bddLeq (Cudd_bddAnd (Cudd_bddAnd einit sinit) W) (Cudd_bddAnd einit sinit)) <;> simp

/-- C3 -/
theorem check_realizable_all_sys_init {n : Nat} (ALL_SYS_INIT num_env num_sys : Nat)
    (einit sinit W : Pred n) :
    (check_realizable_internal ALL_SYS_INIT num_env num_sys einit sinit W ALL_SYS_INIT = some W
      ↔ ∀ a, einit a = true → sinit a = true → W a = true)
    ∧ (check_realizable_internal ALL_SYS_INIT num_env num_sys einit sinit W ALL_SYS_INIT = none
      ↔ ¬ ∀ a, einit a = true → sinit a = true → W a = true) := by
  rw [check_realizable_some_iff, check_realizable_none_iff, ← realizable_flag_all ALL_SYS_INIT
    num_env num_sys einit sinit W]
  simp


theorem cube_sys_getD (num_env num_sys i : Nat) :
    (cube_sys num_env num_sys).getD i 2 = if num_env ≤ i ∧ i < num_env + num_sys then 1 else 2 := by
  unfold cube_sys
  by_cases hi : i < 2 * (num_env + num_sys)
  · rw [List.getD_eq_getElem _ _ (by simpa using hi)]
    simp
  · rw [List.getD_eq_default _ _ (by simpa using hi)]
    have : ¬ (num_env ≤ i ∧ i < num_env + num_sys) := by omega
    simp [this]

theorem in_support_cube {n : Nat} (c : List Int) (hc : ∀ i, c.getD i 2 = 1 ∨ c.getD i 2 = 2)
    (i : Fin n) :
    in_support (Cudd_CubeArrayToBdd c : Pred n) i = true ↔ c.getD i.val 2 = 1 := by
  have hval : ∀ a : Fin n → Bool, (Cudd_CubeArrayToBdd c : Pred n) a = true
      ↔ ∀ j : Fin n, c.getD j.val 2 = 1 → a j = true := by
    intro a
    simp only [Cudd_CubeArrayToBdd, decide_eq_true_eq]
    constructor
    · intro h j hj; exact (h j).1 hj
    · intro h j
      refine ⟨h j, fun h0 => ?_⟩
      rcases hc j.val with h1 | h1 <;> rw [h1] at h0 <;> simp at h0
  constructor
  · intro h
    by_contra hne
    simp only [in_support, decide_eq_true_eq] at h
    obtain ⟨a, ha⟩ := h
    apply ha
    have : ((Cudd_CubeArrayToBdd c : Pred n) a = true)
        ↔ ((Cudd_CubeArrayToBdd c : Pred n) (Function.update a i (!a i)) = true) := by
      rw [hval, hval]
      constructor
      · intro h j hj
        have hji : j ≠ i := by rintro rfl; exact hne hj
        rw [Function.update_noteq hji]; exact h j hj
      · intro h j hj
        have hji : j ≠ i := by rintro rfl; exact hne hj
        have := h j hj
        rwa [Function.update_noteq hji] at this
    exact Bool.eq_iff_iff.mpr this
  · intro h
    simp only [in_support, decide_eq_true_eq]
    refine ⟨fun _ => true, ?_⟩
    have h1 : (Cudd_CubeArrayToBdd c : Pred n) (fun _ => true) = true := by
      rw [hval]; intro j _; rfl
    have h2 : (Cudd_CubeArrayToBdd c : Pred n)
        (Function.update (fun _ => true) i (!true)) ≠ true := by
      rw [Ne, hval]
      intro hall
      have := hall i h
      simp at this
    rw [h1]
    exact fun h3 => h2 h3.symm

theorem in_support_cube_sys {n : Nat} (num_env num_sys : Nat) (i : Fin n) :
    in_support (Cudd_CubeArrayToBdd (cube_sys num_env num_sys) : Pred n) i = false
      ↔ ¬ (num_env ≤ i.val ∧ i.val < num_env + num_sys) := by
  rw [← Bool.not_eq_true, in_support_cube, cube_sys_getD]
  · split <;> simp_all
  · intro j; rw [cube_sys_getD]; split <;> simp

theorem realizable_flag_exist {n : Nat} (A num_env num_sys : Nat) (einit sinit W : Pred n)
    (f : Nat) (hf : f ≠ A) :
    realizable_flag A num_env num_sys einit sinit W f = true
      ↔ ∀ c : Fin n → Bool, einit c = true →
          ∃ b : Fin n → Bool,
            (∀ i : Fin n, ¬ (num_env ≤ i.val ∧ i.val < num_env + num_sys) → b i = c i)
            ∧ sinit b = true ∧ W b = true := by
  simp only [realizable_flag, if_neg hf]
  have hsplit : ∀ x : Bool, ((if (!x) = true then false else true) = true) ↔ x = true := by
    intro x; cases x <;> simp
  rw [hsplit, bdd_same_iff]
  constructor
  · intro h c hc
    have h1 := congrFun h c
    simp only [Cudd_bddUnivAbstract, Cudd_ReadOne, decide_eq_true_eq] at h1
    have h2 := h1 c (fun _ _ => rfl)
    simp only [Cudd_bddOr, Cudd_Not, hc, Bool.not_true, Bool.false_or, Cudd_bddExistAbstract,
      decide_eq_true_eq] at h2
    obtain ⟨b, hb1, hb2⟩ := h2
    refine ⟨b, fun i hi => hb1 i ((in_support_cube_sys num_env num_sys i).mpr hi), ?_⟩
    simpa [Cudd_bddAnd] using hb2
  · intro h
    funext a
    simp only [Cudd_bddUnivAbstract, Cudd_ReadOne, decide_eq_true_eq]
    intro c _
    simp only [Cudd_bddOr, Cudd_Not, Bool.or_eq_true, Bool.not_eq_true']
    by_cases hc : einit c = true
    · right
      obtain ⟨b, hb1, hb2, hb3⟩ := h c hc
      simp only [Cudd_bddExistAbstract, decide_eq_true_eq]
      refine ⟨b, fun i hi => hb1 i ((in_support_cube_sys num_env num_sys i).mp hi), ?_⟩
      simp [Cudd_bddAnd, hb2, hb3]
    · left; simpa using hc


theorem state_assignment_env {n : Nat} (num_env num_sys : Nat) (e : Fin num_env → Bool)
    (s : Fin num_sys → Bool) (i : Fin n) (h : i.val < num_env) :
    state_assignment num_env num_sys e s i = e ⟨i.val, h⟩ := by
  simp [state_assignment, h]

theorem state_assignment_sys {n : Nat} (num_env num_sys : Nat) (e : Fin num_env → Bool)
    (s : Fin num_sys → Bool) (i : Fin n) (h1 : num_env ≤ i.val) (h2 : i.val < num_env + num_sys) :
    state_assignment num_env num_sys e s i = s ⟨i.val - num_env, by omega⟩ := by
  have h3 : ¬ i.val < num_env := by omega
  have h4 : i.val - num_env < num_sys := by omega
  simp [state_assignment, h3, h4]

theorem exist_init_iff {n : Nat} (num_env num_sys : Nat) (einit sinit W : Pred n)
    (hE : ∀ a b : Fin n → Bool, (∀ i : Fin n, i.val < num_env → a i = b i) → einit a = einit b)
    (hS : ∀ a b : Fin n → Bool, (∀ i : Fin n, i.val < num_env + num_sys → a i = b i) →
      sinit a = sinit b)
    (hW : ∀ a b : Fin n → Bool, (∀ i : Fin n, i.val < num_env + num_sys → a i = b i) →
      W a = W b) :
    (∀ c : Fin n → Bool, einit c = true →
        ∃ b : Fin n → Bool,
          (∀ i : Fin n, ¬ (num_env ≤ i.val ∧ i.val < num_env + num_sys) → b i = c i)
          ∧ sinit b = true ∧ W b = true)
    ↔ ∀ (e : Fin num_env → Bool) (s₀ : Fin num_sys → Bool),
        einit (state_assignment num_env num_sys e s₀) = true →
        ∃ s : Fin num_sys → Bool,
          sinit (state_assignment num_env num_sys e s) = true
          ∧ W (state_assignment num_env num_sys e s) = true := by
  constructor
  · intro h e s₀ he
    obtain ⟨b, hb1, hb2, hb3⟩ := h _ he
    let s : Fin num_sys → Bool :=
      fun j => if hj : num_env + j.val < n then b ⟨num_env + j.val, hj⟩ else false
    have hag : ∀ i : Fin n, i.val < num_env + num_sys →
        state_assignment num_env num_sys e s i = b i := by
      intro i hi
      by_cases h1 : i.val < num_env
      · rw [hb1 i (by omega), state_assignment_env _ _ _ _ _ h1, state_assignment_env _ _ _ _ _ h1]
      · rw [state_assignment_sys _ _ _ _ _ (by omega) hi]
        have hlt : num_env + (i.val - num_env) < n := by have := i.isLt; omega
        simp only [s, hlt, dif_pos]
        congr 1
        apply Fin.ext
        simp; omega
    exact ⟨s, by rw [hS _ _ hag]; exact hb2, by rw [hW _ _ hag]; exact hb3⟩
  · intro h c hc
    let e : Fin num_env → Bool := fun j => if hj : j.val < n then c ⟨j.val, hj⟩ else false
    have hec : ∀ s : Fin num_sys → Bool, ∀ i : Fin n, i.val < num_env →
        state_assignment num_env num_sys e s i = c i := by
      intro s i hi
      rw [state_assignment_env _ _ _ _ _ hi]
      simp [e]
    have he : einit (state_assignment num_env num_sys e (fun _ => false)) = true := by
      rw [hE _ c (hec _)]; exact hc
    obtain ⟨s, hs1, hs2⟩ := h e _ he
    let b : Fin n → Bool := fun i =>
      if num_env ≤ i.val ∧ i.val < num_env + num_sys then state_assignment num_env num_sys e s i
      else c i
    have hag : ∀ i : Fin n, i.val < num_env + num_sys →
        b i = state_assignment num_env num_sys e s i := by
      intro i hi
      by_cases h1 : i.val < num_env
      · have : ¬ (num_env ≤ i.val ∧ i.val < num_env + num_sys) := by omega
        simp only [b, this, if_false]
        exact (hec s i h1).symm
      · have : num_env ≤ i.val ∧ i.val < num_env + num_sys := by omega
        simp only [b, this, and_self, if_true]
    refine ⟨b, fun i hi => by simp only [b, hi, if_false], ?_, ?_⟩
    · rw [hS _ _ hag]; exact hs1
    · rw [hW _ _ hag]; exact hs2


/-- C4: under `EXIST_SYS_INIT` (any flag other than `ALL_SYS_INIT`), when
`env_init` depends on the environment variables only (and `sys_init`, `W` on
unprimed variables only), `check_realizable_internal` returns `W` exactly when
every environment valuation `e` satisfying `env_init` has a system valuation
`s` with `sys_init(e,s)` and `W(e,s)`, that is exactly when
`forall_env (¬env_init ∨ exists_sys (sys_init ∧ W))` is the constant true; in
every other case it returns `NULL`. -/
theorem check_realizable_exist_sys_init {n : Nat} (ALL_SYS_INIT num_env num_sys : Nat)
    (einit sinit W : Pred n) (init_flags : Nat) (hflag : init_flags ≠ ALL_SYS_INIT)
    (hE : ∀ a b : Fin n → Bool, (∀ i : Fin n, i.val < num_env → a i = b i) → einit a = einit b)
    (hS : ∀ a b : Fin n → Bool, (∀ i : Fin n, i.val < num_env + num_sys → a i = b i) →
      sinit a = sinit b)
    (hW : ∀ a b : Fin n → Bool, (∀ i : Fin n, i.val < num_env + num_sys → a i = b i) →
      W a = W b) :
    (check_realizable_internal ALL_SYS_INIT num_env num_sys einit sinit W init_flags = some W
      ↔ ∀ (e : Fin num_env → Bool) (s₀ : Fin num_sys → Bool),
          einit (state_assignment num_env num_sys e s₀) = true →
          ∃ s : Fin num_sys → Bool,
            sinit (state_assignment num_env num_sys e s) = true
            ∧ W (state_assignment num_env num_sys e s) = true)
    ∧ (check_realizable_internal ALL_SYS_INIT num_env num_sys einit sinit W init_flags = none
      ↔ ¬ ∀ (e : Fin num_env → Bool) (s₀ : Fin num_sys → Bool),
          einit (state_assignment num_env num_sys e s₀) = true →
          ∃ s : Fin num_sys → Bool,
            sinit (state_assignment num_env num_sys e s) = true
            ∧ W (state_assignment num_env num_sys e s) = true)
    ∧ (check_realizable_internal ALL_SYS_INIT num_env num_sys einit sinit W init_flags = some W
      ↔ Cudd_bddUnivAbstract
          (Cudd_bddOr (Cudd_Not einit)
            (Cudd_bddExistAbstract (Cudd_bddAnd sinit W)
              (Cudd_CubeArrayToBdd (cube_sys num_env num_sys))))
          (Cudd_CubeArrayToBdd (cube_env num_env num_sys)) = Cudd_ReadOne n) := by
  have key := (realizable_flag_exist ALL_SYS_INIT num_env num_sys einit sinit W init_flags
    hflag).trans (exist_init_iff num_env num_sys einit sinit W hE hS hW)
  refine ⟨(check_realizable_some_iff _ _ _ _ _ _ _).trans key, ?_, ?_⟩
  · rw [check_realizable_none_iff, ← key]
    simp
  · rw [check_realizable_some_iff]
    simp only [realizable_flag, if_neg hflag]
    have hsplit : ∀ x : Bool, ((if (!x) = true then false else true) = true) ↔ x = true := by
      intro x; cases x <;> simp
    rw [hsplit, bdd_same_iff]

/-- Worked instance of C4: one environment variable, one system variable,
`env_init` the environment variable, `sys_init` and `W` the system variable;
the check returns `W`. -/
theorem check_realizable_exist_sys_init_witness :
    (0 : Nat) ≠ 1 ∧ check_realizable_internal 1 1 1 ex_einit ex_sinit ex_W 0 = some ex_W :=
  ⟨by decide,
    (check_realizable_exist_sys_init 1 1 1 ex_einit ex_sinit ex_W 0 (by decide)
      (fun a b h => by simp only [ex_einit]; exact h 0 (by decide))
      (fun a b h => by simp only [ex_sinit]; exact h 1 (by decide))
      (fun a b h => by simp only [ex_W]; exact h 1 (by decide))).1.mpr
      (fun e _ _ => ⟨fun _ => true, by simp [ex_sinit, state_assignment],
        by simp [ex_W, state_assignment]⟩)⟩

/-! ## Theorems: the level-set ladder -/

theorem PredLe_refl {n : Nat} (P : Pred n) : PredLe P P := fun _ h => h

theorem PredLe_trans {n : Nat} {P Q R : Pred n} (h1 : PredLe P Q) (h2 : PredLe Q R) :
    PredLe P R := fun a h => h2 a (h1 a h)

theorem PredLe_antisymm {n : Nat} {P Q : Pred n} (h1 : PredLe P Q) (h2 : PredLe Q P) : P = Q :=
  (bdd_same_iff P Q).mp (by rw [Bool.and_eq_true, bddLeq_iff, bddLeq_iff]; exact ⟨h1, h2⟩)

theorem sat_count_le {n : Nat} (P : Pred n) : sat_count P ≤ 2 ^ n := by
  unfold sat_count
  calc (Finset.univ.filter (fun a : Fin n → Bool => P a = true)).card
      ≤ (Finset.univ : Finset (Fin n → Bool)).card := Finset.card_filter_le _ _
    _ = 2 ^ n := by simp

theorem sat_count_lt {n : Nat} {P Q : Pred n} (hle : PredLe P Q) (hne : P ≠ Q) :
    sat_count P < sat_count Q := by
  unfold sat_count
  apply Finset.card_lt_card
  rw [Finset.ssubset_iff_of_subset]
  · by_contra hcon
    push_neg at hcon
    apply hne
    apply PredLe_antisymm hle
    intro a ha
    have := hcon a (by simp [ha])
    simpa using this
  · intro a ha
    simp only [Finset.mem_filter, Finset.mem_univ, true_and] at ha ⊢
    exact hle a ha

theorem X_update_le {n : Nat} (CPre : Pred n → Pred n) (g W Yex e X : Pred n) :
    PredLe (X_update CPre g W Yex e X) X := by
  intro a h
  simp only [X_update, Cudd_bddAnd, Bool.and_eq_true] at h
  exact h.2

theorem X_update_eq {n : Nat} (CPre : Pred n → Pred n) (g W Y e X : Pred n) :
    X_update CPre g W (CPre Y) e X = Cudd_bddAnd (code_X_map CPre g W Y e X) X := rfl

theorem X_loop_succ {n : Nat} (CPre : Pred n → Pred n) (g W Yex e X : Pred n) (f : Nat) :
    X_loop CPre g W Yex e (f + 1) X =
      if X_update CPre g W Yex e X = X then some (X_update CPre g W Yex e X)
      else X_loop CPre g W Yex e f (X_update CPre g W Yex e X) := by
  by_cases h : X_update CPre g W Yex e X = X
  · have hb := (bdd_same_iff _ _).mpr h
    rw [if_pos h]
    simp only [X_loop]
    rw [hb]
    simp
  · have hb : (Cudd_bddLeq (X_update CPre g W Yex e X) X
        && Cudd_bddLeq X (X_update CPre g W Yex e X)) = false := by
      rw [← Bool.not_eq_true, bdd_same_iff]; exact h
    simp only [X_loop, hb, h, if_false, Bool.not_false, if_true]

theorem X_loop_terminates {n : Nat} (CPre : Pred n → Pred n) (g W Yex e : Pred n) :
    ∀ (f : Nat) (X : Pred n), sat_count X < f → ∃ R, X_loop CPre g W Yex e f X = some R := by
  intro f
  induction f with
  | zero => intro X h; omega
  | succ f ih =>
    intro X h
    rw [X_loop_succ]
    by_cases hx : X_update CPre g W Yex e X = X
    · exact ⟨_, by rw [if_pos hx]⟩
    · rw [if_neg hx]
      apply ih
      have := sat_count_lt (X_update_le CPre g W Yex e X) hx
      omega

theorem X_loop_fixed {n : Nat} (CPre : Pred n → Pred n) (g W Yex e : Pred n) :
    ∀ (f : Nat) (X R : Pred n), X_loop CPre g W Yex e f X = some R →
      X_update CPre g W Yex e R = R ∧ PredLe R X := by
  intro f
  induction f with
  | zero => intro X R h; simp [X_loop] at h
  | succ f ih =>
    intro X R h
    rw [X_loop_succ] at h
    by_cases hx : X_update CPre g W Yex e X = X
    · rw [if_pos hx] at h
      have hR : X_update CPre g W Yex e X = R := by simpa using h
      have hRX : R = X := by rw [← hR, hx]
      subst hRX
      exact ⟨hx, PredLe_refl _⟩
    · rw [if_neg hx] at h
      obtain ⟨h1, h2⟩ := ih _ R h
      exact ⟨h1, PredLe_trans h2 (X_update_le CPre g W Yex e X)⟩

theorem code_X_map_mono {n : Nat} (CPre : Pred n → Pred n) (hm : MonotoneOp CPre)
    (g W Y e : Pred n) {P Q : Pred n} (h : PredLe P Q) :
    PredLe (code_X_map CPre g W Y e P) (code_X_map CPre g W Y e Q) := by
  intro a ha
  simp only [code_X_map, Cudd_bddAnd, Bool.and_eq_true] at ha ⊢
  exact ⟨ha.1, hm P Q h a ha.2⟩

theorem X_loop_greatest {n : Nat} (CPre : Pred n → Pred n) (hm : MonotoneOp CPre)
    (g W Y e : Pred n) :
    ∀ (f : Nat) (X R : Pred n), X_loop CPre g W (CPre Y) e f X = some R →
      ∀ Z, PredLe Z X → PredLe Z (code_X_map CPre g W Y e Z) → PredLe Z R := by
  intro f
  induction f with
  | zero => intro X R h; simp [X_loop] at h
  | succ f ih =>
    intro X R h Z hZX hZ
    have hstep : PredLe Z (X_update CPre g W (CPre Y) e X) := by
      intro a ha
      rw [X_update_eq]
      simp only [Cudd_bddAnd, Bool.and_eq_true]
      exact ⟨code_X_map_mono CPre hm g W Y e hZX a (hZ a ha), hZX a ha⟩
    rw [X_loop_succ] at h
    by_cases hx : X_update CPre g W (CPre Y) e X = X
    · rw [if_pos hx] at h
      have hR : X_update CPre g W (CPre Y) e X = R := by simpa using h
      rw [← hR]; exact hstep
    · rw [if_neg hx] at h
      exact ih _ R h Z hstep hZ

theorem X_loop_closed {n : Nat} (CPre : Pred n → Pred n) (hm : MonotoneOp CPre)
    (g W Y e : Pred n) :
    ∀ (f : Nat) (X R : Pred n), X_loop CPre g W (CPre Y) e f X = some R →
      PredLe (code_X_map CPre g W Y e X) X → PredLe (code_X_map CPre g W Y e R) R := by
  intro f
  induction f with
  | zero => intro X R h; simp [X_loop] at h
  | succ f ih =>
    intro X R h hX
    rw [X_loop_succ] at h
    by_cases hx : X_update CPre g W (CPre Y) e X = X
    · rw [if_pos hx] at h
      have hR : X_update CPre g W (CPre Y) e X = R := by simpa using h
      have hRX : R = X := by rw [← hR, hx]
      subst hRX
      exact hX
    · rw [if_neg hx] at h
      apply ih _ R h
      intro a ha
      have h1 := code_X_map_mono CPre hm g W Y e (X_update_le CPre g W (CPre Y) e X) a ha
      rw [X_update_eq]
      simp only [Cudd_bddAnd, Bool.and_eq_true]
      exact ⟨h1, hX a h1⟩

/-- With a monotone `CPre`, the result of the `do ... while` loop started from
the constant one is the greatest fixpoint of the map iterated by the code, and
it contains every post-fixpoint of that map. -/
theorem X_loop_gfp {n : Nat} (CPre : Pred n → Pred n) (hm : MonotoneOp CPre)
    (g W Y e : Pred n) (f : Nat) (R : Pred n)
    (h : X_loop CPre g W (CPre Y) e f (Cudd_ReadOne n) = some R) :
    IsGreatestFixpoint (code_X_map CPre g W Y e) R
      ∧ ∀ Z, PredLe Z (code_X_map CPre g W Y e Z) → PredLe Z R := by
  have hpost := X_loop_greatest CPre hm g W Y e f _ R h
  have hclosed := X_loop_closed CPre hm g W Y e f _ R h (fun _ _ => rfl)
  have hfix := (X_loop_fixed CPre g W (CPre Y) e f _ R h).1
  have hle : PredLe R (code_X_map CPre g W Y e R) := by
    intro a ha
    have := congrFun hfix a
    rw [X_update_eq, ha] at this
    simp only [Cudd_bddAnd, Bool.and_eq_true] at this
    exact this.1
  refine ⟨⟨PredLe_antisymm hclosed hle, fun Z hZ => ?_⟩, fun Z hZ => ?_⟩
  · exact hpost Z (fun _ _ => rfl) (by rw [hZ]; exact PredLe_refl _)
  · exact hpost Z (fun _ _ => rfl) hZ

theorem getD_append_last {n : Nat} (Y : List (Pred n)) (x d : Pred n) :
    (Y ++ [x]).getD Y.length d = x := by
  simp [List.getD_eq_getElem?_getD]

theorem getD_append_left {n : Nat} (Y : List (Pred n)) (x d : Pred n) (k : Nat)
    (hk : k < Y.length) : (Y ++ [x]).getD k d = Y.getD k d := by
  simp [List.getD_eq_getElem?_getD, List.getElem?_append_left hk]

theorem set_append_last {n : Nat} (Y : List (Pred n)) (x v : Pred n) :
    (Y ++ [x]).set Y.length v = Y ++ [v] := by
  induction Y with
  | nil => rfl
  | cons y Y ih => simp [ih]

theorem egoal_loop_eq {n : Nat} (fuel : Nat) (CPre : Pred n → Pred n) (g W Yex : Pred n) :
    ∀ (egoals : List (Pred n)) (Y : List (Pred n)) (x : Pred n),
      egoal_loop fuel CPre g W Yex egoals (Y ++ [x])
        = (accumulate_X fuel CPre g W Yex egoals x).map (fun v => Y ++ [v]) := by
  intro egoals
  induction egoals with
  | nil => intro Y x; simp [egoal_loop, accumulate_X]
  | cons e rest ih =>
    intro Y x
    simp only [egoal_loop, accumulate_X]
    cases hX : X_loop CPre g W Yex e fuel (Cudd_ReadOne n) with
    | none => simp
    | some X =>
      simp only []
      have hlen : (Y ++ [x]).length - 1 = Y.length := by simp
      rw [hlen, getD_append_last, set_append_last, ih]

theorem level_step_eq {n : Nat} (fuel : Nat) (CPre : Pred n → Pred n) (W : Pred n)
    (egoals : List (Pred n)) (g : Pred n) (Y : List (Pred n)) (hY : 0 < Y.length) :
    level_step fuel CPre W egoals g Y
      = (next_level fuel CPre W egoals g (Y.getD (Y.length - 1) (Cudd_ReadOne n))).map
          (fun Q => if Q = Y.getD (Y.length - 1) (Cudd_ReadOne n) then (Y, true)
            else (Y ++ [Q], false)) := by
  have h1 : Y.length + 1 - 1 = Y.length := by omega
  have h2 : Y.length + 1 - 2 = Y.length - 1 := by omega
  have h3 : Y.length - 1 < Y.length := by omega
  have hgt : Y.length + 1 > 1 := by omega
  simp only [level_step, next_level, h1, h2, set_append_last, getD_append_left _ _ _ _ h3,
    egoal_loop_eq]
  cases hacc : accumulate_X fuel CPre g W (CPre (Y.getD (Y.length - 1) (Cudd_ReadOne n))) egoals
      (Cudd_Not (Cudd_ReadOne n)) with
  | none => simp
  | some acc =>
    simp only [Option.map_some', hgt, if_true, set_append_last, getD_append_last,
      getD_append_left _ _ _ _ h3, decide_True, Bool.true_and]
    by_cases hq : Cudd_bddOr acc (Y.getD (Y.length - 1) (Cudd_ReadOne n))
        = Y.getD (Y.length - 1) (Cudd_ReadOne n)
    · have hb := (bdd_same_iff _ _).mpr hq
      rw [if_pos hb, if_pos hq]
      simp
    · have hb : ¬ ((Cudd_bddLeq (Cudd_bddOr acc (Y.getD (Y.length - 1) (Cudd_ReadOne n)))
          (Y.getD (Y.length - 1) (Cudd_ReadOne n))
          && Cudd_bddLeq (Y.getD (Y.length - 1) (Cudd_ReadOne n))
            (Cudd_bddOr acc (Y.getD (Y.length - 1) (Cudd_ReadOne n)))) = true) := by
        rw [bdd_same_iff]; exact hq
      rw [if_neg hb, if_neg hq]

theorem accumulate_X_terminates {n : Nat} (fuel : Nat) (hf : 2 ^ n < fuel)
    (CPre : Pred n → Pred n) (g W Yex : Pred n) :
    ∀ (egoals : List (Pred n)) (acc : Pred n),
      ∃ R, accumulate_X fuel CPre g W Yex egoals acc = some R := by
  intro egoals
  induction egoals with
  | nil => intro acc; exact ⟨acc, rfl⟩
  | cons e rest ih =>
    intro acc
    obtain ⟨X, hX⟩ := X_loop_terminates CPre g W Yex e fuel (Cudd_ReadOne n)
      (lt_of_le_of_lt (sat_count_le _) hf)
    simp only [accumulate_X, hX]
    exact ih _

theorem next_level_terminates {n : Nat} (fuel : Nat) (hf : 2 ^ n < fuel)
    (CPre : Pred n → Pred n) (W : Pred n) (egoals : List (Pred n)) (g P : Pred n) :
    ∃ Q, next_level fuel CPre W egoals g P = some Q := by
  obtain ⟨acc, hacc⟩ := accumulate_X_terminates fuel hf CPre g W (CPre P) egoals
    (Cudd_Not (Cudd_ReadOne n))
  exact ⟨Cudd_bddOr acc P, by simp only [next_level, hacc]⟩

theorem next_level_le {n : Nat} (fuel : Nat) (CPre : Pred n → Pred n) (W : Pred n)
    (egoals : List (Pred n)) (g P Q : Pred n) (h : next_level fuel CPre W egoals g P = some Q) :
    PredLe P Q := by
  unfold next_level at h
  split at h
  · simp at h
  · rename_i acc _
    have hQ : Cudd_bddOr acc P = Q := by simpa using h
    intro a ha
    rw [← hQ]
    simp [Cudd_bddOr, ha]

theorem LadderChain_append {n : Nat} (fuel : Nat) (CPre : Pred n → Pred n) (W : Pred n)
    (egoals : List (Pred n)) (g : Pred n) (Y : List (Pred n)) (Q : Pred n)
    (hY : LadderChain fuel CPre W egoals g Y)
    (hQ : next_level fuel CPre W egoals g (Y.getD (Y.length - 1) (Cudd_ReadOne n)) = some Q)
    (hne : Q ≠ Y.getD (Y.length - 1) (Cudd_ReadOne n)) :
    LadderChain fuel CPre W egoals g (Y ++ [Q]) := by
  obtain ⟨hpos, h0, hch⟩ := hY
  refine ⟨by simp, ?_, ?_⟩
  · rw [getD_append_left _ _ _ _ hpos]; exact h0
  · intro k hk
    simp only [List.length_append, List.length_singleton] at hk
    by_cases hk2 : k + 1 < Y.length
    · rw [getD_append_left _ _ _ _ hk2, getD_append_left _ _ _ _ (by omega)]
      exact hch k hk2
    · have hk3 : k + 1 = Y.length := by omega
      have hk4 : k = Y.length - 1 := by omega
      rw [hk3, getD_append_last, hk4, getD_append_left _ _ _ _ (by omega)]
      exact ⟨hQ, fun h => hne h.symm⟩

theorem ladder_loop_spec {n : Nat} (xfuel : Nat) (hx : 2 ^ n < xfuel) (CPre : Pred n → Pred n)
    (W : Pred n) (egoals : List (Pred n)) (g : Pred n) :
    ∀ (fuel : Nat) (Y : List (Pred n)), LadderChain xfuel CPre W egoals g Y →
      2 ^ n < fuel + sat_count (Y.getD (Y.length - 1) (Cudd_ReadOne n)) →
      ∃ Ys, ladder_loop xfuel CPre W egoals g fuel Y = some Ys
        ∧ LadderChain xfuel CPre W egoals g Ys
        ∧ level_step xfuel CPre W egoals g Ys = some (Ys, true) := by
  intro fuel
  induction fuel with
  | zero =>
    intro Y _ h
    have := sat_count_le (Y.getD (Y.length - 1) (Cudd_ReadOne n))
    omega
  | succ fuel ih =>
    intro Y hY hfuel
    obtain ⟨Q, hQ⟩ := next_level_terminates xfuel hx CPre W egoals g
      (Y.getD (Y.length - 1) (Cudd_ReadOne n))
    have hstep := level_step_eq xfuel CPre W egoals g Y hY.1
    rw [hQ, Option.map_some'] at hstep
    by_cases hq : Q = Y.getD (Y.length - 1) (Cudd_ReadOne n)
    · rw [if_pos hq] at hstep
      refine ⟨Y, ?_, hY, hstep⟩
      simp only [ladder_loop, hstep]
    · rw [if_neg hq] at hstep
      have hch := LadderChain_append xfuel CPre W egoals g Y Q hY hQ hq
      have hlt := sat_count_lt (next_level_le xfuel CPre W egoals g _ Q hQ) (fun h => hq h.symm)
      have hlast : (Y ++ [Q]).getD ((Y ++ [Q]).length - 1) (Cudd_ReadOne n) = Q := by
        have : (Y ++ [Q]).length - 1 = Y.length := by simp
        rw [this, getD_append_last]
      obtain ⟨Ys, h1, h2, h3⟩ := ih (Y ++ [Q]) hch (by rw [hlast]; omega)
      refine ⟨Ys, ?_, h2, h3⟩
      simp only [ladder_loop, hstep]
      exact h1

theorem build_ladder_spec {n : Nat} (d : Nat) (CPre : Pred n → Pred n)
    (W : Pred n) (egoals : List (Pred n)) (g : Pred n) :
    ∃ Ys, build_ladder (2 ^ n + 1 + d) CPre W egoals g = some Ys
      ∧ LadderChain (2 ^ n + 1 + d) CPre W egoals g Ys
      ∧ level_step (2 ^ n + 1 + d) CPre W egoals g Ys = some (Ys, true) := by
  apply ladder_loop_spec (2 ^ n + 1 + d) (by omega) CPre W egoals g (2 ^ n + 1 + d)
  · refine ⟨by simp, rfl, ?_⟩
    intro k hk
    simp at hk
  · omega

theorem ladders_loop_spec {n : Nat} (d : Nat) (CPre : Pred n → Pred n)
    (W : Pred n) (egoals : List (Pred n)) :
    ∀ sgoals : List (Pred n),
      ∃ Y, ladders_loop (2 ^ n + 1 + d) CPre W egoals sgoals = some Y
        ∧ Y.length = sgoals.length
        ∧ ∀ i, i < sgoals.length →
            build_ladder (2 ^ n + 1 + d) CPre W egoals (sgoals.getD i (Cudd_ReadOne n))
              = some (Y.getD i []) := by
  intro sgoals
  induction sgoals with
  | nil => exact ⟨[], rfl, rfl, fun i hi => by simp at hi⟩
  | cons g rest ih =>
    obtain ⟨Ys, hYs, _, _⟩ := build_ladder_spec d CPre W egoals g
    obtain ⟨Y, hY, hlen, hall⟩ := ih
    refine ⟨Ys :: Y, ?_, by simp [hlen], ?_⟩
    · simp only [ladders_loop, hYs, hY]
    · intro i hi
      cases i with
      | zero => simpa using hYs
      | succ i =>
        simp only [List.length_cons, Nat.add_lt_add_iff_right] at hi
        simpa using hall i hi

/-- With fuel `2 ^ n + 1 + d` the ladder construction of `synthesize` returns a
list `Y` with one ladder per system goal; each ladder is well formed, and one
more pass of the loop body over it hits the `break` and leaves it as it is. -/
theorem synthesize_ladders_spec {n : Nat} (d : Nat) (CPre : Pred n → Pred n)
    (W : Pred n) (egoals sgoals : List (Pred n)) :
    ∃ Y, synthesize_ladders (2 ^ n + 1 + d) CPre W egoals sgoals = some Y
      ∧ Y.length = sgoals.length
      ∧ ∀ i, i < sgoals.length →
          LadderChain (2 ^ n + 1 + d) CPre W (effective_egoals egoals)
            (sgoals.getD i (Cudd_ReadOne n)) (Y.getD i [])
          ∧ level_step (2 ^ n + 1 + d) CPre W (effective_egoals egoals)
            (sgoals.getD i (Cudd_ReadOne n)) (Y.getD i []) = some (Y.getD i [], true) := by
  obtain ⟨Y, hY, hlen, hall⟩ := ladders_loop_spec d CPre W (effective_egoals egoals) sgoals
  refine ⟨Y, hY, hlen, fun i hi => ?_⟩
  obtain ⟨Ys, h1, h2, h3⟩ := build_ladder_spec d CPre W (effective_egoals egoals)
    (sgoals.getD i (Cudd_ReadOne n))
  have : Ys = Y.getD i [] := by
    have := hall i hi
    rw [h1] at this
    simpa using this
  subst this
  exact ⟨h2, h3⟩

theorem ex_CPre_monotone : MonotoneOp ex_CPre := fun _ _ h a ha => h (ex_succ a) ha

theorem accumulate_X_spec {n : Nat} (fuel : Nat) (CPre : Pred n → Pred n) (g W Yex : Pred n) :
    ∀ (egoals : List (Pred n)) (acc R : Pred n),
      accumulate_X fuel CPre g W Yex egoals acc = some R →
      ∃ Xs : List (Pred n), Xs.length = egoals.length
        ∧ (∀ j, j < egoals.length →
            X_loop CPre g W Yex (egoals.getD j (Cudd_ReadOne n)) fuel (Cudd_ReadOne n)
              = some (Xs.getD j (Cudd_ReadOne n)))
        ∧ ∀ a, R a = (acc a || Xs.any (fun X => X a)) := by
  intro egoals
  induction egoals with
  | nil =>
    intro acc R h
    refine ⟨[], rfl, fun j hj => by simp at hj, fun a => ?_⟩
    have : acc = R := by simpa [accumulate_X] using h
    simp [this]
  | cons e rest ih =>
    intro acc R h
    simp only [accumulate_X] at h
    cases hX : X_loop CPre g W Yex e fuel (Cudd_ReadOne n) with
    | none => rw [hX] at h; simp at h
    | some X =>
      rw [hX] at h
      obtain ⟨Xs, hlen, hall, hR⟩ := ih _ R h
      refine ⟨X :: Xs, by simp [hlen], ?_, fun a => ?_⟩
      · intro j hj
        cases j with
        | zero => simpa using hX
        | succ j =>
          simp only [List.length_cons, Nat.add_lt_add_iff_right] at hj
          simpa using hall j hj
      · rw [hR a]
        simp [Cudd_bddOr, Bool.or_assoc]

/-- A system with an environment goal on which the ladder of the code departs
from the recurrence of the specification: for the two-variable system
`ex_succ` with the single system goal `ex_sgoal`, the single environment goal `ex_egoal` and
`W` the constant true, the code builds a ladder with a second level, but that
level is not `Y[0][0] ∨ X` for the greatest fixpoint `X` of the map of the
spec, `X ↦ (sys_goal ∧ W) ∨ CPre(Y[0][0]) ∨ (¬env_goal ∧ CPre(X))`. -/
theorem spec_recurrence_counterexample :
    ∃ (Y : List (List (Pred 2))) (X : Pred 2),
      synthesize_ladders 5 ex_CPre (Cudd_ReadOne 2) [ex_egoal] [ex_sgoal] = some Y
      ∧ 0 + 1 < (Y.getD 0 []).length
      ∧ (Y.getD 0 []).getD 0 (Cudd_ReadOne 2) = Cudd_bddAnd ex_sgoal (Cudd_ReadOne 2)
      ∧ IsGreatestFixpoint
          (spec_X_map ex_CPre ex_sgoal (Cudd_ReadOne 2)
            (Cudd_bddAnd ex_sgoal (Cudd_ReadOne 2)) ex_egoal) X
      ∧ (Y.getD 0 []).getD (0 + 1) (Cudd_ReadOne 2)
          ≠ Cudd_bddOr ((Y.getD 0 []).getD 0 (Cudd_ReadOne 2)) X := by
  have hY : synthesize_ladders 5 ex_CPre (Cudd_ReadOne 2) [ex_egoal] [ex_sgoal]
      = some ((synthesize_ladders 5 ex_CPre (Cudd_ReadOne 2) [ex_egoal] [ex_sgoal]).getD []) := by
    have hsome : (synthesize_ladders 5 ex_CPre (Cudd_ReadOne 2) [ex_egoal] [ex_sgoal]).isSome
        = true := by decide
    cases h : synthesize_ladders 5 ex_CPre (Cudd_ReadOne 2) [ex_egoal] [ex_sgoal] with
    | none => rw [h] at hsome; simp at hsome
    | some Y => rfl
  refine ⟨_, fun a => !a 0 || a 1, hY, by decide, by decide, ⟨by decide, ?_⟩, ?_⟩
  · intro Z hZ a ha
    rw [← hZ] at ha
    simp only [spec_X_map, Cudd_bddOr, Cudd_bddAnd, Cudd_Not, Cudd_ReadOne, ex_CPre, ex_sgoal,
      ex_egoal, ex_succ] at ha
    show (!a 0 || a 1) = true
    revert ha
    cases h0 : a 0 <;> cases h1 : a 1 <;> simp [h0, h1]
  · intro h
    exact absurd (congrFun h ![false, true]) (by decide)

theorem next_level_recurrence {n : Nat} (fuel : Nat) (CPre : Pred n → Pred n)
    (hm : MonotoneOp CPre) (W : Pred n) (egoals : List (Pred n)) (g P Q : Pred n)
    (hnext : next_level fuel CPre W egoals g P = some Q) :
    ∃ Xs : List (Pred n), Xs.length = egoals.length
      ∧ (∀ j, j < egoals.length →
          IsGreatestFixpoint (code_X_map CPre g W P (egoals.getD j (Cudd_ReadOne n)))
            (Xs.getD j (Cudd_ReadOne n)))
      ∧ ∀ a, Q a = (P a || Xs.any (fun X => X a)) := by
  unfold next_level at hnext
  split at hnext
  · simp at hnext
  · rename_i acc hacc
    obtain ⟨Xs, hXlen, hXall, hXacc⟩ := accumulate_X_spec _ _ _ _ _ _ _ _ hacc
    refine ⟨Xs, hXlen, fun j hj => ?_, fun a => ?_⟩
    · exact (X_loop_gfp CPre hm _ W _ _ _ _ (hXall j hj)).1
    · have hQ := Option.some.inj hnext
      rw [← hQ]
      simp only [Cudd_bddOr, hXacc a, Cudd_Not, Cudd_ReadOne, Bool.not_true, Bool.false_or]
      exact Bool.or_comm _ _

/-- The recurrence that the ladder loop of the code follows: with a monotone
`CPre`, every stored level `Y[i][k+1]` is
`Y[i][k] ∨ ⋁_j X_j`, where `X_j` is the greatest fixpoint of the map that the
code iterates, `X ↦ ((sys_goal_i ∧ W) ∨ CPre(Y[i][k]) ∨ ¬env_goal_j) ∧ CPre(X)`,
for the `j`-th environment goal (the constant true goal when none is given);
and the level computed in the same way from the last stored level is that
level again (the duplicate that is dropped). -/
theorem ladder_recurrence {n : Nat} (d : Nat) (CPre : Pred n → Pred n) (hm : MonotoneOp CPre)
    (W : Pred n) (egoals sgoals : List (Pred n)) :
    ∃ Y, synthesize_ladders (2 ^ n + 1 + d) CPre W egoals sgoals = some Y
      ∧ Y.length = sgoals.length
      ∧ (∀ i k, i < sgoals.length → k + 1 < (Y.getD i []).length →
          ∃ Xs : List (Pred n), Xs.length = (effective_egoals egoals).length
            ∧ (∀ j, j < (effective_egoals egoals).length →
                IsGreatestFixpoint
                  (code_X_map CPre (sgoals.getD i (Cudd_ReadOne n)) W
                    ((Y.getD i []).getD k (Cudd_ReadOne n))
                    ((effective_egoals egoals).getD j (Cudd_ReadOne n)))
                  (Xs.getD j (Cudd_ReadOne n)))
            ∧ ∀ a, (Y.getD i []).getD (k + 1) (Cudd_ReadOne n) a
                = ((Y.getD i []).getD k (Cudd_ReadOne n) a || Xs.any (fun X => X a)))
      ∧ (∀ i, i < sgoals.length →
          ∃ Xs : List (Pred n), Xs.length = (effective_egoals egoals).length
            ∧ (∀ j, j < (effective_egoals egoals).length →
                IsGreatestFixpoint
                  (code_X_map CPre (sgoals.getD i (Cudd_ReadOne n)) W
                    ((Y.getD i []).getD ((Y.getD i []).length - 1) (Cudd_ReadOne n))
                    ((effective_egoals egoals).getD j (Cudd_ReadOne n)))
                  (Xs.getD j (Cudd_ReadOne n)))
            ∧ ∀ a, (Y.getD i []).getD ((Y.getD i []).length - 1) (Cudd_ReadOne n) a
                = ((Y.getD i []).getD ((Y.getD i []).length - 1) (Cudd_ReadOne n) a
                    || Xs.any (fun X => X a))) := by
  obtain ⟨Y, hY, hlen, hall⟩ := synthesize_ladders_spec d CPre W egoals sgoals
  refine ⟨Y, hY, hlen, fun i k hi hk => ?_, fun i hi => ?_⟩
  · exact next_level_recurrence _ CPre hm W _ _ _ _ (((hall i hi).1.2.2 k hk).1)
  · have hstep := (hall i hi).2
    rw [level_step_eq _ _ _ _ _ _ (hall i hi).1.1] at hstep
    cases hq : next_level (2 ^ n + 1 + d) CPre W (effective_egoals egoals)
        (sgoals.getD i (Cudd_ReadOne n))
        ((Y.getD i []).getD ((Y.getD i []).length - 1) (Cudd_ReadOne n)) with
    | none => rw [hq] at hstep; simp at hstep
    | some Q =>
      rw [hq, Option.map_some'] at hstep
      split at hstep
      · rename_i hQ
        rw [hQ] at hq
        exact next_level_recurrence _ CPre hm W _ _ _ _ hq
      · have := (Prod.mk.inj (Option.some.inj hstep)).2
        simp at this

/-- Worked instance of the recurrence of the code: the two-variable system
`ex_succ` with
goals `ex_sgoal` and `ex_egoal` and `W` the constant true. -/
theorem ladder_recurrence_witness :
    ∃ Y, synthesize_ladders (2 ^ 2 + 1 + 0) ex_CPre (Cudd_ReadOne 2) [ex_egoal] [ex_sgoal] = some Y
      ∧ Y.length = [ex_sgoal].length
      ∧ (∀ i k, i < [ex_sgoal].length → k + 1 < (Y.getD i []).length →
          ∃ Xs : List (Pred 2), Xs.length = (effective_egoals [ex_egoal]).length
            ∧ (∀ j, j < (effective_egoals [ex_egoal]).length →
                IsGreatestFixpoint
                  (code_X_map ex_CPre ([ex_sgoal].getD i (Cudd_ReadOne 2)) (Cudd_ReadOne 2)
                    ((Y.getD i []).getD k (Cudd_ReadOne 2))
                    ((effective_egoals [ex_egoal]).getD j (Cudd_ReadOne 2)))
                  (Xs.getD j (Cudd_ReadOne 2)))
            ∧ ∀ a, (Y.getD i []).getD (k + 1) (Cudd_ReadOne 2) a
                = ((Y.getD i []).getD k (Cudd_ReadOne 2) a || Xs.any (fun X => X a)))
      ∧ (∀ i, i < [ex_sgoal].length →
          ∃ Xs : List (Pred 2), Xs.length = (effective_egoals [ex_egoal]).length
            ∧ (∀ j, j < (effective_egoals [ex_egoal]).length →
                IsGreatestFixpoint
                  (code_X_map ex_CPre ([ex_sgoal].getD i (Cudd_ReadOne 2)) (Cudd_ReadOne 2)
                    ((Y.getD i []).getD ((Y.getD i []).length - 1) (Cudd_ReadOne 2))
                    ((effective_egoals [ex_egoal]).getD j (Cudd_ReadOne 2)))
                  (Xs.getD j (Cudd_ReadOne 2)))
            ∧ ∀ a, (Y.getD i []).getD ((Y.getD i []).length - 1) (Cudd_ReadOne 2) a
                = ((Y.getD i []).getD ((Y.getD i []).length - 1) (Cudd_ReadOne 2) a
                    || Xs.any (fun X => X a))) :=
  ladder_recurrence 0 ex_CPre ex_CPre_monotone (Cudd_ReadOne 2) [ex_egoal] [ex_sgoal]

/-- C6: for every system goal `i` the ladder returned by the construction has
at least one level and its first level is `sys_goal_i ∧ W`; and no pass of the
loop body over a ladder changes a level that is already stored, in particular
not the first one. -/
theorem first_level_goal_and_W {n : Nat} (d : Nat) (CPre : Pred n → Pred n) (W : Pred n)
    (egoals sgoals : List (Pred n)) :
    (∃ Y, synthesize_ladders (2 ^ n + 1 + d) CPre W egoals sgoals = some Y
      ∧ Y.length = sgoals.length
      ∧ ∀ i, i < sgoals.length → 0 < (Y.getD i []).length
          ∧ (Y.getD i []).getD 0 (Cudd_ReadOne n)
            = Cudd_bddAnd (sgoals.getD i (Cudd_ReadOne n)) W)
    ∧ (∀ (fuel : Nat) (sgoal_i : Pred n) (Y_i Y_new : List (Pred n)) (b : Bool),
        0 < Y_i.length →
        level_step fuel CPre W (effective_egoals egoals) sgoal_i Y_i = some (Y_new, b) →
        ∀ k, k < Y_i.length →
          Y_new.getD k (Cudd_ReadOne n) = Y_i.getD k (Cudd_ReadOne n)) := by
  constructor
  · obtain ⟨Y, hY, hlen, hall⟩ := synthesize_ladders_spec d CPre W egoals sgoals
    exact ⟨Y, hY, hlen, fun i hi => ⟨(hall i hi).1.1, (hall i hi).1.2.1⟩⟩
  · intro fuel g Y_i Y_new b hpos hstep k hk
    rw [level_step_eq _ _ _ _ _ _ hpos] at hstep
    cases hq : next_level fuel CPre W (effective_egoals egoals) g
        (Y_i.getD (Y_i.length - 1) (Cudd_ReadOne n)) with
    | none => rw [hq] at hstep; simp at hstep
    | some Q =>
      rw [hq, Option.map_some'] at hstep
      split at hstep
      · have : Y_i = Y_new := by
          have := Option.some.inj hstep
          exact (Prod.mk.inj this).1
        rw [this]
      · have : Y_i ++ [Q] = Y_new := by
          have := Option.some.inj hstep
          exact (Prod.mk.inj this).1
        rw [← this, getD_append_left _ _ _ _ hk]

/-- C7: in every ladder returned by the construction each level is contained
in the next one, for arbitrary `W`, goals and `CPre`. -/
theorem level_monotonicity {n : Nat} (d : Nat) (CPre : Pred n → Pred n) (W : Pred n)
    (egoals sgoals : List (Pred n)) :
    ∃ Y, synthesize_ladders (2 ^ n + 1 + d) CPre W egoals sgoals = some Y
      ∧ Y.length = sgoals.length
      ∧ ∀ i k, i < sgoals.length → k + 1 < (Y.getD i []).length →
          ∀ a, (Y.getD i []).getD k (Cudd_ReadOne n) a = true →
            (Y.getD i []).getD (k + 1) (Cudd_ReadOne n) a = true := by
  obtain ⟨Y, hY, hlen, hall⟩ := synthesize_ladders_spec d CPre W egoals sgoals
  refine ⟨Y, hY, hlen, fun i k hi hk => ?_⟩
  exact next_level_le _ _ _ _ _ _ _ (((hall i hi).1.2.2 k hk).1)

/-- C8: for every system goal, one more pass of the loop body over the
returned ladder computes a level equal to the last stored one, hits the `break`
and gives the ladder back unchanged; and any two consecutive stored levels are
different predicates. -/
theorem level_termination {n : Nat} (d : Nat) (CPre : Pred n → Pred n) (W : Pred n)
    (egoals sgoals : List (Pred n)) :
    ∃ Y, synthesize_ladders (2 ^ n + 1 + d) CPre W egoals sgoals = some Y
      ∧ Y.length = sgoals.length
      ∧ ∀ i, i < sgoals.length →
          next_level (2 ^ n + 1 + d) CPre W (effective_egoals egoals)
              (sgoals.getD i (Cudd_ReadOne n))
              ((Y.getD i []).getD ((Y.getD i []).length - 1) (Cudd_ReadOne n))
            = some ((Y.getD i []).getD ((Y.getD i []).length - 1) (Cudd_ReadOne n))
          ∧ level_step (2 ^ n + 1 + d) CPre W (effective_egoals egoals)
              (sgoals.getD i (Cudd_ReadOne n)) (Y.getD i []) = some (Y.getD i [], true)
          ∧ ∀ k, k + 1 < (Y.getD i []).length →
              (Y.getD i []).getD k (Cudd_ReadOne n)
                ≠ (Y.getD i []).getD (k + 1) (Cudd_ReadOne n) := by
  obtain ⟨Y, hY, hlen, hall⟩ := synthesize_ladders_spec d CPre W egoals sgoals
  refine ⟨Y, hY, hlen, fun i hi => ⟨?_, (hall i hi).2, fun k hk => ((hall i hi).1.2.2 k hk).2⟩⟩
  have hstep := (hall i hi).2
  rw [level_step_eq _ _ _ _ _ _ (hall i hi).1.1] at hstep
  cases hq : next_level (2 ^ n + 1 + d) CPre W (effective_egoals egoals)
      (sgoals.getD i (Cudd_ReadOne n))
      ((Y.getD i []).getD ((Y.getD i []).length - 1) (Cudd_ReadOne n)) with
  | none => rw [hq] at hstep; simp at hstep
  | some Q =>
    rw [hq, Option.map_some'] at hstep
    split at hstep
    · rename_i hQ; rw [hQ]
    · have := (Prod.mk.inj (Option.some.inj hstep)).2
      simp at this

theorem gr1_body_mono {n : Nat} (CPre : Pred n → Pred n) (hm : MonotoneOp CPre)
    (g e Z Y : Pred n) (P Q : Pred n) (h : PredLe P Q) :
    PredLe (gr1_body CPre g e Z Y P) (gr1_body CPre g e Z Y Q) := by
  intro a ha
  simp only [gr1_body, Cudd_bddOr, Cudd_bddAnd, Bool.or_eq_true, Bool.and_eq_true] at ha ⊢
  rcases ha with ha | ha
  · exact Or.inl ha
  · exact Or.inr ⟨ha.1, hm P Q h a ha.2⟩

/-- Knaster-Tarski on the finite lattice of predicates: the greatest fixpoint
of a monotone map contains every post-fixpoint. -/
theorem gfp_contains_post {n : Nat} (F : Pred n → Pred n)
    (hF : ∀ P Q : Pred n, PredLe P Q → PredLe (F P) (F Q)) (X : Pred n)
    (hX : IsGreatestFixpoint F X) (Z : Pred n) (hZ : PredLe Z (F Z)) : PredLe Z X := by
  let f : Pred n →o Pred n := ⟨F, fun P Q h a => hF P Q (fun b => h b) a⟩
  have h1 : Z ≤ OrderHom.gfp f := OrderHom.le_gfp f (fun a => hZ a)
  have h2 : F (OrderHom.gfp f) = OrderHom.gfp f := f.isFixedPt_gfp
  exact PredLe_trans (fun a => h1 a) (hX.2 _ h2)

theorem X_loop_post_fixed {n : Nat} (CPre : Pred n → Pred n) (g W Y e : Pred n) (f : Nat)
    (X R : Pred n) (h : X_loop CPre g W (CPre Y) e f X = some R) :
    PredLe R (code_X_map CPre g W Y e R) := by
  have hfix := (X_loop_fixed CPre g W (CPre Y) e f X R h).1
  intro a ha
  have := congrFun hfix a
  rw [X_update_eq, ha] at this
  simp only [Cudd_bddAnd, Bool.and_eq_true] at this
  exact this.1

theorem any_getD {n : Nat} (Xs : List (Pred n)) (a : Fin n → Bool) :
    Xs.any (fun X => X a) = true ↔ ∃ j, j < Xs.length ∧ Xs.getD j (Cudd_ReadOne n) a = true := by
  rw [List.any_eq_true]
  constructor
  · rintro ⟨X, hX, ha⟩
    obtain ⟨j, hj, rfl⟩ := List.getElem_of_mem hX
    exact ⟨j, hj, by rw [List.getD_eq_getElem _ _ hj]; exact ha⟩
  · rintro ⟨j, hj, ha⟩
    rw [List.getD_eq_getElem _ _ hj] at ha
    exact ⟨Xs[j], List.getElem_mem hj, ha⟩

theorem all_getD {n : Nat} (Ms : List (Pred n)) (a : Fin n → Bool) :
    Ms.all (fun M => M a) = true ↔ ∀ i, i < Ms.length → Ms.getD i (Cudd_ReadOne n) a = true := by
  rw [List.all_eq_true]
  constructor
  · intro h i hi
    rw [List.getD_eq_getElem _ _ hi]
    exact h _ (List.getElem_mem hi)
  · intro h M hM
    obtain ⟨i, hi, rfl⟩ := List.getElem_of_mem hM
    have := h i hi
    rwa [List.getD_eq_getElem _ _ hi] at this

theorem middle_unfold {n : Nat} (CPre : Pred n → Pred n) (hm : MonotoneOp CPre)
    (egoals : List (Pred n)) (g W M : Pred n) (hM : IsInnerJoin CPre egoals g W M M)
    (a : Fin n → Bool) (ha : M a = true) :
    Cudd_bddOr (Cudd_bddAnd g (CPre W)) (CPre M) a = true := by
  obtain ⟨Ns, hlen, hgfp, hjoin⟩ := hM
  rw [hjoin a, any_getD] at ha
  obtain ⟨j, hj, hNa⟩ := ha
  have hfix := (hgfp j (hlen ▸ hj)).1
  have hNM : PredLe (Ns.getD j (Cudd_ReadOne n)) M := by
    intro b hb
    rw [hjoin b, any_getD]
    exact ⟨j, hj, hb⟩
  rw [← hfix] at hNa
  simp only [gr1_body, Cudd_bddOr, Cudd_bddAnd, Bool.or_eq_true, Bool.and_eq_true] at hNa ⊢
  rcases hNa with hNa | hNa
  · exact hNa
  · exact Or.inr (hm _ _ hNM a hNa.2)

theorem X_le_middle {n : Nat} (CPre : Pred n → Pred n) (hm : MonotoneOp CPre)
    (egoals : List (Pred n)) (g g' W P M X : Pred n) (j : Nat) (hj : j < egoals.length)
    (hM : IsInnerJoin CPre egoals g' W M M) (hWM : PredLe W M) (hP : PredLe P W)
    (hX : PredLe X (code_X_map CPre g W P (egoals.getD j (Cudd_ReadOne n)) X)) :
    PredLe X M := by
  have hunf := middle_unfold CPre hm egoals g' W M hM
  obtain ⟨Ns, hlen, hgfp, hjoin⟩ := hM
  have hN := hgfp j hj
  have hNM : PredLe (Ns.getD j (Cudd_ReadOne n)) M := by
    intro b hb
    rw [hjoin b, any_getD]
    exact ⟨j, hlen ▸ hj, hb⟩
  have hZ : PredLe (Cudd_bddOr X (Ns.getD j (Cudd_ReadOne n)))
      (gr1_body CPre g' (egoals.getD j (Cudd_ReadOne n)) W M
        (Cudd_bddOr X (Ns.getD j (Cudd_ReadOne n)))) := by
    intro a ha
    simp only [Cudd_bddOr, Bool.or_eq_true] at ha
    rcases ha with ha | ha
    · have hc := hX a ha
      simp only [code_X_map, Cudd_bddAnd, Cudd_bddOr, Cudd_Not, Bool.and_eq_true,
        Bool.or_eq_true, Bool.not_eq_true'] at hc
      obtain ⟨hc1, hc2⟩ := hc
      have hcz : CPre (Cudd_bddOr X (Ns.getD j (Cudd_ReadOne n))) a = true :=
        hm X _ (fun b hb => by simp [Cudd_bddOr, hb]) a hc2
      rcases hc1 with (hc1 | hc1) | hc1
      · have := hunf a (hWM a hc1.2)
        simp only [gr1_body, Cudd_bddOr, Bool.or_eq_true] at this ⊢
        exact Or.inl this
      · have : CPre M a = true := hm P M (PredLe_trans hP hWM) a hc1
        simp only [gr1_body, Cudd_bddOr, Bool.or_eq_true]
        exact Or.inl (Or.inr this)
      · simp only [gr1_body, Cudd_bddOr, Cudd_bddAnd, Cudd_Not, Bool.or_eq_true,
          Bool.and_eq_true, Bool.not_eq_true']
        exact Or.inr ⟨hc1, hcz⟩
    · have := hN.1
      rw [← this] at ha
      exact gr1_body_mono CPre hm _ _ _ _ _ _ (fun b hb => by simp [Cudd_bddOr, hb]) a ha
  have := gfp_contains_post _ (gr1_body_mono CPre hm _ _ _ _) _ hN _ hZ
  intro a ha
  exact hNM a (this a (by simp [Cudd_bddOr, ha]))

theorem next_level_le_W {n : Nat} (fuel : Nat) (CPre : Pred n → Pred n) (hm : MonotoneOp CPre)
    (W : Pred n) (egoals sgoals : List (Pred n)) (hW : IsGR1Fixpoint CPre egoals sgoals W)
    (g P Q : Pred n) (hnext : next_level fuel CPre W egoals g P = some Q) (hP : PredLe P W) :
    PredLe Q W := by
  obtain ⟨Ms, hlen, hmid, hWall⟩ := hW
  unfold next_level at hnext
  split at hnext
  · simp at hnext
  · rename_i acc hacc
    obtain ⟨Xs, hXlen, hXall, hXacc⟩ := accumulate_X_spec _ _ _ _ _ _ _ _ hacc
    have hQ := Option.some.inj hnext
    intro a ha
    rw [← hQ] at ha
    simp only [Cudd_bddOr, hXacc a, Cudd_Not, Cudd_ReadOne, Bool.not_true, Bool.false_or,
      Bool.or_eq_true] at ha
    rcases ha with ha | ha
    · have hany := (any_getD Xs a).mp ha
      obtain ⟨j, hj, hXa⟩ := hany
      have hj' : j < egoals.length := hXlen ▸ hj
      have hpost := X_loop_post_fixed CPre g W P _ fuel _ _ (hXall j hj')
      rw [hWall a, all_getD]
      intro i hi
      have hi' : i < sgoals.length := hlen ▸ hi
      have hWM : PredLe W (Ms.getD i (Cudd_ReadOne n)) := by
        intro b hb
        rw [hWall b, all_getD] at hb
        exact hb i hi
      exact X_le_middle CPre hm egoals g _ W P _ _ j hj' (hmid i hi').1 hWM hP hpost a hXa
    · exact hP a ha

/-- C9: when `CPre` is monotone and `W` is a fixpoint of the formula of §4.3
(for the environment goals that `synthesize` works with), every level of every
ladder returned by the construction is contained in `W`; every ladder has a
first and a last level, so in particular these two are contained in `W`. -/
theorem goal_containment {n : Nat} (d : Nat) (CPre : Pred n → Pred n) (hm : MonotoneOp CPre)
    (W : Pred n) (egoals sgoals : List (Pred n))
    (hW : IsGR1Fixpoint CPre (effective_egoals egoals) sgoals W) :
    ∃ Y, synthesize_ladders (2 ^ n + 1 + d) CPre W egoals sgoals = some Y
      ∧ Y.length = sgoals.length
      ∧ ∀ i, i < sgoals.length → 0 < (Y.getD i []).length
          ∧ ∀ k, k < (Y.getD i []).length →
              ∀ a, (Y.getD i []).getD k (Cudd_ReadOne n) a = true → W a = true := by
  obtain ⟨Y, hY, hlen, hall⟩ := synthesize_ladders_spec d CPre W egoals sgoals
  refine ⟨Y, hY, hlen, fun i hi => ⟨(hall i hi).1.1, fun k => ?_⟩⟩
  obtain ⟨hpos, h0, hch⟩ := (hall i hi).1
  induction k with
  | zero =>
    intro _ a ha
    rw [h0] at ha
    simp only [Cudd_bddAnd, Bool.and_eq_true] at ha
    exact ha.2
  | succ k ih =>
    intro hk
    exact next_level_le_W _ CPre hm W _ sgoals hW _ _ _ (hch k hk).1 (ih (by omega))

theorem gr1_fixpoint_identity {n : Nat} (g : Pred n) :
    IsGR1Fixpoint (fun X : Pred n => X) [Cudd_ReadOne n] [g] g := by
  have hbody : ∀ Y X : Pred n,
      gr1_body (fun X : Pred n => X) g (Cudd_ReadOne n) g Y X = Cudd_bddOr g Y := by
    intro Y X
    funext a
    simp [gr1_body, Cudd_bddOr, Cudd_bddAnd, Cudd_Not, Cudd_ReadOne]
  refine ⟨[g], rfl, fun i hi => ?_, fun a => by simp⟩
  have hi0 : i = 0 := by simpa using hi
  subst hi0
  constructor
  · refine ⟨[g], rfl, fun j hj => ?_, fun a => by simp⟩
    have hj0 : j = 0 := by simpa using hj
    subst hj0
    simp only [List.getD_cons_zero]
    constructor
    · rw [hbody]; funext a; simp [Cudd_bddOr]
    · intro Z hZ
      rw [hbody] at hZ
      intro a ha
      rw [← hZ] at ha
      simpa [Cudd_bddOr] using ha
  · rintro Y ⟨Xs, hlen, hgfp, hjoin⟩
    have h0 := (hgfp 0 (by simp)).1
    simp only [List.getD_cons_zero] at h0
    rw [hbody] at h0
    intro a ha
    simp only [List.getD_cons_zero] at ha
    rw [hjoin a, any_getD]
    refine ⟨0, by rw [hlen]; simp, ?_⟩
    rw [← h0]
    simp [Cudd_bddOr, ha]

/-- C10: with fuel `2 ^ n + 1` or more (`n` the number of BDD variables) no
loop runs out of fuel: the whole construction returns the ladders, the
`while (True)` loop of every system goal reaches its `break`, and every
`do ... while` loop for `X` ends, whatever its parameters and starting value. -/
theorem fixpoint_loops_terminate {n : Nat} (d : Nat) (CPre : Pred n → Pred n) (W : Pred n)
    (egoals sgoals : List (Pred n)) :
    (∃ Y, synthesize_ladders (2 ^ n + 1 + d) CPre W egoals sgoals = some Y)
    ∧ (∀ i, i < sgoals.length →
        ∃ Y_i, ladder_loop (2 ^ n + 1 + d) CPre W (effective_egoals egoals)
            (sgoals.getD i (Cudd_ReadOne n)) (2 ^ n + 1 + d)
            [Cudd_bddAnd (sgoals.getD i (Cudd_ReadOne n)) W] = some Y_i
          ∧ level_step (2 ^ n + 1 + d) CPre W (effective_egoals egoals)
            (sgoals.getD i (Cudd_ReadOne n)) Y_i = some (Y_i, true))
    ∧ (∀ (sgoal_i Y_exmod egoal_j X : Pred n),
        ∃ R, X_loop CPre sgoal_i W Y_exmod egoal_j (2 ^ n + 1 + d) X = some R) := by
  refine ⟨?_, fun i _ => ?_, fun g Yex e X => ?_⟩
  · obtain ⟨Y, hY, _⟩ := synthesize_ladders_spec d CPre W egoals sgoals
    exact ⟨Y, hY⟩
  · obtain ⟨Ys, h1, _, h3⟩ := build_ladder_spec d CPre W (effective_egoals egoals)
      (sgoals.getD i (Cudd_ReadOne n))
    exact ⟨Ys, h1, h3⟩
  · exact X_loop_terminates CPre g W Yex e _ X
      (lt_of_le_of_lt (sat_count_le X) (by omega))

/-! ## Theorems: the enumeration of a cube -/

theorem getD_set_nat (l : List Nat) (i j v : Nat) :
    (l.set i v).getD j 0 = if i = j ∧ i < l.length then v else l.getD j 0 := by
  simp only [List.getD_eq_getElem?_getD, List.getElem?_set]
  by_cases h : i = j
  · subst h
    by_cases h2 : i < l.length
    · simp [h2]
    · simp [h2, List.getElem?_eq_none (Nat.le_of_not_lt h2)]
  · simp [h]

theorem initialize_cube_succ (cube : List Nat) (gcube : List Int) (len : Nat) :
    initialize_cube cube gcube (len + 1)
      = if gcube.getD len 0 = 2 then (initialize_cube cube gcube len).set len 0
        else (initialize_cube cube gcube len).set len (to_uchar (gcube.getD len 0)) := by
  simp only [initialize_cube, List.range_succ, List.foldl_append, List.foldl_cons, List.foldl_nil]

theorem initialize_cube_length (cube : List Nat) (gcube : List Int) (len : Nat) :
    (initialize_cube cube gcube len).length = cube.length := by
  induction len with
  | zero => simp [initialize_cube]
  | succ len ih =>
    rw [initialize_cube_succ]
    split <;> simp [ih]

theorem initialize_cube_getD (cube : List Nat) (gcube : List Int) (len i : Nat) :
    (initialize_cube cube gcube len).getD i 0
      = if i < len ∧ i < cube.length then
          (if gcube.getD i 0 = 2 then 0 else to_uchar (gcube.getD i 0))
        else cube.getD i 0 := by
  induction len with
  | zero => simp [initialize_cube]
  | succ len ih =>
    rw [initialize_cube_succ]
    have hl := initialize_cube_length cube gcube len
    have hset : ∀ v : Nat, ((initialize_cube cube gcube len).set len v).getD i 0
        = if len = i ∧ len < cube.length then v else
          (if i < len ∧ i < cube.length then
            (if gcube.getD i 0 = 2 then 0 else to_uchar (gcube.getD i 0))
          else cube.getD i 0) := by
      intro v; rw [getD_set_nat, hl, ih]
    by_cases hi : len = i
    · subst hi
      by_cases hc : len < cube.length
      · split <;> rename_i hg <;> rw [hset] <;> simp [hc, hg]
      · split <;> rw [hset] <;> simp [hc]
    · have h1 : (i < len + 1 ∧ i < cube.length) ↔ (i < len ∧ i < cube.length) := by omega
      split <;> rw [hset] <;> simp only [hi, false_and, if_false, h1]

theorem increment_loop_skip (gcube : List Int) (k : Nat) (cube : List Nat) (carry : Nat)
    (h : gcube.getD k 0 ≠ 2) :
    increment_cube_loop gcube (k + 1) cube carry = increment_cube_loop gcube k cube carry := by
  simp only [increment_cube_loop, h, if_false]

theorem increment_loop_dc (gcube : List Int) (k : Nat) (cube : List Nat) (carry : Nat)
    (h : gcube.getD k 0 = 2) (hk : k < cube.length) (hv : cube.getD k 0 ≤ 1) (hc : carry ≤ 1) :
    increment_cube_loop gcube (k + 1) cube carry
      = if 1 ≤ cube.getD k 0 + carry then
          increment_cube_loop gcube k (cube.set k (cube.getD k 0 + carry)) 1
        else cube.set k 1 := by
  simp only [increment_cube_loop, h, if_true]
  have h1 : (cube.set k ((cube.getD k 0 + (1 + carry)) % 256)).getD k 0
      = cube.getD k 0 + (1 + carry) := by
    rw [getD_set_nat]
    simp only [hk, and_self, if_true]
    omega
  rw [h1]
  by_cases h2 : 1 ≤ cube.getD k 0 + carry
  · have h3 : cube.getD k 0 + (1 + carry) > 1 := by omega
    rw [if_pos h3, if_pos h2, List.set_set]
    have h4 : (cube.getD k 0 + (1 + carry) + 255) % 256 = cube.getD k 0 + carry := by omega
    rw [h4]
  · have h3 : ¬ cube.getD k 0 + (1 + carry) > 1 := by omega
    rw [if_neg h3, if_neg h2]
    have h4 : (cube.getD k 0 + (1 + carry)) % 256 = 1 := by omega
    rw [h4]

theorem increment_loop_carry (gcube : List Int) :
    ∀ (k : Nat) (cube : List Nat), k ≤ cube.length →
      (∀ i, i < k → gcube.getD i 0 = 2 → cube.getD i 0 = 0) →
      (increment_cube_loop gcube k cube 1).length = cube.length
      ∧ ∀ i, (increment_cube_loop gcube k cube 1).getD i 0
          = if i < k ∧ gcube.getD i 0 = 2 then 1 else cube.getD i 0 := by
  intro k
  induction k with
  | zero => intro cube _ _; simp [increment_cube_loop]
  | succ k ih =>
    intro cube hk hz
    by_cases hd : gcube.getD k 0 = 2
    · have hk0 := hz k (by omega) hd
      rw [increment_loop_dc gcube k cube 1 hd (by omega) (by omega) (by omega)]
      rw [if_pos (by omega), hk0]
      have hpre : ∀ i, i < k → gcube.getD i 0 = 2 → (cube.set k (0 + 1)).getD i 0 = 0 := by
        intro i hi hdi
        rw [getD_set_nat]
        have : ¬ (k = i ∧ k < cube.length) := by omega
        rw [if_neg this]
        exact hz i (by omega) hdi
      obtain ⟨h1, h2⟩ := ih (cube.set k (0 + 1)) (by simp; omega) hpre
      refine ⟨by rw [h1]; simp, fun i => ?_⟩
      rw [h2 i, getD_set_nat]
      by_cases hik : k = i
      · subst hik
        have hlt : k < cube.length := by omega
        rw [if_neg (fun h => absurd h.1 (Nat.lt_irrefl k)), if_pos ⟨rfl, hlt⟩,
          if_pos ⟨Nat.lt_succ_self k, hd⟩]
      · have h3 : (i < k + 1 ∧ gcube.getD i 0 = 2) ↔ (i < k ∧ gcube.getD i 0 = 2) := by
          constructor
          · rintro ⟨a, b⟩; exact ⟨by omega, b⟩
          · rintro ⟨a, b⟩; exact ⟨by omega, b⟩
        simp only [hik, false_and, if_false, h3]
    · rw [increment_loop_skip gcube k cube 1 hd]
      obtain ⟨h1, h2⟩ := ih cube (by omega) (fun i hi => hz i (by omega))
      refine ⟨h1, fun i => ?_⟩
      rw [h2 i]
      have h3 : (i < k + 1 ∧ gcube.getD i 0 = 2) ↔ (i < k ∧ gcube.getD i 0 = 2) := by
        constructor
        · rintro ⟨a, b⟩
          refine ⟨?_, b⟩
          rcases Nat.lt_succ_iff_lt_or_eq.mp a with h | h
          · exact h
          · subst h; exact absurd b hd
        · rintro ⟨a, b⟩; exact ⟨by omega, b⟩
      simp only [h3]

/-- From a cube whose don't-care positions below `k` all hold 0, the loop of
`increment_cube` sets the last don't-care position below `k` to 1 and changes
nothing else. -/
theorem increment_loop_zero (gcube : List Int) :
    ∀ (k : Nat) (cube : List Nat), k ≤ cube.length →
      (∀ i, i < k → gcube.getD i 0 = 2 → cube.getD i 0 = 0) →
      (increment_cube_loop gcube k cube 0).length = cube.length
      ∧ (((∀ i, i < k → gcube.getD i 0 ≠ 2)
            ∧ ∀ i, (increment_cube_loop gcube k cube 0).getD i 0 = cube.getD i 0)
          ∨ ∃ p, p < k ∧ gcube.getD p 0 = 2 ∧ (∀ i, p < i → i < k → gcube.getD i 0 ≠ 2)
              ∧ ∀ i, (increment_cube_loop gcube k cube 0).getD i 0
                  = if i = p then 1 else cube.getD i 0) := by
  intro k
  induction k with
  | zero =>
    intro cube _ _
    exact ⟨by simp [increment_cube_loop], Or.inl ⟨fun i hi => by omega, fun i => by
      simp [increment_cube_loop]⟩⟩
  | succ k ih =>
    intro cube hk hz
    by_cases hd : gcube.getD k 0 = 2
    · have hk0 := hz k (by omega) hd
      rw [increment_loop_dc gcube k cube 0 hd (by omega) (by omega) (by omega)]
      rw [if_neg (by omega)]
      refine ⟨by simp, Or.inr ⟨k, by omega, hd, fun i h1 h2 => by omega, fun i => ?_⟩⟩
      rw [getD_set_nat]
      by_cases hik : k = i
      · subst hik
        have : k < cube.length := by omega
        simp [this]
      · have : ¬ i = k := fun h => hik h.symm
        simp [hik, this]
    · rw [increment_loop_skip gcube k cube 0 hd]
      obtain ⟨h1, h2⟩ := ih cube (by omega) (fun i hi => hz i (by omega))
      refine ⟨h1, ?_⟩
      rcases h2 with ⟨h3, h4⟩ | ⟨p, hp, hdp, hno, hval⟩
      · left
        refine ⟨fun i hi => ?_, h4⟩
        rcases Nat.lt_succ_iff_lt_or_eq.mp hi with h | h
        · exact h3 i h
        · subst h; exact hd
      · right
        refine ⟨p, by omega, hdp, fun i h5 h6 => ?_, hval⟩
        rcases Nat.lt_succ_iff_lt_or_eq.mp h6 with h | h
        · exact hno i h5 h
        · subst h; exact hd

/-- From a cube whose last don't-care position `p` holds 1 and whose other
don't-care positions hold 0, the loop of `increment_cube` sets every
don't-care position to 1. -/
theorem increment_loop_mid (gcube : List Int) (p : Nat) (hdp : gcube.getD p 0 = 2) :
    ∀ (k : Nat) (cube : List Nat), p < k → k ≤ cube.length →
      cube.getD p 0 = 1 →
      (∀ i, p < i → i < k → gcube.getD i 0 ≠ 2) →
      (∀ i, i < p → gcube.getD i 0 = 2 → cube.getD i 0 = 0) →
      (increment_cube_loop gcube k cube 0).length = cube.length
      ∧ ∀ i, (increment_cube_loop gcube k cube 0).getD i 0
          = if i < p ∧ gcube.getD i 0 = 2 then 1 else cube.getD i 0 := by
  intro k
  induction k with
  | zero => intro cube hp; omega
  | succ k ih =>
    intro cube hp hk hone hno hz
    by_cases hkp : k = p
    · subst hkp
      rw [increment_loop_dc gcube k cube 0 hdp (by omega) (by omega) (by omega)]
      rw [if_pos (by omega), hone]
      have hpre : ∀ i, i < k → gcube.getD i 0 = 2 → (cube.set k (1 + 0)).getD i 0 = 0 := by
        intro i hi hdi
        rw [getD_set_nat]
        have : ¬ (k = i ∧ k < cube.length) := by omega
        rw [if_neg this]
        exact hz i hi hdi
      obtain ⟨h1, h2⟩ := increment_loop_carry gcube k (cube.set k (1 + 0)) (by simp; omega) hpre
      refine ⟨by rw [h1]; simp, fun i => ?_⟩
      rw [h2 i, getD_set_nat]
      by_cases hik : k = i
      · subst hik
        have hlt : k < cube.length := by omega
        rw [if_neg (fun h => absurd h.1 (Nat.lt_irrefl k)), if_pos ⟨rfl, hlt⟩,
          if_neg (fun h => absurd h.1 (Nat.lt_irrefl k)), hone]
      · simp only [hik, false_and, if_false]
    · have hd : gcube.getD k 0 ≠ 2 := hno k (by omega) (by omega)
      rw [increment_loop_skip gcube k cube 0 hd]
      exact ih cube (by omega) (by omega) hone (fun i h1 h2 => hno i h1 (by omega)) hz

theorem saturated_cube_iff (cube : List Nat) (gcube : List Int) (len : Nat) :
    saturated_cube cube gcube len = true
      ↔ ∀ i, i < len → gcube.getD i 0 = 2 → cube.getD i 0 ≠ 0 := by
  simp only [saturated_cube, List.all_eq_true, List.mem_range, Bool.not_eq_true',
    Bool.and_eq_false_imp, decide_eq_true_eq, decide_eq_false_iff_not]

theorem enumerate_loop_succ (gcube : List Int) (len fuel : Nat) (state : List Nat)
    (out : List (List Nat)) :
    enumerate_loop gcube len (fuel + 1) state out
      = if saturated_cube state gcube len = true then some (out ++ [state])
        else enumerate_loop gcube len fuel (increment_cube state gcube len) (out ++ [state]) := by
  simp only [enumerate_loop]
  cases saturated_cube state gcube len <;> simp

/-- The enumeration of a cube ends after at most two increments, and every
vector it emits expands the cube: it emits the vector with 0 at every
don't-care position, then (if there is a don't-care position) the vector with
1 at the last one, then (if there is another one) the vector with 1 at all of
them. -/
theorem enumerate_cube_sound (gcube : List Int) (len d : Nat) (state : List Nat)
    (hlen : state.length = len) :
    ∃ out, enumerate_cube (3 + d) state gcube len = some out
      ∧ out ≠ [] ∧ out.length ≤ 3 ∧ ∀ v, v ∈ out → ExpandsCube gcube len v := by
  have hS0len := initialize_cube_length state gcube len
  have hS0 : ∀ i, i < len → (initialize_cube state gcube len).getD i 0
      = if gcube.getD i 0 = 2 then 0 else to_uchar (gcube.getD i 0) := by
    intro i hi
    rw [initialize_cube_getD, if_pos ⟨hi, by omega⟩]
  have hE0 : ExpandsCube gcube len (initialize_cube state gcube len) := by
    refine ⟨by omega, fun i hi => ⟨fun h => ?_, fun h => ?_⟩⟩
    · rw [hS0 i hi, if_pos h]; omega
    · rw [hS0 i hi, if_neg h]
  have hfuel : 3 + d = (d + 1) + 1 + 1 := by omega
  unfold enumerate_cube
  rw [hfuel, enumerate_loop_succ]
  by_cases hs0 : saturated_cube (initialize_cube state gcube len) gcube len = true
  · rw [if_pos hs0]
    refine ⟨_, rfl, by simp, by simp, ?_⟩
    intro v hv
    simp only [List.nil_append, List.mem_singleton] at hv
    rw [hv]; exact hE0
  · rw [if_neg hs0, enumerate_loop_succ]
    have hz : ∀ i, i < len → gcube.getD i 0 = 2 →
        (initialize_cube state gcube len).getD i 0 = 0 := by
      intro i hi h; rw [hS0 i hi, if_pos h]
    obtain ⟨hl1, hcase⟩ := increment_loop_zero gcube len (initialize_cube state gcube len)
      (by omega) hz
    have hnot : ¬ ∀ i, i < len → gcube.getD i 0 ≠ 2 := by
      intro hall
      apply hs0
      rw [saturated_cube_iff]
      intro i hi h
      exact absurd h (hall i hi)
    rcases hcase with ⟨hall, _⟩ | ⟨p, hp, hdp, hno, hval⟩
    · exact absurd hall hnot
    · have hE1 : ExpandsCube gcube len
          (increment_cube (initialize_cube state gcube len) gcube len) := by
        refine ⟨by unfold increment_cube; omega, fun i hi => ⟨fun h => ?_, fun h => ?_⟩⟩
        · unfold increment_cube
          rw [hval i]
          split
          · omega
          · rw [hz i hi h]; omega
        · unfold increment_cube
          rw [hval i]
          have : i ≠ p := by rintro rfl; exact h hdp
          rw [if_neg this, hS0 i hi, if_neg h]
      by_cases hs1 : saturated_cube (increment_cube (initialize_cube state gcube len) gcube len)
          gcube len = true
      · rw [if_pos hs1]
        refine ⟨_, rfl, by simp, by simp, ?_⟩
        intro v hv
        simp only [List.nil_append, List.cons_append, List.mem_cons, List.mem_singleton,
          List.not_mem_nil, or_false] at hv
        rcases hv with hv | hv
        · rw [hv]; exact hE0
        · rw [hv]; exact hE1
      · rw [if_neg hs1, enumerate_loop_succ]
        have hl1' : (increment_cube (initialize_cube state gcube len) gcube len).length
            = (initialize_cube state gcube len).length := hl1
        have hmid := increment_loop_mid gcube p hdp len
          (increment_cube (initialize_cube state gcube len) gcube len) hp (by omega)
          (by unfold increment_cube; rw [hval p, if_pos rfl]) hno
          (fun i hi h => by
            unfold increment_cube
            rw [hval i, if_neg (by omega), hz i (by omega) h])
        obtain ⟨hl2, hval2⟩ := hmid
        have hval2' : ∀ i, (increment_cube
            (increment_cube (initialize_cube state gcube len) gcube len) gcube len).getD i 0
            = if i < p ∧ gcube.getD i 0 = 2 then 1
              else (increment_cube (initialize_cube state gcube len) gcube len).getD i 0 := hval2
        have hl2' : (increment_cube
            (increment_cube (initialize_cube state gcube len) gcube len) gcube len).length
            = (increment_cube (initialize_cube state gcube len) gcube len).length := hl2
        have hone : ∀ i, i < len → gcube.getD i 0 = 2 → (increment_cube
            (increment_cube (initialize_cube state gcube len) gcube len) gcube len).getD i 0
            = 1 := by
          intro i hi h
          rw [hval2' i]
          by_cases hip : i < p
          · rw [if_pos ⟨hip, h⟩]
          · rw [if_neg (fun hc => hip hc.1)]
            have : i = p := by
              by_contra hne
              exact hno i (by omega) hi h
            unfold increment_cube
            rw [hval i, if_pos this]
        have hE2 : ExpandsCube gcube len (increment_cube
            (increment_cube (initialize_cube state gcube len) gcube len) gcube len) := by
          refine ⟨by omega, fun i hi => ⟨fun h => ?_, fun h => ?_⟩⟩
          · rw [hone i hi h]
          · rw [hval2' i, if_neg (fun hc => h hc.2)]
            exact (hE1.2 i hi).2 h
        have hs2 : saturated_cube (increment_cube
            (increment_cube (initialize_cube state gcube len) gcube len) gcube len) gcube len
            = true := by
          rw [saturated_cube_iff]
          intro i hi h
          rw [hone i hi h]; omega
        rw [if_pos hs2]
        refine ⟨_, rfl, by simp, by simp, ?_⟩
        intro v hv
        simp only [List.nil_append, List.cons_append, List.mem_cons, List.mem_singleton,
          List.not_mem_nil, or_false] at hv
        rcases hv with hv | hv | hv
        · rw [hv]; exact hE0
        · rw [hv]; exact hE1
        · rw [hv]; exact hE2

/-! ## Theorems: cofactors by cube arrays -/

theorem cube_array_eval {n : Nat} (c : List Int) (a : Fin n → Bool) :
    (Cudd_CubeArrayToBdd c : Pred n) a = true
      ↔ ∀ i : Fin n, (c.getD i.val 2 = 1 → a i = true) ∧ (c.getD i.val 2 = 0 → a i = false) := by
  simp only [Cudd_CubeArrayToBdd, decide_eq_true_eq]

/-- The assignment that sets exactly the variables on which the cube array
holds 1 satisfies the cube. -/
theorem cube_array_sat {n : Nat} (c : List Int) :
    (Cudd_CubeArrayToBdd c : Pred n) (fun i => decide (c.getD i.val 2 = 1)) = true := by
  rw [cube_array_eval]
  intro i
  constructor
  · intro h; exact decide_eq_true h
  · intro h
    apply decide_eq_false
    rw [h]; decide

theorem in_support_cube_array {n : Nat} (c : List Int) (i : Fin n) :
    in_support (Cudd_CubeArrayToBdd c : Pred n) i = true
      ↔ (c.getD i.val 2 = 1 ∨ c.getD i.val 2 = 0) := by
  constructor
  · intro h
    by_contra hne
    push_neg at hne
    simp only [in_support, decide_eq_true_eq] at h
    obtain ⟨a, ha⟩ := h
    apply ha
    apply Bool.eq_iff_iff.mpr
    rw [cube_array_eval, cube_array_eval]
    constructor
    · intro h j
      by_cases hji : j = i
      · subst hji
        exact ⟨fun h1 => absurd h1 hne.1, fun h0 => absurd h0 hne.2⟩
      · rw [Function.update_noteq hji]; exact h j
    · intro h j
      by_cases hji : j = i
      · subst hji
        exact ⟨fun h1 => absurd h1 hne.1, fun h0 => absurd h0 hne.2⟩
      · have := h j
        rwa [Function.update_noteq hji] at this
  · intro h
    simp only [in_support, decide_eq_true_eq]
    refine ⟨fun j => decide (c.getD j.val 2 = 1), ?_⟩
    rw [cube_array_sat]
    intro hc
    have hc' := hc.symm
    rw [cube_array_eval] at hc'
    have hi := hc' i
    rw [Function.update_same] at hi
    rcases h with h | h
    · have h2 : (!decide (c.getD i.val 2 = 1)) = true := hi.1 h
      rw [decide_eq_true h] at h2
      exact absurd h2 (by decide)
    · have h2 : (!decide (c.getD i.val 2 = 1)) = false := hi.2 h
      have h1 : ¬ c.getD i.val 2 = 1 := by rw [h]; decide
      rw [decide_eq_false h1] at h2
      exact absurd h2 (by decide)

theorem cube_value_cube_array {n : Nat} (c : List Int) (i : Fin n) :
    (c.getD i.val 2 = 1 → cube_value (Cudd_CubeArrayToBdd c : Pred n) i = true)
    ∧ (c.getD i.val 2 = 0 → cube_value (Cudd_CubeArrayToBdd c : Pred n) i = false) := by
  constructor
  · intro h
    simp only [cube_value, decide_eq_true_eq]
    exact ⟨_, cube_array_sat c, decide_eq_true h⟩
  · intro h
    simp only [cube_value, decide_eq_false_iff_not]
    rintro ⟨b, hb, hbi⟩
    rw [cube_array_eval] at hb
    have := (hb i).2 h
    rw [this] at hbi
    exact Bool.false_ne_true hbi

/-- The cofactor by the cube of a cube array fixes the variables on which the
array holds 0 or 1 and leaves the others free. -/
theorem cofactor_cube_array {n : Nat} (f : Pred n) (c : List Int) (a : Fin n → Bool) :
    Cudd_Cofactor f (Cudd_CubeArrayToBdd c) a
      = f (fun i => if c.getD i.val 2 = 1 then true
                    else if c.getD i.val 2 = 0 then false else a i) := by
  unfold Cudd_Cofactor
  congr 1
  funext i
  by_cases h1 : c.getD i.val 2 = 1
  · rw [if_pos ((in_support_cube_array c i).mpr (Or.inl h1)), if_pos h1]
    exact (cube_value_cube_array c i).1 h1
  · by_cases h0 : c.getD i.val 2 = 0
    · rw [if_pos ((in_support_cube_array c i).mpr (Or.inr h0)), if_neg h1, if_pos h0]
      exact (cube_value_cube_array c i).2 h0
    · have : ¬ in_support (Cudd_CubeArrayToBdd c : Pred n) i = true := by
        rw [in_support_cube_array]; push_neg; exact ⟨h1, h0⟩
      rw [if_neg this, if_neg h1, if_neg h0]

theorem state2cof_cube_getD (cube_len : Nat) (state : List Nat) (offset len i : Nat) :
    (state2cof_cube cube_len state offset len).getD i 2
      = if i < cube_len ∧ offset ≤ i ∧ i < offset + len then Int.ofNat (state.getD (i - offset) 0)
        else 2 := by
  unfold state2cof_cube
  by_cases hi : i < cube_len
  · rw [List.getD_eq_getElem _ _ (by simpa using hi)]
    simp only [List.getElem_map, List.getElem_range, hi, true_and]
  · rw [List.getD_eq_default _ _ (by simpa using hi)]
    simp [hi]

/-- The function `state2cof` fixes the variables `offset, ..., offset + len - 1`
(as far as the cube buffer reaches) to the entries of a state vector. -/
theorem state2cof_eval {n : Nat} (cube_len : Nat) (state : List Nat) (trans : Pred n)
    (offset len : Nat) (hs : ∀ i, i < len → state.getD i 0 ≤ 1) (a : Fin n → Bool) :
    state2cof cube_len state trans offset len a
      = trans (fun i => if i.val < cube_len ∧ offset ≤ i.val ∧ i.val < offset + len then
                          decide (state.getD (i.val - offset) 0 ≠ 0)
                        else a i) := by
  unfold state2cof
  rw [cofactor_cube_array]
  congr 1
  funext i
  rw [state2cof_cube_getD]
  by_cases h : i.val < cube_len ∧ offset ≤ i.val ∧ i.val < offset + len
  · rw [if_pos h, if_pos h]
    have hle := hs (i.val - offset) (by omega)
    rcases Nat.le_one_iff_eq_zero_or_eq_one.mp hle with h0 | h1
    · rw [h0]; rfl
    · rw [h1]; rfl
  · rw [if_neg h, if_neg h]
    rfl

/-! ## Theorems: mode advancement -/

theorem level_scan_spec {n : Nat} (Y_mode : List (Pred n)) (cube : List Int) :
    ∀ j0 : Nat,
      (level_scan Y_mode cube j0 = 0
        ∧ ∀ i, 1 ≤ i → i ≤ j0 → Cudd_Eval (Y_mode.getD i (Cudd_ReadOne n)) cube = true)
      ∨ ∃ f, 1 ≤ f ∧ f ≤ j0 ∧ level_scan Y_mode cube j0 = f + 1
          ∧ Cudd_Eval (Y_mode.getD f (Cudd_ReadOne n)) cube = false
          ∧ ∀ i, f < i → i ≤ j0 → Cudd_Eval (Y_mode.getD i (Cudd_ReadOne n)) cube = true := by
  intro j0
  induction j0 with
  | zero => exact Or.inl ⟨rfl, fun i h1 h2 => by omega⟩
  | succ j ih =>
    cases he : Cudd_Eval (Y_mode.getD (j + 1) (Cudd_ReadOne n)) cube with
    | false =>
      right
      refine ⟨j + 1, by omega, by omega, ?_, he, fun i h1 h2 => by omega⟩
      simp only [level_scan, he, Bool.not_false, if_true]
    | true =>
      have hstep : level_scan Y_mode cube (j + 1) = level_scan Y_mode cube j := by
        simp only [level_scan, he, Bool.not_true]
        simp
      rw [hstep]
      rcases ih with ⟨h0, hall⟩ | ⟨f, hf1, hf2, hf3, hf4, hf5⟩
      · left
        refine ⟨h0, fun i h1 h2 => ?_⟩
        rcases Nat.lt_or_ge i (j + 1) with h | h
        · exact hall i h1 (by omega)
        · have : i = j + 1 := by omega
          rw [this]; exact he
      · right
        refine ⟨f, hf1, by omega, hf3, hf4, fun i h1 h2 => ?_⟩
        rcases Nat.lt_or_ge i (j + 1) with h | h
        · exact hf5 i h1 (by omega)
        · have : i = j + 1 := by omega
          rw [this]; exact he

/-- A pass of the mode-advancement body over a mode all of whose levels
contain the state: `j` ends at 0, the mode moves on to the next goal, and the
pass does not end with `break`. -/
theorem mode_pass_all {n : Nat} (ctx : SynthCtx n) (cube : List Int) (mode : Nat)
    (hall : ∀ i, i < (ctx.Y.getD mode []).length →
      Cudd_Eval ((ctx.Y.getD mode []).getD i (Cudd_ReadOne n)) cube = true)
    (hpos : 0 < (ctx.Y.getD mode []).length) :
    mode_pass ctx cube mode = (0, if mode + 1 = ctx.num_sgoals then 0 else mode + 1, false) := by
  have hscan : level_scan (ctx.Y.getD mode []) cube ((ctx.Y.getD mode []).length - 1) = 0 := by
    rcases level_scan_spec (ctx.Y.getD mode []) cube ((ctx.Y.getD mode []).length - 1) with
      ⟨h0, _⟩ | ⟨f, hf1, hf2, _, hf4, _⟩
    · exact h0
    · rw [hall f (by omega)] at hf4
      exact absurd hf4 (by decide)
  simp only [mode_pass, hscan, if_true, hall 0 hpos, Bool.not_true]
  simp

/-- A pass of the mode-advancement body over a mode one of whose levels does
not contain the state: the pass ends with `break`, the mode is kept, and `j`
is one more than the index of the highest such level. -/
theorem mode_pass_some {n : Nat} (ctx : SynthCtx n) (cube : List Int) (mode : Nat)
    (f : Nat) (hf : f < (ctx.Y.getD mode []).length)
    (hfalse : Cudd_Eval ((ctx.Y.getD mode []).getD f (Cudd_ReadOne n)) cube = false)
    (habove : ∀ i, f < i → i < (ctx.Y.getD mode []).length →
      Cudd_Eval ((ctx.Y.getD mode []).getD i (Cudd_ReadOne n)) cube = true) :
    mode_pass ctx cube mode = (f + 1, mode, true) := by
  rcases level_scan_spec (ctx.Y.getD mode []) cube ((ctx.Y.getD mode []).length - 1) with
    ⟨h0, hall⟩ | ⟨g, hg1, hg2, hg3, hg4, hg5⟩
  · have hf0 : f = 0 := by
      by_contra hne
      rw [hall f (by omega) (by omega)] at hfalse
      exact absurd hfalse (by decide)
    subst hf0
    simp only [mode_pass, h0, if_true, hfalse, Bool.not_false]
  · have hfg : f = g := by
      rcases Nat.lt_trichotomy f g with h | h | h
      · rw [habove g h (by omega)] at hg4
        exact absurd hg4 (by decide)
      · exact h
      · rw [hg5 f h (by omega)] at hfalse
        exact absurd hfalse (by decide)
    subst hfg
    have hne : ¬ f + 1 = 0 := by omega
    simp only [mode_pass, hg3, hne, if_false]

/-- The other direction: the result of a pass tells which of the two cases
held. -/
theorem mode_pass_break {n : Nat} (ctx : SynthCtx n) (cube : List Int) (mode j m : Nat)
    (hpos : 0 < (ctx.Y.getD mode []).length)
    (h : mode_pass ctx cube mode = (j, m, true)) :
    m = mode ∧ 1 ≤ j ∧ j ≤ (ctx.Y.getD mode []).length
      ∧ Cudd_Eval ((ctx.Y.getD mode []).getD (j - 1) (Cudd_ReadOne n)) cube = false
      ∧ ∀ i, j ≤ i → i < (ctx.Y.getD mode []).length →
          Cudd_Eval ((ctx.Y.getD mode []).getD i (Cudd_ReadOne n)) cube = true := by
  by_cases hall : ∀ i, i < (ctx.Y.getD mode []).length →
      Cudd_Eval ((ctx.Y.getD mode []).getD i (Cudd_ReadOne n)) cube = true
  · rw [mode_pass_all ctx cube mode hall hpos] at h
    simp at h
  · -- take the highest level that does not contain the state
    have hex : ∃ f, f < (ctx.Y.getD mode []).length
        ∧ Cudd_Eval ((ctx.Y.getD mode []).getD f (Cudd_ReadOne n)) cube = false
        ∧ ∀ i, f < i → i < (ctx.Y.getD mode []).length →
            Cudd_Eval ((ctx.Y.getD mode []).getD i (Cudd_ReadOne n)) cube = true := by
      rcases level_scan_spec (ctx.Y.getD mode []) cube ((ctx.Y.getD mode []).length - 1) with
        ⟨_, hall2⟩ | ⟨g, hg1, hg2, _, hg4, hg5⟩
      · refine ⟨0, hpos, ?_, fun i h1 h2 => hall2 i (by omega) (by omega)⟩
        by_contra h0
        apply hall
        intro i hi
        rcases Nat.eq_zero_or_pos i with hi0 | hi0
        · rw [hi0]; simpa using h0
        · exact hall2 i hi0 (by omega)
      · exact ⟨g, by omega, hg4, fun i h1 h2 => hg5 i h1 (by omega)⟩
    obtain ⟨f, hf, hfalse, habove⟩ := hex
    rw [mode_pass_some ctx cube mode f hf hfalse habove] at h
    have hj : f + 1 = j := (Prod.mk.inj h).1
    have hm : mode = m := (Prod.mk.inj (Prod.mk.inj h).2).1
    subst hj
    refine ⟨hm.symm, by omega, by omega, by simpa using hfalse, fun i h1 h2 => habove i (by omega) h2⟩

theorem mode_pass_mode {n : Nat} (ctx : SynthCtx n) (cube : List Int) (mode j m : Nat) (b : Bool)
    (h : mode_pass ctx cube mode = (j, m, b)) :
    (b = true → m = mode)
    ∧ (b = false → j = 0 ∧ m = (if mode + 1 = ctx.num_sgoals then 0 else mode + 1)
        ∧ Cudd_Eval ((ctx.Y.getD mode []).getD 0 (Cudd_ReadOne n)) cube = true) := by
  unfold mode_pass at h
  simp only at h
  split at h
  · rename_i h0
    split at h
    · have h1 := (Prod.mk.inj (Prod.mk.inj h).2)
      refine ⟨fun _ => h1.1.symm, fun hb => ?_⟩
      rw [hb] at h1
      exact absurd h1.2 (by decide)
    · rename_i he
      have h1 := (Prod.mk.inj (Prod.mk.inj h).2)
      refine ⟨fun hb => ?_, fun _ => ⟨?_, h1.1.symm, by simpa using he⟩⟩
      · rw [hb] at h1
        exact absurd h1.2 (by decide)
      · rw [← (Prod.mk.inj h).1]; exact h0
  · have h1 := (Prod.mk.inj (Prod.mk.inj h).2)
    refine ⟨fun _ => h1.1.symm, fun hb => ?_⟩
    rw [hb] at h1
    exact absurd h1.2 (by decide)

theorem mode_loop_succ {n : Nat} (ctx : SynthCtx n) (cube : List Int) (loop_mode fuel mode : Nat) :
    mode_loop ctx cube loop_mode (fuel + 1) mode
      = if (mode_pass ctx cube mode).2.2 = true then
          some ((mode_pass ctx cube mode).1, (mode_pass ctx cube mode).2.1)
        else if loop_mode ≠ (mode_pass ctx cube mode).2.1 then
          mode_loop ctx cube loop_mode fuel (mode_pass ctx cube mode).2.1
        else some ((mode_pass ctx cube mode).1, (mode_pass ctx cube mode).2.1) := by
  rcases hp : mode_pass ctx cube mode with ⟨j, m, b⟩
  cases b <;> simp [mode_loop, hp]

/-- The mode-advancement loop ends within `num_sgoals` passes when the modes
are in range. -/
theorem mode_loop_terminates {n : Nat} (ctx : SynthCtx n) (cube : List Int) (loop_mode : Nat)
    (hl : loop_mode < ctx.num_sgoals) :
    ∀ (fuel mode : Nat), mode < ctx.num_sgoals →
      (if mode < loop_mode then loop_mode - mode else loop_mode + ctx.num_sgoals - mode) ≤ fuel →
      ∃ r, mode_loop ctx cube loop_mode fuel mode = some r := by
  intro fuel
  induction fuel with
  | zero =>
    intro mode hm hrem
    split at hrem <;> omega
  | succ fuel ih =>
    intro mode hm hrem
    rw [mode_loop_succ]
    rcases hp : mode_pass ctx cube mode with ⟨j, m, b⟩
    cases b with
    | true => exact ⟨(j, m), by simp⟩
    | false =>
      have hm1 := ((mode_pass_mode ctx cube mode j m false hp).2 rfl).2.1
      simp only [Bool.false_eq_true, if_false]
      by_cases hne : loop_mode ≠ m
      · rw [if_pos hne]
        apply ih m
        · rw [hm1]; split <;> omega
        · by_cases hw : mode + 1 = ctx.num_sgoals
          · rw [if_pos hw] at hm1
            subst hm1
            have h0 : 0 < loop_mode := by omega
            rw [if_pos h0]
            split at hrem <;> omega
          · rw [if_neg hw] at hm1
            subst hm1
            split at hrem <;> split <;> omega
      · rw [if_neg hne]
        exact ⟨(j, m), rfl⟩

theorem mode_loop_result {n : Nat} (ctx : SynthCtx n) (cube : List Int) (loop_mode : Nat) :
    ∀ (fuel mode j m : Nat), mode_loop ctx cube loop_mode fuel mode = some (j, m) →
      (j = 0 ∧ m = loop_mode) ∨ ∃ mode1, mode_pass ctx cube mode1 = (j, m, true) := by
  intro fuel
  induction fuel with
  | zero => intro mode j m h; simp [mode_loop] at h
  | succ fuel ih =>
    intro mode j m h
    rw [mode_loop_succ] at h
    rcases hp : mode_pass ctx cube mode with ⟨j1, m1, b⟩
    rw [hp] at h
    cases b with
    | true =>
      simp only [if_true] at h
      have := Option.some.inj h
      right
      refine ⟨mode, ?_⟩
      rw [hp, ← (Prod.mk.inj this).1, ← (Prod.mk.inj this).2]
    | false =>
      simp only [Bool.false_eq_true, if_false] at h
      by_cases hne : loop_mode ≠ m1
      · rw [if_pos hne] at h
        exact ih m1 j m h
      · rw [if_neg hne] at h
        have := Option.some.inj h
        left
        have hj := ((mode_pass_mode ctx cube mode j1 m1 false hp).2 rfl).1
        refine ⟨by rw [← (Prod.mk.inj this).1]; exact hj, ?_⟩
        rw [← (Prod.mk.inj this).2]
        exact (not_not.mp hne).symm

theorem next_mode_eq_mod (mode ns : Nat) (hm : mode < ns) :
    (if mode + 1 = ns then 0 else mode + 1) = (mode + 1) % ns := by
  split
  · rename_i h; rw [h, Nat.mod_self]
  · rw [Nat.mod_eq_of_lt (by omega)]

theorem nested_eval {n : Nat} (Y_mode : List (Pred n)) (cube : List Int)
    (hnested : ∀ k, k + 1 < Y_mode.length →
      PredLe (Y_mode.getD k (Cudd_ReadOne n)) (Y_mode.getD (k + 1) (Cudd_ReadOne n))) :
    ∀ d i, i + d < Y_mode.length →
      Cudd_Eval (Y_mode.getD i (Cudd_ReadOne n)) cube = true →
      Cudd_Eval (Y_mode.getD (i + d) (Cudd_ReadOne n)) cube = true := by
  intro d
  induction d with
  | zero => intro i _ h; exact h
  | succ d ih =>
    intro i hi h
    have h1 := ih i (by omega) h
    exact hnested (i + d) (by omega) _ h1

theorem mode_pass_empty {n : Nat} (ctx : SynthCtx n) (cube : List Int) (mode : Nat)
    (h0 : (ctx.Y.getD mode []).length = 0) :
    (mode_pass ctx cube mode).2.2 = false := by
  have hnil : ctx.Y.getD mode [] = [] := List.length_eq_zero.mp h0
  simp only [mode_pass, hnil, List.length_nil, level_scan, if_true]
  rfl

theorem highest_false (L : Nat) (E : Nat → Bool) :
    (∃ i, i < L ∧ E i = false) →
      ∃ f, f < L ∧ E f = false ∧ ∀ i, f < i → i < L → E i = true := by
  induction L with
  | zero => rintro ⟨i, hi, _⟩; omega
  | succ L ih =>
    rintro ⟨i, hi, hf⟩
    cases he : E L with
    | false => exact ⟨L, by omega, he, fun i h1 h2 => by omega⟩
    | true =>
      have hiL : i < L := by
        rcases Nat.lt_succ_iff_lt_or_eq.mp hi with h | h
        · exact h
        · rw [h, he] at hf; exact Bool.noConfusion hf
      obtain ⟨f, hfL, hff, hfa⟩ := ih ⟨i, hiL, hf⟩
      refine ⟨f, by omega, hff, fun k h1 h2 => ?_⟩
      rcases Nat.lt_succ_iff_lt_or_eq.mp h2 with h | h
      · exact hfa k h1 h
      · rw [h]; exact he

/-- C15: when the mode-advancement loop ends with mode `m` and `j ≥ 1`, the
ladder of `m` is nested and its top level contains the state, then `j` is the
smallest index of a level of `m` that contains the state: level `j` exists and
evaluates to true, and every lower level evaluates to false. -/
theorem smallest_level_selected {n : Nat} (ctx : SynthCtx n) (cube : List Int)
    (loop_mode fuel mode j m : Nat)
    (hrun : mode_loop ctx cube loop_mode fuel mode = some (j, m))
    (hnested : ∀ k, k + 1 < (ctx.Y.getD m []).length →
      PredLe ((ctx.Y.getD m []).getD k (Cudd_ReadOne n))
        ((ctx.Y.getD m []).getD (k + 1) (Cudd_ReadOne n)))
    (htop : Cudd_Eval ((ctx.Y.getD m []).getD ((ctx.Y.getD m []).length - 1) (Cudd_ReadOne n))
      cube = true)
    (hj : 1 ≤ j) :
    j < (ctx.Y.getD m []).length
      ∧ Cudd_Eval ((ctx.Y.getD m []).getD j (Cudd_ReadOne n)) cube = true
      ∧ ∀ i, i < j → Cudd_Eval ((ctx.Y.getD m []).getD i (Cudd_ReadOne n)) cube = false := by
  rcases mode_loop_result ctx cube loop_mode fuel mode j m hrun with ⟨h0, _⟩ | ⟨mode1, hp⟩
  · omega
  · have hm := (mode_pass_mode ctx cube mode1 j m true hp).1 rfl
    subst hm
    have hpos : 0 < (ctx.Y.getD m []).length := by
      by_contra hz
      have := mode_pass_empty ctx cube m (by omega)
      rw [hp] at this
      exact Bool.noConfusion this
    obtain ⟨_, h1, h2, h3, h4⟩ := mode_pass_break ctx cube m j m hpos hp
    have hlt : j < (ctx.Y.getD m []).length := by
      rcases Nat.lt_or_ge j (ctx.Y.getD m []).length with h | h
      · exact h
      · have : j = (ctx.Y.getD m []).length := by omega
        rw [this, htop] at h3
        exact absurd h3 (by decide)
    refine ⟨hlt, h4 j (Nat.le_refl j) hlt, fun i hi => ?_⟩
    cases he : Cudd_Eval ((ctx.Y.getD m []).getD i (Cudd_ReadOne n)) cube with
    | false => rfl
    | true =>
      have := nested_eval (ctx.Y.getD m []) cube hnested (j - 1 - i) i (by omega) he
      have hidx : i + (j - 1 - i) = j - 1 := by omega
      rw [hidx, h3] at this
      exact absurd this (by decide)

/-- Worked instance of C15: the two goals `a`, `¬a` with ladders `[a, true]`
and `[¬a, true]`, and the state `a = 1` popped with mode 0. The loop ends with
mode 1 and `j = 1`. -/
theorem smallest_level_selected_witness :
    1 < (ex_two_goals.Y.getD 1 []).length
      ∧ Cudd_Eval ((ex_two_goals.Y.getD 1 []).getD 1 (Cudd_ReadOne 2)) (state2cube [1] 1) = true
      ∧ ∀ i, i < 1 →
          Cudd_Eval ((ex_two_goals.Y.getD 1 []).getD i (Cudd_ReadOne 2)) (state2cube [1] 1)
            = false :=
  smallest_level_selected ex_two_goals (state2cube [1] 1) 0 2 0 1 1 (by decide)
    (fun k hk a _ => by
      have hk0 : k = 0 := by
        have : k + 1 < 2 := hk
        omega
      subst hk0
      rfl)
    (by decide) (by decide)

/-- C16 (as stated, refuted): with the goals `a` and `¬a` and the state
`a = 1` popped with mode 0, both levels of mode 0 contain the state, and yet
the pass over mode 0 moves the mode on to 1; the loop ends with mode 1. -/
theorem mode_advanced_inside_levels :
    Cudd_Eval ((ex_two_goals.Y.getD 0 []).getD 0 (Cudd_ReadOne 2)) (state2cube [1] 1) = true
      ∧ Cudd_Eval ((ex_two_goals.Y.getD 0 []).getD 1 (Cudd_ReadOne 2)) (state2cube [1] 1) = true
      ∧ mode_pass ex_two_goals (state2cube [1] 1) 0 = (0, 1, false)
      ∧ mode_loop ex_two_goals (state2cube [1] 1) 0 2 0 = some (1, 1) := by decide

/-- C16 (amended): a pass of the mode-advancement loop moves the mode on to
`(mode + 1) % num_sgoals` exactly when every level of the current mode
evaluates to true on the state; when some level evaluates to false the pass
ends the loop with the mode unchanged and `j ≥ 1`. For a nested ladder every
level evaluates to true exactly when level 0 does. -/
theorem mode_advance_rule {n : Nat} (ctx : SynthCtx n) (cube : List Int) (mode : Nat)
    (hpos : 0 < (ctx.Y.getD mode []).length) (hm : mode < ctx.num_sgoals) :
    ((∀ i, i < (ctx.Y.getD mode []).length →
        Cudd_Eval ((ctx.Y.getD mode []).getD i (Cudd_ReadOne n)) cube = true)
      ↔ mode_pass ctx cube mode = (0, (mode + 1) % ctx.num_sgoals, false))
    ∧ ((∃ i, i < (ctx.Y.getD mode []).length
          ∧ Cudd_Eval ((ctx.Y.getD mode []).getD i (Cudd_ReadOne n)) cube = false)
      ↔ ∃ j, 1 ≤ j ∧ mode_pass ctx cube mode = (j, mode, true))
    ∧ ((∀ k, k + 1 < (ctx.Y.getD mode []).length →
          PredLe ((ctx.Y.getD mode []).getD k (Cudd_ReadOne n))
            ((ctx.Y.getD mode []).getD (k + 1) (Cudd_ReadOne n))) →
        ((∀ i, i < (ctx.Y.getD mode []).length →
            Cudd_Eval ((ctx.Y.getD mode []).getD i (Cudd_ReadOne n)) cube = true)
          ↔ Cudd_Eval ((ctx.Y.getD mode []).getD 0 (Cudd_ReadOne n)) cube = true)) := by
  have hsplit : (∀ i, i < (ctx.Y.getD mode []).length →
        Cudd_Eval ((ctx.Y.getD mode []).getD i (Cudd_ReadOne n)) cube = true)
      ∨ ∃ f, f < (ctx.Y.getD mode []).length
          ∧ Cudd_Eval ((ctx.Y.getD mode []).getD f (Cudd_ReadOne n)) cube = false
          ∧ ∀ i, f < i → i < (ctx.Y.getD mode []).length →
              Cudd_Eval ((ctx.Y.getD mode []).getD i (Cudd_ReadOne n)) cube = true := by
    by_cases hall : ∀ i, i < (ctx.Y.getD mode []).length →
        Cudd_Eval ((ctx.Y.getD mode []).getD i (Cudd_ReadOne n)) cube = true
    · exact Or.inl hall
    · right
      push_neg at hall
      obtain ⟨i, hi, hne⟩ := hall
      exact highest_false _ _ ⟨i, hi, by simpa using hne⟩
  refine ⟨⟨fun hall => ?_, fun hp => ?_⟩, ⟨fun hex => ?_, fun hex => ?_⟩, fun hnested => ?_⟩
  · rw [mode_pass_all ctx cube mode hall hpos, next_mode_eq_mod mode _ hm]
  · rcases hsplit with hall | ⟨f, hf, hff, hfa⟩
    · exact hall
    · rw [mode_pass_some ctx cube mode f hf hff hfa] at hp
      exact Bool.noConfusion (Prod.mk.inj (Prod.mk.inj hp).2).2
  · obtain ⟨f, hf, hff, hfa⟩ := highest_false _ _ hex
    exact ⟨f + 1, by omega, mode_pass_some ctx cube mode f hf hff hfa⟩
  · obtain ⟨j, hj, hp⟩ := hex
    obtain ⟨_, h1, h2, h3, _⟩ := mode_pass_break ctx cube mode j mode hpos hp
    exact ⟨j - 1, by omega, h3⟩
  · constructor
    · intro hall; exact hall 0 hpos
    · intro h0 i hi
      have := nested_eval (ctx.Y.getD mode []) cube hnested i 0 (by omega) h0
      rwa [Nat.zero_add] at this

/-- Worked instance of C16 (amended): mode 0 of `ex_two_goals` and the state
`a = 1`. -/
theorem mode_advance_rule_witness :
    ((∀ i, i < (ex_two_goals.Y.getD 0 []).length →
        Cudd_Eval ((ex_two_goals.Y.getD 0 []).getD i (Cudd_ReadOne 2)) (state2cube [1] 1) = true)
      ↔ mode_pass ex_two_goals (state2cube [1] 1) 0 = (0, (0 + 1) % ex_two_goals.num_sgoals, false))
    ∧ ((∃ i, i < (ex_two_goals.Y.getD 0 []).length
          ∧ Cudd_Eval ((ex_two_goals.Y.getD 0 []).getD i (Cudd_ReadOne 2)) (state2cube [1] 1)
              = false)
      ↔ ∃ j, 1 ≤ j ∧ mode_pass ex_two_goals (state2cube [1] 1) 0 = (j, 0, true))
    ∧ ((∀ k, k + 1 < (ex_two_goals.Y.getD 0 []).length →
          PredLe ((ex_two_goals.Y.getD 0 []).getD k (Cudd_ReadOne 2))
            ((ex_two_goals.Y.getD 0 []).getD (k + 1) (Cudd_ReadOne 2))) →
        ((∀ i, i < (ex_two_goals.Y.getD 0 []).length →
            Cudd_Eval ((ex_two_goals.Y.getD 0 []).getD i (Cudd_ReadOne 2)) (state2cube [1] 1)
              = true)
          ↔ Cudd_Eval ((ex_two_goals.Y.getD 0 []).getD 0 (Cudd_ReadOne 2)) (state2cube [1] 1)
              = true)) :=
  mode_advance_rule ex_two_goals (state2cube [1] 1) 0 (by decide) (by decide)

/-! ## Theorems: a state outside the ladders -/

theorem find_anode_insert_self (addr : Nat) (head : List ANode) (mode : Nat) (state : List Nat) :
    find_anode (insert_anode addr head mode state) mode state
      = some { addr := addr, mode := mode, state := state, trans := [] } := by
  simp [find_anode, insert_anode]

/-- When no level of the current mode contains the popped state, the mode-advancement loop ends after one pass with the mode unchanged
and `j` equal to the number of levels; the strategy commit then leaves a node
for `(mode, state)` in the strategy, and the target of the transitions is the
top level of the ladder. Neither the loop nor the commit has an abort. -/
theorem outside_ladder_no_abort {n : Nat} (ctx : SynthCtx n) (cube : List Int) (mode fuel : Nat)
    (hpos : 0 < (ctx.Y.getD mode []).length)
    (hout : ∀ i, i < (ctx.Y.getD mode []).length →
      Cudd_Eval ((ctx.Y.getD mode []).getD i (Cudd_ReadOne n)) cube = false)
    (strategy : List ANode) (addr : Nat) (state : List Nat) :
    mode_loop ctx cube mode (fuel + 1) mode = some ((ctx.Y.getD mode []).length, mode)
      ∧ (find_anode (commit_node strategy addr mode mode state).1 mode state).isSome = true
      ∧ Y_i_primed ctx mode (ctx.Y.getD mode []).length
          = Cudd_bddVarMap (ctx.num_env + ctx.num_sys)
              ((ctx.Y.getD mode []).getD ((ctx.Y.getD mode []).length - 1) (Cudd_ReadOne n)) := by
  have hp : mode_pass ctx cube mode = ((ctx.Y.getD mode []).length - 1 + 1, mode, true) :=
    mode_pass_some ctx cube mode ((ctx.Y.getD mode []).length - 1) (by omega)
      (hout _ (by omega)) (fun i h1 h2 => by omega)
  have hL : (ctx.Y.getD mode []).length - 1 + 1 = (ctx.Y.getD mode []).length := by omega
  rw [hL] at hp
  refine ⟨?_, ?_, ?_⟩
  · rw [mode_loop_succ, hp]
    simp
  · unfold commit_node
    rw [if_pos rfl]
    cases hfind : find_anode strategy mode state with
    | none => simp only [find_anode_insert_self, Option.isSome_some]
    | some node =>
      simp only
      split <;> simp [hfind]
  · unfold Y_i_primed
    rw [if_neg (by omega)]

/-- Worked instance: the state `(0,0)` of the system `ex_detour`, popped with
mode 0. -/
theorem outside_ladder_no_abort_witness :
    mode_loop ex_detour (state2cube [0, 0] 2) 0 (0 + 1) 0
        = some ((ex_detour.Y.getD 0 []).length, 0)
      ∧ (find_anode (commit_node [] 1 0 0 [0, 0]).1 0 [0, 0]).isSome = true
      ∧ Y_i_primed ex_detour 0 (ex_detour.Y.getD 0 []).length
          = Cudd_bddVarMap (ex_detour.num_env + ex_detour.num_sys)
              ((ex_detour.Y.getD 0 []).getD ((ex_detour.Y.getD 0 []).length - 1)
                (Cudd_ReadOne 4)) :=
  outside_ladder_no_abort ex_detour (state2cube [0, 0] 2) 0 0 (by decide)
    (fun i hi => by
      have hi0 : i = 0 := by
        have : i < 1 := hi
        omega
      subst hi0
      decide)
    [] 1 [0, 0]

/-! ## Theorems: the cube expansion in the builder -/

set_option maxRecDepth 100000 in
/-- C11 (code defect): with two system variables and `env_init ∧ sys_init` the
constant true, the BDD layer yields the single cube `[2,2,2,2]`; the initial
work stack then holds the states `(0,0)`, `(0,1)`, `(1,1)` with mode 0, under
either regime, and not the state `(1,0)`, which satisfies the initial
predicate. -/
theorem initial_stack_misses_state :
    ex_free.cubes (Cudd_bddAnd (Cudd_ReadOne 4) (Cudd_ReadOne 4)) = [[2, 2, 2, 2]]
      ∧ initial_stack 3 ex_free 0 0 (Cudd_ReadOne 4) (Cudd_ReadOne 4)
          = some ([⟨2, 0, [1, 1], []⟩, ⟨1, 0, [0, 1], []⟩, ⟨0, 0, [0, 0], []⟩], 3)
      ∧ initial_stack 3 ex_free 0 1 (Cudd_ReadOne 4) (Cudd_ReadOne 4)
          = some ([⟨2, 0, [1, 1], []⟩, ⟨1, 0, [0, 1], []⟩, ⟨0, 0, [0, 0], []⟩], 3)
      ∧ Cudd_Eval (Cudd_bddAnd (Cudd_bddAnd (Cudd_ReadOne 4) (Cudd_ReadOne 4)) ex_free.W)
          (state2cube [1, 0] 2) = true
      ∧ find_anode [⟨2, 0, [1, 1], []⟩, ⟨1, 0, [0, 1], []⟩, ⟨0, 0, [0, 0], []⟩] 0 [1, 0]
          = none := by
  decide

set_option maxRecDepth 1000000 in
set_option maxHeartbeats 4000000 in
/-- C12 (code defect): with two environment variables, one system variable
and an environment transition predicate that allows every move, the BDD layer
yields the single cube `[2,2,2,2,2,2]` for the admissible environment moves
from the state `(0,0,0)`; `get_env_moves` returns `(0,0)`, `(0,1)`, `(1,1)`
and not the move `(1,0)`, which the transition predicate admits. -/
theorem get_env_moves_misses_move :
    ex_env_free.cubes
        (Cudd_bddExistAbstract (state2cof 6 [0, 0, 0] ex_env_free.etrans 0 3)
          (Cudd_CubeArrayToBdd (cube_prime_sys 2 1))) = [[2, 2, 2, 2, 2, 2]]
      ∧ get_env_moves 3 ex_env_free [0, 0, 0] = some [[0, 0], [0, 1], [1, 1]]
      ∧ Cudd_Eval ex_env_free.etrans [0, 0, 0, 1, 0, 0] = true
      ∧ [1, 0] ∉ [[0, 0], [0, 1], [1, 1]] := by
  decide

/-! ## Theorems: the successor state of an environment move -/

theorem foldl_set_length (e : List Nat) (m : Nat) (s : List Nat) :
    ((List.range m).foldl (fun s i => s.set i (e.getD i 0)) s).length = s.length := by
  induction m with
  | zero => rfl
  | succ m ih =>
    rw [List.range_succ, List.foldl_append, List.foldl_cons, List.foldl_nil, List.length_set, ih]

theorem foldl_set_getD (e : List Nat) (m : Nat) (s : List Nat) (k : Nat) :
    ((List.range m).foldl (fun s i => s.set i (e.getD i 0)) s).getD k 0
      = if k < m ∧ k < s.length then e.getD k 0 else s.getD k 0 := by
  induction m with
  | zero => simp
  | succ m ih =>
    rw [List.range_succ, List.foldl_append, List.foldl_cons, List.foldl_nil, getD_set_nat,
      foldl_set_length, ih]
    by_cases hmk : m = k
    · subst hmk
      by_cases hl : m < s.length
      · rw [if_pos ⟨rfl, hl⟩, if_pos ⟨by omega, hl⟩]
      · rw [if_neg (fun h => hl h.2), if_neg (fun h => hl h.2), if_neg (fun h => hl h.2)]
    · rw [if_neg (fun h => hmk h.1)]
      by_cases h1 : k < m ∧ k < s.length
      · rw [if_pos h1, if_pos ⟨by omega, h1.2⟩]
      · rw [if_neg h1, if_neg (fun h => h1 ⟨by omega, h.2⟩)]

theorem successor_state_length (num_env num_vars : Nat) (gcube : List Int) (env_move : List Nat) :
    (successor_state num_env num_vars gcube env_move).length = num_vars := by
  unfold successor_state
  simp only
  rw [foldl_set_length, initialize_cube_length, List.length_replicate]

theorem take_drop_getD (gcube : List Int) (num_vars k : Nat) (hk : k < num_vars) :
    ((gcube.take (2 * num_vars)).drop num_vars).getD k 0 = gcube.getD (num_vars + k) 0 := by
  simp only [List.getD_eq_getElem?_getD, List.getElem?_drop, List.getElem?_take]
  rw [if_pos (by omega)]

theorem successor_state_getD (num_env num_vars : Nat) (gcube : List Int) (env_move : List Nat)
    (k : Nat) (hk : k < num_vars) :
    (successor_state num_env num_vars gcube env_move).getD k 0
      = if k < num_env then env_move.getD k 0
        else (if gcube.getD (num_vars + k) 0 = 2 then 0
              else to_uchar (gcube.getD (num_vars + k) 0)) := by
  unfold successor_state
  simp only
  rw [foldl_set_getD, initialize_cube_length, List.length_replicate]
  by_cases h : k < num_env
  · rw [if_pos ⟨h, hk⟩, if_pos h]
  · rw [if_neg (fun h2 => h h2.1), if_neg h, initialize_cube_getD, List.length_replicate,
      if_pos ⟨hk, hk⟩, take_drop_getD gcube num_vars k hk]

/-- Swapping the variables with their primed forms exchanges the two states of
an edge. -/
theorem varmap_edge {n : Nat} (num_vars : Nat) (hn : n = 2 * num_vars) (f : Pred n)
    (s s' : List Nat) :
    Cudd_bddVarMap num_vars f (edge_assignment num_vars s s')
      = f (edge_assignment num_vars s' s) := by
  unfold Cudd_bddVarMap
  congr 1
  funext i
  have hi := i.isLt
  unfold swap_primed edge_assignment
  by_cases h : i.val < num_vars
  · rw [dif_pos ⟨h, by omega⟩, if_pos h]
    simp only
    rw [if_neg (by omega), Nat.add_sub_cancel]
  · rw [dif_neg (fun h2 => h h2.1), dif_pos ⟨by omega, by omega⟩, if_neg h]
    simp only
    rw [if_pos (by omega)]

theorem move_cofactor_eval {n : Nat} (ctx : SynthCtx n) (trans : Pred n)
    (state env_move : List Nat)
    (hs : IsStateVector (ctx.num_env + ctx.num_sys) state)
    (he : IsStateVector ctx.num_env env_move) (a : Fin n → Bool) :
    move_cofactor ctx trans state env_move a
      = trans (fun i =>
          if i.val < ctx.num_env + ctx.num_sys then decide (state.getD i.val 0 ≠ 0)
          else if i.val < ctx.num_env + ctx.num_sys + ctx.num_env
              ∧ i.val < 2 * (ctx.num_env + ctx.num_sys) then
            decide (env_move.getD (i.val - (ctx.num_env + ctx.num_sys)) 0 ≠ 0)
          else a i) := by
  unfold move_cofactor
  have hs2 : ∀ i, i < ctx.num_sys + ctx.num_env → state.getD i 0 ≤ 1 :=
    fun i hi => hs.2 i (by omega)
  by_cases hpos : ctx.num_env > 0
  · rw [if_pos hpos, state2cof_eval _ _ _ _ _ he.2, state2cof_eval _ _ _ _ _ hs2]
    congr 1
    funext i
    rw [Nat.add_comm ctx.num_sys ctx.num_env]
    by_cases h1 : i.val < ctx.num_env + ctx.num_sys
    · rw [if_pos ⟨by omega, by omega, by omega⟩, if_pos h1, Nat.sub_zero]
    · rw [if_neg (fun h => h1 (by omega)), if_neg h1]
      by_cases h2 : i.val < ctx.num_env + ctx.num_sys + ctx.num_env
          ∧ i.val < 2 * (ctx.num_env + ctx.num_sys)
      · rw [if_pos ⟨h2.2, by omega, h2.1⟩, if_pos h2]
      · rw [if_neg (fun h => h2 ⟨h.2.2, h.1⟩), if_neg h2]
  · rw [if_neg hpos, state2cof_eval _ _ _ _ _ hs2]
    congr 1
    funext i
    rw [Nat.add_comm ctx.num_sys ctx.num_env]
    by_cases h1 : i.val < ctx.num_env + ctx.num_sys
    · rw [if_pos ⟨by omega, by omega, by omega⟩, if_pos h1, Nat.sub_zero]
    · rw [if_neg (fun h => h1 (by omega)), if_neg h1, if_neg (fun h => by omega)]

/-- The successor read off the first cube of a cofactor by the popped state
and the environment move is a state vector, it carries the environment move,
and the edge from the popped state to it satisfies the cofactored BDD. -/
theorem successor_sound {n : Nat} (ctx : SynthCtx n)
    (hn : n = 2 * (ctx.num_env + ctx.num_sys)) (hc : CubeCover ctx.cubes)
    (trans : Pred n) (state env_move : List Nat)
    (hs : IsStateVector (ctx.num_env + ctx.num_sys) state)
    (he : IsStateVector ctx.num_env env_move)
    (gcube : List Int) (rest : List (List Int))
    (hg : ctx.cubes (move_cofactor ctx trans state env_move) = gcube :: rest) :
    IsStateVector (ctx.num_env + ctx.num_sys)
        (successor_state ctx.num_env (ctx.num_env + ctx.num_sys) gcube env_move)
      ∧ (∀ i, i < ctx.num_env →
          (successor_state ctx.num_env (ctx.num_env + ctx.num_sys) gcube env_move).getD i 0
            = env_move.getD i 0)
      ∧ trans (edge_assignment (ctx.num_env + ctx.num_sys) state
          (successor_state ctx.num_env (ctx.num_env + ctx.num_sys) gcube env_move)) = true := by
  have hmem : gcube ∈ ctx.cubes (move_cofactor ctx trans state env_move) := by
    rw [hg]; exact List.mem_cons_self _ _
  obtain ⟨hlen, hent, himp⟩ := (hc (move_cofactor ctx trans state env_move)).1 gcube hmem
  have hgd : ∀ i, i < n → gcube.getD i 0 = gcube.getD i 2 := by
    intro i hi
    rw [List.getD_eq_getElem _ _ (by omega), List.getD_eq_getElem _ _ (by omega)]
  have hval : ∀ k, k < ctx.num_env + ctx.num_sys →
      (successor_state ctx.num_env (ctx.num_env + ctx.num_sys) gcube env_move).getD k 0
        = if k < ctx.num_env then env_move.getD k 0
          else (if gcube.getD (ctx.num_env + ctx.num_sys + k) 2 = 1 then 1 else 0) := by
    intro k hk
    rw [successor_state_getD _ _ _ _ _ hk, hgd _ (by omega)]
    by_cases hke : k < ctx.num_env
    · rw [if_pos hke, if_pos hke]
    · rw [if_neg hke, if_neg hke]
      rcases hent (ctx.num_env + ctx.num_sys + k) (by omega) with h0 | h1 | h2
      · rw [h0]; rfl
      · rw [h1]; rfl
      · rw [h2]; rfl
  refine ⟨⟨successor_state_length _ _ _ _, fun i hi => ?_⟩, fun i hi => ?_, ?_⟩
  · rw [hval i hi]
    by_cases hke : i < ctx.num_env
    · rw [if_pos hke]; exact he.2 i hke
    · rw [if_neg hke]; split <;> omega
  · rw [hval i (by omega), if_pos hi]
  · have hb := himp _ (cube_array_sat gcube)
    rw [move_cofactor_eval ctx trans state env_move hs he] at hb
    rw [← hb]
    congr 1
    funext i
    have hi := i.isLt
    unfold edge_assignment
    by_cases h1 : i.val < ctx.num_env + ctx.num_sys
    · rw [if_pos h1, if_pos h1]
    · rw [if_neg h1, if_neg h1, hval _ (by omega)]
      have hidx : ctx.num_env + ctx.num_sys + (i.val - (ctx.num_env + ctx.num_sys)) = i.val := by
        omega
      rw [hidx]
      by_cases h2 : i.val < ctx.num_env + ctx.num_sys + ctx.num_env
      · have h3 : i.val - (ctx.num_env + ctx.num_sys) < ctx.num_env := by omega
        have h4 : i.val < ctx.num_env + ctx.num_sys + ctx.num_env
            ∧ i.val < 2 * (ctx.num_env + ctx.num_sys) := ⟨h2, by omega⟩
        rw [if_pos h3, if_pos h4]
      · have h3 : ¬ i.val - (ctx.num_env + ctx.num_sys) < ctx.num_env := by omega
        have h4 : ¬ (i.val < ctx.num_env + ctx.num_sys + ctx.num_env
            ∧ i.val < 2 * (ctx.num_env + ctx.num_sys)) := fun h => h2 h.1
        rw [if_neg h3, if_neg h4]
        by_cases hone : gcube.getD i.val 2 = 1
        · rw [if_pos hone, decide_eq_true hone]; rfl
        · rw [if_neg hone, decide_eq_false hone]; rfl

/-! ## Theorems: the automaton store -/

theorem find_anode_cons (nd : ANode) (head : List ANode) (mode : Nat) (state : List Nat) :
    find_anode (nd :: head) mode state
      = if nd.mode = mode ∧ nd.state = state then some nd else find_anode head mode state := by
  unfold find_anode
  rw [List.find?_cons]
  by_cases h : nd.mode = mode ∧ nd.state = state
  · rw [if_pos h]
    simp [h.1, h.2]
  · rw [if_neg h]
    have : (decide (nd.mode = mode) && decide (nd.state = state)) = false := by
      rw [Bool.and_eq_false_iff]
      by_cases h1 : nd.mode = mode
      · exact Or.inr (decide_eq_false (fun h2 => h ⟨h1, h2⟩))
      · exact Or.inl (decide_eq_false h1)
    rw [this]

theorem find_anode_some (head : List ANode) (mode : Nat) (state : List Nat) (nd : ANode)
    (h : find_anode head mode state = some nd) :
    nd ∈ head ∧ nd.mode = mode ∧ nd.state = state := by
  induction head with
  | nil => simp [find_anode] at h
  | cons x xs ih =>
    rw [find_anode_cons] at h
    by_cases hx : x.mode = mode ∧ x.state = state
    · rw [if_pos hx] at h
      cases h
      exact ⟨List.mem_cons_self _ _, hx⟩
    · rw [if_neg hx] at h
      obtain ⟨h1, h2⟩ := ih h
      exact ⟨List.mem_cons_of_mem _ h1, h2⟩

theorem find_anode_none_iff (head : List ANode) (mode : Nat) (state : List Nat) :
    find_anode head mode state = none ↔ (mode, state) ∉ head.map anode_key := by
  induction head with
  | nil => simp [find_anode]
  | cons x xs ih =>
    rw [find_anode_cons, List.map_cons, List.mem_cons, not_or]
    by_cases hx : x.mode = mode ∧ x.state = state
    · rw [if_pos hx]
      constructor
      · intro h; cases h
      · intro h
        exact absurd (show (mode, state) = anode_key x by
          unfold anode_key; rw [hx.1, hx.2]) h.1
    · rw [if_neg hx, ih]
      constructor
      · intro h
        refine ⟨fun heq => hx ?_, h⟩
        unfold anode_key at heq
        cases heq
        exact ⟨rfl, rfl⟩
      · intro h; exact h.2

/-- A map over the nodes that keeps mode and state commutes with the lookup. -/
theorem find_anode_map (g : ANode → ANode) (hg : ∀ nd, (g nd).mode = nd.mode ∧ (g nd).state = nd.state)
    (head : List ANode) (mode : Nat) (state : List Nat) :
    find_anode (head.map g) mode state = (find_anode head mode state).map g := by
  induction head with
  | nil => rfl
  | cons x xs ih =>
    rw [List.map_cons, find_anode_cons, find_anode_cons, (hg x).1, (hg x).2]
    by_cases hx : x.mode = mode ∧ x.state = state
    · rw [if_pos hx, if_pos hx]; rfl
    · rw [if_neg hx, if_neg hx, ih]

theorem map_key_map (g : ANode → ANode) (hg : ∀ nd, (g nd).mode = nd.mode ∧ (g nd).state = nd.state)
    (head : List ANode) :
    (head.map g).map anode_key = head.map anode_key := by
  rw [List.map_map]
  apply List.map_congr_left
  intro nd _
  show anode_key (g nd) = anode_key nd
  unfold anode_key
  rw [(hg nd).1, (hg nd).2]

/-- A successful `append_anode_trans` changes the nodes one by one, keeping
mode, state and address and the transitions that are there, and the address of
the target node is then among the transitions of the base node. -/
theorem append_anode_trans_spec (head : List ANode) (mode : Nat) (state : List Nat)
    (next_mode : Nat) (next_state : List Nat) (out : List ANode)
    (h : append_anode_trans head mode state next_mode next_state = some out) :
    ∃ g : ANode → ANode, out = head.map g
      ∧ (∀ nd, (g nd).mode = nd.mode ∧ (g nd).state = nd.state ∧ (g nd).addr = nd.addr
          ∧ ∀ t, t ∈ nd.trans → t ∈ (g nd).trans)
      ∧ ∃ base target, find_anode head mode state = some base
          ∧ find_anode head next_mode next_state = some target
          ∧ target.addr ∈ (g base).trans := by
  unfold append_anode_trans at h
  cases hb : find_anode head mode state with
  | none => rw [hb] at h; cases h
  | some base =>
    cases ht : find_anode head next_mode next_state with
    | none => rw [hb, ht] at h; cases h
    | some target =>
      rw [hb, ht] at h
      simp only [Option.some.injEq] at h
      refine ⟨_, h.symm, fun nd => ?_, base, target, rfl, rfl, ?_⟩
      · by_cases hnd : nd.addr = base.addr
        · rw [if_pos hnd]
          exact ⟨rfl, rfl, rfl, fun t ht => List.mem_append_left _ ht⟩
        · rw [if_neg hnd]
          exact ⟨rfl, rfl, rfl, fun t ht => ht⟩
      · rw [if_pos rfl]
        exact List.mem_append_right _ (List.mem_singleton_self _)

theorem append_anode_trans_none (head : List ANode) (mode : Nat) (state : List Nat)
    (next_mode : Nat) (next_state : List Nat) :
    append_anode_trans head mode state next_mode next_state = none
      ↔ find_anode head mode state = none ∨ find_anode head next_mode next_state = none := by
  unfold append_anode_trans
  cases hb : find_anode head mode state with
  | none => simp
  | some base =>
    cases ht : find_anode head next_mode next_state with
    | none => simp
    | some target => simp

/-! ## Theorems: the loop over the environment moves -/

theorem strategy_extends_refl (strategy : List ANode) : StrategyExtends strategy strategy :=
  fun _ _ nd h => ⟨nd, h, rfl, fun _ ht => ht⟩

theorem strategy_extends_trans (s1 s2 s3 : List ANode) (h12 : StrategyExtends s1 s2)
    (h23 : StrategyExtends s2 s3) : StrategyExtends s1 s3 := by
  intro mode state nd h
  obtain ⟨nd2, hf2, ha2, ht2⟩ := h12 mode state nd h
  obtain ⟨nd3, hf3, ha3, ht3⟩ := h23 mode state nd2 hf2
  exact ⟨nd3, hf3, by rw [ha3, ha2], fun t ht => ht3 t (ht2 t ht)⟩

theorem has_edge_extends (s1 s2 : List ANode) (h12 : StrategyExtends s1 s2) (mode : Nat)
    (state : List Nat) (next_mode : Nat) (next_state : List Nat)
    (h : HasEdge s1 mode state next_mode next_state) :
    HasEdge s2 mode state next_mode next_state := by
  obtain ⟨base, target, hb, ht, hmem⟩ := h
  obtain ⟨base2, hb2, _, htr⟩ := h12 mode state base hb
  obtain ⟨target2, ht2, hta, _⟩ := h12 next_mode next_state target ht
  exact ⟨base2, target2, hb2, ht2, by rw [hta]; exact htr _ hmem⟩

theorem insert_anode_extends (addr : Nat) (head : List ANode) (mode : Nat) (state : List Nat)
    (h : find_anode head mode state = none) :
    StrategyExtends head (insert_anode addr head mode state) := by
  intro m s nd hf
  refine ⟨nd, ?_, rfl, fun _ ht => ht⟩
  unfold insert_anode
  rw [find_anode_cons]
  by_cases hk : mode = m ∧ state = s
  · rw [hk.1, hk.2, hf] at h
    cases h
  · rw [if_neg hk, hf]

/-- The successor insertion leaves a strategy that extends the old one and
holds the successor node. -/
theorem insert_successor_spec (strategy next_node_stack : List ANode) (addr next_mode : Nat)
    (succ : List Nat) :
    StrategyExtends strategy (insert_successor strategy next_node_stack addr next_mode succ).1
      ∧ (find_anode (insert_successor strategy next_node_stack addr next_mode succ).1
          next_mode succ).isSome = true
      ∧ (UniqueKeys strategy →
          UniqueKeys (insert_successor strategy next_node_stack addr next_mode succ).1) := by
  have hins : find_anode strategy next_mode succ = none →
      UniqueKeys strategy → UniqueKeys (insert_anode addr strategy next_mode succ) := by
    intro hnone hu
    unfold UniqueKeys insert_anode
    rw [List.map_cons, List.nodup_cons]
    exact ⟨(find_anode_none_iff strategy next_mode succ).mp hnone, hu⟩
  unfold insert_successor
  cases hf : find_anode strategy next_mode succ with
  | none =>
    cases hn : find_anode next_node_stack next_mode succ with
    | none =>
      exact ⟨insert_anode_extends _ _ _ _ hf, by rw [find_anode_insert_self]; rfl, hins hf⟩
    | some nd =>
      exact ⟨insert_anode_extends _ _ _ _ hf, by rw [find_anode_insert_self]; rfl, hins hf⟩
  | some nd =>
    exact ⟨strategy_extends_refl _, by simp only [hf]; rfl, fun hu => hu⟩

theorem append_anode_trans_extends (head : List ANode) (mode : Nat) (state : List Nat)
    (next_mode : Nat) (next_state : List Nat) (out : List ANode)
    (h : append_anode_trans head mode state next_mode next_state = some out) :
    StrategyExtends head out ∧ HasEdge out mode state next_mode next_state
      ∧ (UniqueKeys head → UniqueKeys out) := by
  obtain ⟨g, hout, hg, base, target, hb, ht, hmem⟩ :=
    append_anode_trans_spec head mode state next_mode next_state out h
  have hg2 : ∀ nd, (g nd).mode = nd.mode ∧ (g nd).state = nd.state :=
    fun nd => ⟨(hg nd).1, (hg nd).2.1⟩
  subst hout
  refine ⟨fun m s nd hf => ?_, ?_, fun hu => ?_⟩
  · refine ⟨g nd, ?_, (hg nd).2.2.1, (hg nd).2.2.2⟩
    rw [find_anode_map g hg2, hf]; rfl
  · refine ⟨g base, g target, ?_, ?_, ?_⟩
    · rw [find_anode_map g hg2, hb]; rfl
    · rw [find_anode_map g hg2, ht]; rfl
    · rw [(hg target).2.2.1]; exact hmem
  · unfold UniqueKeys
    rw [map_key_map g hg2]
    exact hu

theorem transition_loop_cons {n : Nat} (ctx : SynthCtx n) (mode j : Nat) (state : List Nat)
    (env_move : List Nat) (rest : List (List Nat)) (strategy next_node_stack : List ANode)
    (addr : Nat) :
    transition_loop ctx mode j state (env_move :: rest) (strategy, next_node_stack, addr)
      = match choose_successor ctx mode j state env_move with
        | none => BuildResult.abort BuildError.losing_state
        | some (next_mode, succ) =>
          match append_anode_trans
              (insert_successor strategy next_node_stack addr next_mode succ).1
              mode state next_mode succ with
          | none => BuildResult.abort BuildError.missing_node
          | some strategy1 =>
            transition_loop ctx mode j state rest
              (strategy1, (insert_successor strategy next_node_stack addr next_mode succ).2.1,
                (insert_successor strategy next_node_stack addr next_mode succ).2.2) := rfl

/-- When the loop over the environment moves runs through, the strategy it
leaves extends the one it started with, keeps the keys unique, and holds, for
every environment move, an edge from the popped node to the successor chosen
for that move. -/
theorem transition_loop_edges {n : Nat} (ctx : SynthCtx n) (mode j : Nat) (state : List Nat) :
    ∀ (moves : List (List Nat)) (acc acc1 : List ANode × List ANode × Nat),
      transition_loop ctx mode j state moves acc = BuildResult.ok acc1 →
      StrategyExtends acc.1 acc1.1
        ∧ (UniqueKeys acc.1 → UniqueKeys acc1.1)
        ∧ ∀ mv, mv ∈ moves → ∃ next_mode succ,
            choose_successor ctx mode j state mv = some (next_mode, succ)
              ∧ HasEdge acc1.1 mode state next_mode succ := by
  intro moves
  induction moves with
  | nil =>
    intro acc acc1 h
    simp only [transition_loop, BuildResult.ok.injEq] at h
    subst h
    exact ⟨strategy_extends_refl _, fun hu => hu, fun mv hmv => absurd hmv (List.not_mem_nil _)⟩
  | cons env_move rest ih =>
    rintro ⟨strategy, next_node_stack, addr⟩ acc1 h
    rw [transition_loop_cons] at h
    cases hch : choose_successor ctx mode j state env_move with
    | none => rw [hch] at h; cases h
    | some pr =>
      obtain ⟨next_mode, succ⟩ := pr
      rw [hch] at h
      simp only at h
      cases hap : append_anode_trans
          (insert_successor strategy next_node_stack addr next_mode succ).1
          mode state next_mode succ with
      | none => rw [hap] at h; cases h
      | some strategy1 =>
        rw [hap] at h
        simp only at h
        obtain ⟨hext, huniq, hedges⟩ := ih _ acc1 h
        obtain ⟨hins1, _, hins3⟩ :=
          insert_successor_spec strategy next_node_stack addr next_mode succ
        obtain ⟨hap1, hap2, hap3⟩ := append_anode_trans_extends _ _ _ _ _ _ hap
        refine ⟨strategy_extends_trans _ _ _ (strategy_extends_trans _ _ _ hins1 hap1) hext,
          fun hu => huniq (hap3 (hins3 hu)), fun mv hmv => ?_⟩
        rcases List.mem_cons.mp hmv with heq | hin
        · subst heq
          exact ⟨next_mode, succ, hch, has_edge_extends _ _ hext _ _ _ _ hap2⟩
        · exact hedges mv hin

/-! ## Theorems: the successor chosen for an environment move -/

/-- The three ways through the choice of the successor: the step-closer
candidate has a cube, only the fallback into `W` has one, or neither has. -/
theorem choose_successor_cases {n : Nat} (ctx : SynthCtx n) (mode j : Nat)
    (state env_move : List Nat) :
    (∃ gcube rest,
        ctx.cubes (move_cofactor ctx (Cudd_bddAnd (strans_into_W ctx) (Y_i_primed ctx mode j))
          state env_move) = gcube :: rest
        ∧ choose_successor ctx mode j state env_move
          = some (if j = 1 then (if mode + 1 = ctx.num_sgoals then 0 else mode + 1) else mode,
              successor_state ctx.num_env (ctx.num_env + ctx.num_sys) gcube env_move))
      ∨ (ctx.cubes (move_cofactor ctx (Cudd_bddAnd (strans_into_W ctx) (Y_i_primed ctx mode j))
          state env_move) = []
        ∧ ∃ gcube rest,
          ctx.cubes (move_cofactor ctx (strans_into_W ctx) state env_move) = gcube :: rest
          ∧ choose_successor ctx mode j state env_move
            = some (mode,
                successor_state ctx.num_env (ctx.num_env + ctx.num_sys) gcube env_move))
      ∨ (ctx.cubes (move_cofactor ctx (Cudd_bddAnd (strans_into_W ctx) (Y_i_primed ctx mode j))
          state env_move) = []
        ∧ ctx.cubes (move_cofactor ctx (strans_into_W ctx) state env_move) = []
        ∧ choose_successor ctx mode j state env_move = none) := by
  cases hc : ctx.cubes (move_cofactor ctx (Cudd_bddAnd (strans_into_W ctx) (Y_i_primed ctx mode j))
      state env_move) with
  | nil =>
    cases hf : ctx.cubes (move_cofactor ctx (strans_into_W ctx) state env_move) with
    | nil => exact Or.inr (Or.inr ⟨rfl, rfl, by simp only [choose_successor, hc, hf]⟩)
    | cons g rest =>
      exact Or.inr (Or.inl ⟨rfl, g, rest, rfl, by simp only [choose_successor, hc, hf]⟩)
  | cons g rest => exact Or.inl ⟨g, rest, rfl, by simp only [choose_successor, hc]⟩

/-- C18: when the loop over the environment moves of a node with mode `mode`
and level index `j` runs through, the transition added for an environment move
leads to a node whose mode is `(mode + 1) mod num_sgoals` if `j = 1` and the
step-closer candidate has a cube for that move, and `mode` in every other
case. -/
theorem successor_mode_rule {n : Nat} (ctx : SynthCtx n) (mode j : Nat) (state : List Nat)
    (hm : mode < ctx.num_sgoals) (moves : List (List Nat))
    (acc acc1 : List ANode × List ANode × Nat)
    (h : transition_loop ctx mode j state moves acc = BuildResult.ok acc1)
    (mv : List Nat) (hmv : mv ∈ moves) :
    ∃ next_mode succ, choose_successor ctx mode j state mv = some (next_mode, succ)
      ∧ HasEdge acc1.1 mode state next_mode succ
      ∧ next_mode
        = if j = 1 ∧ ctx.cubes (move_cofactor ctx
              (Cudd_bddAnd (strans_into_W ctx) (Y_i_primed ctx mode j)) state mv) ≠ []
          then (mode + 1) % ctx.num_sgoals else mode := by
  obtain ⟨next_mode, succ, hch, hedge⟩ :=
    (transition_loop_edges ctx mode j state moves acc acc1 h).2.2 mv hmv
  refine ⟨next_mode, succ, hch, hedge, ?_⟩
  rcases choose_successor_cases ctx mode j state mv with
    ⟨g, rest, hc, hs⟩ | ⟨hc, g, rest, _, hs⟩ | ⟨_, _, hs⟩
  · rw [hs] at hch
    simp only [Option.some.injEq, Prod.mk.injEq] at hch
    rw [← hch.1, hc]
    by_cases hj : j = 1
    · have hcond : j = 1 ∧ g :: rest ≠ [] := ⟨hj, List.cons_ne_nil _ _⟩
      rw [if_pos hj, if_pos hcond, next_mode_eq_mod mode _ hm]
    · rw [if_neg hj, if_neg (fun h2 => hj h2.1)]
  · rw [hs] at hch
    simp only [Option.some.injEq, Prod.mk.injEq] at hch
    rw [← hch.1, hc, if_neg (fun h2 => h2.2 rfl)]
  · rw [hs] at hch
    cases hch

set_option maxRecDepth 100000 in
/-- Worked instance of C18: the node `(0, (0))` of the system with the goals
`a` and `¬a`, with level index 1; the transition leads to the node `(1, (1))`. -/
theorem successor_mode_rule_witness :
    ∃ next_mode succ, choose_successor ex_two_goals 0 1 [0] [] = some (next_mode, succ)
      ∧ HasEdge [⟨1, 1, [1], []⟩, ⟨0, 0, [0], [1]⟩] 0 [0] next_mode succ
      ∧ next_mode
        = if 1 = 1 ∧ ex_two_goals.cubes (move_cofactor ex_two_goals
              (Cudd_bddAnd (strans_into_W ex_two_goals) (Y_i_primed ex_two_goals 0 1)) [0] [])
                ≠ []
          then (0 + 1) % ex_two_goals.num_sgoals else 0 :=
  successor_mode_rule ex_two_goals 0 1 [0] (by decide) [[]] ([⟨0, 0, [0], []⟩], [], 1)
    ([⟨1, 1, [1], []⟩, ⟨0, 0, [0], [1]⟩], [⟨2, 1, [1], []⟩], 3) (by decide) []
    (List.mem_singleton_self _)

/-! ## Theorems: the environment moves -/

theorem env_moves_loop_sound (d num_env num_vars : Nat) (P : List Nat → Prop) :
    ∀ (cubes : List (List Int)) (env_moves : List (List Nat)),
      (∀ c, c ∈ cubes → ∀ v, ExpandsCube (c.drop num_vars) num_env v → P v) →
      (∀ mv, mv ∈ env_moves → P mv) →
      ∃ moves, env_moves_loop (3 + d) num_env num_vars cubes env_moves = some moves
        ∧ ∀ mv, mv ∈ moves → P mv := by
  intro cubes
  induction cubes with
  | nil =>
    intro env_moves _ hacc
    exact ⟨env_moves, rfl, hacc⟩
  | cons c rest ih =>
    intro env_moves hc hacc
    obtain ⟨out, hout, _, _, hexp⟩ :=
      enumerate_cube_sound (c.drop num_vars) num_env d (List.replicate num_env 0)
        (List.length_replicate _ _)
    have hstep : env_moves_loop (3 + d) num_env num_vars (c :: rest) env_moves
        = env_moves_loop (3 + d) num_env num_vars rest (env_moves ++ out) := by
      simp only [env_moves_loop, hout]
    rw [hstep]
    apply ih
    · intro c1 hc1
      exact hc c1 (List.mem_cons_of_mem _ hc1)
    · intro mv hmv
      rcases List.mem_append.mp hmv with h1 | h2
      · exact hacc mv h1
      · exact hc c (List.mem_cons_self _ _) mv (hexp mv h2)

theorem cube_prime_sys_getD (num_env num_sys i : Nat) :
    (cube_prime_sys num_env num_sys).getD i 2
      = if i < 2 * (num_env + num_sys) ∧ num_env + num_sys + num_env ≤ i then 1 else 2 := by
  unfold cube_prime_sys
  rw [List.getD_eq_getElem?_getD, List.getElem?_map]
  by_cases hi : i < 2 * (num_env + num_sys)
  · rw [List.getElem?_range hi]
    simp only [Option.map_some', Option.getD_some]
    by_cases h2 : num_env + num_sys + num_env ≤ i
    · rw [if_pos h2, if_pos ⟨hi, h2⟩]
    · rw [if_neg h2, if_neg (fun h => h2 h.2)]
  · rw [List.getElem?_eq_none (by rw [List.length_range]; omega), if_neg (fun h => hi h.1)]
    rfl

theorem drop_getD (c : List Int) (k i : Nat) : (c.drop k).getD i 0 = c.getD (k + i) 0 := by
  simp only [List.getD_eq_getElem?_getD, List.getElem?_drop]

/-- With enough fuel `get_env_moves` returns a list, and every move in it is a
valuation of the environment variables that the environment transition
predicate admits from the state, together with some valuation of the primed
system variables. -/
theorem get_env_moves_sound {n : Nat} (ctx : SynthCtx n)
    (hn : n = 2 * (ctx.num_env + ctx.num_sys)) (hc : CubeCover ctx.cubes)
    (state : List Nat) (hs : IsStateVector (ctx.num_env + ctx.num_sys) state) (d : Nat) :
    ∃ moves, get_env_moves (3 + d) ctx state = some moves
      ∧ ∀ mv, mv ∈ moves → IsStateVector ctx.num_env mv
        ∧ ∃ b : Fin n → Bool,
            (∀ i : Fin n, i.val < ctx.num_env + ctx.num_sys + ctx.num_env →
              b i = edge_assignment (ctx.num_env + ctx.num_sys) state mv i)
            ∧ ctx.etrans b = true := by
  unfold get_env_moves
  simp only
  apply env_moves_loop_sound
  · intro c hcm v hv
    obtain ⟨hlen, hent, himp⟩ := (hc _).1 c hcm
    have hgd : ∀ i, i < n → c.getD i 0 = c.getD i 2 := by
      intro i hi
      rw [List.getD_eq_getElem _ _ (by omega), List.getD_eq_getElem _ _ (by omega)]
    have hv2 : ∀ i, i < ctx.num_env →
        (c.getD (ctx.num_env + ctx.num_sys + i) 2 = 1 → v.getD i 0 = 1)
        ∧ (c.getD (ctx.num_env + ctx.num_sys + i) 2 = 0 → v.getD i 0 = 0)
        ∧ v.getD i 0 ≤ 1 := by
      intro i hi
      have h := hv.2 i hi
      rw [drop_getD, hgd _ (by omega)] at h
      refine ⟨fun h1 => ?_, fun h0 => ?_, ?_⟩
      · rw [h.2 (by rw [h1]; decide), h1]; rfl
      · rw [h.2 (by rw [h0]; decide), h0]; rfl
      · rcases hent (ctx.num_env + ctx.num_sys + i) (by omega) with h0 | h1 | h2
        · rw [h.2 (by rw [h0]; decide), h0]; decide
        · rw [h.2 (by rw [h1]; decide), h1]; decide
        · exact h.1 h2
    refine ⟨⟨hv.1, fun i hi => (hv2 i hi).2.2⟩, ?_⟩
    have hsat : (Cudd_CubeArrayToBdd c : Pred n)
        (fun i => if ctx.num_env + ctx.num_sys ≤ i.val
              ∧ i.val < ctx.num_env + ctx.num_sys + ctx.num_env then
            decide (v.getD (i.val - (ctx.num_env + ctx.num_sys)) 0 ≠ 0)
          else decide (c.getD i.val 2 = 1)) = true := by
      rw [cube_array_eval]
      intro i
      by_cases hr : ctx.num_env + ctx.num_sys ≤ i.val
          ∧ i.val < ctx.num_env + ctx.num_sys + ctx.num_env
      · rw [if_pos hr]
        have hidx : ctx.num_env + ctx.num_sys + (i.val - (ctx.num_env + ctx.num_sys)) = i.val := by
          omega
        have h := hv2 (i.val - (ctx.num_env + ctx.num_sys)) (by omega)
        rw [hidx] at h
        constructor
        · intro h1; rw [h.1 h1]; rfl
        · intro h0; rw [h.2.1 h0]; rfl
      · rw [if_neg hr]
        constructor
        · intro h1; exact decide_eq_true h1
        · intro h0; apply decide_eq_false; rw [h0]; decide
    have hex := himp _ hsat
    simp only [Cudd_bddExistAbstract, decide_eq_true_eq] at hex
    obtain ⟨b1, hb1, hb2⟩ := hex
    rw [state2cof_eval _ _ _ _ _ (fun i hi => hs.2 i hi)] at hb2
    refine ⟨_, fun i hi => ?_, hb2⟩
    unfold edge_assignment
    by_cases h1 : i.val < ctx.num_env + ctx.num_sys
    · rw [if_pos ⟨by omega, by omega, by omega⟩, if_pos h1, Nat.sub_zero]
    · rw [if_neg (fun h => h1 (by omega)), if_neg h1]
      have hns : in_support (Cudd_CubeArrayToBdd (cube_prime_sys ctx.num_env ctx.num_sys) : Pred n) i
          = false := by
        rw [Bool.eq_false_iff]
        intro hin
        rw [in_support_cube_array, cube_prime_sys_getD] at hin
        rw [if_neg (fun h => by omega)] at hin
        rcases hin with h | h <;> exact absurd h (by decide)
      rw [hb1 i hns, if_pos ⟨by omega, hi⟩]
  · intro mv hmv
    exact absurd hmv (List.not_mem_nil _)

/-! ## Theorems: the cube generator of the instances -/

theorem all_inputs_mem : ∀ (k : Nat) (c : List Int),
    c ∈ all_inputs k ↔ c.length = k ∧ ∀ x, x ∈ c → x = 0 ∨ x = 1 := by
  intro k
  induction k with
  | zero =>
    intro c
    simp only [all_inputs, List.mem_singleton]
    constructor
    · intro h; subst h; exact ⟨rfl, fun x hx => absurd hx (List.not_mem_nil _)⟩
    · intro h; exact List.length_eq_zero.mp h.1
  | succ k ih =>
    intro c
    simp only [all_inputs, List.mem_append, List.mem_map]
    constructor
    · rintro (⟨t, ht, rfl⟩ | ⟨t, ht, rfl⟩)
      · obtain ⟨h1, h2⟩ := (ih t).mp ht
        refine ⟨by rw [List.length_cons, h1], fun x hx => ?_⟩
        rcases List.mem_cons.mp hx with h | h
        · exact Or.inl h
        · exact h2 x h
      · obtain ⟨h1, h2⟩ := (ih t).mp ht
        refine ⟨by rw [List.length_cons, h1], fun x hx => ?_⟩
        rcases List.mem_cons.mp hx with h | h
        · exact Or.inr h
        · exact h2 x h
    · rintro ⟨h1, h2⟩
      cases c with
      | nil => simp at h1
      | cons x t =>
        have ht : t ∈ all_inputs k :=
          (ih t).mpr ⟨by simpa using h1, fun y hy => h2 y (List.mem_cons_of_mem _ hy)⟩
        rcases h2 x (List.mem_cons_self _ _) with h | h
        · exact Or.inl ⟨t, ht, by rw [h]⟩
        · exact Or.inr ⟨t, ht, by rw [h]⟩

/-- The minterm generator satisfies the contract `CubeCover`. -/
theorem minterm_cubes_cover (n : Nat) : CubeCover (minterm_cubes : Pred n → List (List Int)) := by
  intro f
  constructor
  · intro c hc
    unfold minterm_cubes at hc
    rw [List.mem_filter] at hc
    obtain ⟨hlen, hent⟩ := (all_inputs_mem n c).mp hc.1
    have hget : ∀ i, i < n → ∀ dflt, c.getD i dflt = 0 ∨ c.getD i dflt = 1 := by
      intro i hi dflt
      rw [List.getD_eq_getElem _ _ (by omega)]
      exact hent _ (List.getElem_mem _)
    refine ⟨hlen, fun i hi => ?_, fun a ha => ?_⟩
    · rcases hget i hi 2 with h | h
      · exact Or.inl h
      · exact Or.inr (Or.inl h)
    · have hev := hc.2
      unfold Cudd_Eval at hev
      rw [← hev]
      congr 1
      funext i
      rw [cube_array_eval] at ha
      have h02 : c.getD i.val 0 = c.getD i.val 2 := by
        rw [List.getD_eq_getElem _ _ (by rw [hlen]; exact i.isLt),
          List.getD_eq_getElem _ _ (by rw [hlen]; exact i.isLt)]
      rcases hget i.val i.isLt 2 with h | h
      · rw [(ha i).2 h, h02, h]; rfl
      · rw [(ha i).1 h, h02, h]; rfl
  · intro a ha
    have hc_len : (List.ofFn (fun i : Fin n => if a i then (1 : Int) else 0)).length = n :=
      List.length_ofFn _
    have hget : ∀ (i : Fin n) (dflt : Int),
        (List.ofFn (fun i : Fin n => if a i then (1 : Int) else 0)).getD i.val dflt
          = if a i then 1 else 0 := by
      intro i dflt
      rw [List.getD_eq_getElem _ _ (by rw [hc_len]; exact i.isLt), List.getElem_ofFn]
    refine ⟨List.ofFn (fun i : Fin n => if a i then (1 : Int) else 0), ?_, ?_⟩
    · unfold minterm_cubes
      rw [List.mem_filter]
      constructor
      · rw [all_inputs_mem]
        refine ⟨hc_len, fun x hx => ?_⟩
        rw [List.mem_ofFn] at hx
        obtain ⟨i, hi⟩ := hx
        rw [← hi]
        by_cases h : a i = true
        · exact Or.inr (if_pos h)
        · exact Or.inl (if_neg h)
      · unfold Cudd_Eval
        have hfun : (fun i : Fin n => decide
            ((List.ofFn (fun i : Fin n => if a i then (1 : Int) else 0)).getD i.val 0 ≠ 0)) = a := by
          funext i
          rw [hget i 0]
          cases a i <;> rfl
        rw [hfun]
        exact ha
    · rw [cube_array_eval]
      intro i
      rw [hget i 2]
      cases h : a i
      · exact ⟨fun h1 => absurd h1 (by decide), fun _ => rfl⟩
      · exact ⟨fun _ => rfl, fun h1 => absurd h1 (by decide)⟩

/-- A BDD takes the same value on two assignments that agree on its support. -/
theorem depends_on_support {n : Nat} (f : Pred n) (a b : Fin n → Bool)
    (h : ∀ i : Fin n, in_support f i = true → a i = b i) : f a = f b := by
  have key : ∀ k, k ≤ n → f (fun i => if i.val < k then a i else b i) = f b := by
    intro k
    induction k with
    | zero =>
      intro _
      congr 1
    | succ k ih =>
      intro hk
      rw [← ih (by omega)]
      by_cases hab : a ⟨k, by omega⟩ = b ⟨k, by omega⟩
      · congr 1
        funext i
        by_cases hik : i.val = k
        · have hi : i = ⟨k, by omega⟩ := Fin.ext hik
          rw [if_pos (by omega), if_neg (by omega), hi, hab]
        · by_cases hlt : i.val < k
          · rw [if_pos (by omega), if_pos hlt]
          · rw [if_neg (by omega), if_neg hlt]
      · have hneg : a ⟨k, by omega⟩ = !b ⟨k, by omega⟩ := by
          revert hab
          cases a ⟨k, by omega⟩ <;> cases b ⟨k, by omega⟩ <;> simp
        have hns : ¬ in_support f ⟨k, by omega⟩ = true := fun hin => hab (h _ hin)
        simp only [in_support, decide_eq_true_eq, not_exists, not_not] at hns
        rw [hns (fun i => if i.val < k then a i else b i)]
        congr 1
        funext i
        by_cases hik : i.val = k
        · have hi : i = ⟨k, by omega⟩ := Fin.ext hik
          rw [hi, Function.update_same]
          simp only [Nat.lt_succ_self, if_true, Nat.lt_irrefl, if_false]
          exact hneg
        · have hne : i ≠ ⟨k, by omega⟩ := fun hh => hik (by rw [hh])
          rw [Function.update_noteq hne]
          by_cases hlt : i.val < k
          · rw [if_pos (by omega), if_pos hlt]
          · rw [if_neg (by omega), if_neg hlt]
  have hfin := key n (Nat.le_refl n)
  rw [← hfin]
  congr 1
  funext i
  rw [if_pos i.isLt]

theorem mask_cube_length {n : Nat} (f : Pred n) (c : List Int) : (mask_cube f c).length = n := by
  unfold mask_cube
  rw [List.length_map, List.length_range]

theorem mask_cube_getD {n : Nat} (f : Pred n) (c : List Int) (i : Fin n) (dflt : Int) :
    (mask_cube f c).getD i.val dflt = if in_support f i then c.getD i.val 0 else 2 := by
  unfold mask_cube
  rw [List.getD_eq_getElem?_getD, List.getElem?_map, List.getElem?_range i.isLt]
  simp only [Option.map_some', Option.getD_some]
  rw [dif_pos i.isLt]

/-- The support generator satisfies the contract `CubeCover`. -/
theorem support_cubes_cover (n : Nat) : CubeCover (support_cubes : Pred n → List (List Int)) := by
  intro f
  obtain ⟨hm1, hm2⟩ := minterm_cubes_cover n f
  constructor
  · intro c1 hc1
    unfold support_cubes at hc1
    rw [List.mem_dedup, List.mem_map] at hc1
    obtain ⟨c, hc, rfl⟩ := hc1
    obtain ⟨hlen, hent, himp⟩ := hm1 c hc
    have h02 : ∀ i : Fin n, c.getD i.val 0 = c.getD i.val 2 := by
      intro i
      rw [List.getD_eq_getElem _ _ (by rw [hlen]; exact i.isLt),
        List.getD_eq_getElem _ _ (by rw [hlen]; exact i.isLt)]
    refine ⟨mask_cube_length f c, fun i hi => ?_, fun a ha => ?_⟩
    · have := mask_cube_getD f c ⟨i, hi⟩ 2
      simp only at this
      rw [this]
      by_cases hs : in_support f ⟨i, hi⟩ = true
      · rw [if_pos hs, h02 ⟨i, hi⟩]; exact hent i hi
      · rw [if_neg hs]; exact Or.inr (Or.inr rfl)
    · rw [← himp _ (cube_array_sat c)]
      apply depends_on_support
      intro i hs
      rw [cube_array_eval] at ha
      have hai := ha i
      rw [mask_cube_getD, if_pos hs, h02 i] at hai
      rcases hent i.val i.isLt with h0 | h1 | h2
      · rw [hai.2 h0, h0]; rfl
      · rw [hai.1 h1, h1]; rfl
      · obtain ⟨_, hbits⟩ := (all_inputs_mem n c).mp (List.mem_filter.mp hc).1
        have hmem : c.getD i.val 2 ∈ c := by
          rw [List.getD_eq_getElem _ _ (by rw [hlen]; exact i.isLt)]
          exact List.getElem_mem _
        rcases hbits _ hmem with hb | hb <;> rw [h2] at hb <;> exact absurd hb (by decide)
  · intro a ha
    obtain ⟨c, hc, hca⟩ := hm2 a ha
    refine ⟨mask_cube f c, ?_, ?_⟩
    · unfold support_cubes
      rw [List.mem_dedup, List.mem_map]
      exact ⟨c, hc, rfl⟩
    · obtain ⟨hlen, _, _⟩ := hm1 c hc
      rw [cube_array_eval] at hca ⊢
      intro i
      rw [mask_cube_getD]
      by_cases hs : in_support f i = true
      · rw [if_pos hs, List.getD_eq_getElem _ _ (by rw [hlen]; exact i.isLt),
          ← List.getD_eq_getElem _ 2 (by rw [hlen]; exact i.isLt)]
        exact hca i
      · rw [if_neg hs]
        exact ⟨fun h => absurd h (by decide), fun h => absurd h (by decide)⟩

/-! ## Theorems: the edges of the strategy -/

/-- The environment moves that a pass of the builder loop runs through: state
vectors over the environment variables which, when there is an environment
variable, the environment transition predicate admits from the state. -/
theorem env_moves_admissible {n : Nat} (ctx : SynthCtx n)
    (hn : n = 2 * (ctx.num_env + ctx.num_sys)) (hc : CubeCover ctx.cubes)
    (state : List Nat) (hs : IsStateVector (ctx.num_env + ctx.num_sys) state) (d : Nat)
    (moves : List (List Nat))
    (hmoves : (if ctx.num_env > 0 then get_env_moves (3 + d) ctx state else some [[]])
      = some moves)
    (mv : List Nat) (hmv : mv ∈ moves) :
    IsStateVector ctx.num_env mv
      ∧ (0 < ctx.num_env → ∃ b : Fin n → Bool,
          (∀ i : Fin n, i.val < ctx.num_env + ctx.num_sys + ctx.num_env →
            b i = edge_assignment (ctx.num_env + ctx.num_sys) state mv i)
          ∧ ctx.etrans b = true) := by
  by_cases hpos : ctx.num_env > 0
  · rw [if_pos hpos] at hmoves
    obtain ⟨moves1, h1, h2⟩ := get_env_moves_sound ctx hn hc state hs d
    rw [hmoves] at h1
    cases h1
    exact ⟨(h2 mv hmv).1, fun _ => (h2 mv hmv).2⟩
  · rw [if_neg hpos] at hmoves
    cases hmoves
    rw [List.mem_singleton] at hmv
    subst hmv
    have h0 : ctx.num_env = 0 := by omega
    exact ⟨⟨by rw [h0]; rfl, fun i hi => by omega⟩, fun h => absurd h hpos⟩

theorem y_i_primed_eq {n : Nat} (ctx : SynthCtx n) (mode j : Nat) :
    Y_i_primed ctx mode j
      = Cudd_bddVarMap (ctx.num_env + ctx.num_sys)
          ((ctx.Y.getD mode []).getD (if 0 < j then j - 1 else 0) (Cudd_ReadOne n)) := by
  unfold Y_i_primed
  by_cases hj : j = 0
  · rw [if_pos hj, if_neg (by omega)]
  · rw [if_neg hj, if_pos (by omega)]

/-- The point evaluation of a BDD over the unprimed variables at the cube of a
state is its value on any edge that starts in the state. -/
theorem eval_state2cube {n : Nat} (num_vars : Nat) (hn : n = 2 * num_vars) (f : Pred n)
    (hf : UnprimedOnly num_vars f) (s t : List Nat) :
    Cudd_Eval f (state2cube s num_vars) = f (edge_assignment num_vars s t) := by
  unfold Cudd_Eval
  apply hf
  intro i hi
  unfold edge_assignment state2cube
  rw [if_pos hi, List.getD_eq_getElem?_getD, List.getElem?_map,
    List.getElem?_range (by omega)]
  simp only [Option.map_some', Option.getD_some]
  simp only [if_pos hi]
  by_cases h0 : s.getD i.val 0 = 0
  · simp only [h0]; rfl
  · rw [decide_eq_true (show s.getD i.val 0 ≠ 0 from h0)]
    apply decide_eq_true
    intro h
    exact h0 (Int.ofNat_eq_zero.mp h)

/-- What holds of the successor that the loop over the environment moves
chooses for a move, and of the edge it appends. -/
theorem edge_sound {n : Nat} (ctx : SynthCtx n)
    (hn : n = 2 * (ctx.num_env + ctx.num_sys)) (hc : CubeCover ctx.cubes)
    (mode j : Nat) (state : List Nat)
    (hs : IsStateVector (ctx.num_env + ctx.num_sys) state)
    (moves : List (List Nat)) (acc acc1 : List ANode × List ANode × Nat)
    (h : transition_loop ctx mode j state moves acc = BuildResult.ok acc1)
    (mv : List Nat) (hmv : mv ∈ moves) (he : IsStateVector ctx.num_env mv) :
    ∃ next_mode succ, choose_successor ctx mode j state mv = some (next_mode, succ)
      ∧ HasEdge acc1.1 mode state next_mode succ
      ∧ IsStateVector (ctx.num_env + ctx.num_sys) succ
      ∧ (∀ i, i < ctx.num_env → succ.getD i 0 = mv.getD i 0)
      ∧ strans_into_W ctx (edge_assignment (ctx.num_env + ctx.num_sys) state succ) = true
      ∧ (ctx.cubes (move_cofactor ctx (Cudd_bddAnd (strans_into_W ctx) (Y_i_primed ctx mode j))
            state mv) ≠ [] →
          Y_i_primed ctx mode j (edge_assignment (ctx.num_env + ctx.num_sys) state succ)
            = true) := by
  obtain ⟨next_mode, succ, hch, hedge⟩ :=
    (transition_loop_edges ctx mode j state moves acc acc1 h).2.2 mv hmv
  refine ⟨next_mode, succ, hch, hedge, ?_⟩
  rcases choose_successor_cases ctx mode j state mv with
    ⟨g, rest, hcube, hsel⟩ | ⟨hcube, g, rest, hfb, hsel⟩ | ⟨_, _, hsel⟩
  · rw [hsel] at hch
    simp only [Option.some.injEq, Prod.mk.injEq] at hch
    obtain ⟨h1, h2, h3⟩ := successor_sound ctx hn hc _ state mv hs he g rest hcube
    rw [hch.2] at h1 h2 h3
    simp only [Cudd_bddAnd, Bool.and_eq_true] at h3
    exact ⟨h1, h2, h3.1, fun _ => h3.2⟩
  · rw [hsel] at hch
    simp only [Option.some.injEq, Prod.mk.injEq] at hch
    obtain ⟨h1, h2, h3⟩ := successor_sound ctx hn hc _ state mv hs he g rest hfb
    rw [hch.2] at h1 h2 h3
    exact ⟨h1, h2, h3, fun hne => absurd hcube hne⟩
  · rw [hsel] at hch
    cases hch

/-- C17: for a popped state vector with selected mode `mode` and level index
`j`, whenever the step-closer candidate has a cube for an environment move,
the successor `s'` chosen for that move, to which the appended edge leads,
satisfies `Y_target`, where `Y_target` is `Y[mode][j - 1]` if `j > 0` and
`Y[mode][0]` if `j = 0`; the edge satisfies `T_s`, and `s'` satisfies `W`. -/
theorem step_closer_target {n : Nat} (ctx : SynthCtx n)
    (hn : n = 2 * (ctx.num_env + ctx.num_sys)) (hc : CubeCover ctx.cubes)
    (mode j : Nat) (state : List Nat)
    (hs : IsStateVector (ctx.num_env + ctx.num_sys) state) (d : Nat)
    (moves : List (List Nat))
    (hmoves : (if ctx.num_env > 0 then get_env_moves (3 + d) ctx state else some [[]])
      = some moves)
    (acc acc1 : List ANode × List ANode × Nat)
    (h : transition_loop ctx mode j state moves acc = BuildResult.ok acc1)
    (mv : List Nat) (hmv : mv ∈ moves)
    (hcand : ctx.cubes (move_cofactor ctx
      (Cudd_bddAnd (strans_into_W ctx) (Y_i_primed ctx mode j)) state mv) ≠ []) :
    ∃ next_mode succ, choose_successor ctx mode j state mv = some (next_mode, succ)
      ∧ HasEdge acc1.1 mode state next_mode succ
      ∧ IsStateVector (ctx.num_env + ctx.num_sys) succ
      ∧ (ctx.Y.getD mode []).getD (if 0 < j then j - 1 else 0) (Cudd_ReadOne n)
          (edge_assignment (ctx.num_env + ctx.num_sys) succ state) = true
      ∧ (UnprimedOnly (ctx.num_env + ctx.num_sys)
            ((ctx.Y.getD mode []).getD (if 0 < j then j - 1 else 0) (Cudd_ReadOne n)) →
          Cudd_Eval ((ctx.Y.getD mode []).getD (if 0 < j then j - 1 else 0) (Cudd_ReadOne n))
            (state2cube succ (ctx.num_env + ctx.num_sys)) = true)
      ∧ ctx.strans (edge_assignment (ctx.num_env + ctx.num_sys) state succ) = true
      ∧ ctx.W (edge_assignment (ctx.num_env + ctx.num_sys) succ state) = true := by
  have he := (env_moves_admissible ctx hn hc state hs d moves hmoves mv hmv).1
  obtain ⟨next_mode, succ, hch, hedge, hsv, _, hsw, hy⟩ :=
    edge_sound ctx hn hc mode j state hs moves acc acc1 h mv hmv he
  have hy2 := hy hcand
  rw [y_i_primed_eq, varmap_edge _ hn] at hy2
  simp only [strans_into_W, Cudd_bddAnd, Bool.and_eq_true] at hsw
  have hw := hsw.2
  rw [varmap_edge _ hn] at hw
  exact ⟨next_mode, succ, hch, hedge, hsv, hy2,
    fun hu => by rw [eval_state2cube _ hn _ hu succ state]; exact hy2, hsw.1, hw⟩

/-- C13 (as stated, refuted): with no environment variable the builder does
not consult the environment transition predicate. In the system `ex_blocked`
that predicate is false wherever `a = 1`, and yet the pass of the builder loop
that pops the state `a = 1` appends an edge from the node `(0, (1))`, at
address 1, to the node `(0, (0))`, at address 2. -/
theorem edge_without_env_move :
    (∀ b : Fin 2 → Bool, b 0 = true → ex_blocked.etrans b = false)
      ∧ strategy_step 3 ex_blocked ⟨[], [⟨0, 0, [1], []⟩], [], 1⟩
          = BuildResult.ok
              ⟨[⟨2, 0, [0], []⟩, ⟨1, 0, [1], [2]⟩], [⟨3, 0, [0], []⟩], [], 4⟩ := by
  decide

/-- C13 (amended): for every edge `(m, s) → (m', s')` that the loop over the
environment moves appends for a popped state vector `s`, the pair `(s, s')`
satisfies the system transition predicate, `s'` is a state vector that
satisfies `W`, and, when there is at least one environment variable, the
environment part of `s'` is the environment move and is admissible from `s`
under the environment transition predicate. -/
theorem strategy_edge_safety {n : Nat} (ctx : SynthCtx n)
    (hn : n = 2 * (ctx.num_env + ctx.num_sys)) (hc : CubeCover ctx.cubes)
    (mode j : Nat) (state : List Nat)
    (hs : IsStateVector (ctx.num_env + ctx.num_sys) state) (d : Nat)
    (moves : List (List Nat))
    (hmoves : (if ctx.num_env > 0 then get_env_moves (3 + d) ctx state else some [[]])
      = some moves)
    (acc acc1 : List ANode × List ANode × Nat)
    (h : transition_loop ctx mode j state moves acc = BuildResult.ok acc1)
    (mv : List Nat) (hmv : mv ∈ moves) :
    ∃ next_mode succ, choose_successor ctx mode j state mv = some (next_mode, succ)
      ∧ HasEdge acc1.1 mode state next_mode succ
      ∧ IsStateVector (ctx.num_env + ctx.num_sys) succ
      ∧ ctx.strans (edge_assignment (ctx.num_env + ctx.num_sys) state succ) = true
      ∧ ctx.W (edge_assignment (ctx.num_env + ctx.num_sys) succ state) = true
      ∧ (0 < ctx.num_env →
          (∀ i, i < ctx.num_env → succ.getD i 0 = mv.getD i 0)
          ∧ ∃ b : Fin n → Bool,
              (∀ i : Fin n, i.val < ctx.num_env + ctx.num_sys + ctx.num_env →
                b i = edge_assignment (ctx.num_env + ctx.num_sys) state succ i)
              ∧ ctx.etrans b = true) := by
  obtain ⟨he, hadm⟩ := env_moves_admissible ctx hn hc state hs d moves hmoves mv hmv
  obtain ⟨next_mode, succ, hch, hedge, hsv, henv, hsw, _⟩ :=
    edge_sound ctx hn hc mode j state hs moves acc acc1 h mv hmv he
  simp only [strans_into_W, Cudd_bddAnd, Bool.and_eq_true] at hsw
  have hw := hsw.2
  rw [varmap_edge _ hn] at hw
  refine ⟨next_mode, succ, hch, hedge, hsv, hsw.1, hw, fun hpos => ⟨henv, ?_⟩⟩
  obtain ⟨b, hb1, hb2⟩ := hadm hpos
  refine ⟨b, fun i hi => ?_, hb2⟩
  rw [hb1 i hi]
  unfold edge_assignment
  by_cases h1 : i.val < ctx.num_env + ctx.num_sys
  · rw [if_pos h1, if_pos h1]
  · rw [if_neg h1, if_neg h1, henv _ (by omega)]

set_option maxRecDepth 1000000 in
/-- Worked instance of C17: the state `(e, s) = (0, 0)` of the system
`ex_follow`, with mode 0 and level index 1, and the environment move `e = 1`;
the successor is `(1, 1)`, which lies in `Y[0][0]`. -/
theorem step_closer_target_witness :
    ∃ next_mode succ, choose_successor ex_follow 0 1 [0, 0] [1] = some (next_mode, succ)
      ∧ HasEdge [⟨1, 0, [1, 1], []⟩, ⟨0, 0, [0, 0], [1]⟩] 0 [0, 0] next_mode succ
      ∧ IsStateVector (ex_follow.num_env + ex_follow.num_sys) succ
      ∧ (ex_follow.Y.getD 0 []).getD (if 0 < 1 then 1 - 1 else 0) (Cudd_ReadOne 4)
          (edge_assignment (ex_follow.num_env + ex_follow.num_sys) succ [0, 0]) = true
      ∧ (UnprimedOnly (ex_follow.num_env + ex_follow.num_sys)
            ((ex_follow.Y.getD 0 []).getD (if 0 < 1 then 1 - 1 else 0) (Cudd_ReadOne 4)) →
          Cudd_Eval ((ex_follow.Y.getD 0 []).getD (if 0 < 1 then 1 - 1 else 0) (Cudd_ReadOne 4))
            (state2cube succ (ex_follow.num_env + ex_follow.num_sys)) = true)
      ∧ ex_follow.strans (edge_assignment (ex_follow.num_env + ex_follow.num_sys) [0, 0] succ)
          = true
      ∧ ex_follow.W (edge_assignment (ex_follow.num_env + ex_follow.num_sys) succ [0, 0])
          = true :=
  step_closer_target ex_follow (by decide) (support_cubes_cover 4) 0 1 [0, 0]
    ⟨rfl, by decide⟩ 0 [[1]] (by decide) ([⟨0, 0, [0, 0], []⟩], [], 1)
    ([⟨1, 0, [1, 1], []⟩, ⟨0, 0, [0, 0], [1]⟩], [⟨2, 0, [1, 1], []⟩], 3) (by decide) [1]
    (List.mem_singleton_self _) (by decide)

set_option maxRecDepth 1000000 in
/-- Worked instance of C13 (amended): the edge appended for the state
`(e, s) = (0, 0)` of the system `ex_follow` and the environment move `e = 1`. -/
theorem strategy_edge_safety_witness :
    ∃ next_mode succ, choose_successor ex_follow 0 1 [0, 0] [1] = some (next_mode, succ)
      ∧ HasEdge [⟨1, 0, [1, 1], []⟩, ⟨0, 0, [0, 0], [1]⟩] 0 [0, 0] next_mode succ
      ∧ IsStateVector (ex_follow.num_env + ex_follow.num_sys) succ
      ∧ ex_follow.strans (edge_assignment (ex_follow.num_env + ex_follow.num_sys) [0, 0] succ)
          = true
      ∧ ex_follow.W (edge_assignment (ex_follow.num_env + ex_follow.num_sys) succ [0, 0])
          = true
      ∧ (0 < ex_follow.num_env →
          (∀ i, i < ex_follow.num_env → succ.getD i 0 = [1].getD i 0)
          ∧ ∃ b : Fin 4 → Bool,
              (∀ i : Fin 4,
                i.val < ex_follow.num_env + ex_follow.num_sys + ex_follow.num_env →
                b i = edge_assignment (ex_follow.num_env + ex_follow.num_sys) [0, 0] succ i)
              ∧ ex_follow.etrans b = true) :=
  strategy_edge_safety ex_follow (by decide) (support_cubes_cover 4) 0 1 [0, 0]
    ⟨rfl, by decide⟩ 0 [[1]] (by decide) ([⟨0, 0, [0, 0], []⟩], [], 1)
    ([⟨1, 0, [1, 1], []⟩, ⟨0, 0, [0, 0], [1]⟩], [⟨2, 0, [1, 1], []⟩], 3) (by decide) [1]
    (List.mem_singleton_self _)

/-! ## Theorems: the fallback and the abort -/

/-- Under the contract of the cube generator a BDD has no cube exactly when it
is the constant false. -/
theorem cubes_nil_iff {n : Nat} (cubes : Pred n → List (List Int)) (hc : CubeCover cubes)
    (f : Pred n) : cubes f = [] ↔ ∀ a, f a = false := by
  constructor
  · intro h a
    cases hfa : f a with
    | false => rfl
    | true =>
      obtain ⟨c, hmem, _⟩ := (hc f).2 a hfa
      rw [h] at hmem
      exact absurd hmem (List.not_mem_nil _)
  · intro h
    cases hcs : cubes f with
    | nil => rfl
    | cons c rest =>
      have hmem : c ∈ cubes f := by rw [hcs]; exact List.mem_cons_self _ _
      have := ((hc f).1 c hmem).2.2 _ (cube_array_sat c)
      rw [h] at this
      cases this

theorem move_cofactor_and {n : Nat} (ctx : SynthCtx n) (f g : Pred n)
    (state env_move : List Nat) (a : Fin n → Bool) :
    move_cofactor ctx (Cudd_bddAnd f g) state env_move a
      = (move_cofactor ctx f state env_move a && move_cofactor ctx g state env_move a) := by
  unfold move_cofactor
  by_cases hpos : ctx.num_env > 0
  · simp only [if_pos hpos]; rfl
  · simp only [if_neg hpos]; rfl

theorem fallback_empty_candidate_empty {n : Nat} (ctx : SynthCtx n) (hc : CubeCover ctx.cubes)
    (mode j : Nat) (state env_move : List Nat)
    (h : ctx.cubes (move_cofactor ctx (strans_into_W ctx) state env_move) = []) :
    ctx.cubes (move_cofactor ctx (Cudd_bddAnd (strans_into_W ctx) (Y_i_primed ctx mode j))
      state env_move) = [] := by
  rw [cubes_nil_iff ctx.cubes hc] at h ⊢
  intro a
  rw [move_cofactor_and, h a]
  rfl

/-- The choice of the successor gives up exactly when the fallback cofactor
has no cube. -/
theorem choose_successor_none_iff {n : Nat} (ctx : SynthCtx n) (hc : CubeCover ctx.cubes)
    (mode j : Nat) (state env_move : List Nat) :
    choose_successor ctx mode j state env_move = none
      ↔ ctx.cubes (move_cofactor ctx (strans_into_W ctx) state env_move) = [] := by
  rcases choose_successor_cases ctx mode j state env_move with
    ⟨g, rest, hcube, hsel⟩ | ⟨hcube, g, rest, hfb, hsel⟩ | ⟨_, hfb, hsel⟩
  · constructor
    · intro h; rw [hsel] at h; cases h
    · intro h
      rw [fallback_empty_candidate_empty ctx hc mode j state env_move h] at hcube
      cases hcube
  · constructor
    · intro h; rw [hsel] at h; cases h
    · intro h; rw [hfb] at h; cases h
  · exact ⟨fun _ => hfb, fun _ => hsel⟩

/-- When the strategy holds the popped node, the loop over the environment
moves aborts only with "unexpected losing state", and it does so exactly when
the fallback cofactor of one of the moves has no cube. -/
theorem transition_loop_abort {n : Nat} (ctx : SynthCtx n) (hc : CubeCover ctx.cubes)
    (mode j : Nat) (state : List Nat) :
    ∀ (moves : List (List Nat)) (acc : List ANode × List ANode × Nat),
      (find_anode acc.1 mode state).isSome = true →
      (∀ e, transition_loop ctx mode j state moves acc = BuildResult.abort e →
          e = BuildError.losing_state)
      ∧ (transition_loop ctx mode j state moves acc = BuildResult.abort BuildError.losing_state
          ↔ ∃ mv, mv ∈ moves
              ∧ ctx.cubes (move_cofactor ctx (strans_into_W ctx) state mv) = []) := by
  intro moves
  induction moves with
  | nil =>
    intro acc _
    refine ⟨fun e h => ?_, ?_⟩
    · simp only [transition_loop] at h
      cases h
    · constructor
      · intro h
        simp only [transition_loop] at h
        cases h
      · rintro ⟨mv, hmv, _⟩
        exact absurd hmv (List.not_mem_nil _)
  | cons env_move rest ih =>
    rintro ⟨strategy, next_node_stack, addr⟩ hbase
    rw [transition_loop_cons]
    cases hch : choose_successor ctx mode j state env_move with
    | none =>
      simp only
      refine ⟨fun e h => ?_, fun _ => ⟨env_move, List.mem_cons_self _ _,
        (choose_successor_none_iff ctx hc mode j state env_move).mp hch⟩, fun _ => trivial⟩
      cases h
      rfl
    | some pr =>
      obtain ⟨next_mode, succ⟩ := pr
      simp only
      have hfb : ¬ ctx.cubes (move_cofactor ctx (strans_into_W ctx) state env_move) = [] := by
        intro h
        rw [(choose_successor_none_iff ctx hc mode j state env_move).mpr h] at hch
        cases hch
      obtain ⟨hins1, hins2, _⟩ :=
        insert_successor_spec strategy next_node_stack addr next_mode succ
      have hbase1 : (find_anode (insert_successor strategy next_node_stack addr next_mode succ).1
          mode state).isSome = true := by
        obtain ⟨nd, hnd⟩ := Option.isSome_iff_exists.mp hbase
        obtain ⟨nd1, hnd1, _⟩ := hins1 mode state nd hnd
        rw [hnd1]; rfl
      cases hap : append_anode_trans
          (insert_successor strategy next_node_stack addr next_mode succ).1
          mode state next_mode succ with
      | none =>
        rcases (append_anode_trans_none _ _ _ _ _).mp hap with h | h
        · rw [h] at hbase1; cases hbase1
        · rw [h] at hins2; cases hins2
      | some strategy1 =>
        simp only
        obtain ⟨hap1, _, _⟩ := append_anode_trans_extends _ _ _ _ _ _ hap
        have hbase2 : (find_anode strategy1 mode state).isSome = true := by
          obtain ⟨nd, hnd⟩ := Option.isSome_iff_exists.mp hbase1
          obtain ⟨nd1, hnd1, _⟩ := hap1 mode state nd hnd
          rw [hnd1]; rfl
        obtain ⟨ih1, ih2⟩ := ih (strategy1,
          (insert_successor strategy next_node_stack addr next_mode succ).2.1,
          (insert_successor strategy next_node_stack addr next_mode succ).2.2) hbase2
        refine ⟨ih1, ?_⟩
        rw [ih2]
        constructor
        · rintro ⟨mv, hmv, hmt⟩
          exact ⟨mv, List.mem_cons_of_mem _ hmv, hmt⟩
        · rintro ⟨mv, hmv, hmt⟩
          rcases List.mem_cons.mp hmv with heq | hin
          · subst heq; exact absurd hmt hfb
          · exact ⟨mv, hin, hmt⟩

/-! ## Theorems: the strategy commit -/

theorem insert_anode_unique (addr : Nat) (head : List ANode) (mode : Nat) (state : List Nat)
    (h : find_anode head mode state = none) (hu : UniqueKeys head) :
    UniqueKeys (insert_anode addr head mode state) := by
  unfold UniqueKeys insert_anode
  rw [List.map_cons, List.nodup_cons]
  exact ⟨(find_anode_none_iff head mode state).mp h, hu⟩

theorem delete_anode_unique (head : List ANode) (target : ANode) (hu : UniqueKeys head) :
    UniqueKeys (delete_anode head target) := by
  unfold UniqueKeys delete_anode
  exact List.Nodup.sublist (List.Sublist.map _ (List.filter_sublist _)) hu

theorem replace_anode_trans_find (head : List ANode) (old new : ANode) (mode : Nat)
    (state : List Nat) :
    (find_anode (replace_anode_trans head old new) mode state).isSome
      = (find_anode head mode state).isSome := by
  unfold replace_anode_trans
  rw [find_anode_map
    (fun nd => { nd with trans := nd.trans.map (fun t => if t = old.addr then new.addr else t) })
    (fun nd => ⟨rfl, rfl⟩)]
  cases find_anode head mode state <;> rfl

theorem replace_anode_trans_unique (head : List ANode) (old new : ANode)
    (hu : UniqueKeys head) : UniqueKeys (replace_anode_trans head old new) := by
  unfold UniqueKeys replace_anode_trans
  rw [map_key_map
    (fun nd => { nd with trans := nd.trans.map (fun t => if t = old.addr then new.addr else t) })
    (fun nd => ⟨rfl, rfl⟩)]
  exact hu

/-- The strategy commit keeps the keys of the strategy unique, and unless it
skips the popped node, the strategy then holds a node for the popped state with
the mode that the mode advancement selected. -/
theorem commit_node_spec (strategy : List ANode) (addr loop_mode mode : Nat)
    (state : List Nat) :
    ((commit_node strategy addr loop_mode mode state).2.2 = true →
        (find_anode (commit_node strategy addr loop_mode mode state).1 mode state).isSome = true)
      ∧ (UniqueKeys strategy →
          UniqueKeys (commit_node strategy addr loop_mode mode state).1) := by
  by_cases hm : mode = loop_mode
  · subst hm
    cases hf : find_anode strategy mode state with
    | none =>
      have hres : commit_node strategy addr mode mode state
          = (insert_anode addr strategy mode state, addr + 1, true) := by
        simp only [commit_node, if_true, hf]
      rw [hres]
      exact ⟨fun _ => by rw [find_anode_insert_self]; rfl, insert_anode_unique _ _ _ _ hf⟩
    | some node =>
      by_cases ht : node.trans.length > 0
      · have hres : commit_node strategy addr mode mode state = (strategy, addr, false) := by
          simp only [commit_node, if_true, hf, if_pos ht]
        rw [hres]
        exact ⟨fun h => (by cases h), fun hu => hu⟩
      · have hres : commit_node strategy addr mode mode state = (strategy, addr, true) := by
          simp only [commit_node, if_true, hf, if_neg ht]
        rw [hres]
        exact ⟨fun _ => by simp only [hf]; rfl, fun hu => hu⟩
  · cases hf : find_anode strategy loop_mode state with
    | none =>
      cases hf2 : find_anode strategy mode state with
      | none =>
        have hres : commit_node strategy addr loop_mode mode state
            = (insert_anode addr strategy mode state, addr + 1, true) := by
          simp only [commit_node, if_neg hm, hf, hf2]
        rw [hres]
        exact ⟨fun _ => by rw [find_anode_insert_self]; rfl, insert_anode_unique _ _ _ _ hf2⟩
      | some new_node =>
        by_cases ht : new_node.trans.length > 0
        · have hres : commit_node strategy addr loop_mode mode state = (strategy, addr, false) := by
            simp only [commit_node, if_neg hm, hf, hf2, if_pos ht]
          rw [hres]
          exact ⟨fun h => (by cases h), fun hu => hu⟩
        · have hres : commit_node strategy addr loop_mode mode state = (strategy, addr, true) := by
            simp only [commit_node, if_neg hm, hf, hf2, if_neg ht]
          rw [hres]
          exact ⟨fun _ => by simp only [hf2]; rfl, fun hu => hu⟩
    | some node =>
      by_cases ht : node.trans.length > 0
      · have hres : commit_node strategy addr loop_mode mode state = (strategy, addr, false) := by
          simp only [commit_node, if_neg hm, hf, if_pos ht]
        rw [hres]
        exact ⟨fun h => (by cases h), fun hu => hu⟩
      · cases hf3 : find_anode (delete_anode strategy node) mode state with
        | none =>
          have hres : commit_node strategy addr loop_mode mode state
              = (replace_anode_trans (insert_anode addr (delete_anode strategy node) mode state)
                  node ((find_anode (insert_anode addr (delete_anode strategy node) mode state)
                    mode state).getD
                      { addr := addr, mode := mode, state := state, trans := [] }),
                  addr + 1, true) := by
            simp only [commit_node, if_neg hm, hf, if_neg ht, hf3]
          rw [hres]
          refine ⟨fun _ => ?_, fun hu => ?_⟩
          · rw [replace_anode_trans_find, find_anode_insert_self]; rfl
          · exact replace_anode_trans_unique _ _ _
              (insert_anode_unique _ _ _ _ hf3 (delete_anode_unique _ _ hu))
        | some new_node =>
          by_cases ht2 : new_node.trans.length > 0
          · have hres : commit_node strategy addr loop_mode mode state
                = (replace_anode_trans (delete_anode strategy node) node new_node, addr, false) := by
              simp only [commit_node, if_neg hm, hf, if_neg ht, hf3, if_pos ht2]
            rw [hres]
            exact ⟨fun h => (by cases h),
              fun hu => replace_anode_trans_unique _ _ _ (delete_anode_unique _ _ hu)⟩
          · have hres : commit_node strategy addr loop_mode mode state
                = (replace_anode_trans (delete_anode strategy node) node new_node, addr, true) := by
              simp only [commit_node, if_neg hm, hf, if_neg ht, hf3, if_neg ht2]
            rw [hres]
            refine ⟨fun _ => ?_,
              fun hu => replace_anode_trans_unique _ _ _ (delete_anode_unique _ _ hu)⟩
            rw [replace_anode_trans_find, hf3]; rfl

/-! ## Theorems: the passes of the builder loop -/

theorem strategy_step_nil {n : Nat} (fuel : Nat) (ctx : SynthCtx n) (b : Builder)
    (hst : b.this_node_stack = []) : strategy_step fuel ctx b = BuildResult.ok b := by
  simp only [strategy_step, hst]

/-- What a pass of the builder loop does when the work stack has a top node:
it runs out of fuel, or skips the node after the strategy commit, or runs the
loop over the environment moves of the node from the committed strategy. -/
theorem strategy_step_cases {n : Nat} (fuel : Nat) (ctx : SynthCtx n) (b : Builder)
    (top : ANode) (rest : List ANode) (hst : b.this_node_stack = top :: rest) :
    (mode_loop ctx (state2cube top.state (ctx.num_env + ctx.num_sys)) top.mode fuel top.mode = none
        ∧ strategy_step fuel ctx b = BuildResult.abort BuildError.out_of_fuel)
      ∨ ∃ j mode,
        mode_loop ctx (state2cube top.state (ctx.num_env + ctx.num_sys)) top.mode fuel top.mode
          = some (j, mode)
        ∧ (((commit_node b.strategy b.next_addr top.mode mode top.state).2.2 = false
            ∧ strategy_step fuel ctx b = BuildResult.ok
                { strategy := (commit_node b.strategy b.next_addr top.mode mode top.state).1,
                  this_node_stack := rest, next_node_stack := b.next_node_stack,
                  next_addr := (commit_node b.strategy b.next_addr top.mode mode top.state).2.1 })
          ∨ ((commit_node b.strategy b.next_addr top.mode mode top.state).2.2 = true
            ∧ (((if ctx.num_env > 0 then get_env_moves fuel ctx top.state else some [[]]) = none
                ∧ strategy_step fuel ctx b = BuildResult.abort BuildError.out_of_fuel)
              ∨ ∃ moves,
                  (if ctx.num_env > 0 then get_env_moves fuel ctx top.state else some [[]])
                    = some moves
                  ∧ ((∃ e, transition_loop ctx mode j top.state moves
                        ((commit_node b.strategy b.next_addr top.mode mode top.state).1,
                          b.next_node_stack,
                          (commit_node b.strategy b.next_addr top.mode mode top.state).2.1)
                        = BuildResult.abort e
                      ∧ strategy_step fuel ctx b = BuildResult.abort e)
                    ∨ ∃ acc1, transition_loop ctx mode j top.state moves
                        ((commit_node b.strategy b.next_addr top.mode mode top.state).1,
                          b.next_node_stack,
                          (commit_node b.strategy b.next_addr top.mode mode top.state).2.1)
                        = BuildResult.ok acc1
                      ∧ ∃ b1, strategy_step fuel ctx b = BuildResult.ok b1
                          ∧ b1.strategy = acc1.1)))) := by
  cases hml : mode_loop ctx (state2cube top.state (ctx.num_env + ctx.num_sys)) top.mode fuel
      top.mode with
  | none =>
    exact Or.inl ⟨rfl, by simp only [strategy_step, hst, hml]⟩
  | some pr =>
    obtain ⟨j, mode⟩ := pr
    refine Or.inr ⟨j, mode, rfl, ?_⟩
    by_cases hflag : (commit_node b.strategy b.next_addr top.mode mode top.state).2.2 = false
    · refine Or.inl ⟨hflag, ?_⟩
      simp only [strategy_step, hst, hml, hflag, if_true, pop_anode, List.tail_cons]
    · have hflag1 : (commit_node b.strategy b.next_addr top.mode mode top.state).2.2 = true := by
        cases h : (commit_node b.strategy b.next_addr top.mode mode top.state).2.2 with
        | false => exact absurd h hflag
        | true => rfl
      refine Or.inr ⟨hflag1, ?_⟩
      cases hmv : (if ctx.num_env > 0 then get_env_moves fuel ctx top.state else some [[]]) with
      | none =>
        refine Or.inl ⟨rfl, ?_⟩
        simp only [strategy_step, hst, hml, if_neg hflag, hmv]
      | some moves =>
        refine Or.inr ⟨moves, rfl, ?_⟩
        cases htl : transition_loop ctx mode j top.state moves
            ((commit_node b.strategy b.next_addr top.mode mode top.state).1, b.next_node_stack,
              (commit_node b.strategy b.next_addr top.mode mode top.state).2.1) with
        | abort e =>
          refine Or.inl ⟨e, rfl, ?_⟩
          simp only [strategy_step, hst, hml, if_neg hflag, hmv, htl]
        | ok acc1 =>
          obtain ⟨s1, n1, a1⟩ := acc1
          refine Or.inr ⟨(s1, n1, a1), rfl, ?_⟩
          by_cases hpop : pop_anode (top :: rest) = []
          · exact ⟨(⟨s1, n1, [], a1⟩ : Builder),
              by simp only [strategy_step, hst, hml, if_neg hflag, hmv, htl, if_pos hpop], rfl⟩
          · exact ⟨(⟨s1, pop_anode (top :: rest), n1, a1⟩ : Builder),
              by simp only [strategy_step, hst, hml, if_neg hflag, hmv, htl, if_neg hpop], rfl⟩

/-- A pass of the builder loop aborts with "unexpected losing state" exactly
when it reaches an environment move whose fallback cofactor is empty. -/
theorem strategy_step_abort_iff {n : Nat} (fuel : Nat) (ctx : SynthCtx n)
    (hc : CubeCover ctx.cubes) (b : Builder) :
    strategy_step fuel ctx b = BuildResult.abort BuildError.losing_state
      ↔ LosingMove fuel ctx b := by
  cases hst : b.this_node_stack with
  | nil =>
    rw [strategy_step_nil fuel ctx b hst]
    constructor
    · intro h; cases h
    · rintro ⟨top, rest, _, _, _, _, h, _⟩
      rw [hst] at h; cases h
  | cons top rest =>
    have hlose : LosingMove fuel ctx b → ∃ j mode moves mv,
        mode_loop ctx (state2cube top.state (ctx.num_env + ctx.num_sys)) top.mode fuel top.mode
          = some (j, mode)
        ∧ (commit_node b.strategy b.next_addr top.mode mode top.state).2.2 = true
        ∧ (if ctx.num_env > 0 then get_env_moves fuel ctx top.state else some [[]]) = some moves
        ∧ mv ∈ moves
        ∧ ctx.cubes (move_cofactor ctx (strans_into_W ctx) top.state mv) = [] := by
      rintro ⟨top1, rest1, j, mode, moves, mv, h1, h2, h3, h4, h5, h6⟩
      rw [hst] at h1
      cases h1
      exact ⟨j, mode, moves, mv, h2, h3, h4, h5, h6⟩
    rcases strategy_step_cases fuel ctx b top rest hst with
      ⟨hml, hres⟩ | ⟨j, mode, hml, ⟨hflag, hres⟩ | ⟨hflag, ⟨hmv, hres⟩ |
        ⟨moves, hmv, ⟨e, htl, hres⟩ | ⟨acc1, htl, b1, hres, _⟩⟩⟩⟩
    · rw [hres]
      constructor
      · intro h; cases h
      · intro h
        obtain ⟨_, _, _, _, h2, _⟩ := hlose h
        rw [hml] at h2; cases h2
    · rw [hres]
      constructor
      · intro h; cases h
      · intro h
        obtain ⟨j1, mode1, _, _, h2, h3, _⟩ := hlose h
        rw [hml] at h2
        cases h2
        rw [hflag] at h3; cases h3
    · rw [hres]
      constructor
      · intro h; cases h
      · intro h
        obtain ⟨_, _, _, _, _, _, h4, _⟩ := hlose h
        rw [hmv] at h4; cases h4
    · obtain ⟨hab1, hab2⟩ := transition_loop_abort ctx hc mode j top.state moves
        ((commit_node b.strategy b.next_addr top.mode mode top.state).1, b.next_node_stack,
          (commit_node b.strategy b.next_addr top.mode mode top.state).2.1)
        ((commit_node_spec b.strategy b.next_addr top.mode mode top.state).1 hflag)
      have he := hab1 e htl
      subst he
      rw [hres]
      refine ⟨fun _ => ?_, fun _ => rfl⟩
      obtain ⟨mv, hmem, hempty⟩ := hab2.mp htl
      exact ⟨top, rest, j, mode, moves, mv, hst, hml, hflag, hmv, hmem, hempty⟩
    · rw [hres]
      constructor
      · intro h; cases h
      · intro h
        obtain ⟨j1, mode1, moves1, mv, h2, h3, h4, h5, h6⟩ := hlose h
        rw [hml] at h2
        cases h2
        rw [hmv] at h4
        cases h4
        obtain ⟨_, hab2⟩ := transition_loop_abort ctx hc mode j top.state moves
          ((commit_node b.strategy b.next_addr top.mode mode top.state).1, b.next_node_stack,
            (commit_node b.strategy b.next_addr top.mode mode top.state).2.1)
          ((commit_node_spec b.strategy b.next_addr top.mode mode top.state).1 hflag)
        have := hab2.mpr ⟨mv, h5, h6⟩
        rw [htl] at this
        cases this

/-- A pass of the builder loop keeps the keys of the strategy unique. -/
theorem strategy_step_unique {n : Nat} (fuel : Nat) (ctx : SynthCtx n) (b b1 : Builder)
    (h : strategy_step fuel ctx b = BuildResult.ok b1) (hu : UniqueKeys b.strategy) :
    UniqueKeys b1.strategy := by
  cases hst : b.this_node_stack with
  | nil =>
    rw [strategy_step_nil fuel ctx b hst] at h
    cases h
    exact hu
  | cons top rest =>
    rcases strategy_step_cases fuel ctx b top rest hst with
      ⟨_, hres⟩ | ⟨j, mode, _, ⟨_, hres⟩ | ⟨_, ⟨_, hres⟩ |
        ⟨moves, _, ⟨e, _, hres⟩ | ⟨acc1, htl, b2, hres, hb2⟩⟩⟩⟩
    · rw [hres] at h; cases h
    · rw [hres] at h
      cases h
      exact (commit_node_spec b.strategy b.next_addr top.mode mode top.state).2 hu
    · rw [hres] at h; cases h
    · rw [hres] at h; cases h
    · rw [hres] at h
      cases h
      rw [hb2]
      exact (transition_loop_edges ctx mode j top.state moves _ acc1 htl).2.1
        ((commit_node_spec b.strategy b.next_addr top.mode mode top.state).2 hu)

theorem strategy_passes_succ {n : Nat} (fuel : Nat) (ctx : SynthCtx n) (i : Nat) (b : Builder) :
    strategy_passes fuel ctx (i + 1) b
      = match strategy_step fuel ctx b with
        | BuildResult.abort e => BuildResult.abort e
        | BuildResult.ok b1 => strategy_passes fuel ctx i b1 := rfl

theorem strategy_passes_unique {n : Nat} (fuel : Nat) (ctx : SynthCtx n) :
    ∀ (i : Nat) (b bi : Builder), strategy_passes fuel ctx i b = BuildResult.ok bi →
      UniqueKeys b.strategy → UniqueKeys bi.strategy := by
  intro i
  induction i with
  | zero =>
    intro b bi h hu
    simp only [strategy_passes, BuildResult.ok.injEq] at h
    rw [← h]; exact hu
  | succ i ih =>
    intro b bi h hu
    rw [strategy_passes_succ] at h
    cases hstep : strategy_step fuel ctx b with
    | abort e => rw [hstep] at h; cases h
    | ok b1 =>
      rw [hstep] at h
      exact ih b1 bi h (strategy_step_unique fuel ctx b b1 hstep hu)

theorem strategy_loop_unique {n : Nat} (fuel : Nat) (ctx : SynthCtx n) :
    ∀ (k : Nat) (b b1 : Builder), strategy_loop fuel ctx k b = BuildResult.ok b1 →
      UniqueKeys b.strategy → UniqueKeys b1.strategy := by
  intro k
  induction k with
  | zero =>
    intro b b1 h hu
    cases hst : b.this_node_stack with
    | nil =>
      simp only [strategy_loop, hst, BuildResult.ok.injEq] at h
      rw [← h]; exact hu
    | cons top rest =>
      simp only [strategy_loop, hst] at h
      cases h
  | succ k ih =>
    intro b b1 h hu
    cases hst : b.this_node_stack with
    | nil =>
      simp only [strategy_loop, hst, BuildResult.ok.injEq] at h
      rw [← h]; exact hu
    | cons top rest =>
      cases hstep : strategy_step fuel ctx b with
      | abort e =>
        simp only [strategy_loop, hst, hstep] at h
        cases h
      | ok b2 =>
        simp only [strategy_loop, hst, hstep] at h
        exact ih b2 b1 h (strategy_step_unique fuel ctx b b2 hstep hu)

theorem strategy_passes_nil {n : Nat} (fuel : Nat) (ctx : SynthCtx n) (b : Builder)
    (hst : b.this_node_stack = []) :
    ∀ i, strategy_passes fuel ctx i b = BuildResult.ok b := by
  intro i
  induction i with
  | zero => rfl
  | succ i ih => rw [strategy_passes_succ, strategy_step_nil fuel ctx b hst]; exact ih

/-- The builder loop aborts with "unexpected losing state" exactly when one of
its passes reaches an environment move whose fallback cofactor is empty. -/
theorem strategy_loop_abort_iff {n : Nat} (fuel : Nat) (ctx : SynthCtx n)
    (hc : CubeCover ctx.cubes) :
    ∀ (k : Nat) (b : Builder),
      strategy_loop fuel ctx k b = BuildResult.abort BuildError.losing_state
        ↔ ∃ i, i < k ∧ ∃ bi, strategy_passes fuel ctx i b = BuildResult.ok bi
            ∧ LosingMove fuel ctx bi := by
  intro k
  induction k with
  | zero =>
    intro b
    constructor
    · intro h
      cases hst : b.this_node_stack with
      | nil => simp only [strategy_loop, hst] at h; cases h
      | cons top rest => simp only [strategy_loop, hst] at h; cases h
    · rintro ⟨i, hi, _⟩
      omega
  | succ k ih =>
    intro b
    cases hst : b.this_node_stack with
    | nil =>
      constructor
      · intro h
        simp only [strategy_loop, hst] at h
        cases h
      · rintro ⟨i, _, bi, hp, top, rest, _, _, _, _, hl, _⟩
        rw [strategy_passes_nil fuel ctx b hst i] at hp
        cases hp
        rw [hst] at hl
        cases hl
    | cons top rest =>
      cases hstep : strategy_step fuel ctx b with
      | abort e =>
        have hloop : strategy_loop fuel ctx (k + 1) b = BuildResult.abort e := by
          simp only [strategy_loop, hst, hstep]
        rw [hloop]
        constructor
        · intro h
          cases h
          exact ⟨0, by omega, b, rfl, (strategy_step_abort_iff fuel ctx hc b).mp hstep⟩
        · rintro ⟨i, _, bi, hp, hl⟩
          cases i with
          | zero =>
            simp only [strategy_passes, BuildResult.ok.injEq] at hp
            subst hp
            rw [(strategy_step_abort_iff fuel ctx hc b).mpr hl] at hstep
            cases hstep
            rfl
          | succ i =>
            rw [strategy_passes_succ, hstep] at hp
            cases hp
      | ok b1 =>
        have hloop : strategy_loop fuel ctx (k + 1) b = strategy_loop fuel ctx k b1 := by
          simp only [strategy_loop, hst, hstep]
        rw [hloop, ih b1]
        constructor
        · rintro ⟨i, hi, bi, hp, hl⟩
          exact ⟨i + 1, by omega, bi, by rw [strategy_passes_succ, hstep]; exact hp, hl⟩
        · rintro ⟨i, hi, bi, hp, hl⟩
          cases i with
          | zero =>
            simp only [strategy_passes, BuildResult.ok.injEq] at hp
            subst hp
            rw [(strategy_step_abort_iff fuel ctx hc b).mpr hl] at hstep
            cases hstep
          | succ i =>
            rw [strategy_passes_succ, hstep] at hp
            exact ⟨i, by omega, bi, hp, hl⟩

/-- C14: when no two nodes of the strategy have the same mode and state
before the builder loop starts (the strategy of `synthesize` is empty then),
this is so after every pass of the loop and in the strategy that the loop
leaves. -/
theorem strategy_keys_unique {n : Nat} (fuel : Nat) (ctx : SynthCtx n) (b : Builder)
    (hu : UniqueKeys b.strategy) :
    (∀ i bi, strategy_passes fuel ctx i b = BuildResult.ok bi → UniqueKeys bi.strategy)
      ∧ (∀ k b1, strategy_loop fuel ctx k b = BuildResult.ok b1 → UniqueKeys b1.strategy) :=
  ⟨fun i bi h => strategy_passes_unique fuel ctx i b bi h hu,
    fun k b1 h => strategy_loop_unique fuel ctx k b b1 h hu⟩

set_option maxRecDepth 1000000 in
/-- Worked instance of C14: the builder loop of the system `ex_follow`, started
with the empty strategy and the state `(0, 0)` on the work stack, ends after
two passes with the nodes `(0, (1,1))` and `(0, (0,0))`. -/
theorem strategy_keys_unique_witness :
    strategy_loop 3 ex_follow 2 ⟨[], [⟨0, 0, [0, 0], []⟩], [], 1⟩
        = BuildResult.ok ⟨[⟨2, 0, [1, 1], [1]⟩, ⟨1, 0, [0, 0], [2]⟩], [], [], 4⟩
      ∧ (∀ i bi, strategy_passes 3 ex_follow i ⟨[], [⟨0, 0, [0, 0], []⟩], [], 1⟩
            = BuildResult.ok bi → UniqueKeys bi.strategy)
      ∧ (∀ k b1, strategy_loop 3 ex_follow k ⟨[], [⟨0, 0, [0, 0], []⟩], [], 1⟩
            = BuildResult.ok b1 → UniqueKeys b1.strategy) :=
  ⟨by decide,
    strategy_keys_unique 3 ex_follow ⟨[], [⟨0, 0, [0, 0], []⟩], [], 1⟩ List.nodup_nil⟩

/-- C19: for each environment move of a popped node, when the cofactor of
`T_s ∧ W' ∧ Y_target'` by the state and the move has no cube, the builder takes
the successor from the cofactor of `T_s ∧ W'` and keeps the mode; a pass of the
builder loop aborts with "unexpected losing state" exactly when it reaches a
move for which that fallback cofactor has no cube either, and the loop aborts
in this way exactly when one of its passes does. A BDD has no cube exactly when
it is empty (constant false). -/
theorem fallback_and_abort {n : Nat} (fuel : Nat) (ctx : SynthCtx n)
    (hc : CubeCover ctx.cubes) :
    (∀ mode j state mv,
        ctx.cubes (move_cofactor ctx (Cudd_bddAnd (strans_into_W ctx) (Y_i_primed ctx mode j))
          state mv) = [] →
        choose_successor ctx mode j state mv
          = match ctx.cubes (move_cofactor ctx (strans_into_W ctx) state mv) with
            | [] => none
            | gcube :: _ =>
              some (mode, successor_state ctx.num_env (ctx.num_env + ctx.num_sys) gcube mv))
      ∧ (∀ b, strategy_step fuel ctx b = BuildResult.abort BuildError.losing_state
          ↔ LosingMove fuel ctx b)
      ∧ (∀ k b, strategy_loop fuel ctx k b = BuildResult.abort BuildError.losing_state
          ↔ ∃ i, i < k ∧ ∃ bi, strategy_passes fuel ctx i b = BuildResult.ok bi
              ∧ LosingMove fuel ctx bi)
      ∧ (∀ f : Pred n, ctx.cubes f = [] ↔ ∀ a, f a = false) := by
  refine ⟨fun mode j state mv hcand => ?_, strategy_step_abort_iff fuel ctx hc,
    strategy_loop_abort_iff fuel ctx hc, cubes_nil_iff ctx.cubes hc⟩
  rcases choose_successor_cases ctx mode j state mv with
    ⟨g, rest, hcube, _⟩ | ⟨_, g, rest, hfb, hsel⟩ | ⟨_, hfb, hsel⟩
  · rw [hcand] at hcube; cases hcube
  · rw [hsel, hfb]
  · rw [hsel, hfb]

set_option maxRecDepth 1000000 in
/-- Worked instance of C19: in the system `ex_stuck` the builder loop, started
with the state `a = 1` on the work stack, aborts in its first pass. -/
theorem fallback_and_abort_witness :
    strategy_loop 3 ex_stuck 1 ⟨[], [⟨0, 0, [1], []⟩], [], 1⟩
        = BuildResult.abort BuildError.losing_state
      ∧ (∀ mode j state mv,
          ex_stuck.cubes (move_cofactor ex_stuck
            (Cudd_bddAnd (strans_into_W ex_stuck) (Y_i_primed ex_stuck mode j)) state mv) = [] →
          choose_successor ex_stuck mode j state mv
            = match ex_stuck.cubes (move_cofactor ex_stuck (strans_into_W ex_stuck) state mv) with
              | [] => none
              | gcube :: _ =>
                some (mode,
                  successor_state ex_stuck.num_env (ex_stuck.num_env + ex_stuck.num_sys) gcube mv))
      ∧ (∀ b, strategy_step 3 ex_stuck b = BuildResult.abort BuildError.losing_state
          ↔ LosingMove 3 ex_stuck b)
      ∧ (∀ k b, strategy_loop 3 ex_stuck k b = BuildResult.abort BuildError.losing_state
          ↔ ∃ i, i < k ∧ ∃ bi, strategy_passes 3 ex_stuck i b = BuildResult.ok bi
              ∧ LosingMove 3 ex_stuck bi)
      ∧ (∀ f : Pred 2, ex_stuck.cubes f = [] ↔ ∀ a, f a = false) :=
  ⟨by decide, fallback_and_abort 3 ex_stuck (support_cubes_cover 2)⟩

/-! ## Theorems: the vectors emitted for one cube -/

theorem enumerate_loop_length (gcube : List Int) (len : Nat) :
    ∀ (fuel : Nat) (state : List Nat) (out r : List (List Nat)),
      enumerate_loop gcube len fuel state out = some r → out.length + 1 ≤ r.length := by
  intro fuel
  induction fuel with
  | zero => intro state out r h; simp [enumerate_loop] at h
  | succ fuel ih =>
    intro state out r h
    rw [enumerate_loop_succ] at h
    by_cases hs : saturated_cube state gcube len = true
    · rw [if_pos hs] at h
      cases h
      rw [List.length_append, List.length_singleton]
    · rw [if_neg hs] at h
      have := ih _ _ _ h
      rw [List.length_append, List.length_singleton] at this
      omega

/-- The vectors emitted for one cube: the initialised vector alone when it is
saturated, and otherwise up to two more, each obtained from the one before by
`increment_cube`, the last of them saturated and the others not. -/
theorem enumerate_cube_shape (gcube : List Int) (len d : Nat) (state : List Nat)
    (hlen : state.length = len) :
    (saturated_cube (initialize_cube state gcube len) gcube len = true
        ∧ enumerate_cube (3 + d) state gcube len = some [initialize_cube state gcube len])
      ∨ (saturated_cube (initialize_cube state gcube len) gcube len = false
        ∧ saturated_cube (increment_cube (initialize_cube state gcube len) gcube len) gcube len
            = true
        ∧ enumerate_cube (3 + d) state gcube len
            = some [initialize_cube state gcube len,
                increment_cube (initialize_cube state gcube len) gcube len])
      ∨ (saturated_cube (initialize_cube state gcube len) gcube len = false
        ∧ saturated_cube (increment_cube (initialize_cube state gcube len) gcube len) gcube len
            = false
        ∧ saturated_cube (increment_cube
            (increment_cube (initialize_cube state gcube len) gcube len) gcube len) gcube len
            = true
        ∧ enumerate_cube (3 + d) state gcube len
            = some [initialize_cube state gcube len,
                increment_cube (initialize_cube state gcube len) gcube len,
                increment_cube (increment_cube (initialize_cube state gcube len) gcube len)
                  gcube len]) := by
  obtain ⟨out, hout, _, hle, _⟩ := enumerate_cube_sound gcube len d state hlen
  have hfuel : 3 + d = (d + 1) + 1 + 1 := by omega
  have hrun := hout
  unfold enumerate_cube at hrun ⊢
  rw [hfuel] at hrun ⊢
  rw [enumerate_loop_succ] at hrun ⊢
  cases hs0 : saturated_cube (initialize_cube state gcube len) gcube len with
  | true =>
    rw [if_pos rfl]
    exact Or.inl ⟨rfl, rfl⟩
  | false =>
    rw [hs0, if_neg (by decide), enumerate_loop_succ] at hrun
    rw [if_neg (by decide), enumerate_loop_succ]
    cases hs1 : saturated_cube (increment_cube (initialize_cube state gcube len) gcube len)
        gcube len with
    | true =>
      rw [if_pos rfl]
      exact Or.inr (Or.inl ⟨rfl, rfl, rfl⟩)
    | false =>
      rw [hs1, if_neg (by decide), enumerate_loop_succ] at hrun
      rw [if_neg (by decide), enumerate_loop_succ]
      cases hs2 : saturated_cube (increment_cube
          (increment_cube (initialize_cube state gcube len) gcube len) gcube len) gcube len with
      | true =>
        rw [if_pos rfl]
        exact Or.inr (Or.inr ⟨rfl, rfl, rfl, rfl⟩)
      | false =>
        rw [hs2, if_neg (by decide)] at hrun
        have := enumerate_loop_length gcube len _ _ _ _ hrun
        simp only [List.nil_append, List.cons_append, List.length_cons, List.length_nil] at this
        omega

/-- The vectors emitted for one cube are pairwise distinct, and there is
exactly one when the cube has no don't-care entry. -/
theorem enumerate_cube_nodup (gcube : List Int) (len d : Nat) (state : List Nat)
    (hlen : state.length = len) :
    ∃ out, enumerate_cube (3 + d) state gcube len = some out ∧ out.Nodup
      ∧ ((∀ i, i < len → gcube.getD i 0 ≠ 2) → out.length = 1) := by
  have hne : ∀ a b : List Nat, saturated_cube a gcube len = false →
      saturated_cube b gcube len = true → a ≠ b := by
    intro a b ha hb hab
    rw [hab, hb] at ha
    cases ha
  rcases enumerate_cube_shape gcube len d state hlen with
    ⟨_, hout⟩ | ⟨hs0, hs1, hout⟩ | ⟨hs0, hs1, hs2, hout⟩
  · exact ⟨_, hout, List.nodup_singleton _, fun _ => rfl⟩
  · refine ⟨_, hout, ?_, fun hno => ?_⟩
    · rw [List.nodup_cons]
      refine ⟨?_, List.nodup_singleton _⟩
      rw [List.mem_singleton]
      exact hne _ _ hs0 hs1
    · have : saturated_cube (initialize_cube state gcube len) gcube len = true := by
        rw [saturated_cube_iff]
        intro i hi h
        exact absurd h (hno i hi)
      rw [this] at hs0
      cases hs0
  · refine ⟨_, hout, ?_, fun hno => ?_⟩
    · rw [List.nodup_cons, List.nodup_cons]
      refine ⟨?_, ?_, List.nodup_singleton _⟩
      · intro hmem
        rcases List.mem_cons.mp hmem with h | h
        · rw [← h, hs1] at hs2
          cases hs2
        · rw [List.mem_singleton] at h
          exact hne _ _ hs0 hs2 h
      · rw [List.mem_singleton]
        exact hne _ _ hs1 hs2
    · have : saturated_cube (initialize_cube state gcube len) gcube len = true := by
        rw [saturated_cube_iff]
        intro i hi h
        exact absurd h (hno i hi)
      rw [this] at hs0
      cases hs0

/-- C28: in `get_env_moves` the moves emitted for one cube are pairwise
distinct, and a cube whose environment-primed positions hold no don't-care
entry contributes exactly one move: the pass of the loop over the cubes
appends the vectors `out` of the cube to the list of moves, `out` has no
duplicate, and `out` has length 1 when none of the `num_env` positions from
`num_vars` on holds 2. -/
theorem env_moves_no_duplicate (d num_env num_vars : Nat) (gcube : List Int)
    (rest : List (List Int)) (env_moves : List (List Nat)) :
    ∃ out, enumerate_cube (3 + d) (List.replicate num_env 0) (gcube.drop num_vars) num_env
          = some out
      ∧ env_moves_loop (3 + d) num_env num_vars (gcube :: rest) env_moves
          = env_moves_loop (3 + d) num_env num_vars rest (env_moves ++ out)
      ∧ out.Nodup
      ∧ ((∀ i, i < num_env → gcube.getD (num_vars + i) 0 ≠ 2) →
          out.length = 1
            ∧ (env_moves ++ out).length = env_moves.length + 1) := by
  obtain ⟨out, hout, hnd, hone⟩ :=
    enumerate_cube_nodup (gcube.drop num_vars) num_env d (List.replicate num_env 0)
      (List.length_replicate _ _)
  refine ⟨out, hout, by simp only [env_moves_loop, hout], hnd, fun hno => ?_⟩
  have h1 : out.length = 1 := hone (fun i hi => by rw [drop_getD]; exact hno i hi)
  exact ⟨h1, by rw [List.length_append, h1]⟩

/-- C30: for a reference cube with entries in `{0, 1, 2}`, the enumeration
(`initialize_cube`, then `increment_cube` while `saturated_cube` is false, and
the final emit) ends, and every vector it emits has length `len`, has all its
entries in `{0, 1}`, and agrees with the cube wherever the cube does not hold
2. -/
theorem enumeration_sound (gcube : List Int) (len d : Nat) (state : List Nat)
    (hlen : state.length = len)
    (hcube : ∀ i, i < len → gcube.getD i 0 = 0 ∨ gcube.getD i 0 = 1 ∨ gcube.getD i 0 = 2) :
    ∃ out, enumerate_cube (3 + d) state gcube len = some out
      ∧ out ≠ []
      ∧ ∀ v, v ∈ out →
          v.length = len
          ∧ ∀ i, i < len →
              (v.getD i 0 = 0 ∨ v.getD i 0 = 1)
              ∧ (gcube.getD i 0 ≠ 2 → Int.ofNat (v.getD i 0) = gcube.getD i 0) := by
  obtain ⟨out, hout, hne, _, hexp⟩ := enumerate_cube_sound gcube len d state hlen
  refine ⟨out, hout, hne, fun v hv => ⟨(hexp v hv).1, fun i hi => ?_⟩⟩
  obtain ⟨hdc, hfix⟩ := (hexp v hv).2 i hi
  rcases hcube i hi with h0 | h1 | h2
  · have hv0 : v.getD i 0 = 0 := by rw [hfix (by rw [h0]; decide), h0]; rfl
    exact ⟨Or.inl hv0, fun _ => by rw [hv0, h0]; rfl⟩
  · have hv1 : v.getD i 0 = 1 := by rw [hfix (by rw [h1]; decide), h1]; rfl
    exact ⟨Or.inr hv1, fun _ => by rw [hv1, h1]; rfl⟩
  · have := hdc h2
    refine ⟨by omega, fun hne2 => absurd h2 hne2⟩

/-- Worked instance of C30: the cube `[0, 2, 1, 2]`, read with length 4. -/
theorem enumeration_sound_witness :
    ∃ out, enumerate_cube (3 + 0) [0, 0, 0, 0] [0, 2, 1, 2] 4 = some out
      ∧ out ≠ []
      ∧ ∀ v, v ∈ out →
          v.length = 4
          ∧ ∀ i, i < 4 →
              (v.getD i 0 = 0 ∨ v.getD i 0 = 1)
              ∧ (([0, 2, 1, 2] : List Int).getD i 0 ≠ 2
                  → Int.ofNat (v.getD i 0) = ([0, 2, 1, 2] : List Int).getD i 0) :=
  enumeration_sound [0, 2, 1, 2] 4 0 [0, 0, 0, 0] rfl (by decide)

/-! ## Theorems: size and indices of the automaton store -/

theorem populate_nodes_spec : ∀ (keys : List (Nat × List Nat)) (head : List ANode) (addr : Nat),
    (populate_nodes keys head addr).length = head.length + keys.length
      ∧ (populate_nodes keys head addr).map anode_key = keys.reverse ++ head.map anode_key := by
  intro keys
  induction keys with
  | nil => intro head addr; simp [populate_nodes]
  | cons key rest ih =>
    intro head addr
    obtain ⟨h1, h2⟩ := ih (insert_anode addr head key.1 key.2) (addr + 1)
    refine ⟨?_, ?_⟩
    · rw [populate_nodes, h1]
      simp only [insert_anode, List.length_cons]
      omega
    · rw [populate_nodes, h2]
      simp only [insert_anode, List.map_cons, List.reverse_cons, List.append_assoc,
        List.singleton_append, anode_key]

theorem append_anode_trans_keys (head : List ANode) (mode : Nat) (state : List Nat)
    (next_mode : Nat) (next_state : List Nat) (out : List ANode)
    (h : append_anode_trans head mode state next_mode next_state = some out) :
    out.length = head.length ∧ out.map anode_key = head.map anode_key := by
  obtain ⟨g, hout, hg, _⟩ := append_anode_trans_spec head mode state next_mode next_state out h
  subst hout
  exact ⟨List.length_map _ _, map_key_map g (fun nd => ⟨(hg nd).1, (hg nd).2.1⟩) head⟩

theorem populate_trans_spec : ∀ (edges : List ((Nat × List Nat) × (Nat × List Nat)))
    (head out : List ANode), populate_trans edges head = some out →
      out.length = head.length ∧ out.map anode_key = head.map anode_key := by
  intro edges
  induction edges with
  | nil =>
    intro head out h
    simp only [populate_trans, Option.some.injEq] at h
    subst h
    exact ⟨rfl, rfl⟩
  | cons edge rest ih =>
    intro head out h
    cases hap : append_anode_trans head edge.1.1 edge.1.2 edge.2.1 edge.2.2 with
    | none => simp only [populate_trans, hap] at h; cases h
    | some head1 =>
      simp only [populate_trans, hap] at h
      obtain ⟨h1, h2⟩ := ih head1 out h
      obtain ⟨h3, h4⟩ := append_anode_trans_keys _ _ _ _ _ _ hap
      exact ⟨by rw [h1, h3], by rw [h2, h4]⟩

/-- The calls of `append_anode_trans` of the fixture all succeed when both ends
of every pair are keys of the automaton. -/
theorem populate_trans_total : ∀ (edges : List ((Nat × List Nat) × (Nat × List Nat)))
    (head : List ANode),
    (∀ e, e ∈ edges → e.1 ∈ head.map anode_key ∧ e.2 ∈ head.map anode_key) →
    ∃ out, populate_trans edges head = some out := by
  intro edges
  induction edges with
  | nil => intro head _; exact ⟨head, rfl⟩
  | cons edge rest ih =>
    intro head hk
    obtain ⟨he1, he2⟩ := hk edge (List.mem_cons_self _ _)
    cases hap : append_anode_trans head edge.1.1 edge.1.2 edge.2.1 edge.2.2 with
    | none =>
      rcases (append_anode_trans_none _ _ _ _ _).mp hap with h | h
      · exact absurd he1 ((find_anode_none_iff _ _ _).mp h)
      · exact absurd he2 ((find_anode_none_iff _ _ _).mp h)
    | some head1 =>
      obtain ⟨_, h4⟩ := append_anode_trans_keys _ _ _ _ _ _ hap
      obtain ⟨out, hout⟩ := ih head1 (fun e he => by
        rw [h4]; exact hk e (List.mem_cons_of_mem _ he))
      exact ⟨out, by simp only [populate_trans, hap]; exact hout⟩

theorem anode_index_from_spec (p : ANode → Bool) : ∀ (head : List ANode) (i : Nat),
    ((∃ nd, nd ∈ head ∧ p nd = true) → Int.ofNat i ≤ anode_index_from p head i)
      ∧ ((∀ nd, nd ∈ head → p nd = false) → anode_index_from p head i = -1) := by
  intro head
  induction head with
  | nil =>
    intro i
    exact ⟨fun ⟨nd, h, _⟩ => absurd h (List.not_mem_nil _), fun _ => rfl⟩
  | cons x xs ih =>
    intro i
    obtain ⟨ih1, ih2⟩ := ih (i + 1)
    cases hp : p x with
    | true =>
      refine ⟨fun _ => ?_, fun hall => ?_⟩
      · simp only [anode_index_from, hp, if_true]
        exact Int.le_refl _
      · have := hall x (List.mem_cons_self _ _)
        rw [hp] at this
        cases this
    | false =>
      refine ⟨fun ⟨nd, hmem, hnd⟩ => ?_, fun hall => ?_⟩
      · simp only [anode_index_from, hp, Bool.false_eq_true, if_false]
        rcases List.mem_cons.mp hmem with h | h
        · rw [h, hp] at hnd
          cases hnd
        · have := ih1 ⟨nd, h, hnd⟩
          have hle : Int.ofNat i ≤ Int.ofNat (i + 1) := Int.ofNat_le.mpr (Nat.le_succ i)
          exact Int.le_trans hle this
      · simp only [anode_index_from, hp, Bool.false_eq_true, if_false]
        exact ih2 (fun nd h => hall nd (List.mem_cons_of_mem _ h))

/-- The index of a key is non-negative when a node of the list has the key, and
`-1` when none has. -/
theorem find_anode_index_spec (head : List ANode) (mode : Nat) (state : List Nat) :
    ((mode, state) ∈ head.map anode_key → 0 ≤ find_anode_index head mode state)
      ∧ ((mode, state) ∉ head.map anode_key → find_anode_index head mode state = -1) := by
  obtain ⟨h1, h2⟩ := anode_index_from_spec
    (fun nd => decide (nd.mode = mode) && decide (nd.state = state)) head 0
  refine ⟨fun hmem => ?_, fun hnot => ?_⟩
  · rw [List.mem_map] at hmem
    obtain ⟨nd, hnd, hkey⟩ := hmem
    unfold anode_key at hkey
    cases hkey
    exact h1 ⟨nd, hnd, by simp⟩
  · apply h2
    intro nd hnd
    rw [Bool.and_eq_false_iff]
    by_cases hm : nd.mode = mode
    · right
      apply decide_eq_false
      intro hs
      apply hnot
      rw [List.mem_map]
      exact ⟨nd, hnd, by unfold anode_key; rw [hm, hs]⟩
    · left; exact decide_eq_false hm

theorem delete_anode_length (node : ANode) : ∀ (head : List ANode),
    (head.map (fun nd => nd.addr)).Nodup → node ∈ head →
    (delete_anode head node).length + 1 = head.length := by
  intro head
  induction head with
  | nil => intro _ h; exact absurd h (List.not_mem_nil _)
  | cons x xs ih =>
    intro hu hmem
    rw [List.map_cons, List.nodup_cons] at hu
    obtain ⟨hx, hxs⟩ := hu
    by_cases hax : x.addr = node.addr
    · have hall : ∀ nd, nd ∈ xs → decide (nd.addr ≠ node.addr) = true := by
        intro nd hnd
        apply decide_eq_true
        intro h
        apply hx
        rw [List.mem_map]
        exact ⟨nd, hnd, by rw [h, hax]⟩
      have hkeep : xs.filter (fun nd => decide (nd.addr ≠ node.addr)) = xs :=
        List.filter_eq_self.mpr hall
      unfold delete_anode
      rw [List.filter_cons_of_neg (by simp [hax]), hkeep, List.length_cons]
    · have hin : node ∈ xs := by
        rcases List.mem_cons.mp hmem with h | h
        · rw [h] at hax; exact absurd rfl hax
        · exact h
      have := ih hxs hin
      unfold delete_anode at this ⊢
      rw [List.filter_cons_of_pos (by simp [hax]), List.length_cons, List.length_cons, this]

/-- C23: inserting a node into the empty automaton gives an automaton of size
1; after the fixture of the unit test has inserted the nodes of `keys` into
the empty automaton and appended transitions between them, `aut_size` returns
the number of keys, and the appends succeed when both ends of every
transition are among the keys; `append_anode_trans` never changes the size. -/
theorem automaton_size :
    (∀ addr mode state, aut_size (insert_anode addr [] mode state) = 1)
      ∧ (∀ keys addr edges out,
          populate_trans edges (populate_nodes keys [] addr) = some out →
          aut_size out = Int.ofNat keys.length)
      ∧ (∀ keys addr edges, (∀ e, e ∈ edges → e.1 ∈ keys ∧ e.2 ∈ keys) →
          ∃ out, populate_trans edges (populate_nodes keys [] addr) = some out)
      ∧ (∀ head mode state next_mode next_state out,
          append_anode_trans head mode state next_mode next_state = some out →
          aut_size out = aut_size head) := by
  refine ⟨fun _ _ _ => rfl, fun keys addr edges out h => ?_, fun keys addr edges hk => ?_,
    fun head mode state next_mode next_state out h => ?_⟩
  · unfold aut_size
    rw [(populate_trans_spec edges _ out h).1, (populate_nodes_spec keys [] addr).1]
    simp
  · apply populate_trans_total
    intro e he
    rw [(populate_nodes_spec keys [] addr).2]
    simp only [List.map_nil, List.append_nil, List.mem_reverse]
    exact hk e he
  · unfold aut_size
    rw [(append_anode_trans_keys _ _ _ _ _ _ h).1]

/-- C24: after the fixture of the unit test has inserted the nodes of `keys`
and appended transitions, `find_anode_index` returns a non-negative index for
every key that was inserted and `-1` for every key that was not;
`anode_index` of a `NULL` node is `-1`. -/
theorem automaton_lookup :
    (∀ keys addr edges out,
        populate_trans edges (populate_nodes keys [] addr) = some out →
        (∀ k, k ∈ keys → 0 ≤ find_anode_index out k.1 k.2)
          ∧ (∀ mode state, (mode, state) ∉ keys → find_anode_index out mode state = -1))
      ∧ (∀ head, anode_index head none = -1) := by
  refine ⟨fun keys addr edges out h => ?_, fun _ => rfl⟩
  have hkeys : out.map anode_key = keys.reverse := by
    rw [(populate_trans_spec edges _ out h).2, (populate_nodes_spec keys [] addr).2]
    simp
  refine ⟨fun k hk => ?_, fun mode state hnot => ?_⟩
  · apply (find_anode_index_spec out k.1 k.2).1
    rw [hkeys, List.mem_reverse]
    exact hk
  · apply (find_anode_index_spec out mode state).2
    rw [hkeys, List.mem_reverse]
    exact hnot

/-- C25: for an automaton with at least two nodes, whose node objects have
pairwise distinct addresses, and a node of it, `delete_anode` returns a
non-empty automaton whose size is one less and in which the node no longer
occurs (`anode_index` returns `-1`); `delete_anode(NULL, NULL)` returns `NULL`,
and popping the only node of a one-node automaton returns `NULL`. -/
theorem automaton_deletion (head : List ANode) (node : ANode)
    (hu : (head.map (fun nd => nd.addr)).Nodup) (hmem : node ∈ head)
    (h2 : 2 ≤ head.length) :
    delete_anode head node ≠ []
      ∧ aut_size (delete_anode head node) = aut_size head - 1
      ∧ anode_index (delete_anode head node) (some node) = -1
      ∧ delete_anode_ptr [] none = []
      ∧ ∀ nd : ANode, pop_anode [nd] = [] := by
  have hlen := delete_anode_length node head hu hmem
  refine ⟨fun hnil => ?_, ?_, ?_, rfl, fun _ => rfl⟩
  · rw [hnil] at hlen
    simp only [List.length_nil] at hlen
    omega
  · unfold aut_size
    rw [← hlen]
    simp
  · apply (anode_index_from_spec _ _ 0).2
    intro nd hnd
    unfold delete_anode at hnd
    rw [List.mem_filter] at hnd
    have := hnd.2
    simp only [ne_eq, decide_not, Bool.not_eq_true', decide_eq_false_iff_not] at this
    exact decide_eq_false this

/-- Worked instance of C25: the two-node automaton of the unit test
(test_automaton.c, lines 139-158), from which the node inserted first is
deleted. -/
theorem automaton_deletion_witness :
    delete_anode [⟨1, 0, [], []⟩, ⟨0, 0, [], []⟩] ⟨0, 0, [], []⟩ ≠ []
      ∧ aut_size (delete_anode [⟨1, 0, [], []⟩, ⟨0, 0, [], []⟩] ⟨0, 0, [], []⟩)
          = aut_size [⟨1, 0, [], []⟩, ⟨0, 0, [], []⟩] - 1
      ∧ anode_index (delete_anode [⟨1, 0, [], []⟩, ⟨0, 0, [], []⟩] ⟨0, 0, [], []⟩)
          (some ⟨0, 0, [], []⟩) = -1
      ∧ delete_anode_ptr [] none = []
      ∧ ∀ nd : ANode, pop_anode [nd] = [] :=
  automaton_deletion [⟨1, 0, [], []⟩, ⟨0, 0, [], []⟩] ⟨0, 0, [], []⟩ (by decide) (by decide)
    (by decide)

/-! ## Theorems: edge closure and the redirection of in-edges -/

theorem insert_anode_closed (addr : Nat) (head : List ANode) (mode : Nat) (state : List Nat)
    (h : EdgeClosed head) : EdgeClosed (insert_anode addr head mode state) := by
  intro nd hnd t ht
  unfold insert_anode at hnd ⊢
  rcases List.mem_cons.mp hnd with heq | hin
  · rw [heq] at ht
    exact absurd ht (List.not_mem_nil _)
  · obtain ⟨target, h1, h2⟩ := h nd hin t ht
    exact ⟨target, List.mem_cons_of_mem _ h1, h2⟩

theorem append_anode_trans_closed (head : List ANode) (mode : Nat) (state : List Nat)
    (next_mode : Nat) (next_state : List Nat) (out : List ANode)
    (h : append_anode_trans head mode state next_mode next_state = some out)
    (hc : EdgeClosed head) : EdgeClosed out := by
  unfold append_anode_trans at h
  cases hb : find_anode head mode state with
  | none => rw [hb] at h; cases h
  | some base =>
    cases ht : find_anode head next_mode next_state with
    | none => rw [hb, ht] at h; cases h
    | some target =>
      rw [hb, ht] at h
      simp only [Option.some.injEq] at h
      subst h
      have hkeep : ∀ x, x ∈ head → ∃ y, y ∈ head.map (fun nd =>
          if nd.addr = base.addr then { nd with trans := nd.trans ++ [target.addr] } else nd)
          ∧ y.addr = x.addr := by
        intro x hx
        refine ⟨_, List.mem_map_of_mem _ hx, ?_⟩
        by_cases hax : x.addr = base.addr
        · rw [if_pos hax]
        · rw [if_neg hax]
      intro nd hnd t htr
      rw [List.mem_map] at hnd
      obtain ⟨x, hx, hxe⟩ := hnd
      by_cases hax : x.addr = base.addr
      · rw [if_pos hax] at hxe
        rw [← hxe] at htr
        simp only [List.mem_append, List.mem_singleton] at htr
        rcases htr with h1 | h1
        · obtain ⟨tg, htg, hta⟩ := hc x hx t h1
          obtain ⟨y, hy, hya⟩ := hkeep tg htg
          exact ⟨y, hy, by rw [hya, hta]⟩
        · obtain ⟨y, hy, hya⟩ := hkeep target (find_anode_some _ _ _ _ ht).1
          exact ⟨y, hy, by rw [hya, h1]⟩
      · rw [if_neg hax] at hxe
        rw [← hxe] at htr
        obtain ⟨tg, htg, hta⟩ := hc x hx t htr
        obtain ⟨y, hy, hya⟩ := hkeep tg htg
        exact ⟨y, hy, by rw [hya, hta]⟩

/-- Deleting a node and redirecting the edges that led to it to a node of the
remaining list keeps the edges closed. -/
theorem redirect_closed (head rest : List ANode) (old new : ANode)
    (hc : EdgeClosed head) (hnew : new ∈ rest)
    (hrest : ∀ nd, nd ∈ rest → nd.trans ≠ [] → nd ∈ head)
    (hkeep : ∀ nd, nd ∈ head → nd.addr ≠ old.addr → nd ∈ rest) :
    EdgeClosed (replace_anode_trans rest old new) := by
  have hmem : ∀ x, x ∈ rest → ∃ y, y ∈ replace_anode_trans rest old new ∧ y.addr = x.addr := by
    intro x hx
    exact ⟨_, List.mem_map_of_mem _ hx, rfl⟩
  intro nd hnd t ht
  unfold replace_anode_trans at hnd
  rw [List.mem_map] at hnd
  obtain ⟨x, hx, hxe⟩ := hnd
  rw [← hxe] at ht
  simp only [List.mem_map] at ht
  obtain ⟨t0, ht0, hte⟩ := ht
  by_cases hold : t0 = old.addr
  · rw [if_pos hold] at hte
    obtain ⟨y, hy, hya⟩ := hmem new hnew
    exact ⟨y, hy, by rw [hya, hte]⟩
  · rw [if_neg hold] at hte
    have hxh : x ∈ head := hrest x hx (List.ne_nil_of_mem ht0)
    obtain ⟨tg, htg, hta⟩ := hc x hxh t0 ht0
    have htr : tg ∈ rest := hkeep tg htg (by rw [hta]; exact hold)
    obtain ⟨y, hy, hya⟩ := hmem tg htr
    exact ⟨y, hy, by rw [hya, hta, hte]⟩

theorem delete_anode_mem (head : List ANode) (target nd : ANode) :
    nd ∈ delete_anode head target ↔ nd ∈ head ∧ nd.addr ≠ target.addr := by
  unfold delete_anode
  rw [List.mem_filter]
  simp

/-- The strategy commit keeps the edges of the strategy closed. -/
theorem commit_node_closed (strategy : List ANode) (addr loop_mode mode : Nat)
    (state : List Nat) (hc : EdgeClosed strategy) :
    EdgeClosed (commit_node strategy addr loop_mode mode state).1 := by
  by_cases hm : mode = loop_mode
  · subst hm
    cases hf : find_anode strategy mode state with
    | none =>
      have hres : commit_node strategy addr mode mode state
          = (insert_anode addr strategy mode state, addr + 1, true) := by
        simp only [commit_node, if_true, hf]
      rw [hres]
      exact insert_anode_closed _ _ _ _ hc
    | some node =>
      by_cases ht : node.trans.length > 0
      · have hres : commit_node strategy addr mode mode state = (strategy, addr, false) := by
          simp only [commit_node, if_true, hf, if_pos ht]
        rw [hres]; exact hc
      · have hres : commit_node strategy addr mode mode state = (strategy, addr, true) := by
          simp only [commit_node, if_true, hf, if_neg ht]
        rw [hres]; exact hc
  · cases hf : find_anode strategy loop_mode state with
    | none =>
      cases hf2 : find_anode strategy mode state with
      | none =>
        have hres : commit_node strategy addr loop_mode mode state
            = (insert_anode addr strategy mode state, addr + 1, true) := by
          simp only [commit_node, if_neg hm, hf, hf2]
        rw [hres]
        exact insert_anode_closed _ _ _ _ hc
      | some new_node =>
        by_cases ht : new_node.trans.length > 0
        · have hres : commit_node strategy addr loop_mode mode state = (strategy, addr, false) := by
            simp only [commit_node, if_neg hm, hf, hf2, if_pos ht]
          rw [hres]; exact hc
        · have hres : commit_node strategy addr loop_mode mode state = (strategy, addr, true) := by
            simp only [commit_node, if_neg hm, hf, hf2, if_neg ht]
          rw [hres]; exact hc
    | some node =>
      by_cases ht : node.trans.length > 0
      · have hres : commit_node strategy addr loop_mode mode state = (strategy, addr, false) := by
          simp only [commit_node, if_neg hm, hf, if_pos ht]
        rw [hres]; exact hc
      · have hdel : ∀ nd, nd ∈ delete_anode strategy node → nd.trans ≠ [] → nd ∈ strategy :=
          fun nd hnd _ => ((delete_anode_mem _ _ _).mp hnd).1
        have hkeep : ∀ nd, nd ∈ strategy → nd.addr ≠ node.addr → nd ∈ delete_anode strategy node :=
          fun nd hnd hne => (delete_anode_mem _ _ _).mpr ⟨hnd, hne⟩
        cases hf3 : find_anode (delete_anode strategy node) mode state with
        | none =>
          have hres : commit_node strategy addr loop_mode mode state
              = (replace_anode_trans (insert_anode addr (delete_anode strategy node) mode state)
                  node ((find_anode (insert_anode addr (delete_anode strategy node) mode state)
                    mode state).getD
                      { addr := addr, mode := mode, state := state, trans := [] }),
                  addr + 1, true) := by
            simp only [commit_node, if_neg hm, hf, if_neg ht, hf3]
          rw [hres, find_anode_insert_self]
          apply redirect_closed strategy _ _ _ hc
          · exact List.mem_cons_self _ _
          · intro nd hnd hne
            unfold insert_anode at hnd
            rcases List.mem_cons.mp hnd with heq | hin
            · rw [heq] at hne; exact absurd rfl hne
            · exact hdel nd hin hne
          · intro nd hnd hne
            exact List.mem_cons_of_mem _ (hkeep nd hnd hne)
        | some new_node =>
          have hnew := (find_anode_some _ _ _ _ hf3).1
          by_cases ht2 : new_node.trans.length > 0
          · have hres : commit_node strategy addr loop_mode mode state
                = (replace_anode_trans (delete_anode strategy node) node new_node, addr, false) := by
              simp only [commit_node, if_neg hm, hf, if_neg ht, hf3, if_pos ht2]
            rw [hres]
            exact redirect_closed strategy _ _ _ hc hnew hdel hkeep
          · have hres : commit_node strategy addr loop_mode mode state
                = (replace_anode_trans (delete_anode strategy node) node new_node, addr, true) := by
              simp only [commit_node, if_neg hm, hf, if_neg ht, hf3, if_neg ht2]
            rw [hres]
            exact redirect_closed strategy _ _ _ hc hnew hdel hkeep

theorem insert_successor_closed (strategy next_node_stack : List ANode) (addr next_mode : Nat)
    (succ : List Nat) (hc : EdgeClosed strategy) :
    EdgeClosed (insert_successor strategy next_node_stack addr next_mode succ).1 := by
  unfold insert_successor
  cases hf : find_anode strategy next_mode succ with
  | none =>
    cases hn : find_anode next_node_stack next_mode succ with
    | none => exact insert_anode_closed _ _ _ _ hc
    | some nd => exact insert_anode_closed _ _ _ _ hc
  | some nd => exact hc

theorem transition_loop_closed {n : Nat} (ctx : SynthCtx n) (mode j : Nat) (state : List Nat) :
    ∀ (moves : List (List Nat)) (acc acc1 : List ANode × List ANode × Nat),
      transition_loop ctx mode j state moves acc = BuildResult.ok acc1 →
      EdgeClosed acc.1 → EdgeClosed acc1.1 := by
  intro moves
  induction moves with
  | nil =>
    intro acc acc1 h hc
    simp only [transition_loop, BuildResult.ok.injEq] at h
    subst h
    exact hc
  | cons env_move rest ih =>
    rintro ⟨strategy, next_node_stack, addr⟩ acc1 h hc
    rw [transition_loop_cons] at h
    cases hch : choose_successor ctx mode j state env_move with
    | none => rw [hch] at h; cases h
    | some pr =>
      obtain ⟨next_mode, succ⟩ := pr
      rw [hch] at h
      simp only at h
      cases hap : append_anode_trans
          (insert_successor strategy next_node_stack addr next_mode succ).1
          mode state next_mode succ with
      | none => rw [hap] at h; cases h
      | some strategy1 =>
        rw [hap] at h
        simp only at h
        exact ih _ acc1 h (append_anode_trans_closed _ _ _ _ _ _ hap
          (insert_successor_closed _ _ _ _ _ hc))

/-- A pass of the builder loop keeps the edges of the strategy closed. -/
theorem strategy_step_closed {n : Nat} (fuel : Nat) (ctx : SynthCtx n) (b b1 : Builder)
    (h : strategy_step fuel ctx b = BuildResult.ok b1) (hc : EdgeClosed b.strategy) :
    EdgeClosed b1.strategy := by
  cases hst : b.this_node_stack with
  | nil =>
    rw [strategy_step_nil fuel ctx b hst] at h
    cases h
    exact hc
  | cons top rest =>
    rcases strategy_step_cases fuel ctx b top rest hst with
      ⟨_, hres⟩ | ⟨j, mode, _, ⟨_, hres⟩ | ⟨_, ⟨_, hres⟩ |
        ⟨moves, _, ⟨e, _, hres⟩ | ⟨acc1, htl, b2, hres, hb2⟩⟩⟩⟩
    · rw [hres] at h; cases h
    · rw [hres] at h
      cases h
      exact commit_node_closed b.strategy b.next_addr top.mode mode top.state hc
    · rw [hres] at h; cases h
    · rw [hres] at h; cases h
    · rw [hres] at h
      cases h
      rw [hb2]
      exact transition_loop_closed ctx mode j top.state moves _ acc1 htl
        (commit_node_closed b.strategy b.next_addr top.mode mode top.state hc)

theorem strategy_passes_closed {n : Nat} (fuel : Nat) (ctx : SynthCtx n) :
    ∀ (i : Nat) (b bi : Builder), strategy_passes fuel ctx i b = BuildResult.ok bi →
      EdgeClosed b.strategy → EdgeClosed bi.strategy := by
  intro i
  induction i with
  | zero =>
    intro b bi h hc
    simp only [strategy_passes, BuildResult.ok.injEq] at h
    rw [← h]; exact hc
  | succ i ih =>
    intro b bi h hc
    rw [strategy_passes_succ] at h
    cases hstep : strategy_step fuel ctx b with
    | abort e => rw [hstep] at h; cases h
    | ok b1 =>
      rw [hstep] at h
      exact ih b1 bi h (strategy_step_closed fuel ctx b b1 hstep hc)

/-- The builder loop ends, when it ends with a strategy, after some number of
passes. -/
theorem strategy_loop_passes {n : Nat} (fuel : Nat) (ctx : SynthCtx n) :
    ∀ (k : Nat) (b b1 : Builder), strategy_loop fuel ctx k b = BuildResult.ok b1 →
      b1.this_node_stack = [] ∧ ∃ i, i ≤ k ∧ strategy_passes fuel ctx i b = BuildResult.ok b1 := by
  intro k
  induction k with
  | zero =>
    intro b b1 h
    cases hst : b.this_node_stack with
    | nil =>
      simp only [strategy_loop, hst, BuildResult.ok.injEq] at h
      subst h
      exact ⟨hst, 0, Nat.le_refl _, rfl⟩
    | cons top rest =>
      simp only [strategy_loop, hst] at h
      cases h
  | succ k ih =>
    intro b b1 h
    cases hst : b.this_node_stack with
    | nil =>
      simp only [strategy_loop, hst, BuildResult.ok.injEq] at h
      subst h
      exact ⟨hst, 0, Nat.zero_le _, rfl⟩
    | cons top rest =>
      cases hstep : strategy_step fuel ctx b with
      | abort e =>
        simp only [strategy_loop, hst, hstep] at h
        cases h
      | ok b2 =>
        simp only [strategy_loop, hst, hstep] at h
        obtain ⟨h1, i, hi, hp⟩ := ih b2 b1 h
        exact ⟨h1, i + 1, by omega, by rw [strategy_passes_succ, hstep]; exact hp⟩

/-- When the strategy commit deletes the node under the old mode, the strategy
it leaves consists of the remaining nodes, with every edge that led to the
deleted node redirected to the node under the new mode, and of that node,
which is new when the strategy did not hold it. The commit skips the popped
node exactly when the node under the new mode has outgoing edges. -/
theorem commit_node_redirect (strategy : List ANode) (addr loop_mode mode : Nat)
    (state : List Nat) (old : ANode) (hm : mode ≠ loop_mode)
    (hold : find_anode strategy loop_mode state = some old) (ht : old.trans = []) :
    ∃ new : ANode,
      (find_anode (delete_anode strategy old) mode state = some new
        ∨ (find_anode (delete_anode strategy old) mode state = none
            ∧ new = { addr := addr, mode := mode, state := state, trans := [] }))
      ∧ (∃ nd1, find_anode (commit_node strategy addr loop_mode mode state).1 mode state
            = some nd1 ∧ nd1.addr = new.addr)
      ∧ (∀ nd, nd ∈ strategy → nd.addr ≠ old.addr →
          ({ addr := nd.addr, mode := nd.mode, state := nd.state,
             trans := nd.trans.map (fun t => if t = old.addr then new.addr else t) } : ANode)
            ∈ (commit_node strategy addr loop_mode mode state).1)
      ∧ (∀ nd1, nd1 ∈ (commit_node strategy addr loop_mode mode state).1 →
          nd1 = new
          ∨ ∃ nd, nd ∈ strategy ∧ nd.addr ≠ old.addr
              ∧ nd1 = { addr := nd.addr, mode := nd.mode, state := nd.state,
                        trans := nd.trans.map (fun t => if t = old.addr then new.addr else t) })
      ∧ ((commit_node strategy addr loop_mode mode state).2.2 = false
          ↔ new.trans.length > 0) := by
  have hlen : ¬ old.trans.length > 0 := by rw [ht]; simp
  cases hf3 : find_anode (delete_anode strategy old) mode state with
  | none =>
    have hres : commit_node strategy addr loop_mode mode state
        = (replace_anode_trans (insert_anode addr (delete_anode strategy old) mode state)
            old { addr := addr, mode := mode, state := state, trans := [] },
            addr + 1, true) := by
      simp only [commit_node, if_neg hm, hold, if_neg hlen, hf3, find_anode_insert_self,
        Option.getD_some]
    rw [hres]
    refine ⟨{ addr := addr, mode := mode, state := state, trans := [] }, Or.inr ⟨rfl, rfl⟩,
      ?_, ?_, ?_, ?_⟩
    · unfold replace_anode_trans
      rw [find_anode_map
        (fun nd => { nd with trans := nd.trans.map (fun t => if t = old.addr then addr else t) })
        (fun nd => ⟨rfl, rfl⟩), find_anode_insert_self]
      exact ⟨_, rfl, rfl⟩
    · intro nd hnd hne
      unfold replace_anode_trans
      rw [List.mem_map]
      exact ⟨nd, List.mem_cons_of_mem _ ((delete_anode_mem _ _ _).mpr ⟨hnd, hne⟩), rfl⟩
    · intro nd1 hnd1
      unfold replace_anode_trans at hnd1
      rw [List.mem_map] at hnd1
      obtain ⟨x, hx, hxe⟩ := hnd1
      unfold insert_anode at hx
      rcases List.mem_cons.mp hx with heq | hin
      · left
        rw [← hxe, heq]
        rfl
      · right
        obtain ⟨h1, h2⟩ := (delete_anode_mem _ _ _).mp hin
        exact ⟨x, h1, h2, hxe.symm⟩
    · simp
  | some new =>
    have hnew := (find_anode_some _ _ _ _ hf3).1
    have hcommon : (commit_node strategy addr loop_mode mode state).1
        = replace_anode_trans (delete_anode strategy old) old new := by
      by_cases ht2 : new.trans.length > 0
      · simp only [commit_node, if_neg hm, hold, if_neg hlen, hf3, if_pos ht2]
      · simp only [commit_node, if_neg hm, hold, if_neg hlen, hf3, if_neg ht2]
    have hflag : (commit_node strategy addr loop_mode mode state).2.2 = false
        ↔ new.trans.length > 0 := by
      by_cases ht2 : new.trans.length > 0
      · have hres : (commit_node strategy addr loop_mode mode state).2.2 = false := by
          simp only [commit_node, if_neg hm, hold, if_neg hlen, hf3, if_pos ht2]
        exact ⟨fun _ => ht2, fun _ => hres⟩
      · have hres : (commit_node strategy addr loop_mode mode state).2.2 = true := by
          simp only [commit_node, if_neg hm, hold, if_neg hlen, hf3, if_neg ht2]
        exact ⟨fun h => (by rw [hres] at h; cases h), fun h => absurd h ht2⟩
    rw [hcommon]
    refine ⟨new, Or.inl rfl, ?_, ?_, ?_, hflag⟩
    · unfold replace_anode_trans
      rw [find_anode_map
        (fun nd => { nd with trans := nd.trans.map (fun t => if t = old.addr then new.addr else t) })
        (fun nd => ⟨rfl, rfl⟩), hf3]
      exact ⟨_, rfl, rfl⟩
    · intro nd hnd hne
      unfold replace_anode_trans
      rw [List.mem_map]
      exact ⟨nd, (delete_anode_mem _ _ _).mpr ⟨hnd, hne⟩, rfl⟩
    · intro nd1 hnd1
      unfold replace_anode_trans at hnd1
      rw [List.mem_map] at hnd1
      obtain ⟨x, hx, hxe⟩ := hnd1
      right
      obtain ⟨h1, h2⟩ := (delete_anode_mem _ _ _).mp hx
      exact ⟨x, h1, h2, hxe.symm⟩

/-- C22: when every edge of the strategy leads to a node of the strategy
before the builder loop starts (the strategy of `synthesize` is empty then),
this is so after every pass of the loop and in the strategy that the loop
leaves. In particular, when the strategy commit deletes the node `old` under
the old mode, every edge that led to `old` leads afterwards to the node under
the new mode, which the committed strategy holds: the remaining nodes are kept
with `old` replaced by that node in their transitions, and the committed
strategy has no other node but, possibly, the newly inserted one. -/
theorem edge_closure {n : Nat} (fuel : Nat) (ctx : SynthCtx n) (b : Builder)
    (hc : EdgeClosed b.strategy) :
    (∀ i bi, strategy_passes fuel ctx i b = BuildResult.ok bi → EdgeClosed bi.strategy)
      ∧ (∀ k b1, strategy_loop fuel ctx k b = BuildResult.ok b1 → EdgeClosed b1.strategy)
      ∧ (∀ addr loop_mode mode state old, mode ≠ loop_mode →
          find_anode b.strategy loop_mode state = some old → old.trans = [] →
          ∃ new : ANode,
            (∃ nd1, find_anode (commit_node b.strategy addr loop_mode mode state).1 mode state
                = some nd1 ∧ nd1.addr = new.addr)
            ∧ (∀ nd, nd ∈ b.strategy → nd.addr ≠ old.addr →
                ({ addr := nd.addr, mode := nd.mode, state := nd.state,
                   trans := nd.trans.map (fun t => if t = old.addr then new.addr else t) }
                  : ANode) ∈ (commit_node b.strategy addr loop_mode mode state).1)
            ∧ (∀ nd1, nd1 ∈ (commit_node b.strategy addr loop_mode mode state).1 →
                nd1 = new
                ∨ ∃ nd, nd ∈ b.strategy ∧ nd.addr ≠ old.addr
                    ∧ nd1 = { addr := nd.addr, mode := nd.mode, state := nd.state,
                              trans := nd.trans.map
                                (fun t => if t = old.addr then new.addr else t) })) := by
  refine ⟨fun i bi h => strategy_passes_closed fuel ctx i b bi h hc, fun k b1 h => ?_,
    fun addr loop_mode mode state old hm hold ht => ?_⟩
  · obtain ⟨_, i, _, hp⟩ := strategy_loop_passes fuel ctx k b b1 h
    exact strategy_passes_closed fuel ctx i b b1 hp hc
  · obtain ⟨new, _, h1, h2, h3, _⟩ :=
      commit_node_redirect b.strategy addr loop_mode mode state old hm hold ht
    exact ⟨new, h1, h2, h3⟩

set_option maxRecDepth 1000000 in
/-- Worked instance of C22: the builder loop of the system `ex_follow`, started
with the empty strategy and the state `(0, 0)` on the work stack. -/
theorem edge_closure_witness :
    strategy_loop 3 ex_follow 2 ⟨[], [⟨0, 0, [0, 0], []⟩], [], 1⟩
        = BuildResult.ok ⟨[⟨2, 0, [1, 1], [1]⟩, ⟨1, 0, [0, 0], [2]⟩], [], [], 4⟩
      ∧ EdgeClosed [⟨2, 0, [1, 1], [1]⟩, ⟨1, 0, [0, 0], [2]⟩] :=
  ⟨by decide,
    (edge_closure 3 ex_follow ⟨[], [⟨0, 0, [0, 0], []⟩], [], 1⟩
      (fun nd hnd => absurd hnd (List.not_mem_nil _))).2.1 2
      ⟨[⟨2, 0, [1, 1], [1]⟩, ⟨1, 0, [0, 0], [2]⟩], [], [], 4⟩ (by decide)⟩

/-- C27 (as stated, refuted): in the system with the goals `a` and `¬a`, the
strategy holds the node `(1, (1))` at address 2 with an outgoing edge, the
node `(0, (1))` at address 1 without one, and the node `(0, (0))` at address 0
with an edge to address 1. The pass that pops `(0, (1))` moves its mode on to
1, deletes the node at address 1 and skips the expansion, and the edge of the
node at address 0 leads to address 2 afterwards. -/
theorem expanded_replacement_example :
    mode_loop ex_two_goals (state2cube [1] 1) 0 3 0 = some (1, 1)
      ∧ commit_node [⟨2, 1, [1], [2]⟩, ⟨1, 0, [1], []⟩, ⟨0, 0, [0], [1]⟩] 4 0 1 [1]
          = ([⟨2, 1, [1], [2]⟩, ⟨0, 0, [0], [2]⟩], 4, false)
      ∧ strategy_step 3 ex_two_goals
          ⟨[⟨2, 1, [1], [2]⟩, ⟨1, 0, [1], []⟩, ⟨0, 0, [0], [1]⟩], [⟨3, 0, [1], []⟩], [], 4⟩
          = BuildResult.ok ⟨[⟨2, 1, [1], [2]⟩, ⟨0, 0, [0], [2]⟩], [], [], 4⟩ := by
  decide

/-- C27 (amended): when the strategy commit deletes the node `old` under the
old mode and the node `new` under the newly advanced mode exists with
outgoing edges, the builder redirects to `new` the edges that led to `old`, and
then pops the work stack and continues without expanding the popped node. -/
theorem expanded_replacement_redirected {n : Nat} (fuel : Nat) (ctx : SynthCtx n) (b : Builder)
    (top : ANode) (rest : List ANode) (j mode : Nat) (old new : ANode)
    (hst : b.this_node_stack = top :: rest)
    (hml : mode_loop ctx (state2cube top.state (ctx.num_env + ctx.num_sys)) top.mode fuel
      top.mode = some (j, mode))
    (hm : mode ≠ top.mode)
    (hold : find_anode b.strategy top.mode top.state = some old) (ht : old.trans = [])
    (hnew : find_anode (delete_anode b.strategy old) mode top.state = some new)
    (hexp : new.trans.length > 0) :
    commit_node b.strategy b.next_addr top.mode mode top.state
        = (replace_anode_trans (delete_anode b.strategy old) old new, b.next_addr, false)
      ∧ strategy_step fuel ctx b
          = BuildResult.ok
              ⟨replace_anode_trans (delete_anode b.strategy old) old new, rest,
                b.next_node_stack, b.next_addr⟩
      ∧ (∀ nd, nd ∈ b.strategy → nd.addr ≠ old.addr →
          ({ addr := nd.addr, mode := nd.mode, state := nd.state,
             trans := nd.trans.map (fun t => if t = old.addr then new.addr else t) } : ANode)
            ∈ replace_anode_trans (delete_anode b.strategy old) old new)
      ∧ (∀ nd1, nd1 ∈ replace_anode_trans (delete_anode b.strategy old) old new →
          ∀ t, t ∈ nd1.trans → t ≠ old.addr) := by
  have hlen : ¬ old.trans.length > 0 := by rw [ht]; simp
  have hres : commit_node b.strategy b.next_addr top.mode mode top.state
      = (replace_anode_trans (delete_anode b.strategy old) old new, b.next_addr, false) := by
    simp only [commit_node, if_neg hm, hold, if_neg hlen, hnew, if_pos hexp]
  have hne : new.addr ≠ old.addr :=
    ((delete_anode_mem _ _ _).mp (find_anode_some _ _ _ _ hnew).1).2
  refine ⟨hres, ?_, ?_, ?_⟩
  · rcases strategy_step_cases fuel ctx b top rest hst with
      ⟨hml0, _⟩ | ⟨j1, mode1, hml1, ⟨_, hstep⟩ | ⟨hflag, _⟩⟩
    · rw [hml] at hml0; cases hml0
    · rw [hml] at hml1
      cases hml1
      rw [hstep, hres]
    · rw [hml] at hml1
      cases hml1
      rw [hres] at hflag
      cases hflag
  · intro nd hnd hna
    unfold replace_anode_trans
    rw [List.mem_map]
    exact ⟨nd, (delete_anode_mem _ _ _).mpr ⟨hnd, hna⟩, rfl⟩
  · intro nd1 hnd1 t htr
    unfold replace_anode_trans at hnd1
    rw [List.mem_map] at hnd1
    obtain ⟨x, _, hxe⟩ := hnd1
    rw [← hxe] at htr
    simp only [List.mem_map] at htr
    obtain ⟨t0, _, hte⟩ := htr
    by_cases h0 : t0 = old.addr
    · rw [if_pos h0] at hte
      rw [← hte]; exact hne
    · rw [if_neg h0] at hte
      rw [← hte]; exact h0

/-- Worked instance of C27 (amended): the pass of the example above. -/
theorem expanded_replacement_redirected_witness :
    commit_node [⟨2, 1, [1], [2]⟩, ⟨1, 0, [1], []⟩, ⟨0, 0, [0], [1]⟩] 4 0 1 [1]
        = (replace_anode_trans
            (delete_anode [⟨2, 1, [1], [2]⟩, ⟨1, 0, [1], []⟩, ⟨0, 0, [0], [1]⟩] ⟨1, 0, [1], []⟩)
            ⟨1, 0, [1], []⟩ ⟨2, 1, [1], [2]⟩, 4, false)
      ∧ strategy_step 3 ex_two_goals
          ⟨[⟨2, 1, [1], [2]⟩, ⟨1, 0, [1], []⟩, ⟨0, 0, [0], [1]⟩], [⟨3, 0, [1], []⟩], [], 4⟩
          = BuildResult.ok
              ⟨replace_anode_trans
                (delete_anode [⟨2, 1, [1], [2]⟩, ⟨1, 0, [1], []⟩, ⟨0, 0, [0], [1]⟩]
                  ⟨1, 0, [1], []⟩)
                ⟨1, 0, [1], []⟩ ⟨2, 1, [1], [2]⟩, [], [], 4⟩
      ∧ (∀ nd, nd ∈ [(⟨2, 1, [1], [2]⟩ : ANode), ⟨1, 0, [1], []⟩, ⟨0, 0, [0], [1]⟩] →
          nd.addr ≠ (⟨1, 0, [1], []⟩ : ANode).addr →
          ({ addr := nd.addr, mode := nd.mode, state := nd.state,
             trans := nd.trans.map
              (fun t => if t = (⟨1, 0, [1], []⟩ : ANode).addr
                then (⟨2, 1, [1], [2]⟩ : ANode).addr else t) } : ANode)
            ∈ replace_anode_trans
                (delete_anode [⟨2, 1, [1], [2]⟩, ⟨1, 0, [1], []⟩, ⟨0, 0, [0], [1]⟩]
                  ⟨1, 0, [1], []⟩)
                ⟨1, 0, [1], []⟩ ⟨2, 1, [1], [2]⟩)
      ∧ (∀ nd1, nd1 ∈ replace_anode_trans
            (delete_anode [⟨2, 1, [1], [2]⟩, ⟨1, 0, [1], []⟩, ⟨0, 0, [0], [1]⟩] ⟨1, 0, [1], []⟩)
            ⟨1, 0, [1], []⟩ ⟨2, 1, [1], [2]⟩ →
          ∀ t, t ∈ nd1.trans → t ≠ (⟨1, 0, [1], []⟩ : ANode).addr) :=
  expanded_replacement_redirected 3 ex_two_goals
    ⟨[⟨2, 1, [1], [2]⟩, ⟨1, 0, [1], []⟩, ⟨0, 0, [0], [1]⟩], [⟨3, 0, [1], []⟩], [], 4⟩
    ⟨3, 0, [1], []⟩ [] 1 1 ⟨1, 0, [1], []⟩ ⟨2, 1, [1], [2]⟩ rfl (by decide) (by decide)
    (by decide) rfl (by decide) (by decide)

/-! ## Theorems: the deterministic case -/

set_option maxRecDepth 1000000 in
/-- C21 (code defect): in the system `ex_chain`, which has no environment
variable, the initial states are `(0,0)` and `(0,1)` and the ladder of the
goal is `[true]`. The builder loop ends after four passes: the pass that pops
the second copy of `(0,0)` finds that node expanded, pops it and leaves the
loop body before the work stack is refilled from the "next" stack. The loop
ends with the node `(0, (1,1))` still on the "next" stack, and the strategy
holds that node without an outgoing edge. -/
theorem unexpanded_node_left :
    (synthesize_ladders 17 ex_chain_CPre (Cudd_ReadOne 4) [] [Cudd_ReadOne 4]).map
        (fun Y => Y.map (fun Y_i => Y_i.map (fun P => (all_inputs 4).map (Cudd_Eval P))))
      = some (ex_chain.Y.map
          (fun Y_i => Y_i.map (fun P => (all_inputs 4).map (Cudd_Eval P))))
      ∧ initial_stack 3 ex_chain 0 0 (Cudd_ReadOne 4) ex_chain_sinit
          = some ([⟨1, 0, [0, 1], []⟩, ⟨0, 0, [0, 0], []⟩], 2)
      ∧ strategy_passes 3 ex_chain 3 ⟨[], [⟨1, 0, [0, 1], []⟩, ⟨0, 0, [0, 0], []⟩], [], 2⟩
          = BuildResult.ok
              ⟨[⟨7, 0, [1, 1], []⟩, ⟨5, 0, [1, 0], [7]⟩, ⟨3, 0, [0, 0], [5]⟩,
                  ⟨2, 0, [0, 1], [3]⟩],
                [⟨4, 0, [0, 0], []⟩], [⟨8, 0, [1, 1], []⟩], 9⟩
      ∧ strategy_loop 3 ex_chain 4 ⟨[], [⟨1, 0, [0, 1], []⟩, ⟨0, 0, [0, 0], []⟩], [], 2⟩
          = BuildResult.ok
              ⟨[⟨7, 0, [1, 1], []⟩, ⟨5, 0, [1, 0], [7]⟩, ⟨3, 0, [0, 0], [5]⟩,
                  ⟨2, 0, [0, 1], [3]⟩],
                [], [⟨8, 0, [1, 1], []⟩], 9⟩ := by
  decide

/-! ## Theorems: the chained variable lists -/

theorem chain_unchain (v : VarLists) :
    unchain_var_lists (chain_var_lists v).1 (chain_var_lists v).2 = v := by
  obtain ⟨evar, svar⟩ := v
  unfold chain_var_lists
  by_cases he : evar = []
  · subst he
    rfl
  · simp only [if_neg he, unchain_var_lists]
    have hpos : 0 < evar.length := List.length_pos.mpr he
    have hk : evar.length - 1 + 1 = evar.length := by omega
    rw [hk, List.take_left']
    rfl

set_option maxRecDepth 1000000 in
/-- C26 (as stated, refuted): in the system `ex_stuck`, with no environment
variable and the system variable `a`, started from the initial state `a = 1`,
`synthesize` returns `NULL` for "unexpected losing state", and `evar_list` is
then the list of the system variables and not `NULL` as on entry. (In the
system `ex_follow`, where a strategy is returned, the lists are as on
entry.) -/
theorem var_lists_left_chained :
    synthesize_lists 3 1 ex_stuck 0 0 (Cudd_ReadOne 2) (fun a => a 0) ⟨[], ["a"]⟩
        = (BuildResult.abort BuildError.losing_state, ⟨["a"], ["a"]⟩)
      ∧ (⟨["a"], ["a"]⟩ : VarLists) ≠ ⟨[], ["a"]⟩
      ∧ synthesize_lists 3 2 ex_follow 0 0 (Cudd_ReadOne 4) (fun a => !a 0 && !a 1)
          ⟨["e"], ["s"]⟩
        = (BuildResult.ok [⟨2, 0, [1, 1], [1]⟩, ⟨1, 0, [0, 0], [2]⟩], ⟨["e"], ["s"]⟩) := by
  decide

/-- C26 (amended): `check_realizable_internal` chains the system-variable list
onto the environment-variable list and undoes this before any of its later
returns, so that the two lists are as on entry whatever it returns;
`synthesize` undoes the chaining in its pre-exit clean-up, so that the two
lists are as on entry when it returns a strategy. -/
theorem var_lists_restored {n : Nat} (fuel k : Nat) (ctx : SynthCtx n)
    (ALL_SYS_INIT init_flags : Nat) (einit sinit W : Pred n) (v : VarLists) :
    (check_realizable_internal_lists ALL_SYS_INIT einit sinit W init_flags v).2 = v
      ∧ (∀ strategy v1,
          synthesize_lists fuel k ctx ALL_SYS_INIT init_flags einit sinit v
            = (BuildResult.ok strategy, v1) → v1 = v) := by
  refine ⟨chain_unchain v, fun strategy v1 h => ?_⟩
  unfold synthesize_lists at h
  cases hin : initial_stack fuel ctx ALL_SYS_INIT init_flags einit sinit with
  | none => simp only [hin] at h; cases h
  | some pr =>
    obtain ⟨stack, addr⟩ := pr
    simp only [hin] at h
    cases hl : strategy_loop fuel ctx k ⟨[], stack, [], addr⟩ with
    | abort e => simp only [hl] at h; cases h
    | ok b =>
      simp only [hl, Prod.mk.injEq] at h
      rw [← h.2]
      exact chain_unchain v

/-! ## Theorems: index safety of the builder -/

theorem getElem?_eq_some_getD {α : Type} (l : List α) (i : Nat) (d : α) (h : i < l.length) :
    l[i]? = some (l.getD i d) := by
  rw [List.getD_eq_getElem?_getD, List.getElem?_eq_getElem h]
  rfl

theorem level_scan_checked_eq {n : Nat} (Y_mode : List (Pred n)) (cube : List Int) :
    ∀ j0, j0 < Y_mode.length →
      level_scan_checked Y_mode cube j0 = some (level_scan Y_mode cube j0) := by
  intro j0
  induction j0 with
  | zero => intro _; rfl
  | succ j ih =>
    intro hj
    have hget := getElem?_eq_some_getD Y_mode (j + 1) (Cudd_ReadOne n) hj
    simp only [level_scan_checked, level_scan, hget]
    split
    · rfl
    · exact ih (by omega)

/-- For a mode that is an index of `Y` and a ladder with at least one level,
every read of a pass of the mode advancement is within bounds, and the pass
gives what the pass without checks gives. -/
theorem mode_pass_checked_eq {n : Nat} (ctx : SynthCtx n) (cube : List Int) (mode : Nat)
    (hmode : mode < ctx.Y.length) (hpos : 0 < (ctx.Y.getD mode []).length) :
    mode_pass_checked ctx cube mode
      = some (Int.ofNat (mode_pass ctx cube mode).1, (mode_pass ctx cube mode).2.1,
          (mode_pass ctx cube mode).2.2) := by
  have hY := getElem?_eq_some_getD ctx.Y mode [] hmode
  have h0 := getElem?_eq_some_getD (ctx.Y.getD mode []) 0 (Cudd_ReadOne n) hpos
  have hscan := level_scan_checked_eq (ctx.Y.getD mode []) cube
    ((ctx.Y.getD mode []).length - 1) (by omega)
  have hmp : mode_pass ctx cube mode
      = if level_scan (ctx.Y.getD mode []) cube ((ctx.Y.getD mode []).length - 1) = 0 then
          (if !Cudd_Eval ((ctx.Y.getD mode []).getD 0 (Cudd_ReadOne n)) cube then
            (1, mode, true)
           else (0, if mode + 1 = ctx.num_sgoals then 0 else mode + 1, false))
        else (level_scan (ctx.Y.getD mode []) cube ((ctx.Y.getD mode []).length - 1),
          mode, true) := by
    unfold mode_pass
    by_cases hj : level_scan (ctx.Y.getD mode []) cube ((ctx.Y.getD mode []).length - 1) = 0
    · simp only [hj, if_true]
    · simp only [hj, if_false]
  have hch : mode_pass_checked ctx cube mode
      = if level_scan (ctx.Y.getD mode []) cube ((ctx.Y.getD mode []).length - 1) = 0 then
          (if !Cudd_Eval ((ctx.Y.getD mode []).getD 0 (Cudd_ReadOne n)) cube then
            some (1, mode, true)
           else some (0, if mode + 1 = ctx.num_sgoals then 0 else mode + 1, false))
        else some (Int.ofNat
          (level_scan (ctx.Y.getD mode []) cube ((ctx.Y.getD mode []).length - 1)),
          mode, true) := by
    unfold mode_pass_checked
    rw [hY]
    simp only
    cases hlen : (ctx.Y.getD mode []).length with
    | zero => omega
    | succ L =>
      rw [hlen] at hscan
      simp only [Nat.add_sub_cancel] at hscan ⊢
      rw [hscan]
      simp only [h0]
  rw [hch, hmp]
  by_cases hj : level_scan (ctx.Y.getD mode []) cube ((ctx.Y.getD mode []).length - 1) = 0
  · rw [if_pos hj, if_pos hj]
    by_cases he : (!Cudd_Eval ((ctx.Y.getD mode []).getD 0 (Cudd_ReadOne n)) cube) = true
    · rw [if_pos he, if_pos he]; rfl
    · rw [if_neg he, if_neg he]; rfl
  · rw [if_neg hj, if_neg hj]

theorem mode_pass_next_range {n : Nat} (ctx : SynthCtx n) (cube : List Int) (mode : Nat)
    (hm : mode < ctx.num_sgoals) : (mode_pass ctx cube mode).2.1 < ctx.num_sgoals := by
  obtain ⟨h1, h2⟩ := mode_pass_mode ctx cube mode (mode_pass ctx cube mode).1
    (mode_pass ctx cube mode).2.1 (mode_pass ctx cube mode).2.2 rfl
  cases hb : (mode_pass ctx cube mode).2.2 with
  | true => rw [h1 hb]; exact hm
  | false =>
    rw [(h2 hb).2.1]
    split <;> omega

/-- The mode advancement ends with a mode that is an index of a system goal
and with `j` at most the number of levels of that mode. -/
theorem mode_loop_range {n : Nat} (ctx : SynthCtx n) (cube : List Int) (loop_mode : Nat)
    (hL : ∀ m, m < ctx.num_sgoals → 0 < (ctx.Y.getD m []).length) :
    ∀ (fuel mode j m : Nat), mode < ctx.num_sgoals →
      mode_loop ctx cube loop_mode fuel mode = some (j, m) →
      m < ctx.num_sgoals ∧ j ≤ (ctx.Y.getD m []).length := by
  intro fuel
  induction fuel with
  | zero => intro mode j m _ h; simp [mode_loop] at h
  | succ fuel ih =>
    intro mode j m hm h
    rw [mode_loop_succ] at h
    have hnext := mode_pass_next_range ctx cube mode hm
    obtain ⟨h1, h2⟩ := mode_pass_mode ctx cube mode (mode_pass ctx cube mode).1
      (mode_pass ctx cube mode).2.1 (mode_pass ctx cube mode).2.2 rfl
    by_cases hb : (mode_pass ctx cube mode).2.2 = true
    · rw [if_pos hb] at h
      simp only [Option.some.injEq, Prod.mk.injEq] at h
      have hbr := mode_pass_break ctx cube mode (mode_pass ctx cube mode).1
        (mode_pass ctx cube mode).2.1 (hL mode hm) (by rw [← hb])
      rw [← h.1, ← h.2]
      refine ⟨hnext, ?_⟩
      rw [hbr.1]
      exact hbr.2.2.1
    · rw [if_neg hb] at h
      have hbf : (mode_pass ctx cube mode).2.2 = false := by
        cases hv : (mode_pass ctx cube mode).2.2 with
        | true => exact absurd hv hb
        | false => rfl
      by_cases hlm : loop_mode ≠ (mode_pass ctx cube mode).2.1
      · rw [if_pos hlm] at h
        exact ih _ j m hnext h
      · rw [if_neg hlm] at h
        simp only [Option.some.injEq, Prod.mk.injEq] at h
        rw [← h.1, ← h.2, (h2 hbf).1]
        exact ⟨hnext, Nat.zero_le _⟩

/-- With one non-empty ladder per system goal, every read of the mode
advancement is within bounds, and the loop with checks gives what the loop
without checks gives. -/
theorem mode_loop_checked_eq {n : Nat} (ctx : SynthCtx n) (cube : List Int) (loop_mode : Nat)
    (hY : ctx.Y.length = ctx.num_sgoals)
    (hL : ∀ m, m < ctx.num_sgoals → 0 < (ctx.Y.getD m []).length) :
    ∀ (fuel mode : Nat), mode < ctx.num_sgoals →
      mode_loop_checked ctx cube loop_mode fuel mode
        = match mode_loop ctx cube loop_mode fuel mode with
          | none => Checked.out_of_fuel
          | some (j, m) => Checked.ok (Int.ofNat j, m) := by
  intro fuel
  induction fuel with
  | zero => intro mode _; rfl
  | succ fuel ih =>
    intro mode hm
    have hch := mode_pass_checked_eq ctx cube mode (by omega) (hL mode hm)
    have hnext := mode_pass_next_range ctx cube mode hm
    rw [mode_loop_succ]
    cases hb : (mode_pass ctx cube mode).2.2 with
    | true =>
      rw [hb] at hch
      simp only [mode_loop_checked, hch, if_true]
    | false =>
      rw [hb] at hch
      by_cases hlm : loop_mode ≠ (mode_pass ctx cube mode).2.1
      · simp only [mode_loop_checked, hch, if_pos hlm, Bool.false_eq_true, if_false]
        exact ih _ hnext
      · simp only [mode_loop_checked, hch, if_neg hlm, Bool.false_eq_true, if_false]

/-- The read of the target level is within bounds when `j` is at most the
number of levels of a non-empty ladder. -/
theorem y_i_primed_checked_eq {n : Nat} (ctx : SynthCtx n) (mode j : Nat)
    (hmode : mode < ctx.Y.length) (hpos : 0 < (ctx.Y.getD mode []).length)
    (hj : j ≤ (ctx.Y.getD mode []).length) :
    Y_i_primed_checked ctx mode (Int.ofNat j) = some (Y_i_primed ctx mode j) := by
  have hY := getElem?_eq_some_getD ctx.Y mode [] hmode
  unfold Y_i_primed_checked Y_i_primed
  rw [hY]
  simp only
  by_cases h0 : j = 0
  · subst h0
    have hz : Int.ofNat 0 = 0 := rfl
    rw [if_pos hz, getElem?_eq_some_getD (ctx.Y.getD mode []) 0 (Cudd_ReadOne n) hpos]
    rfl
  · have hne : ¬ (Int.ofNat j = 0) := by
      intro h
      exact h0 (Int.ofNat_eq_zero.mp h)
    have hnn : ¬ (Int.ofNat j - 1 < 0) := by
      have : (1 : Int) ≤ Int.ofNat j := by
        have : 1 ≤ j := by omega
        exact Int.ofNat_le.mpr this
      omega
    have hto : (Int.ofNat j - 1).toNat = j - 1 := by
      have : Int.ofNat j - 1 = Int.ofNat (j - 1) := by
        have h1 : 1 ≤ j := by omega
        simp only [Int.ofNat_eq_coe]
        omega
      rw [this]
      rfl
    rw [if_neg hne, if_neg hnn, if_neg h0, hto,
      getElem?_eq_some_getD (ctx.Y.getD mode []) (j - 1) (Cudd_ReadOne n) (by omega)]
    rfl

theorem replace_anode_trans_mem (head : List ANode) (old new nd1 : ANode)
    (h : nd1 ∈ replace_anode_trans head old new) :
    ∃ x, x ∈ head ∧ nd1.mode = x.mode ∧ nd1.state = x.state ∧ nd1.addr = x.addr := by
  unfold replace_anode_trans at h
  rw [List.mem_map] at h
  obtain ⟨x, hx, hxe⟩ := h
  exact ⟨x, hx, by rw [← hxe], by rw [← hxe], by rw [← hxe]⟩

/-- Every node of the committed strategy is the node of the popped state under
the selected mode, or has the mode, state and address of a node of the
strategy before the commit. -/
theorem commit_node_nodes (strategy : List ANode) (addr loop_mode mode : Nat)
    (state : List Nat) :
    ∀ nd1, nd1 ∈ (commit_node strategy addr loop_mode mode state).1 →
      (nd1.mode = mode ∧ nd1.state = state)
      ∨ ∃ nd, nd ∈ strategy ∧ nd1.mode = nd.mode ∧ nd1.state = nd.state
          ∧ nd1.addr = nd.addr := by
  have hins : ∀ nd1, nd1 ∈ insert_anode addr strategy mode state →
      (nd1.mode = mode ∧ nd1.state = state)
      ∨ ∃ nd, nd ∈ strategy ∧ nd1.mode = nd.mode ∧ nd1.state = nd.state
          ∧ nd1.addr = nd.addr := by
    intro nd1 h
    unfold insert_anode at h
    rcases List.mem_cons.mp h with heq | hin
    · left; rw [heq]; exact ⟨rfl, rfl⟩
    · right; exact ⟨nd1, hin, rfl, rfl, rfl⟩
  have hsame : ∀ nd1, nd1 ∈ strategy →
      (nd1.mode = mode ∧ nd1.state = state)
      ∨ ∃ nd, nd ∈ strategy ∧ nd1.mode = nd.mode ∧ nd1.state = nd.state
          ∧ nd1.addr = nd.addr :=
    fun nd1 h => Or.inr ⟨nd1, h, rfl, rfl, rfl⟩
  by_cases hm : mode = loop_mode
  · subst hm
    cases hf : find_anode strategy mode state with
    | none =>
      have hres : commit_node strategy addr mode mode state
          = (insert_anode addr strategy mode state, addr + 1, true) := by
        simp only [commit_node, if_true, hf]
      rw [hres]; exact hins
    | some node =>
      by_cases ht : node.trans.length > 0
      · have hres : commit_node strategy addr mode mode state = (strategy, addr, false) := by
          simp only [commit_node, if_true, hf, if_pos ht]
        rw [hres]; exact hsame
      · have hres : commit_node strategy addr mode mode state = (strategy, addr, true) := by
          simp only [commit_node, if_true, hf, if_neg ht]
        rw [hres]; exact hsame
  · cases hf : find_anode strategy loop_mode state with
    | none =>
      cases hf2 : find_anode strategy mode state with
      | none =>
        have hres : commit_node strategy addr loop_mode mode state
            = (insert_anode addr strategy mode state, addr + 1, true) := by
          simp only [commit_node, if_neg hm, hf, hf2]
        rw [hres]; exact hins
      | some new_node =>
        by_cases ht : new_node.trans.length > 0
        · have hres : commit_node strategy addr loop_mode mode state = (strategy, addr, false) := by
            simp only [commit_node, if_neg hm, hf, hf2, if_pos ht]
          rw [hres]; exact hsame
        · have hres : commit_node strategy addr loop_mode mode state = (strategy, addr, true) := by
            simp only [commit_node, if_neg hm, hf, hf2, if_neg ht]
          rw [hres]; exact hsame
    | some node =>
      by_cases ht : node.trans.length > 0
      · have hres : commit_node strategy addr loop_mode mode state = (strategy, addr, false) := by
          simp only [commit_node, if_neg hm, hf, if_pos ht]
        rw [hres]; exact hsame
      · have hdel : ∀ x, x ∈ delete_anode strategy node → x ∈ strategy :=
          fun x hx => ((delete_anode_mem _ _ _).mp hx).1
        cases hf3 : find_anode (delete_anode strategy node) mode state with
        | none =>
          have hres : commit_node strategy addr loop_mode mode state
              = (replace_anode_trans (insert_anode addr (delete_anode strategy node) mode state)
                  node ((find_anode (insert_anode addr (delete_anode strategy node) mode state)
                    mode state).getD
                      { addr := addr, mode := mode, state := state, trans := [] }),
                  addr + 1, true) := by
            simp only [commit_node, if_neg hm, hf, if_neg ht, hf3]
          rw [hres]
          intro nd1 h
          obtain ⟨x, hx, h1, h2, h3⟩ := replace_anode_trans_mem _ _ _ _ h
          unfold insert_anode at hx
          rcases List.mem_cons.mp hx with heq | hin
          · left; rw [h1, h2, heq]; exact ⟨rfl, rfl⟩
          · right; exact ⟨x, hdel x hin, h1, h2, h3⟩
        | some new_node =>
          have hcommon : (commit_node strategy addr loop_mode mode state).1
              = replace_anode_trans (delete_anode strategy node) node new_node := by
            by_cases ht2 : new_node.trans.length > 0
            · simp only [commit_node, if_neg hm, hf, if_neg ht, hf3, if_pos ht2]
            · simp only [commit_node, if_neg hm, hf, if_neg ht, hf3, if_neg ht2]
          rw [hcommon]
          intro nd1 h
          obtain ⟨x, hx, h1, h2, h3⟩ := replace_anode_trans_mem _ _ _ _ h
          right; exact ⟨x, hdel x hx, h1, h2, h3⟩

theorem choose_successor_mode_range {n : Nat} (ctx : SynthCtx n) (mode j : Nat)
    (state env_move : List Nat) (next_mode : Nat) (succ : List Nat)
    (hm : mode < ctx.num_sgoals)
    (h : choose_successor ctx mode j state env_move = some (next_mode, succ)) :
    next_mode < ctx.num_sgoals := by
  rcases choose_successor_cases ctx mode j state env_move with
    ⟨g, rest, _, hs⟩ | ⟨_, g, rest, _, hs⟩ | ⟨_, _, hs⟩
  · rw [hs] at h
    simp only [Option.some.injEq, Prod.mk.injEq] at h
    rw [← h.1]
    split
    · split <;> omega
    · exact hm
  · rw [hs] at h
    simp only [Option.some.injEq, Prod.mk.injEq] at h
    rw [← h.1]; exact hm
  · rw [hs] at h; cases h

theorem insert_successor_modes (strategy next_node_stack : List ANode) (addr next_mode : Nat)
    (succ : List Nat) (ns : Nat) (hnm : next_mode < ns)
    (h1 : ∀ nd, nd ∈ strategy → nd.mode < ns)
    (h2 : ∀ nd, nd ∈ next_node_stack → nd.mode < ns) :
    (∀ nd, nd ∈ (insert_successor strategy next_node_stack addr next_mode succ).1 → nd.mode < ns)
      ∧ (∀ nd, nd ∈ (insert_successor strategy next_node_stack addr next_mode succ).2.1 →
          nd.mode < ns) := by
  have hins : ∀ (a : Nat) (l : List ANode), (∀ nd, nd ∈ l → nd.mode < ns) →
      ∀ nd, nd ∈ insert_anode a l next_mode succ → nd.mode < ns := by
    intro a l hl nd hnd
    unfold insert_anode at hnd
    rcases List.mem_cons.mp hnd with heq | hin
    · rw [heq]; exact hnm
    · exact hl nd hin
  unfold insert_successor
  cases hf : find_anode strategy next_mode succ with
  | none =>
    cases hn : find_anode next_node_stack next_mode succ with
    | none => exact ⟨hins _ _ h1, hins _ _ h2⟩
    | some nd => exact ⟨hins _ _ h1, h2⟩
  | some nd => exact ⟨h1, h2⟩

theorem transition_loop_modes {n : Nat} (ctx : SynthCtx n) (mode j : Nat) (state : List Nat)
    (hm : mode < ctx.num_sgoals) :
    ∀ (moves : List (List Nat)) (acc acc1 : List ANode × List ANode × Nat),
      transition_loop ctx mode j state moves acc = BuildResult.ok acc1 →
      (∀ nd, nd ∈ acc.1 → nd.mode < ctx.num_sgoals) →
      (∀ nd, nd ∈ acc.2.1 → nd.mode < ctx.num_sgoals) →
      (∀ nd, nd ∈ acc1.1 → nd.mode < ctx.num_sgoals)
        ∧ (∀ nd, nd ∈ acc1.2.1 → nd.mode < ctx.num_sgoals) := by
  intro moves
  induction moves with
  | nil =>
    intro acc acc1 h h1 h2
    simp only [transition_loop, BuildResult.ok.injEq] at h
    subst h
    exact ⟨h1, h2⟩
  | cons env_move rest ih =>
    rintro ⟨strategy, next_node_stack, addr⟩ acc1 h h1 h2
    rw [transition_loop_cons] at h
    cases hch : choose_successor ctx mode j state env_move with
    | none => rw [hch] at h; cases h
    | some pr =>
      obtain ⟨next_mode, succ⟩ := pr
      rw [hch] at h
      simp only at h
      have hnm := choose_successor_mode_range ctx mode j state env_move next_mode succ hm hch
      obtain ⟨hi1, hi2⟩ := insert_successor_modes strategy next_node_stack addr next_mode succ
        ctx.num_sgoals hnm h1 h2
      cases hap : append_anode_trans
          (insert_successor strategy next_node_stack addr next_mode succ).1
          mode state next_mode succ with
      | none => rw [hap] at h; cases h
      | some strategy1 =>
        rw [hap] at h
        simp only at h
        obtain ⟨g, hout, hg, _⟩ := append_anode_trans_spec _ _ _ _ _ _ hap
        apply ih _ acc1 h
        · intro nd hnd
          simp only at hnd
          rw [hout, List.mem_map] at hnd
          obtain ⟨x, hx, hxe⟩ := hnd
          rw [← hxe, (hg x).1]
          exact hi1 x hx
        · exact hi2

/-- The builder after a pass that pops the node `top` without an abort: the
strategy and the stacks that the pass leaves. -/
theorem strategy_step_ok_shape {n : Nat} (fuel : Nat) (ctx : SynthCtx n) (b b1 : Builder)
    (top : ANode) (rest : List ANode) (hst : b.this_node_stack = top :: rest)
    (h : strategy_step fuel ctx b = BuildResult.ok b1) :
    ∃ j mode,
      mode_loop ctx (state2cube top.state (ctx.num_env + ctx.num_sys)) top.mode fuel top.mode
        = some (j, mode)
      ∧ ((b1.strategy = (commit_node b.strategy b.next_addr top.mode mode top.state).1
            ∧ b1.this_node_stack = rest ∧ b1.next_node_stack = b.next_node_stack)
        ∨ ∃ moves acc1,
            transition_loop ctx mode j top.state moves
              ((commit_node b.strategy b.next_addr top.mode mode top.state).1,
                b.next_node_stack,
                (commit_node b.strategy b.next_addr top.mode mode top.state).2.1)
              = BuildResult.ok acc1
            ∧ b1.strategy = acc1.1
            ∧ ((b1.this_node_stack = acc1.2.1 ∧ b1.next_node_stack = [])
              ∨ (b1.this_node_stack = rest ∧ b1.next_node_stack = acc1.2.1))) := by
  cases hml : mode_loop ctx (state2cube top.state (ctx.num_env + ctx.num_sys)) top.mode fuel
      top.mode with
  | none =>
    simp only [strategy_step, hst, hml] at h
    cases h
  | some pr =>
    obtain ⟨j, mode⟩ := pr
    refine ⟨j, mode, rfl, ?_⟩
    by_cases hflag : (commit_node b.strategy b.next_addr top.mode mode top.state).2.2 = false
    · simp only [strategy_step, hst, hml, hflag, if_true, pop_anode, List.tail_cons,
        BuildResult.ok.injEq] at h
      rw [← h]
      exact Or.inl ⟨rfl, rfl, rfl⟩
    · right
      cases hmv : (if ctx.num_env > 0 then get_env_moves fuel ctx top.state else some [[]]) with
      | none =>
        simp only [strategy_step, hst, hml, if_neg hflag, hmv] at h
        cases h
      | some moves =>
        cases htl : transition_loop ctx mode j top.state moves
            ((commit_node b.strategy b.next_addr top.mode mode top.state).1, b.next_node_stack,
              (commit_node b.strategy b.next_addr top.mode mode top.state).2.1) with
        | abort e =>
          simp only [strategy_step, hst, hml, if_neg hflag, hmv, htl] at h
          cases h
        | ok acc1 =>
          obtain ⟨s1, n1, a1⟩ := acc1
          refine ⟨moves, (s1, n1, a1), htl, ?_⟩
          by_cases hpop : pop_anode (top :: rest) = []
          · simp only [strategy_step, hst, hml, if_neg hflag, hmv, htl, if_pos hpop,
              BuildResult.ok.injEq] at h
            rw [← h]
            exact ⟨rfl, Or.inl ⟨rfl, rfl⟩⟩
          · simp only [strategy_step, hst, hml, if_neg hflag, hmv, htl, if_neg hpop,
              BuildResult.ok.injEq] at h
            rw [← h]
            exact ⟨rfl, Or.inr ⟨rfl, rfl⟩⟩

/-- A pass of the builder loop keeps the modes of all nodes within the range of
the system goals. -/
theorem strategy_step_modes {n : Nat} (fuel : Nat) (ctx : SynthCtx n) (b b1 : Builder)
    (hL : ∀ m, m < ctx.num_sgoals → 0 < (ctx.Y.getD m []).length)
    (h : strategy_step fuel ctx b = BuildResult.ok b1)
    (hmodes : ModesInRange ctx.num_sgoals b) : ModesInRange ctx.num_sgoals b1 := by
  obtain ⟨hs, ht, hn⟩ := hmodes
  cases hst : b.this_node_stack with
  | nil =>
    rw [strategy_step_nil fuel ctx b hst] at h
    cases h
    exact ⟨hs, ht, hn⟩
  | cons top rest =>
    have htop : top.mode < ctx.num_sgoals := ht top (by rw [hst]; exact List.mem_cons_self _ _)
    have hrest : ∀ nd, nd ∈ rest → nd.mode < ctx.num_sgoals :=
      fun nd hnd => ht nd (by rw [hst]; exact List.mem_cons_of_mem _ hnd)
    obtain ⟨j, mode, hml, hcase⟩ := strategy_step_ok_shape fuel ctx b b1 top rest hst h
    have hmode := (mode_loop_range ctx _ top.mode hL fuel top.mode j mode htop hml).1
    have hcommit : ∀ nd, nd ∈ (commit_node b.strategy b.next_addr top.mode mode top.state).1 →
        nd.mode < ctx.num_sgoals := by
      intro nd hnd
      rcases commit_node_nodes _ _ _ _ _ nd hnd with h1 | ⟨x, hx, h1, _, _⟩
      · rw [h1.1]; exact hmode
      · rw [h1]; exact hs x hx
    rcases hcase with ⟨h1, h2, h3⟩ | ⟨moves, acc1, htl, h1, hstacks⟩
    · refine ⟨?_, ?_, ?_⟩
      · rw [h1]; exact hcommit
      · rw [h2]; exact hrest
      · rw [h3]; exact hn
    · obtain ⟨ha, hb⟩ := transition_loop_modes ctx mode j top.state hmode moves _ acc1 htl
        hcommit hn
      rcases hstacks with ⟨h2, h3⟩ | ⟨h2, h3⟩
      · refine ⟨?_, ?_, ?_⟩
        · rw [h1]; exact ha
        · rw [h2]; exact hb
        · rw [h3]; intro nd hnd; exact absurd hnd (List.not_mem_nil _)
      · refine ⟨?_, ?_, ?_⟩
        · rw [h1]; exact ha
        · rw [h2]; exact hrest
        · rw [h3]; exact hb

theorem strategy_passes_modes {n : Nat} (fuel : Nat) (ctx : SynthCtx n)
    (hL : ∀ m, m < ctx.num_sgoals → 0 < (ctx.Y.getD m []).length) :
    ∀ (i : Nat) (b bi : Builder), strategy_passes fuel ctx i b = BuildResult.ok bi →
      ModesInRange ctx.num_sgoals b → ModesInRange ctx.num_sgoals bi := by
  intro i
  induction i with
  | zero =>
    intro b bi h hm
    simp only [strategy_passes, BuildResult.ok.injEq] at h
    rw [← h]; exact hm
  | succ i ih =>
    intro b bi h hm
    rw [strategy_passes_succ] at h
    cases hstep : strategy_step fuel ctx b with
    | abort e => rw [hstep] at h; cases h
    | ok b1 =>
      rw [hstep] at h
      exact ih b1 bi h (strategy_step_modes fuel ctx b b1 hL hstep hm)

theorem push_states_modes : ∀ (states : List (List Nat)) (stack : List ANode) (addr : Nat),
    (∀ nd, nd ∈ stack → nd.mode = 0) →
    ∀ nd, nd ∈ (push_states states stack addr).1 → nd.mode = 0 := by
  intro states
  induction states with
  | nil => intro stack addr h; exact h
  | cons s rest ih =>
    intro stack addr h
    apply ih
    intro nd hnd
    unfold insert_anode at hnd
    rcases List.mem_cons.mp hnd with heq | hin
    · rw [heq]
    · exact h nd hin

theorem initial_loop_modes (fuel num_vars : Nat) :
    ∀ (cubes : List (List Int)) (stack : List ANode) (addr : Nat) (out : List ANode × Nat),
      initial_loop fuel num_vars cubes stack addr = some out →
      (∀ nd, nd ∈ stack → nd.mode = 0) → ∀ nd, nd ∈ out.1 → nd.mode = 0 := by
  intro cubes
  induction cubes with
  | nil =>
    intro stack addr out h hs
    simp only [initial_loop, Option.some.injEq] at h
    rw [← h]; exact hs
  | cons c rest ih =>
    intro stack addr out h hs
    cases he : enumerate_cube fuel (List.replicate num_vars 0) c num_vars with
    | none => simp only [initial_loop, he] at h; cases h
    | some vs =>
      simp only [initial_loop, he] at h
      exact ih _ _ out h (push_states_modes vs stack addr hs)

/-- The nodes of the initial work stack have mode 0. -/
theorem initial_stack_modes {n : Nat} (fuel : Nat) (ctx : SynthCtx n)
    (ALL_SYS_INIT init_flags : Nat) (einit sinit : Pred n) (stack : List ANode) (addr : Nat)
    (h : initial_stack fuel ctx ALL_SYS_INIT init_flags einit sinit = some (stack, addr)) :
    ∀ nd, nd ∈ stack → nd.mode = 0 := by
  unfold initial_stack at h
  by_cases hf : init_flags = ALL_SYS_INIT
  · rw [if_pos hf] at h
    exact initial_loop_modes _ _ _ [] 0 (stack, addr) h
      (fun nd hnd => absurd hnd (List.not_mem_nil _))
  · rw [if_neg hf] at h
    exact initial_loop_modes _ _ _ [] 0 (stack, addr) h
      (fun nd hnd => absurd hnd (List.not_mem_nil _))

/-- The ladder construction yields one ladder per system goal, each with at
least one level. -/
theorem ladders_nonempty {n : Nat} (d : Nat) (CPre : Pred n → Pred n) (W : Pred n)
    (egoals sgoals : List (Pred n)) (Y : List (List (Pred n)))
    (h : synthesize_ladders (2 ^ n + 1 + d) CPre W egoals sgoals = some Y) :
    Y.length = sgoals.length ∧ ∀ i, i < sgoals.length → 0 < (Y.getD i []).length := by
  obtain ⟨Y1, hY1, hlen, hall⟩ := synthesize_ladders_spec d CPre W egoals sgoals
  rw [h] at hY1
  cases hY1
  exact ⟨hlen, fun i hi => (hall i hi).1.1⟩

/-- C29: with at least one system goal and one non-empty ladder per system
goal (which is what the ladder construction yields), started from the initial
work stack, the mode of every node of the strategy and of the work stacks is
below `num_sgoals` after every pass of the builder loop, and for the node on
top of the work stack every read of a level set made by the mode advancement
and by the selection of the target level is within the bounds of `Y` and of
the ladder read: the loops with checked reads give what the loops without
checks give, the mode they end with is below `num_sgoals`, and `j` is at most
the number of levels of that mode. -/
theorem index_safety {n : Nat} (fuel : Nat) (ctx : SynthCtx n)
    (ALL_SYS_INIT init_flags : Nat) (einit sinit : Pred n) (stack : List ANode) (addr : Nat)
    (hns : 0 < ctx.num_sgoals) (hY : ctx.Y.length = ctx.num_sgoals)
    (hL : ∀ m, m < ctx.num_sgoals → 0 < (ctx.Y.getD m []).length)
    (hinit : initial_stack fuel ctx ALL_SYS_INIT init_flags einit sinit = some (stack, addr)) :
    (∀ i bi, strategy_passes fuel ctx i ⟨[], stack, [], addr⟩ = BuildResult.ok bi →
        ModesInRange ctx.num_sgoals bi
        ∧ ∀ top rest, bi.this_node_stack = top :: rest →
            mode_loop_checked ctx (state2cube top.state (ctx.num_env + ctx.num_sys)) top.mode
                fuel top.mode
              = (match mode_loop ctx (state2cube top.state (ctx.num_env + ctx.num_sys))
                    top.mode fuel top.mode with
                | none => Checked.out_of_fuel
                | some (j, m) => Checked.ok (Int.ofNat j, m))
            ∧ ∀ j m,
                mode_loop ctx (state2cube top.state (ctx.num_env + ctx.num_sys)) top.mode
                  fuel top.mode = some (j, m) →
                m < ctx.num_sgoals ∧ j ≤ (ctx.Y.getD m []).length
                  ∧ Y_i_primed_checked ctx m (Int.ofNat j) = some (Y_i_primed ctx m j))
      ∧ (∀ (d : Nat) (CPre : Pred n → Pred n) (egoals sgoals : List (Pred n))
          (Y : List (List (Pred n))),
          synthesize_ladders (2 ^ n + 1 + d) CPre ctx.W egoals sgoals = some Y →
          Y.length = sgoals.length ∧ ∀ i, i < sgoals.length → 0 < (Y.getD i []).length) := by
  refine ⟨fun i bi hp => ?_, fun d CPre egoals sgoals Y h =>
    ladders_nonempty d CPre ctx.W egoals sgoals Y h⟩
  have hstart : ModesInRange ctx.num_sgoals ⟨[], stack, [], addr⟩ := by
    refine ⟨fun nd hnd => absurd hnd (List.not_mem_nil _), fun nd hnd => ?_,
      fun nd hnd => absurd hnd (List.not_mem_nil _)⟩
    rw [initial_stack_modes fuel ctx ALL_SYS_INIT init_flags einit sinit stack addr hinit nd hnd]
    exact hns
  have hmodes := strategy_passes_modes fuel ctx hL i _ bi hp hstart
  refine ⟨hmodes, fun top rest hst => ?_⟩
  have htop : top.mode < ctx.num_sgoals :=
    hmodes.2.1 top (by rw [hst]; exact List.mem_cons_self _ _)
  refine ⟨mode_loop_checked_eq ctx _ top.mode hY hL fuel top.mode htop, fun j m hml => ?_⟩
  obtain ⟨hm, hj⟩ := mode_loop_range ctx _ top.mode hL fuel top.mode j m htop hml
  exact ⟨hm, hj, y_i_primed_checked_eq ctx m j (by omega) (hL m hm) hj⟩

set_option maxRecDepth 1000000 in
/-- Worked instance of C29: the system `ex_follow`, with one system goal and the
ladder `[s, s ∨ ¬e, true]`, started from the initial state `(0, 0)`. -/
theorem index_safety_witness :
    (∀ i bi, strategy_passes 3 ex_follow i ⟨[], [⟨0, 0, [0, 0], []⟩], [], 1⟩
          = BuildResult.ok bi →
        ModesInRange ex_follow.num_sgoals bi
        ∧ ∀ top rest, bi.this_node_stack = top :: rest →
            mode_loop_checked ex_follow
                (state2cube top.state (ex_follow.num_env + ex_follow.num_sys)) top.mode
                3 top.mode
              = (match mode_loop ex_follow
                    (state2cube top.state (ex_follow.num_env + ex_follow.num_sys))
                    top.mode 3 top.mode with
                | none => Checked.out_of_fuel
                | some (j, m) => Checked.ok (Int.ofNat j, m))
            ∧ ∀ j m,
                mode_loop ex_follow
                  (state2cube top.state (ex_follow.num_env + ex_follow.num_sys)) top.mode
                  3 top.mode = some (j, m) →
                m < ex_follow.num_sgoals ∧ j ≤ (ex_follow.Y.getD m []).length
                  ∧ Y_i_primed_checked ex_follow m (Int.ofNat j)
                      = some (Y_i_primed ex_follow m j))
      ∧ (∀ (d : Nat) (CPre : Pred 4 → Pred 4) (egoals sgoals : List (Pred 4))
          (Y : List (List (Pred 4))),
          synthesize_ladders (2 ^ 4 + 1 + d) CPre ex_follow.W egoals sgoals = some Y →
          Y.length = sgoals.length ∧ ∀ i, i < sgoals.length → 0 < (Y.getD i []).length) :=
  index_safety 3 ex_follow 0 0 (Cudd_ReadOne 4) (fun a => !a 0 && !a 1)
    [⟨0, 0, [0, 0], []⟩] 1 (by decide) (by decide)
    (fun m hm => by
      have hm0 : m = 0 := by
        have : m < 1 := hm
        omega
      subst hm0
      decide)
    (by decide)

/-! ## Theorems: the number of increments of the enumeration loop -/

theorem dont_care_count_pos (gcube : List Int) (len : Nat) :
    0 < dont_care_count gcube len ↔ ∃ i, i < len ∧ gcube.getD i 0 = 2 := by
  unfold dont_care_count
  rw [List.length_pos_iff_exists_mem]
  simp only [List.mem_filter, List.mem_range, decide_eq_true_eq]

theorem dont_care_count_two (gcube : List Int) (len : Nat) :
    1 < dont_care_count gcube len
      ↔ ∃ i j, i < len ∧ j < len ∧ i ≠ j ∧ gcube.getD i 0 = 2 ∧ gcube.getD j 0 = 2 := by
  have hnd : ((List.range len).filter (fun i => decide (gcube.getD i 0 = 2))).Nodup :=
    (List.nodup_range len).filter _
  unfold dont_care_count
  rw [← List.toFinset_card_of_nodup hnd, Finset.one_lt_card]
  simp only [List.mem_toFinset, List.mem_filter, List.mem_range, decide_eq_true_eq]
  constructor
  · rintro ⟨i, ⟨hi, hdi⟩, j, ⟨hj, hdj⟩, hne⟩
    exact ⟨i, j, hi, hj, hne, hdi, hdj⟩
  · rintro ⟨i, j, hi, hj, hne, hdi, hdj⟩
    exact ⟨i, ⟨hi, hdi⟩, j, ⟨hj, hdj⟩, hne⟩

theorem increment_until_saturated_succ (gcube : List Int) (len fuel : Nat) (state : List Nat)
    (count : Nat) :
    increment_until_saturated gcube len (fuel + 1) state count
      = if saturated_cube state gcube len = true then some (count, state)
        else increment_until_saturated gcube len fuel (increment_cube state gcube len)
          (count + 1) := by
  simp only [increment_until_saturated]
  cases saturated_cube state gcube len <;> simp

/-- The initialised cube is saturated exactly when the cube has no don't-care
position. -/
theorem saturated_initialize_iff (gcube : List Int) (len : Nat) (state : List Nat)
    (hlen : len ≤ state.length) :
    saturated_cube (initialize_cube state gcube len) gcube len = true
      ↔ dont_care_count gcube len = 0 := by
  rw [saturated_cube_iff]
  constructor
  · intro h
    by_contra hk
    obtain ⟨i, hi, hdi⟩ := (dont_care_count_pos gcube len).mp (Nat.pos_of_ne_zero hk)
    apply h i hi hdi
    rw [initialize_cube_getD, if_pos ⟨hi, by omega⟩, if_pos hdi]
  · intro hk i hi hdi
    have := (dont_care_count_pos gcube len).mpr ⟨i, hi, hdi⟩
    omega

/-- After one increment of the initialised cube, the cube is saturated exactly
when the cube has at most one don't-care position. -/
theorem saturated_increment_iff (gcube : List Int) (len : Nat) (state : List Nat)
    (hlen : len ≤ state.length) :
    saturated_cube (increment_cube (initialize_cube state gcube len) gcube len) gcube len = true
      ↔ dont_care_count gcube len ≤ 1 := by
  have hS0len := initialize_cube_length state gcube len
  have hz : ∀ i, i < len → gcube.getD i 0 = 2 →
      (initialize_cube state gcube len).getD i 0 = 0 := by
    intro i hi h
    rw [initialize_cube_getD, if_pos ⟨hi, by omega⟩, if_pos h]
  obtain ⟨_, hcase⟩ := increment_loop_zero gcube len (initialize_cube state gcube len)
    (by omega) hz
  rw [saturated_cube_iff]
  unfold increment_cube
  rcases hcase with ⟨hall, _⟩ | ⟨p, hp, hdp, _, hval⟩
  · constructor
    · intro _
      by_contra hk
      obtain ⟨i, hi, hdi⟩ := (dont_care_count_pos gcube len).mp (by omega)
      exact hall i hi hdi
    · intro _ i hi hdi
      exact absurd hdi (hall i hi)
  · constructor
    · intro h
      by_contra hk
      obtain ⟨i, j, hi, hj, hne, hdi, hdj⟩ := (dont_care_count_two gcube len).mp (by omega)
      by_cases hip : i = p
      · have hjp : j ≠ p := fun hjp => hne (hip.trans hjp.symm)
        apply h j hj hdj
        rw [hval j, if_neg hjp]
        exact hz j hj hdj
      · apply h i hi hdi
        rw [hval i, if_neg hip]
        exact hz i hi hdi
    · intro hk i hi hdi
      have hip : i = p := by
        by_contra hip
        have := (dont_care_count_two gcube len).mpr ⟨i, p, hi, hp, hip, hdi, hdp⟩
        omega
      rw [hval i, if_pos hip]
      decide

/-- After two increments of the initialised cube, the cube is saturated. -/
theorem saturated_second_increment (gcube : List Int) (len : Nat) (state : List Nat)
    (hlen : len ≤ state.length) :
    saturated_cube (increment_cube (increment_cube (initialize_cube state gcube len) gcube len)
      gcube len) gcube len = true := by
  have hS0len := initialize_cube_length state gcube len
  have hz : ∀ i, i < len → gcube.getD i 0 = 2 →
      (initialize_cube state gcube len).getD i 0 = 0 := by
    intro i hi h
    rw [initialize_cube_getD, if_pos ⟨hi, by omega⟩, if_pos h]
  obtain ⟨hl1, hcase⟩ := increment_loop_zero gcube len (initialize_cube state gcube len)
    (by omega) hz
  rw [saturated_cube_iff]
  unfold increment_cube
  rcases hcase with ⟨hall, _⟩ | ⟨p, hp, hdp, hno, hval⟩
  · intro i hi hdi
    exact absurd hdi (hall i hi)
  · obtain ⟨_, hval2⟩ := increment_loop_mid gcube p hdp len
      (increment_cube_loop gcube len (initialize_cube state gcube len) 0) hp (by omega)
      (by rw [hval p, if_pos rfl]) hno
      (fun i hi hdi => by
        rw [hval i, if_neg (by omega)]
        exact hz i (by omega) hdi)
    intro i hi hdi
    rw [hval2 i]
    by_cases hip : i < p
    · rw [if_pos ⟨hip, hdi⟩]
      decide
    · have hpi : i = p := by
        by_contra hne
        exact hno i (by omega) hi hdi
      rw [if_neg (fun h => hip h.1), hval i, if_pos hpi]
      decide

/-- C31: the loop of the enumeration ends. For every reference cube `gcube`,
every length `len` and every buffer with at least `len` entries, the loop
`while (!saturated_cube) increment_cube`, started from the cube left by
`initialize_cube`, tests its condition true after `m` calls of
`increment_cube`, whatever fuel above `m` the model is given; the buffer at
the exit is the `m`-fold increment of the initialised cube and is saturated;
`m` is the smaller of 2 and the number `k` of don't-care positions, and so at
most `2 ^ k - 1`. -/
theorem odometer_loop_terminates (gcube : List Int) (len : Nat) (state : List Nat)
    (hlen : len ≤ state.length) :
    ∃ m final,
      (∀ fuel, m < fuel →
          increment_until_saturated gcube len fuel (initialize_cube state gcube len) 0
            = some (m, final))
      ∧ final = Nat.iterate (fun c => increment_cube c gcube len) m
          (initialize_cube state gcube len)
      ∧ saturated_cube final gcube len = true
      ∧ m = min (dont_care_count gcube len) 2
      ∧ m ≤ 2 ^ dont_care_count gcube len - 1 := by
  have h0 := saturated_initialize_iff gcube len state hlen
  have h1 := saturated_increment_iff gcube len state hlen
  have h2 := saturated_second_increment gcube len state hlen
  have hpow : dont_care_count gcube len < 2 ^ dont_care_count gcube len := Nat.lt_two_pow _
  by_cases hs0 : saturated_cube (initialize_cube state gcube len) gcube len = true
  · have hk := h0.mp hs0
    refine ⟨0, _, fun fuel hf => ?_, rfl, hs0, by rw [hk]; rfl, Nat.zero_le _⟩
    obtain ⟨f, rfl⟩ : ∃ f, fuel = f + 1 := ⟨fuel - 1, by omega⟩
    rw [increment_until_saturated_succ, if_pos hs0]
    rfl
  · have hk0 : dont_care_count gcube len ≠ 0 := fun h => hs0 (h0.mpr h)
    by_cases hs1 : saturated_cube (increment_cube (initialize_cube state gcube len) gcube len)
        gcube len = true
    · have hk := h1.mp hs1
      have hk1 : dont_care_count gcube len = 1 := by omega
      refine ⟨1, _, fun fuel hf => ?_, rfl, hs1, by rw [hk1]; rfl, by rw [hk1]; decide⟩
      obtain ⟨f, rfl⟩ : ∃ f, fuel = f + 1 + 1 := ⟨fuel - 2, by omega⟩
      rw [increment_until_saturated_succ, if_neg hs0, increment_until_saturated_succ,
        if_pos hs1]
      rfl
    · have hk2 : 1 < dont_care_count gcube len := by
        by_contra h
        exact hs1 (h1.mpr (by omega))
      refine ⟨2, _, fun fuel hf => ?_, rfl, h2, by omega, by omega⟩
      obtain ⟨f, rfl⟩ : ∃ f, fuel = f + 1 + 1 + 1 := ⟨fuel - 3, by omega⟩
      rw [increment_until_saturated_succ, if_neg hs0, increment_until_saturated_succ,
        if_neg hs1, increment_until_saturated_succ, if_pos h2]
      rfl

/-- Worked instance of C31: the cube `[0, 2, 1, 2]`, read with length 4, has two
don't-care positions and its loop ends after two increments, at `[0, 1, 1, 1]`. -/
theorem odometer_loop_terminates_witness :
    dont_care_count [0, 2, 1, 2] 4 = 2
      ∧ increment_until_saturated [0, 2, 1, 2] 4 3
          (initialize_cube [0, 0, 0, 0] [0, 2, 1, 2] 4) 0 = some (2, [0, 1, 1, 1])
      ∧ ∃ m final,
        (∀ fuel, m < fuel →
            increment_until_saturated [0, 2, 1, 2] 4 fuel
              (initialize_cube [0, 0, 0, 0] [0, 2, 1, 2] 4) 0 = some (m, final))
        ∧ final = Nat.iterate (fun c => increment_cube c [0, 2, 1, 2] 4) m
            (initialize_cube [0, 0, 0, 0] [0, 2, 1, 2] 4)
        ∧ saturated_cube final [0, 2, 1, 2] 4 = true
        ∧ m = min (dont_care_count [0, 2, 1, 2] 4) 2
        ∧ m ≤ 2 ^ dont_care_count [0, 2, 1, 2] 4 - 1 :=
  ⟨by decide, by decide, odometer_loop_terminates [0, 2, 1, 2] 4 [0, 0, 0, 0] (by decide)⟩

/-! ## Theorems: winning sets of the worked games -/

/-- With one environment goal and one system goal, `W` is a fixpoint of the
formula of §4.3 as soon as `W` is the greatest fixpoint of the innermost body
taken at `Z = Y = W`, and every `Y` that is the greatest fixpoint of the body
taken at `Z = W` and at `Y` itself contains `W`. -/
theorem gr1_fixpoint_single {n : Nat} (CPre : Pred n → Pred n) (e g W : Pred n)
    (hfix : IsGreatestFixpoint (gr1_body CPre g e W W) W)
    (hleast : ∀ Y, IsGreatestFixpoint (gr1_body CPre g e W Y) Y → PredLe W Y) :
    IsGR1Fixpoint CPre [e] [g] W := by
  refine ⟨[W], rfl, fun i hi => ?_, fun a => by simp⟩
  have hi0 : i = 0 := by simpa using hi
  subst hi0
  simp only [List.getD_cons_zero]
  constructor
  · refine ⟨[W], rfl, fun j hj => ?_, fun a => by simp⟩
    have hj0 : j = 0 := by simpa using hj
    subst hj0
    simpa only [List.getD_cons_zero] using hfix
  · rintro Y ⟨Xs, hlen, hgfp, hjoin⟩
    have h0 := hgfp 0 (by simp)
    simp only [List.getD_cons_zero] at h0
    have hYX : Y = Xs.getD 0 (Cudd_ReadOne n) := by
      funext a
      rw [hjoin a]
      match Xs, hlen with
      | [X0], _ => simp
    rw [← hYX] at h0
    exact hleast Y h0

theorem ex_sink_CPre_monotone : MonotoneOp ex_sink_CPre := fun _ _ h a ha => h (ex_sink_succ a) ha

/-- The set `ex_sink_W` is a fixpoint of the formula of §4.3 for the system
`ex_sink_succ` with the goals `ex_sgoal` and `ex_sink_egoal`. -/
theorem ex_sink_gr1_fixpoint :
    IsGR1Fixpoint ex_sink_CPre (effective_egoals [ex_sink_egoal]) [ex_sgoal] ex_sink_W := by
  have heff : effective_egoals [ex_sink_egoal] = [ex_sink_egoal] := rfl
  rw [heff]
  apply gr1_fixpoint_single
  · constructor
    · funext a
      simp only [gr1_body, Cudd_bddOr, Cudd_bddAnd, Cudd_Not, ex_sink_CPre, ex_sink_W,
        ex_sink_egoal, ex_sgoal, ex_sink_succ]
      cases h0 : a 0 <;> cases h1 : a 1 <;> simp [h0, h1]
    · intro Z hZ a ha
      rw [← hZ] at ha
      simp only [gr1_body, Cudd_bddOr, Cudd_bddAnd, Cudd_Not, ex_sink_CPre, ex_sink_W,
        ex_sink_egoal, ex_sgoal, ex_sink_succ] at ha
      show (!(a 0 && a 1)) = true
      revert ha
      cases h0 : a 0 <;> cases h1 : a 1 <;> simp [h0, h1]
  · intro Y hY
    have hfix : ∀ a, Y a = gr1_body ex_sink_CPre ex_sgoal ex_sink_egoal ex_sink_W Y Y a :=
      fun a => (congrFun hY.1 a).symm
    have hG : ∀ a : Fin 2 → Bool, a 0 = false → a 1 = false → Y a = true := by
      intro a h0 h1
      rw [hfix a]
      simp [gr1_body, Cudd_bddOr, Cudd_bddAnd, ex_sink_CPre, ex_sink_W, ex_sgoal,
        ex_sink_succ, h0, h1]
    have hP : ∀ a : Fin 2 → Bool, a 0 = false → a 1 = true → Y a = true := by
      intro a h0 h1
      rw [hfix a]
      have hs : Y (ex_sink_succ a) = true := hG _ (by simp [ex_sink_succ, h0])
        (by simp [ex_sink_succ, h0])
      simp [gr1_body, Cudd_bddOr, ex_sink_CPre, hs]
    have hmono : MonotoneOp ex_sink_CPre := ex_sink_CPre_monotone
    have hS : ∀ a : Fin 2 → Bool, a 0 = true → a 1 = false → Y a = true := by
      intro a h0 h1
      have hpost : PredLe (fun b : Fin 2 → Bool => Y b || (b 0 && !b 1))
          (gr1_body ex_sink_CPre ex_sgoal ex_sink_egoal ex_sink_W Y
            (fun b : Fin 2 → Bool => Y b || (b 0 && !b 1))) := by
        intro b hb
        by_cases hYb : Y b = true
        · rw [hfix b] at hYb
          exact gr1_body_mono ex_sink_CPre hmono _ _ _ _ _ _
            (fun c hc => by simp [hc]) b hYb
        · have hb2 : (b 0 && !b 1) = true := by
            simp only [Bool.or_eq_true] at hb
            rcases hb with hb | hb
            · exact absurd hb hYb
            · exact hb
          have hb0 : b 0 = true := by
            cases h : b 0 <;> simp [h] at hb2 ⊢
          have hb1 : b 1 = false := by
            cases h : b 1 <;> simp [h] at hb2 ⊢
          simp [gr1_body, Cudd_bddOr, Cudd_bddAnd, Cudd_Not, ex_sink_CPre, ex_sink_egoal,
            ex_sink_succ, hb0, hb1]
      have := gfp_contains_post _ (gr1_body_mono ex_sink_CPre hmono _ _ _ _) Y hY _ hpost a
      exact this (by simp [h0, h1])
    intro a ha
    simp only [ex_sink_W] at ha
    cases h0 : a 0 <;> cases h1 : a 1
    · exact hG a h0 h1
    · exact hP a h0 h1
    · exact hS a h0 h1
    · simp [h0, h1] at ha

/-- Worked instance of C9: the system `ex_sink_succ` with the system goal
`ex_sgoal`, the environment goal `ex_sink_egoal` and its winning set
`ex_sink_W`, which leaves out the state `(1,1)`. The ladder of the goal has two
levels, `{(0,0)}` and `{(0,0), (0,1), (1,0)}`, so the containment is shown for
a level that the loop body has computed. -/
theorem goal_containment_witness :
    ((synthesize_ladders (2 ^ 2 + 1 + 0) ex_sink_CPre ex_sink_W [ex_sink_egoal] [ex_sgoal]).getD
          []).map (fun Y_i => Y_i.map (fun P => (all_inputs 2).map (Cudd_Eval P)))
        = [[[true, false, false, false], [true, true, true, false]]]
      ∧ (all_inputs 2).map (Cudd_Eval ex_sink_W) = [true, true, true, false]
      ∧ ∃ Y, synthesize_ladders (2 ^ 2 + 1 + 0) ex_sink_CPre ex_sink_W [ex_sink_egoal] [ex_sgoal]
            = some Y
          ∧ Y.length = [ex_sgoal].length
          ∧ ∀ i, i < [ex_sgoal].length → 0 < (Y.getD i []).length
              ∧ ∀ k, k < (Y.getD i []).length →
                  ∀ a, (Y.getD i []).getD k (Cudd_ReadOne 2) a = true → ex_sink_W a = true :=
  ⟨by decide, by decide,
    goal_containment 0 ex_sink_CPre ex_sink_CPre_monotone ex_sink_W [ex_sink_egoal] [ex_sgoal]
      ex_sink_gr1_fixpoint⟩

/-! ## Theorems: the game whose ladder stops short of the winning set -/

theorem ex_detour_CPre_monotone : MonotoneOp ex_detour_CPre := by
  intro P Q h a ha
  simp only [ex_detour_CPre] at ha ⊢
  by_cases hc : (!a 0 && !a 1) = true
  · rw [if_pos hc] at ha ⊢
    rw [Bool.or_eq_true] at ha ⊢
    exact ha.imp (h _) (h _)
  · rw [if_neg hc] at ha ⊢
    exact h _ ha

/-- The operator `ex_detour_CPre` is the existential modal operator of the
transition predicate `ex_detour_strans`: a state lies in `CPre(X)` exactly when
some primed valuation `(x, y)` satisfies the transition predicate together with
the state, and the state `(x, y)` lies in `X`. -/
theorem ex_detour_CPre_spec (X : Pred 4) (a : Fin 4 → Bool) :
    ex_detour_CPre X a = true
      ↔ ∃ x y : Bool,
          ex_detour_strans (fun i => if i.val = 2 then x else if i.val = 3 then y else a i) = true
          ∧ X (ex_detour_move a x y) = true := by
  have e0 : ∀ x y : Bool,
      (fun i : Fin 4 => if i.val = 2 then x else if i.val = 3 then y else a i) 0 = a 0 :=
    fun _ _ => rfl
  have e1 : ∀ x y : Bool,
      (fun i : Fin 4 => if i.val = 2 then x else if i.val = 3 then y else a i) 1 = a 1 :=
    fun _ _ => rfl
  have e2 : ∀ x y : Bool,
      (fun i : Fin 4 => if i.val = 2 then x else if i.val = 3 then y else a i) 2 = x :=
    fun _ _ => rfl
  have e3 : ∀ x y : Bool,
      (fun i : Fin 4 => if i.val = 2 then x else if i.val = 3 then y else a i) 3 = y :=
    fun _ _ => rfl
  have hs : ∀ x y : Bool,
      ex_detour_strans (fun i => if i.val = 2 then x else if i.val = 3 then y else a i)
        = ((y == (a 0 && !a 1)) && ((!a 0 && !a 1) || !x)) := by
    intro x y
    show ((_ == (_ && !_)) && ((!_ && !_) || !_)) = _
    rw [e0, e1, e2, e3]
  simp only [hs, ex_detour_CPre]
  cases h0 : a 0 <;> cases h1 : a 1
  · constructor
    · intro h
      simp only [Bool.not_false, Bool.and_self, if_true, Bool.or_eq_true] at h
      rcases h with h | h
      · exact ⟨false, false, by decide, h⟩
      · exact ⟨true, false, by decide, h⟩
    · rintro ⟨x, y, hxy, hX⟩
      simp only [Bool.not_false, Bool.and_self, if_true, Bool.or_eq_true]
      cases x <;> cases y
      · exact Or.inl hX
      · exact absurd hxy (by decide)
      · exact Or.inr hX
      · exact absurd hxy (by decide)
  · constructor
    · intro h
      exact ⟨false, false, by decide, h⟩
    · rintro ⟨x, y, hxy, hX⟩
      cases x <;> cases y
      · exact hX
      · exact absurd hxy (by decide)
      · exact absurd hxy (by decide)
      · exact absurd hxy (by decide)
  · constructor
    · intro h
      exact ⟨false, true, by decide, h⟩
    · rintro ⟨x, y, hxy, hX⟩
      cases x <;> cases y
      · exact absurd hxy (by decide)
      · exact hX
      · exact absurd hxy (by decide)
      · exact absurd hxy (by decide)
  · constructor
    · intro h
      exact ⟨false, false, by decide, h⟩
    · rintro ⟨x, y, hxy, hX⟩
      cases x <;> cases y
      · exact hX
      · exact absurd hxy (by decide)
      · exact absurd hxy (by decide)
      · exact absurd hxy (by decide)

/-- In the system `ex_detour` every state is winning: the constant true is a
fixpoint of the formula of §4.3 for the goals that `synthesize` works with (the
system goal `ex_detour_sgoal` and, no environment goal being given, the
constant true environment goal). Being the largest set of states, it is the
greatest one. -/
theorem ex_detour_gr1_fixpoint :
    IsGR1Fixpoint ex_detour_CPre (effective_egoals []) [ex_detour_sgoal] (Cudd_ReadOne 4) := by
  have heff : effective_egoals ([] : List (Pred 4)) = [Cudd_ReadOne 4] := rfl
  rw [heff]
  have hbody : ∀ (Y X : Pred 4) (a : Fin 4 → Bool),
      gr1_body ex_detour_CPre ex_detour_sgoal (Cudd_ReadOne 4) (Cudd_ReadOne 4) Y X a
        = (ex_detour_sgoal a || ex_detour_CPre Y a) := by
    intro Y X a
    have hone : ex_detour_CPre (Cudd_ReadOne 4) a = true := by
      simp [ex_detour_CPre, Cudd_ReadOne]
    simp [gr1_body, Cudd_bddOr, Cudd_bddAnd, Cudd_Not, Cudd_ReadOne, hone]
  apply gr1_fixpoint_single
  · constructor
    · funext a
      rw [hbody]
      have hone : ex_detour_CPre (Cudd_ReadOne 4) a = true := by
        simp [ex_detour_CPre, Cudd_ReadOne]
      rw [hone, Bool.or_true]
      rfl
    · intro Z _ a _
      rfl
  · intro Y hY
    have hfix : ∀ a, Y a = (ex_detour_sgoal a || ex_detour_CPre Y a) := by
      intro a
      rw [← hbody Y Y a]
      exact (congrFun hY.1 a).symm
    have hB : ∀ a : Fin 4 → Bool, a 0 = false → a 1 = true → Y a = true := by
      intro a h0 h1
      rw [hfix a]
      simp [ex_detour_sgoal, h0, h1]
    have hM : ∀ a : Fin 4 → Bool, a 0 = true → a 1 = false → Y a = true := by
      intro a h0 h1
      rw [hfix a]
      have hs : Y (ex_detour_move a false true) = true := hB _ rfl rfl
      simp [ex_detour_CPre, h0, h1, hs]
    have hA : ∀ a : Fin 4 → Bool, a 0 = false → a 1 = false → Y a = true := by
      intro a h0 h1
      rw [hfix a]
      have hs : Y (ex_detour_move a true false) = true := hM _ rfl rfl
      simp [ex_detour_CPre, h0, h1, hs]
    have hD : ∀ a : Fin 4 → Bool, a 0 = true → a 1 = true → Y a = true := by
      intro a h0 h1
      rw [hfix a]
      have hs : Y (ex_detour_move a false false) = true := hA _ rfl rfl
      simp [ex_detour_CPre, h0, h1, hs]
    intro a _
    cases h0 : a 0 <;> cases h1 : a 1
    · exact hA a h0 h1
    · exact hB a h0 h1
    · exact hM a h0 h1
    · exact hD a h0 h1

/-- The ladder construction, run on the system `ex_detour` with its winning
set, returns the ladder of the context `ex_detour`: the single level
`sys_goal ∧ W`. -/
theorem ex_detour_ladder :
    synthesize_ladders (2 ^ 4 + 1) ex_detour_CPre ex_detour.W [] [ex_detour_sgoal]
      = some ex_detour.Y := by
  rfl

/-- The greatest fixpoint of the map of the specification at the first level
of the system `ex_detour`: with the constant true environment goal the map
does not depend on `X`, and its value is `(sys_goal ∧ W) ∨ CPre(sys_goal ∧ W)`,
the states `(0,1)` and `(1,0)`. -/
theorem ex_detour_spec_gfp :
    IsGreatestFixpoint
      (spec_X_map ex_detour_CPre ex_detour_sgoal ex_detour.W
        (Cudd_bddAnd ex_detour_sgoal ex_detour.W) (Cudd_ReadOne 4))
      (Cudd_bddOr (Cudd_bddAnd ex_detour_sgoal ex_detour.W)
        (ex_detour_CPre (Cudd_bddAnd ex_detour_sgoal ex_detour.W))) := by
  have hmap : ∀ Z : Pred 4,
      spec_X_map ex_detour_CPre ex_detour_sgoal ex_detour.W
          (Cudd_bddAnd ex_detour_sgoal ex_detour.W) (Cudd_ReadOne 4) Z
        = Cudd_bddOr (Cudd_bddAnd ex_detour_sgoal ex_detour.W)
            (ex_detour_CPre (Cudd_bddAnd ex_detour_sgoal ex_detour.W)) := by
    intro Z
    funext a
    simp [spec_X_map, Cudd_bddOr, Cudd_bddAnd, Cudd_Not, Cudd_ReadOne]
  refine ⟨hmap _, fun Z hZ a ha => ?_⟩
  rw [← hZ, hmap Z] at ha
  exact ha

set_option maxRecDepth 1000000 in
/-- C5: on the system `ex_detour` (two system variables, no environment
variable, no environment goal, the system goal `(0,1)`, the initial state
`(0,0)`) the ladder of the code stops short of the recurrence. The operator
`ex_detour_CPre` is the existential modal operator of the transition
predicate, and every state is winning. The ladder construction returns the
single level `sys_goal ∧ W = {(0,1)}`: the level that the loop body computes
from it is that level again. By the recurrence of the claim the next level is
`Y[0][0] ∨ X` with `X` the greatest fixpoint of
`X ↦ (sys_goal ∧ W) ∨ CPre(Y[0][0]) ∨ (¬env_goal ∧ CPre(X))`, which contains
the state `(1,0)`. With the ladder of the code, `synthesize` returns for the
initial state `(0,0)` the strategy of one node whose only transition leads
back to it, a state where the goal does not hold. -/
theorem ladder_stops_short :
    (∀ (X : Pred 4) (a : Fin 4 → Bool),
        ex_detour_CPre X a = true
          ↔ ∃ x y : Bool,
              ex_detour.strans
                  (fun i => if i.val = 2 then x else if i.val = 3 then y else a i) = true
              ∧ X (ex_detour_move a x y) = true)
      ∧ IsGR1Fixpoint ex_detour_CPre (effective_egoals []) [ex_detour_sgoal] ex_detour.W
      ∧ synthesize_ladders (2 ^ 4 + 1) ex_detour_CPre ex_detour.W [] [ex_detour_sgoal]
          = some [[Cudd_bddAnd ex_detour_sgoal ex_detour.W]]
      ∧ ex_detour.Y = [[Cudd_bddAnd ex_detour_sgoal ex_detour.W]]
      ∧ (∃ Q, next_level (2 ^ 4 + 1) ex_detour_CPre ex_detour.W (effective_egoals [])
              ex_detour_sgoal (Cudd_bddAnd ex_detour_sgoal ex_detour.W) = some Q
            ∧ Cudd_Eval Q (state2cube [1, 0] 2) = false)
      ∧ (∃ X, IsGreatestFixpoint
              (spec_X_map ex_detour_CPre ex_detour_sgoal ex_detour.W
                (Cudd_bddAnd ex_detour_sgoal ex_detour.W) (Cudd_ReadOne 4)) X
            ∧ Cudd_Eval (Cudd_bddOr (Cudd_bddAnd ex_detour_sgoal ex_detour.W) X)
                (state2cube [1, 0] 2) = true)
      ∧ synthesize_lists 3 1 ex_detour 0 0 (Cudd_ReadOne 4) ex_detour_sinit ⟨[], ["a0", "a1"]⟩
          = (BuildResult.ok [⟨1, 0, [0, 0], [1]⟩], ⟨[], ["a0", "a1"]⟩)
      ∧ Cudd_Eval ex_detour_sgoal (state2cube [0, 0] 2) = false := by
  refine ⟨ex_detour_CPre_spec, ex_detour_gr1_fixpoint, ex_detour_ladder, rfl, ?_, ?_,
    by decide, by decide⟩
  · have hsome : (next_level (2 ^ 4 + 1) ex_detour_CPre ex_detour.W (effective_egoals [])
        ex_detour_sgoal (Cudd_bddAnd ex_detour_sgoal ex_detour.W)).isSome = true := by decide
    refine ⟨(next_level (2 ^ 4 + 1) ex_detour_CPre ex_detour.W (effective_egoals [])
        ex_detour_sgoal (Cudd_bddAnd ex_detour_sgoal ex_detour.W)).getD (Cudd_ReadOne 4), ?_, ?_⟩
    · cases h : next_level (2 ^ 4 + 1) ex_detour_CPre ex_detour.W (effective_egoals [])
          ex_detour_sgoal (Cudd_bddAnd ex_detour_sgoal ex_detour.W) with
      | none => rw [h] at hsome; simp at hsome
      | some Q => rfl
    · decide
  · exact ⟨_, ex_detour_spec_gfp, by decide⟩

set_option maxRecDepth 1000000 in
/-- C20: in the system `ex_detour`, where every state is winning and the ladder
construction returns the single level `{(0,1)}`, the initial state `(0,0)` is
contained in no level of the only mode. The pass of the builder loop that pops
it does not abort: the mode loop ends with `j = 1` and the mode unchanged, the
node `(0, (0,0))` is committed and receives a transition to itself, the loop
ends, and `synthesize` returns that strategy. -/
theorem winning_state_outside_ladder :
    IsGR1Fixpoint ex_detour_CPre (effective_egoals []) [ex_detour_sgoal] ex_detour.W
      ∧ synthesize_ladders (2 ^ 4 + 1) ex_detour_CPre ex_detour.W [] [ex_detour_sgoal]
          = some ex_detour.Y
      ∧ ex_detour.num_sgoals = 1 ∧ ex_detour.Y.length = 1 ∧ (ex_detour.Y.getD 0 []).length = 1
      ∧ initial_stack 3 ex_detour 0 0 (Cudd_ReadOne 4) ex_detour_sinit
          = some ([⟨0, 0, [0, 0], []⟩], 1)
      ∧ Cudd_Eval ex_detour.W (state2cube [0, 0] 2) = true
      ∧ Cudd_Eval ((ex_detour.Y.getD 0 []).getD 0 (Cudd_ReadOne 4)) (state2cube [0, 0] 2) = false
      ∧ mode_loop ex_detour (state2cube [0, 0] 2) 0 3 0 = some (1, 0)
      ∧ strategy_step 3 ex_detour ⟨[], [⟨0, 0, [0, 0], []⟩], [], 1⟩
          = BuildResult.ok ⟨[⟨1, 0, [0, 0], [1]⟩], [], [], 2⟩
      ∧ strategy_loop 3 ex_detour 1 ⟨[], [⟨0, 0, [0, 0], []⟩], [], 1⟩
          = BuildResult.ok ⟨[⟨1, 0, [0, 0], [1]⟩], [], [], 2⟩
      ∧ (synthesize_lists 3 1 ex_detour 0 0 (Cudd_ReadOne 4) ex_detour_sinit
            ⟨[], ["a0", "a1"]⟩).1
          = BuildResult.ok [⟨1, 0, [0, 0], [1]⟩] :=
  ⟨ex_detour_gr1_fixpoint, ex_detour_ladder, rfl, rfl, rfl, by decide, by decide, by decide,
    by decide, by decide, by decide, by decide⟩

end Gr1c
